import Mathlib

/-!
# HUJIDynamicServer: a shallow embedding and its verified properties

The JavaScript sources (`httprequest.js`, `hujiparser.js`, `hujinet.js`,
`hujidynamicserver.js`, `requesthandlerobj.js`, `httpresponse.js`,
`statuscodes.js`) are embedded as pure Lean functions.

* A JavaScript string is the list of its characters (`Str`).
* A regular expression is compiled from its pattern text by `compile`
  (the `new RegExp(text)` of the sources) and run by a backtracking matcher
  that follows the continuation-passing matcher of the ECMAScript
  specification (`Regex.run`, `repeatMatcher`, `exec`).  `compile` covers
  the pattern syntax of the constants of the sources; where a pattern text
  comes from the caller (`use`), the constructor is a parameter
  (`newRegExp`).
* `toLowerCase` lowers the letters A to Z; where the result for other
  letters matters (`addHeaderLinesWith`), the function is a parameter
  (`lower`).
* A plain object used as a mapping is the association list of its own
  properties in insertion order (`Obj`); `ownEntries` gives the order in
  which `Object.keys` and `for ... in` list them.  An assignment to the
  inherited accessor `__proto__` creates no own property (`setProp`); reading
  a property that is inherited from `Object.prototype` is not modelled.
* A number is a whole number (`JVal.num`); the properties use whole numbers
  up to `2 ^ 53`, which a JavaScript number holds exactly.
* A chunk of data is a list of bytes (`Bytes`); `utf8Decode` is its
  `data.toString()` and `onDataBuffer` the data handler on it.  `onData` is
  the same handler on a chunk given by its text, for chunks of single-byte
  characters.  A character of a text is one unit of a JavaScript string.
* Code that throws returns `none` / `Except.error`.
-/

namespace Huji

/-- A JavaScript string: the list of its characters. -/
abbrev Str := List Char

/-! ## Regular expressions: syntax -/

/-- One member of a bracketed character class. -/
inductive ClassItem where
  | chr (c : Char)
  | range (lo hi : Char)
  | space
  | digit
  | word
  deriving DecidableEq, Repr

/-- Abstract syntax of the supported regular expressions.  `group i r` is the
    `i`-th capturing group; `rep min max r` is the greedy quantifier
    `r{min,max}` (`max = none` for no upper bound). -/
inductive Regex where
  | empty
  | chr (c : Char)
  | dot
  | cls (neg : Bool) (items : List ClassItem)
  | bol
  | eol
  | seq (a b : Regex)
  | alt (a b : Regex)
  | group (i : Nat) (r : Regex)
  | rep (min : Nat) (max : Option Nat) (r : Regex)
  deriving DecidableEq, Repr

/-- ECMAScript LineTerminator: LF, CR, LS (U+2028), PS (U+2029). -/
def isLineTerminator (c : Char) : Bool :=
  c == '\n' || c == '\r' || c.toNat == 0x2028 || c.toNat == 0x2029

/-- ECMAScript `\s`: the WhiteSpace and LineTerminator code points. -/
def isSpace (c : Char) : Bool :=
  c == ' ' || c == '\t' || c == '\n' || c == '\r' || c.toNat == 0x0b || c.toNat == 0x0c ||
  c.toNat == 0xa0 || c.toNat == 0x1680 || (decide (0x2000 ≤ c.toNat) && decide (c.toNat ≤ 0x200a)) ||
  c.toNat == 0x2028 || c.toNat == 0x2029 || c.toNat == 0x202f || c.toNat == 0x205f ||
  c.toNat == 0x3000 || c.toNat == 0xfeff

/-- ECMAScript `\d`. -/
def isDigit (c : Char) : Bool := decide ('0' ≤ c) && decide (c ≤ '9')

/-- ECMAScript `\w`. -/
def isWord (c : Char) : Bool :=
  (decide ('a' ≤ c) && decide (c ≤ 'z')) || (decide ('A' ≤ c) && decide (c ≤ 'Z')) ||
  isDigit c || c == '_'

/-- Does a class member accept the character? -/
def ClassItem.test : ClassItem → Char → Bool
  | .chr d, c => c == d
  | .range lo hi, c => decide (lo ≤ c) && decide (c ≤ hi)
  | .space, c => isSpace c
  | .digit, c => isDigit c
  | .word, c => isWord c

/-- Does the class `[items]` (or `[^items]` when `neg`) accept the character? -/
def classTest (neg : Bool) (items : List ClassItem) (c : Char) : Bool :=
  if neg then !(items.any fun it => it.test c) else items.any fun it => it.test c

/-- The capturing groups that occur in a regular expression. -/
def Regex.groups : Regex → List Nat
  | .seq a b => a.groups ++ b.groups
  | .alt a b => a.groups ++ b.groups
  | .group i r => i :: r.groups
  | .rep _ _ r => r.groups
  | _ => []

/-! ## Regular expressions: compiling a pattern text -/

/-- Tokens of a pattern text. -/
inductive Tok where
  | atom (r : Regex)
  | assertion (r : Regex)
  | lparen (capturing : Bool)
  | rparen
  | bar
  | quant (min : Nat) (max : Option Nat)
  deriving DecidableEq, Repr

/-- Characters with a syntactic role in a pattern. -/
def isSyntaxChar (c : Char) : Bool :=
  c == '^' || c == '$' || c == '\\' || c == '.' || c == '*' || c == '+' || c == '?' ||
  c == '(' || c == ')' || c == '[' || c == ']' || c == '{' || c == '}' || c == '|'

/-- The class member or character an escape `\c` denotes, if supported. -/
def escapeItem (c : Char) : Option ClassItem :=
  if c == 's' then some .space
  else if c == 'd' then some .digit
  else if c == 'w' then some .word
  else if c == 'n' then some (.chr '\n')
  else if c == 'r' then some (.chr '\r')
  else if c == 't' then some (.chr '\t')
  else if c == 'v' then some (.chr (Char.ofNat 0x0b))
  else if c == 'f' then some (.chr (Char.ofNat 0x0c))
  else if c.isAlphanum then none
  else some (.chr c)

/-- The atom an escape `\c` denotes outside a class. -/
def escapeAtom (c : Char) : Option Regex :=
  match escapeItem c with
  | some (.chr d) => some (.chr d)
  | some it => some (.cls false [it])
  | none => none

/-- Reads the members of a class up to the closing bracket; returns the
    members and the text after the bracket. -/
def lexClass : Nat → Str → Option (List ClassItem × Str)
  | 0, _ => none
  | _ + 1, [] => none
  | _ + 1, ']' :: rest => some ([], rest)
  | fuel + 1, '\\' :: c :: rest =>
    match escapeItem c with
    | some it => (lexClass fuel rest).map fun p => (it :: p.1, p.2)
    | none => none
  | _ + 1, ['\\'] => none
  | fuel + 1, c :: '-' :: d :: rest =>
    if d == ']' then some ([.chr c, .chr '-'], rest)
    else if d == '\\' then none
    else if c ≤ d then (lexClass fuel rest).map fun p => (.range c d :: p.1, p.2)
    else none
  | fuel + 1, c :: rest => (lexClass fuel rest).map fun p => (.chr c :: p.1, p.2)

/-- Reads a decimal number; returns it with the remaining text. -/
def lexNat : Str → Nat → Nat × Str
  | c :: rest, acc => if isDigit c then lexNat rest (acc * 10 + (c.toNat - '0'.toNat)) else (acc, c :: rest)
  | [], acc => (acc, [])

/-- Reads the inside of a braced quantifier `{n}`, `{n,}` or `{n,m}` (the
    text after the opening brace). -/
def lexBrace (s : Str) : Option (Nat × Option Nat × Str) :=
  match s with
  | [] => none
  | c :: _ =>
    if !isDigit c then none else
    let (n, r1) := lexNat s 0
    match r1 with
    | '}' :: r2 => some (n, some n, r2)
    | ',' :: '}' :: r2 => some (n, none, r2)
    | ',' :: d :: r2 =>
      if !isDigit d then none else
      let (m, r3) := lexNat (d :: r2) 0
      match r3 with
      | '}' :: r4 => if n ≤ m then some (n, some m, r4) else none
      | _ => none
    | _ => none

/-- A quantifier followed by `?` is lazy: not supported. -/
def notLazy (rest : Str) : Bool :=
  match rest with
  | '?' :: _ => false
  | _ => true

/-- Splits a pattern text into tokens (`none`: a syntax error, or syntax
    outside the supported fragment). -/
def lex : Nat → Str → Option (List Tok)
  | 0, _ => none
  | _ + 1, [] => some []
  | fuel + 1, c :: rest =>
    if c == '^' then (lex fuel rest).map (Tok.assertion .bol :: ·)
    else if c == '$' then (lex fuel rest).map (Tok.assertion .eol :: ·)
    else if c == '.' then (lex fuel rest).map (Tok.atom .dot :: ·)
    else if c == '|' then (lex fuel rest).map (Tok.bar :: ·)
    else if c == ')' then (lex fuel rest).map (Tok.rparen :: ·)
    else if c == '*' then
      if notLazy rest then (lex fuel rest).map (Tok.quant 0 none :: ·) else none
    else if c == '+' then
      if notLazy rest then (lex fuel rest).map (Tok.quant 1 none :: ·) else none
    else if c == '?' then
      if notLazy rest then (lex fuel rest).map (Tok.quant 0 (some 1) :: ·) else none
    else if c == '{' then
      match lexBrace rest with
      | some (n, m, r) => if notLazy r then (lex fuel r).map (Tok.quant n m :: ·) else none
      | none => none
    else if c == '(' then
      match rest with
      | '?' :: ':' :: r => (lex fuel r).map (Tok.lparen false :: ·)
      | '?' :: _ => none
      | _ => (lex fuel rest).map (Tok.lparen true :: ·)
    else if c == '[' then
      match rest with
      | '^' :: r =>
        match lexClass r.length.succ r with
        | some (items, r2) => (lex fuel r2).map (Tok.atom (.cls true items) :: ·)
        | none => none
      | _ =>
        match lexClass rest.length.succ rest with
        | some (items, r2) => (lex fuel r2).map (Tok.atom (.cls false items) :: ·)
        | none => none
    else if c == '\\' then
      match rest with
      | e :: r =>
        match escapeAtom e with
        | some a => (lex fuel r).map (Tok.atom a :: ·)
        | none => none
      | [] => none
    else if c == ']' || c == '}' then none
    else (lex fuel rest).map (Tok.atom (.chr c) :: ·)

/-- A group being parsed: its capture index (if capturing), the finished
    alternatives (latest first) and the terms of the current alternative
    (latest first). -/
structure Frame where
  cap : Option Nat
  alts : List Regex
  terms : List Regex
  deriving DecidableEq, Repr

/-- The sequence of the terms (given latest first). -/
def seqOf (terms : List Regex) : Regex :=
  terms.foldl (fun acc t => Regex.seq t acc) Regex.empty

/-- The disjunction of finished alternatives (latest first) and the last one. -/
def altOf (alts : List Regex) (last : Regex) : Regex :=
  alts.foldl (fun acc a => Regex.alt a acc) last

/-- The regular expression of a finished frame. -/
def Frame.close (f : Frame) : Regex :=
  let body := altOf f.alts (seqOf f.terms)
  match f.cap with
  | some i => .group i body
  | none => body

/-- Parser state: the open frames (innermost first), the next capture index
    and whether the last term may take a quantifier. -/
structure PState where
  top : Frame
  below : List Frame
  next : Nat
  quantifiable : Bool
  deriving DecidableEq, Repr

/-- Consumes one token. -/
def parseTok (st : PState) : Tok → Option PState
  | .atom r => some { st with top := { st.top with terms := r :: st.top.terms }, quantifiable := true }
  | .assertion r => some { st with top := { st.top with terms := r :: st.top.terms }, quantifiable := false }
  | .bar => some { st with top := { st.top with alts := seqOf st.top.terms :: st.top.alts, terms := [] },
                           quantifiable := false }
  | .lparen true => some { top := ⟨some st.next, [], []⟩, below := st.top :: st.below,
                           next := st.next + 1, quantifiable := false }
  | .lparen false => some { top := ⟨none, [], []⟩, below := st.top :: st.below,
                            next := st.next, quantifiable := false }
  | .rparen =>
    match st.below with
    | [] => none
    | f :: fs => some { top := { f with terms := st.top.close :: f.terms }, below := fs,
                        next := st.next, quantifiable := true }
  | .quant min max =>
    if st.quantifiable then
      match st.top.terms with
      | t :: ts => some { st with top := { st.top with terms := .rep min max t :: ts }, quantifiable := false }
      | [] => none
    else none

/-- Consumes all tokens. -/
def parseToks : PState → List Tok → Option PState
  | st, [] => some st
  | st, t :: ts =>
    match parseTok st t with
    | some st2 => parseToks st2 ts
    | none => none

/-- The source's `new RegExp(text)`: the regular expression of a pattern text;
    `none` when the text is not a pattern of the supported fragment. -/
def compile (pattern : Str) : Option Regex :=
  match lex pattern.length.succ pattern with
  | none => none
  | some toks =>
    match parseToks ⟨⟨none, [], []⟩, [], 1, false⟩ toks with
    | some st => if st.below.isEmpty then some st.top.close else none
    | none => none

/-! ## Regular expressions: matching -/

/-- The captures: group index and captured text. -/
abbrev Caps := List (Nat × Str)

/-- Sets the capture of group `i`. -/
def setCap (i : Nat) (v : Str) (caps : Caps) : Caps :=
  (i, v) :: caps.filter fun p => p.1 != i

/-- Resets the captures of the given groups to undefined. -/
def clearCaps (gs : List Nat) (caps : Caps) : Caps :=
  caps.filter fun p => !gs.contains p.1

/-- The capture of group `i` (`none`: undefined). -/
def getCap (i : Nat) (caps : Caps) : Option Str :=
  (caps.find? fun p => p.1 == i).map Prod.snd

/-- Matcher state: the index reached, the text from there on, the captures. -/
structure MState where
  idx : Nat
  rest : Str
  caps : Caps
  deriving DecidableEq, Repr

/-- A continuation of the matcher. -/
abbrev Cont := MState → Option MState

/-- ECMAScript RepeatMatcher for a greedy quantifier: `m` matches the
    quantified atom, `gs` are the atom's capturing groups. -/
def repeatMatcher (m : MState → Cont → Option MState) (gs : List Nat) :
    Nat → Nat → Option Nat → MState → Cont → Option MState
  | 0, _, _, _, _ => none
  | fuel + 1, min, max, x, c =>
    if max = some 0 then c x else
    let d : Cont := fun y =>
      if min = 0 ∧ y.idx = x.idx then none
      else repeatMatcher m gs fuel (min - 1) (max.map fun n => n - 1) y c
    let xr : MState := { x with caps := clearCaps gs x.caps }
    if min ≠ 0 then m xr d
    else
      match m xr d with
      | some z => some z
      | none => c x

/-- Matches one character accepted by `p`. -/
def stepChar (p : Char → Bool) (x : MState) (c : Cont) : Option MState :=
  match x.rest with
  | d :: ds => if p d then c ⟨x.idx + 1, ds, x.caps⟩ else none
  | [] => none

/-- The backtracking matcher: `r.run x c` matches `r` at state `x` and then
    continues with `c`; alternatives are tried in priority order. -/
def Regex.run : Regex → MState → Cont → Option MState
  | .empty, x, c => c x
  | .chr d, x, c => stepChar (fun e => e == d) x c
  | .dot, x, c => stepChar (fun e => !isLineTerminator e) x c
  | .cls neg items, x, c => stepChar (classTest neg items) x c
  | .bol, x, c => if x.idx = 0 then c x else none
  | .eol, x, c => if x.rest.isEmpty then c x else none
  | .seq a b, x, c => a.run x fun y => b.run y c
  | .alt a b, x, c =>
    match a.run x c with
    | some z => some z
    | none => b.run x c
  | .group i r, x, c =>
    r.run x fun y => c { y with caps := setCap i (x.rest.take (y.idx - x.idx)) y.caps }
  | .rep min max r, x, c =>
    repeatMatcher (fun y k => r.run y k) r.groups (min + x.rest.length + 1) min max x c

/-- The result of a successful `exec`: where the match starts, the matched
    text (cell 0) and the captures (cells 1, 2, ...). -/
structure Match where
  index : Nat
  text : Str
  caps : Caps
  deriving DecidableEq, Repr

/-- Capture cell `i` of a match (`none`: undefined). -/
def Match.cell (m : Match) (i : Nat) : Option Str := getCap i m.caps

/-- Tries to match at one start position. -/
def execAt (r : Regex) (idx : Nat) (rest : Str) : Option Match :=
  (r.run ⟨idx, rest, []⟩ some).map fun y => ⟨idx, rest.take (y.idx - idx), y.caps⟩

/-- Tries the start positions from left to right. -/
def execFrom (r : Regex) : Nat → Str → Option Match
  | idx, [] => execAt r idx []
  | idx, c :: cs =>
    match execAt r idx (c :: cs) with
    | some m => some m
    | none => execFrom r (idx + 1) cs

/-- The source's `regex.exec(s)` for a regular expression without the global
    flag: the leftmost match, or `none` for `null`. -/
def exec (r : Regex) (s : Str) : Option Match := execFrom r 0 s

/-! ## JavaScript strings and values -/

/-- The source's `new RegExp(text)` for a text that is a pattern; a text
    that is not one gives an expression that matches nothing. -/
def regExp (pattern : Str) : Regex := (compile pattern).getD (.cls false [])

/-- Capture cell `i` as text (the empty text for an undefined cell). -/
def Match.cellStr (m : Match) (i : Nat) : Str := (m.cell i).getD []

/-- The source's `s.search(regex)`: index of the leftmost match, or -1. -/
def search (r : Regex) (s : Str) : Int :=
  match exec r s with
  | some m => (m.index : Int)
  | none => -1

/-- The source's `s.indexOf(c)` for a one-character text `c`. -/
def indexOfFrom (c : Char) : Nat → Str → Int
  | _, [] => -1
  | i, d :: ds => if d == c then (i : Int) else indexOfFrom c (i + 1) ds

/-- The source's `s.indexOf(c)`: first index of the character, or -1. -/
def indexOf (s : Str) (c : Char) : Int := indexOfFrom c 0 s

/-- A relative index of `slice`: negative indexes count from the end. -/
def relIndex (len : Nat) (i : Int) : Nat :=
  if i < 0 then (len + i).toNat else min i.toNat len

/-- The source's `s.slice(a, b)`. -/
def slice (s : Str) (a b : Int) : Str :=
  let from_ := relIndex s.length a
  let to_ := relIndex s.length b
  (s.drop from_).take (to_ - from_)

/-- The source's `s.slice(a)`. -/
def sliceFrom (s : Str) (a : Int) : Str := s.drop (relIndex s.length a)

/-- The source's `s.substring(a)`: a negative start counts as 0. -/
def substringFrom (s : Str) (a : Int) : Str := s.drop a.toNat

/-- The source's `s.substring(0, b)`. -/
def substringTo (s : Str) (b : Int) : Str := s.take b.toNat

/-- The source's `s.toLowerCase()` (on the letters A to Z). -/
def toLowerCase (s : Str) : Str := s.map Char.toLower

/-- The source's `parseInt(digits)` for a run of decimal digits. -/
def parseInt (s : Str) : Nat := s.foldl (fun acc c => acc * 10 + (c.toNat - '0'.toNat)) 0

/-- Joins texts with a separator (`array.join(sep)`). -/
def join (sep : Str) : List Str → Str
  | [] => []
  | [a] => a
  | a :: b :: rest => a ++ sep ++ join sep (b :: rest)

/-- The loop of `s.split(regex)`: `piece` is the text since the last split
    point, `idx` the index reached, `rest` the text from there on. -/
def splitLoop (r : Regex) : Nat → Nat → Str → Str → List Str
  | 0, _, piece, rest => [piece ++ rest]
  | _ + 1, _, piece, [] => [piece]
  | fuel + 1, idx, piece, c :: cs =>
    match r.run ⟨idx, c :: cs, []⟩ some with
    | some y =>
      if y.idx = idx ∧ piece = [] then splitLoop r fuel (idx + 1) [c] cs
      else piece :: splitLoop r fuel y.idx [] y.rest
    | none => splitLoop r fuel (idx + 1) (piece ++ [c]) cs

/-- The source's `s.split(regex)` for a regular expression without capturing
    groups. -/
def split (r : Regex) (s : Str) : List Str :=
  match s with
  | [] => if (r.run ⟨0, [], []⟩ some).isSome then [] else [[]]
  | _ => splitLoop r (2 * s.length + 2) 0 [] s

/-- A JavaScript value, as far as the program handles one. -/
inductive JVal where
  | undefined
  | null
  | bool (b : Bool)
  | num (n : Int)
  | str (s : Str)
  | arr (items : List JVal)
  | obj (props : List (Str × JVal))

/-- A plain object used as a mapping from names to texts: its own
    properties in insertion order. -/
abbrev Obj := List (Str × Str)

/-- The source's `o.hasOwnProperty(name)`. -/
def hasOwnProperty {α : Type} (o : List (Str × α)) (name : Str) : Bool :=
  o.any fun p => p.1 == name

/-- The source's `o[name]` (`none`: undefined). -/
def getProp {α : Type} (o : List (Str × α)) (name : Str) : Option α :=
  (o.find? fun p => p.1 == name).map Prod.snd

/-- The name of the accessor that every plain object inherits. -/
def PROTO : Str := "__proto__".toList

/-- The source's `o[name] = value` on a plain object: replaces the value of
    an existing own property in place, or appends a new property.  For the
    name `__proto__` that the object does not own, the assignment runs the
    inherited setter and creates no own property (the setter changes the
    prototype when the value is an object or `null`; inherited properties
    are not part of the list). -/
def setProp {α : Type} (o : List (Str × α)) (name : Str) (value : α) : List (Str × α) :=
  if hasOwnProperty o name then o.map fun p => if p.1 == name then (p.1, value) else p
  else if name = PROTO then o
  else o ++ [(name, value)]

/-- The number a property name stands for when it is an array index: a
    decimal numeral without a leading zero (`0` itself apart) whose value is
    below `2^32 - 1`. -/
def arrayIndex (name : Str) : Option Nat :=
  match name with
  | [] => none
  | c :: cs =>
    if (c :: cs).all isDigit = true ∧ (c ≠ '0' ∨ cs = []) ∧ parseInt (c :: cs) < 4294967295 then
      some (parseInt (c :: cs))
    else none

/-- Inserts an entry with its index into entries sorted by index. -/
def insertByIndex {α : Type} (i : Nat) (e : Str × α) :
    List (Nat × (Str × α)) → List (Nat × (Str × α))
  | [] => [(i, e)]
  | q :: rest => if i < q.1 then (i, e) :: q :: rest else q :: insertByIndex i e rest

/-- The own properties of a plain object in the order in which
    `Object.keys` and `for ... in` list them: the properties whose name is
    an array index in ascending order of the index, then the other
    properties in insertion order. -/
def ownEntries {α : Type} (o : List (Str × α)) : List (Str × α) :=
  ((o.foldl (fun acc e =>
      match arrayIndex e.1 with
      | some i => insertByIndex i e acc
      | none => acc) []).map Prod.snd) ++
    o.filter fun e => (arrayIndex e.1).isNone

/-! ## httprequest.js -/

/-- Why a piece of code threw. -/
inductive Err where
  | typeError
  | missingHeader (name : Str) (httpVer : Str)
  deriving DecidableEq, Repr

/-- Supported request methods. -/
def REQUEST_METHODS : List Str :=
  ["GET".toList, "HEAD".toList, "POST".toList, "PUT".toList, "DELETE".toList,
   "CONNECT".toList, "OPTION".toList, "TRACE".toList]

/-- HTTP versions supported and the mandatory header fields of each. -/
def HTTP_VERSIONS : List (Str × List Str) :=
  [("1.0".toList, []), ("1.1".toList, ["host".toList])]

/-- The supported protocol. -/
def PROTOCOL : Str := "HTTP".toList

/-- Pattern text of the regular expression for the request line. -/
def REQUEST_LINE_PATTERN : Str :=
  "(".toList ++ join "|".toList REQUEST_METHODS ++ ") ".toList ++
  "(.*)+ ".toList ++ PROTOCOL ++ "/(".toList ++ join "|".toList (HTTP_VERSIONS.map Prod.fst) ++
  ")$".toList

/-- The regular expression for the request line. -/
def REQUEST_LINE_REGEX : Regex := regExp REQUEST_LINE_PATTERN

/-- The delimiter between a header's name and value. -/
def headerDelimiter : Str := ":".toList

/-- The regular expression for the header lines. -/
def HEADER_LINE_REGEX : Regex :=
  regExp ("([^\\s]+)[\\s]*".toList ++ headerDelimiter ++ "\\s*(.*)\\s*".toList)

/-- The delimiter for header values when a header has several values. -/
def HEADER_VALUES_DELIMITER : Str := ",".toList

/-- The name of the connection header. -/
def CONNECTION_HEADER : Str := "connection".toList

/-- The connection value that asks to close after responding. -/
def CONNECTION_CLOSE_VAL : Str := "close".toList

/-- The connection value that asks to stay alive. -/
def CONNECTION_KEEP_ALIVE_VAL : Str := "keep-alive".toList

/-- An HTTP version that needs automatic disconnection. -/
def AUTO_DISCONNECT_HTTP_VER : Str := "1.0".toList

/-- A regular expression to match the content length header. -/
def CONTENT_LENGTH_REGEX : Regex := regExp "Content-Length:\\s+([0-9]+)\\s+".toList

/-- A regular expression to match the hostname header. -/
def HOSTNAME_REGEX : Regex := regExp "([\\w\\.]+)\\s*(\\:\\s*([\\d]+))?".toList

/-- The header name of the hostname field. -/
def HOSTNAME_HEADER_NAME : Str := "host".toList

/-- The header of the cookie. -/
def COOKIE_HEADER : Str := "cookie".toList

/-- The regular expression for body parameters. -/
def BODY_PARAM_REGEX : Regex := regExp "(?:\\s*([^\\s]+)\\s*=\\s*([^\\s]+))+\\s*".toList

/-- The separator between two body parameters. -/
def BODY_PARAM_SEPARATOR : Char := '&'

/-- The source's `contentLengthCheck`: the content's length when the text
    holds a content length header, `none` (null) otherwise. -/
def contentLengthCheck (header : Str) : Option Nat :=
  match exec CONTENT_LENGTH_REGEX header with
  | some m => some (parseInt (m.cellStr 1))
  | none => none

/-- The source's `isRequestLineValid`. -/
def isRequestLineValid (s : Str) : Option Match := exec REQUEST_LINE_REGEX s

/-- The source's `isHeaderLineValid`. -/
def isHeaderLineValid (s : Str) : Option Match := exec HEADER_LINE_REGEX s

/-- The source's `shouldDisconnect`, on the request's headers and version. -/
def shouldDisconnect (headers : Obj) (httpVer : Str) : Bool :=
  if !hasOwnProperty headers CONNECTION_HEADER then
    if httpVer = AUTO_DISCONNECT_HTTP_VER then true else true
  else if getProp headers CONNECTION_HEADER = some CONNECTION_CLOSE_VAL then true
  else if getProp headers CONNECTION_HEADER = some CONNECTION_KEEP_ALIVE_VAL then false
  else true

/-- The first loop of `addHeaders`: folds the header lines into the mapping. -/
def addHeaderLines : List Str → Obj → Except Err Obj
  | [], headers => .ok headers
  | line :: rest, headers =>
    match exec HEADER_LINE_REGEX line with
    | none => .error .typeError
    | some curHeader =>
      let curHeaderName := toLowerCase (curHeader.cellStr 1)
      if !hasOwnProperty headers curHeaderName then
        addHeaderLines rest (setProp headers curHeaderName (curHeader.cellStr 2))
      else
        addHeaderLines rest (setProp headers curHeaderName
          ((getProp headers curHeaderName).getD [] ++ HEADER_VALUES_DELIMITER ++ curHeader.cellStr 2))

/-- The second loop of `addHeaders`: the first required header that is
    missing makes it throw. -/
def checkRequired (httpVer : Str) (headers : Obj) : List Str → Except Err Unit
  | [] => .ok ()
  | name :: rest =>
    if !hasOwnProperty headers name then .error (.missingHeader name httpVer)
    else checkRequired httpVer headers rest

/-- The source's `HttpRequest.prototype.addHeaders` on an empty mapping:
    the headers of the lines from `headersStart` on. -/
def addHeaders (httpVer : Str) (headerLines : List Str) (headersStart : Nat) : Except Err Obj :=
  match addHeaderLines (headerLines.drop headersStart) [] with
  | .error e => .error e
  | .ok headers =>
    match getProp HTTP_VERSIONS httpVer with
    | none => .error .typeError
    | some required =>
      match checkRequired httpVer headers required with
      | .error e => .error e
      | .ok _ => .ok headers

/-- The first loop of `addHeaders` over any behaviour `lower` of the
    platform's `String.prototype.toLowerCase`; `addHeaderLines` is the
    instance with `toLowerCase`. -/
def addHeaderLinesWith (lower : Str → Str) : List Str → Obj → Except Err Obj
  | [], headers => .ok headers
  | line :: rest, headers =>
    match exec HEADER_LINE_REGEX line with
    | none => .error .typeError
    | some curHeader =>
      let curHeaderName := lower (curHeader.cellStr 1)
      if !hasOwnProperty headers curHeaderName then
        addHeaderLinesWith lower rest (setProp headers curHeaderName (curHeader.cellStr 2))
      else
        addHeaderLinesWith lower rest (setProp headers curHeaderName
          ((getProp headers curHeaderName).getD [] ++ HEADER_VALUES_DELIMITER ++ curHeader.cellStr 2))

/-- The source's `HttpRequest.prototype.addHeaders` on an empty mapping over
    any behaviour `lower` of `String.prototype.toLowerCase`; `addHeaders` is
    the instance with `toLowerCase`. -/
def addHeadersWith (lower : Str → Str) (httpVer : Str) (headerLines : List Str)
    (headersStart : Nat) : Except Err Obj :=
  match addHeaderLinesWith lower (headerLines.drop headersStart) [] with
  | .error e => .error e
  | .ok headers =>
    match getProp HTTP_VERSIONS httpVer with
    | none => .error .typeError
    | some required =>
      match checkRequired httpVer headers required with
      | .error e => .error e
      | .ok _ => .ok headers

/-- The source's `s.split(c)` for a one-character separator. -/
def splitOn (c : Char) : Str → List Str
  | [] => [[]]
  | d :: ds =>
    if d == c then [] :: splitOn c ds
    else
      match splitOn c ds with
      | piece :: pieces => (d :: piece) :: pieces
      | [] => [[d]]

/-- The library functions the request model calls: `querystring.parse`,
    `cookie.parse` and `JSON.parse` (`none` when it throws). -/
structure Ext where
  querystringParse : Str → JVal
  cookieParse : Str → Obj
  jsonParse : Str → Option JVal

/-- An HTTP request as built by the constructor `HttpRequest`. -/
structure HttpRequest where
  path : Str
  query : JVal
  method : Str
  protocol : Str
  httpVer : Str
  params : List (Str × JVal)
  cookies : Obj
  headers : Obj
  shouldDisconnect : Bool
  host : Option Str
  bodyParams : JVal
  body : Option Str

/-- The fallback of `addBodyParams`: every `&`-separated piece that holds a
    body parameter sets it. -/
def bodyParamsOf (pieces : List Str) : List (Str × JVal) :=
  pieces.foldl (fun acc curParam =>
    match exec BODY_PARAM_REGEX curParam with
    | some result => setProp acc (result.cellStr 1) (JVal.str (result.cellStr 2))
    | none => acc) []

/-- The source's `addBodyParams`: the body parsed as JSON, else as
    `name=value` pieces. -/
def addBodyParams (ext : Ext) (body : Str) : JVal :=
  match ext.jsonParse body with
  | some v => v
  | none => .obj (bodyParamsOf (splitOn BODY_PARAM_SEPARATOR body))

/-- The source's `addCookies`. -/
def addCookies (ext : Ext) (headers : Obj) : Obj :=
  match getProp headers COOKIE_HEADER with
  | some v => ext.cookieParse v
  | none => []

/-- The host field: the host header run through the hostname pattern. -/
def hostOf (headers : Obj) : Option Str :=
  match getProp headers HOSTNAME_HEADER_NAME with
  | some v =>
    match exec HOSTNAME_REGEX v with
    | none => some v
    | some hostnameMatch => some (hostnameMatch.cellStr 1)
  | none => none

/-- The source's constructor `HttpRequest(headerLines, bodyStr)`. -/
def httpRequest (ext : Ext) (headerLines : List Str) (bodyStr : Str) : Except Err HttpRequest :=
  match exec REQUEST_LINE_REGEX (headerLines.head?.getD "undefined".toList) with
  | none => .error .typeError
  | some requestLine =>
    let uri := requestLine.cellStr 2
    let queryStartIndex := indexOf uri '?'
    let path := if queryStartIndex = -1 then uri else substringTo uri queryStartIndex
    let query := if queryStartIndex = -1 then JVal.obj []
                 else ext.querystringParse (substringFrom uri (queryStartIndex + 1))
    let httpVer := requestLine.cellStr 3
    match addHeaders httpVer headerLines 1 with
    | .error e => .error e
    | .ok headers =>
      .ok { path := path
            query := query
            method := requestLine.cellStr 1
            protocol := PROTOCOL
            httpVer := httpVer
            params := []
            cookies := addCookies ext headers
            headers := headers
            shouldDisconnect := shouldDisconnect headers httpVer
            host := hostOf headers
            bodyParams := if bodyStr = [] then JVal.obj [] else addBodyParams ext bodyStr
            body := if bodyStr = [] then none else some bodyStr }

/-! ## hujiparser.js: parse -/

/-- The delimiter between lines, as pattern text (a carriage return, the
    quantifier `{0,1}`, a line feed). -/
def LINE_DELIMITER_PATTERN : Str := "\r{0,1}\n".toList

/-- A regular expression to match the line delimiter. -/
def lineDelimiterRegex : Regex := regExp LINE_DELIMITER_PATTERN

/-- A regular expression to match the delimiter between header lines and body. -/
def BODY_DELIMITER_REGEX : Regex := regExp (LINE_DELIMITER_PATTERN ++ LINE_DELIMITER_PATTERN)

/-- The source's `hujiparser.parse`: a text without a body delimiter makes
    it throw (a property of `null` is read). -/
def parse (ext : Ext) (s : Str) : Except Err HttpRequest :=
  match exec BODY_DELIMITER_REGEX s with
  | none => .error .typeError
  | some bodyMatch =>
    let bodyStr := sliceFrom s ((bodyMatch.index + bodyMatch.text.length : Nat) : Int)
    let headerLines := split lineDelimiterRegex (slice s 0 (bodyMatch.index : Int))
    httpRequest ext headerLines bodyStr

/-! ## statuscodes.js -/

def SUCCESS_OK : Nat := 200
def NOT_FOUND : Nat := 404
def UNSUPPORTED_MEDIA : Nat := 415
def INTERNAL_SERVER_ERROR : Nat := 500
def URI_TOO_LONG : Nat := 414
def BAD_REQUEST : Nat := 400
def FORBIDDEN : Nat := 403

/-- The table `STATUS_CODES`. -/
def STATUS_CODES : List (Nat × Str) :=
  [(SUCCESS_OK, "200 OK".toList), (NOT_FOUND, "404 Not Found".toList),
   (UNSUPPORTED_MEDIA, "415 Unsupported Media Type".toList),
   (INTERNAL_SERVER_ERROR, "500 Internal Server Error".toList),
   (URI_TOO_LONG, "414 URI TOO LONG".toList), (BAD_REQUEST, "400 Bad Request".toList),
   (FORBIDDEN, "403 Forbidden".toList)]

/-- The source's `codeToMsg` (`none`: undefined). -/
def codeToMsg (code : Nat) : Option Str :=
  (STATUS_CODES.find? fun p => p.1 == code).map Prod.snd

/-- The source's `disconnectErrorCode`: the status codes after which the
    socket closes. -/
def disconnectErrorCode (code : Nat) : Bool :=
  [404, 415, 403, 500, 414].contains code

/-! ## hujinet.js: the connection reader -/

/-- What the reader hands to its callback: a request, or the object
    `{error: code}`. -/
inductive ReqObj where
  | request (r : HttpRequest)
  | error (code : Nat)

/-- The line delimiter of the reader. -/
def LINE_DELIMITER : Char := '\n'

/-- The maximal length for an HTTP request. -/
def REQUEST_MAX_LENGTH : Nat := 8194

/-- The framing variables of `listen`. -/
structure Reader where
  isInSideRequest : Bool
  isInSideBody : Bool
  lineBuffer : Str
  requestStr : Str
  lengthOfBody : Nat
  deriving DecidableEq, Repr

/-- The source's `init`: the initial framing state. -/
def init : Reader :=
  { isInSideRequest := false, isInSideBody := false, lineBuffer := [], requestStr := [],
    lengthOfBody := 0 }

/-- The object handed to the callback when a frame is complete: the parsed
    request, or the Bad-Request error object when parsing throws. -/
def tryParse (ext : Ext) (requestStr : Str) : ReqObj :=
  match parse ext requestStr with
  | .ok r => .request r
  | .error _ => .error BAD_REQUEST

/-- The first part of the per-character function of `listen`: a line feed
    outside the body ends a line. -/
def lineStep (st : Reader) (char : Char) : Reader :=
  let st := { st with lineBuffer := st.lineBuffer ++ [char] }
  if st.isInSideBody = false ∧ char = LINE_DELIMITER then
    match isRequestLineValid (slice st.lineBuffer 0 (search lineDelimiterRegex st.lineBuffer)) with
    | some requestTitle =>
      { st with isInSideRequest := true, requestStr := requestTitle.text ++ [LINE_DELIMITER],
                lineBuffer := [] }
    | none =>
      let requestHeader :=
        isHeaderLineValid (slice st.lineBuffer 0 (search lineDelimiterRegex st.lineBuffer))
      if st.isInSideRequest ∧ requestHeader.isSome then
        { st with requestStr := st.requestStr ++ st.lineBuffer,
                  lengthOfBody := (contentLengthCheck st.lineBuffer).getD st.lengthOfBody,
                  lineBuffer := [] }
      else if indexOf st.lineBuffer LINE_DELIMITER > 1 then init
      else st
  else st

/-- The second part of the per-character function: entering the body and
    completing the frame.  Returns the new state and the objects handed to
    the callback. -/
def bodyStep (ext : Ext) (st : Reader) : Reader × List ReqObj :=
  if st.isInSideRequest = true then
    let indexEol := indexOf st.lineBuffer LINE_DELIMITER
    let st :=
      if st.isInSideBody = false ∧ search lineDelimiterRegex st.lineBuffer = 0 then
        { st with requestStr := st.requestStr ++ st.lineBuffer, isInSideBody := true,
                  lineBuffer := substringFrom st.lineBuffer (indexEol + 1) }
      else st
    if st.isInSideBody = true ∧ st.lineBuffer.length = st.lengthOfBody then
      (init, [tryParse ext (st.requestStr ++ st.lineBuffer)])
    else (st, [])
  else (st, [])

/-- The function `listen` applies to every character of a chunk. -/
def charStep (ext : Ext) (st : Reader) (char : Char) : Reader × List ReqObj :=
  bodyStep ext (lineStep st char)

/-- Applies `charStep` to the characters of a chunk in order, collecting the
    callback invocations. -/
def feedChars (ext : Ext) : Reader → Str → Reader × List ReqObj
  | st, [] => (st, [])
  | st, c :: cs =>
    let r := charStep ext st c
    let r2 := feedChars ext r.1 cs
    (r2.1, r.2 ++ r2.2)

/-- The data handler of `listen` on a chunk given by its text: the size
    guard, then the characters of the chunk.  This is what the handler does
    with a chunk of single-byte characters, whose text has as many
    characters as the chunk has bytes; `onDataBuffer` is the handler on the
    bytes of any chunk. -/
def onData (ext : Ext) (st : Reader) (data : Str) : Reader × List ReqObj :=
  if st.lineBuffer.length > REQUEST_MAX_LENGTH ∨ data.length > REQUEST_MAX_LENGTH ∨
      st.requestStr.length > REQUEST_MAX_LENGTH then
    (init, [.error URI_TOO_LONG])
  else feedChars ext st data

/-- Feeds a sequence of chunks, collecting the callback invocations. -/
def feedChunks (ext : Ext) : Reader → List Str → Reader × List ReqObj
  | st, [] => (st, [])
  | st, d :: ds =>
    let r := onData ext st d
    let r2 := feedChunks ext r.1 ds
    (r2.1, r.2 ++ r2.2)

/-! ## The response object, hujiparser.stringify and the connection writer -/

/-- The text of a number. -/
def natStr (n : Nat) : Str := (Nat.repr n).toList

mutual
/-- The text a value turns into when it is concatenated to a text: a list
    turns into the texts of its items joined with `,`, a plain object into
    `[object Object]`. -/
def JVal.toStr : JVal → Str
  | .undefined => "undefined".toList
  | .null => "null".toList
  | .bool true => "true".toList
  | .bool false => "false".toList
  | .num n => if n < 0 then '-' :: natStr n.natAbs else natStr n.toNat
  | .str s => s
  | .arr items => JVal.joinItems items
  | .obj _ => "[object Object]".toList
/-- The source's `items.join(',')`. -/
def JVal.joinItems : List JVal → Str
  | [] => []
  | [a] => JVal.itemStr a
  | a :: b :: rest => JVal.itemStr a ++ ',' :: JVal.joinItems (b :: rest)
/-- The text of an item of a list in `join`: empty for `undefined` and
    `null`, the text of the value otherwise. -/
def JVal.itemStr : JVal → Str
  | .undefined => []
  | .null => []
  | .bool true => "true".toList
  | .bool false => "false".toList
  | .num n => if n < 0 then '-' :: natStr n.natAbs else natStr n.toNat
  | .str s => s
  | .arr items => JVal.joinItems items
  | .obj _ => "[object Object]".toList
end

/-- The source's `!value`: is the value falsy? -/
def JVal.falsy : JVal → Bool
  | .undefined => true
  | .null => true
  | .bool b => !b
  | .num n => n == 0
  | .str s => s.isEmpty
  | .arr _ => false
  | .obj _ => false

/-- The source's `value.length` for a truthy value. -/
def JVal.length : JVal → JVal
  | .str s => .num s.length
  | .arr items => .num items.length
  | .obj props => (getProp props "length".toList).getD .undefined
  | _ => .undefined

/-- A cookie descriptor of a response. -/
structure Cookie where
  name : Str
  value : Str
  options : List (Str × Str)

/-- The response object `ResponseObj` (without its reference to the
    connection, which the operations take as an argument). -/
structure Response where
  headers : List (Str × JVal)
  cookies : List Cookie
  httpVer : Option Str
  shouldDisconnect : Bool
  error : Bool
  statusCode : Option Nat
  statusMsg : Option Str
  body : JVal

/-- The line break of `stringify`. -/
def STRINGIFY_LINE_BREAK : Str := "\r\n".toList

/-- A text that may be undefined, as concatenation renders it. -/
def optStr (o : Option Str) : Str := o.getD "undefined".toList

/-- The header lines of `stringify`: the loop over `Object.keys(headers)`. -/
def headerLinesStr (headers : List (Str × JVal)) : Str :=
  (ownEntries headers).foldl (fun acc h => acc ++ h.1 ++ headerDelimiter ++ " ".toList ++
    h.2.toStr ++ STRINGIFY_LINE_BREAK) []

/-- The line of one cookie in `stringify`: the `for ... in` loop over the
    options. -/
def cookieLineStr (cookie : Cookie) : Str :=
  (ownEntries cookie.options).foldl (fun acc o => acc ++ "; ".toList ++ o.1 ++ "=".toList ++ o.2)
    ("Set-Cookie".toList ++ headerDelimiter ++ " ".toList ++ cookie.name ++ "=".toList ++ cookie.value)
  ++ STRINGIFY_LINE_BREAK

/-- The source's `hujiparser.stringify`. -/
def stringify (r : Response) : Str :=
  let responseAsString := "HTTP/".toList ++ optStr r.httpVer ++ " ".toList ++ optStr r.statusMsg ++
    STRINGIFY_LINE_BREAK
  let responseAsString := responseAsString ++ headerLinesStr r.headers
  let responseAsString := r.cookies.foldl (fun acc c => acc ++ cookieLineStr c) responseAsString
  let responseAsString := responseAsString ++ STRINGIFY_LINE_BREAK
  match r.body with
  | .undefined => responseAsString
  | b => responseAsString ++ b.toStr

/-- An operation performed on the socket. -/
inductive SockOp where
  | write (text : Str)
  | endWith (text : Str)
  | endPlain
  | pipe (file : Str)
  deriving DecidableEq, Repr

/-- The connection as `HujiNet` sees it: whether the socket is writable,
    the operations performed on it so far (in order), the flag
    `sendSuccess` (`none`: not yet assigned) and the close decisions of the
    file streams still being piped. -/
structure Net where
  writable : Bool
  ops : List SockOp
  sendSuccess : Option Bool
  streams : List Bool
  deriving DecidableEq, Repr

/-- The source's `socket.end(text)`: writes and closes; the socket is not
    writable afterwards. -/
def Net.socketEnd (n : Net) (text : Str) : Net :=
  { n with ops := n.ops ++ [.endWith text], writable := false }

/-- The source's `socket.write(text)`. -/
def Net.socketWrite (n : Net) (text : Str) : Net :=
  { n with ops := n.ops ++ [.write text] }

/-- The source's `HujiNet.prototype.sendResponse`. -/
def sendResponse (n : Net) (httpResponse : Response) (shouldDisconnect : Bool) : Net :=
  let httpResponseString := stringify httpResponse
  if !n.writable then n
  else
    let n :=
      if httpResponse.error then n.socketEnd httpResponseString
      else if shouldDisconnect ||
          (match httpResponse.statusCode with
           | some code => disconnectErrorCode code
           | none => false) then
        n.socketEnd httpResponseString
      else n.socketWrite httpResponseString
    { n with sendSuccess := some true }

/-- The source's `HujiNet.prototype.sendFile`: starts piping the file to
    the socket and remembers the close decision for the end of the stream. -/
def netSendFile (n : Net) (file : Str) (shouldDisconnect : Bool) : Net :=
  if !n.writable then n
  else { n with ops := n.ops ++ [.pipe file], streams := n.streams ++ [shouldDisconnect] }

/-- The `end` event of the oldest stream being piped. -/
def streamEnd (n : Net) : Net :=
  match n.streams with
  | [] => n
  | d :: rest =>
    let n := { n with streams := rest }
    let n := if d then { n with ops := n.ops ++ [.endPlain], writable := false } else n
    { n with sendSuccess := some true }

/-- The source's `ResponseObj.prototype.set`. -/
def Response.set (r : Response) (field : Str) (value : JVal) : Response :=
  { r with headers := setProp r.headers (toLowerCase field) value }

/-- The source's `ResponseObj.prototype.get`. -/
def Response.get (r : Response) (field : Str) : JVal :=
  (getProp r.headers (toLowerCase field)).getD .undefined

/-- The source's `ResponseObj.prototype.status` for a numeric code. -/
def Response.status (r : Response) (code : Nat) : Response :=
  { r with statusCode := some code
           statusMsg := some ((codeToMsg code).getD (natStr code)) }

/-- The source's `ResponseObj.prototype.cookie`. -/
def Response.cookie (r : Response) (name value : Str) (options : List (Str × Str)) : Response :=
  { r with cookies := r.cookies ++ [⟨name, value, options⟩] }

def CONTENT_LENGTH : Str := "Content-Length".toList

def CONTENT_TYPE : Str := "Content-Type".toList

/-- The source's `ResponseObj.prototype.send`: the response afterwards and
    the connection afterwards. -/
def Response.send (r : Response) (n : Net) (body : JVal) : Response × Net :=
  let r := { r with body := body }
  let r := if body.falsy then r.set CONTENT_LENGTH (.num 0) else r.set CONTENT_LENGTH body.length
  (r, sendResponse n r r.shouldDisconnect)

/-- The table `CONTENT_TYPE_EXT`: file extension to content type. -/
def CONTENT_TYPE_EXT : List (Str × Str) :=
  [("js".toList, "application/javascript".toList), ("html".toList, "text/html".toList),
   ("txt".toList, "text/plain".toList), ("css".toList, "text/css".toList),
   ("jpeg".toList, "image/jpeg".toList), ("jpg".toList, "image/jpeg".toList),
   ("gif".toList, "image/gif".toList), ("png".toList, "image/png".toList),
   ("json".toList, "application/json".toList)]

/-- The source's `ResponseObj.prototype.sendFile`; `extname` is the library
    function `path.extname`. -/
def Response.sendFile (extname : Str → Str) (r : Response) (n : Net) (fullPath : Str) :
    Response × Net :=
  let unset := (r.get CONTENT_TYPE).falsy
  let extName : Option Str :=
    if unset then getProp CONTENT_TYPE_EXT (substringFrom (extname fullPath) 1) else none
  let r := if unset then
      r.set CONTENT_TYPE (match extName with | some t => .str t | none => .undefined)
    else r
  if (match extName with | some t => !t.isEmpty | none => false) then
    let n := sendResponse n r false
    (r, netSendFile n fullPath r.shouldDisconnect)
  else
    let r := { r with error := true }
    let r := r.status UNSUPPORTED_MEDIA
    (r, sendResponse n r true)

/-- The source's constructor `ResponseObj(hujinet, req)`: the response and
    the connection afterwards, and whether the constructor threw (it throws
    after answering a request object that carries an error). -/
def responseObj (n : Net) (req : ReqObj) : Response × Net × Bool :=
  match req with
  | .request q =>
    ({ headers := [], cookies := [], httpVer := some q.httpVer,
       shouldDisconnect := q.shouldDisconnect, error := false, statusCode := none,
       statusMsg := none, body := .undefined }, n, false)
  | .error code =>
    let r : Response :=
      { headers := [], cookies := [], httpVer := some "1.0".toList, shouldDisconnect := true,
        error := true, statusCode := none, statusMsg := none, body := .undefined }
    let p := (r.status code).send n .undefined
    (p.1, p.2, true)

/-! ## requesthandlerobj.js and hujidynamicserver.js: the router -/

/-- The matches of a regular expression with the global flag, found by
    calling `exec` until it returns `null`. -/
def globalMatches (r : Regex) : Nat → Nat → Str → List Match
  | 0, _, _ => []
  | fuel + 1, idx, rest =>
    match execFrom r idx rest with
    | none => []
    | some m =>
      let after := rest.drop (m.index - idx + m.text.length)
      m :: globalMatches r fuel (m.index + m.text.length) after

/-- The source's `s.replace(regex, replacement)` for a regular expression
    with the global flag whose matches are not empty and a replacement
    text without `$`. -/
def replaceAll (r : Regex) (replacement : Str) : Nat → Nat → Str → Str
  | 0, _, rest => rest
  | fuel + 1, idx, rest =>
    match execFrom r idx rest with
    | none => rest
    | some m =>
      rest.take (m.index - idx) ++ replacement ++
        replaceAll r replacement fuel (m.index + m.text.length)
          (rest.drop (m.index - idx + m.text.length))

/-- A regular expression to match the resource parameters. -/
def PATH_REGEX : Regex := regExp "\\/:([^\\/]*)".toList

/-- Given a path, the parameters are replaced with this pattern text. -/
def RESOURCE_PARAM_REPLACEMENT : Str := "/([^/]+)".toList

/-- Added to the start of the pattern text of a resource. -/
def START_OF_LINE : Str := "^".toList

/-- Something a handler does, in the order it does it: a handler is
    modelled by the synchronous steps it takes. -/
inductive Action where
  | status (code : Nat)
  | set (field : Str) (value : JVal)
  | cookie (name value : Str) (options : List (Str × Str))
  | send (body : JVal)
  | sendFile (fullPath : Str)
  | next
  | throw

/-- A handler function: the steps it takes for a request. -/
abbrev Handler := HttpRequest → List Action

/-- A route registration `RequestHandlerObj`. -/
structure RequestHandlerObj where
  method : Str
  handle : Handler
  routeRegex : Regex
  params : List Str
  firstMatchIndex : Nat

/-- The source's constructor `RequestHandlerObj(resource, handleFunc, method)`;
    `none` when the pattern text built from the resource is not a pattern. -/
def requestHandlerObj (resource : Str) (handleFunc : Handler) (method : Str) :
    Option RequestHandlerObj :=
  match compile (START_OF_LINE ++
      replaceAll PATH_REGEX RESOURCE_PARAM_REPLACEMENT (resource.length + 1) 0 resource) with
  | none => none
  | some routeRegex =>
    some { method := method
           handle := handleFunc
           routeRegex := routeRegex
           params := (globalMatches PATH_REGEX (resource.length + 1) 0 resource).map
             fun result => result.cellStr 1
           firstMatchIndex := 1 }

/-- The source's constructor `RequestHandlerObj(resource, handleFunc, method)`
    over any behaviour `newRegExp` of the platform's `new RegExp(text)`
    (`none`: it throws a SyntaxError); `requestHandlerObj` is the instance
    with the pattern constructor `compile` of this development. -/
def requestHandlerObjWith (newRegExp : Str → Option Regex) (resource : Str)
    (handleFunc : Handler) (method : Str) : Option RequestHandlerObj :=
  match newRegExp (START_OF_LINE ++
      replaceAll PATH_REGEX RESOURCE_PARAM_REPLACEMENT (resource.length + 1) 0 resource) with
  | none => none
  | some routeRegex =>
    some { method := method
           handle := handleFunc
           routeRegex := routeRegex
           params := (globalMatches PATH_REGEX (resource.length + 1) 0 resource).map
             fun result => result.cellStr 1
           firstMatchIndex := 1 }

/-- The method filter that accepts every method. -/
def ALL : Str := "ALL".toList

/-- The `while` loop of `next` over the registrations from index `i` on:
    the first registration whose method filter and route accept the
    request, with its index and the route's match. -/
def scan (method path : Str) : List RequestHandlerObj → Nat → Option (Nat × RequestHandlerObj × Match)
  | [], _ => none
  | h :: hs, i =>
    if method ≠ h.method ∧ h.method ≠ ALL then scan method path hs (i + 1)
    else
      match exec h.routeRegex path with
      | none => scan method path hs (i + 1)
      | some m => some (i, h, m)

/-- Capture cell `j` of a match as a value. -/
def Match.cellVal (m : Match) (j : Nat) : JVal :=
  match m.cell j with
  | some v => .str v
  | none => .undefined

/-- The `for` loop of `next` that goes over the route parameters: cells
    `j, j+1, ...` (`count` of them) are added under the names
    `params[j - 1]`. -/
def fillParams (names : List Str) (m : Match) : Nat → Nat → List (Str × JVal) → List (Str × JVal)
  | 0, _, acc => acc
  | count + 1, j, acc =>
    fillParams names m count (j + 1)
      (setProp acc ((names.get? (j - 1)).getD "undefined".toList) (m.cellVal j))

/-- The parameters `next` gives the request for a matched registration. -/
def routeParams (h : RequestHandlerObj) (m : Match) : List (Str × JVal) :=
  fillParams h.params m (h.routeRegex.groups.length + 1 - h.firstMatchIndex) h.firstMatchIndex []

/-- The state of the handling of one request: the connection, the response,
    the cursor `next.curHandler`, the request's route parameters and the
    indexes of the handlers invoked so far. -/
structure Turn where
  net : Net
  res : Response
  curHandler : Nat
  params : List (Str × JVal)
  invoked : List Nat

/-- Runs the steps of a handler; `k` is the continuation `next`.  The flag
    tells whether the handler threw. -/
def runActions (extname : Str → Str) (k : Turn → Turn) : List Action → Turn → Turn × Bool
  | [], t => (t, false)
  | .status code :: rest, t => runActions extname k rest { t with res := t.res.status code }
  | .set field value :: rest, t => runActions extname k rest { t with res := t.res.set field value }
  | .cookie name value options :: rest, t =>
    runActions extname k rest { t with res := t.res.cookie name value options }
  | .send body :: rest, t =>
    let p := t.res.send t.net body
    runActions extname k rest { t with res := p.1, net := p.2 }
  | .sendFile fullPath :: rest, t =>
    let p := t.res.sendFile extname t.net fullPath
    runActions extname k rest { t with res := p.1, net := p.2 }
  | .next :: rest, t => runActions extname k rest (k t)
  | .throw :: _, t => (t, true)

/-- The continuation `next` of the server's callback (`fuel` bounds the
    depth of handlers calling `next`; `handlers.length + 1` is enough). -/
def next (extname : Str → Str) (handlers : List RequestHandlerObj) (req : HttpRequest) :
    Nat → Turn → Turn
  | 0, t => t
  | fuel + 1, t =>
    match scan req.method req.path (handlers.drop t.curHandler) t.curHandler with
    | some (i, h, m) =>
      let t := { t with params := routeParams h m, curHandler := i + 1, invoked := t.invoked ++ [i] }
      let p := runActions extname (next extname handlers req fuel)
        (h.handle { req with params := t.params }) t
      if p.2 then
        let q := (p.1.res.status INTERNAL_SERVER_ERROR).send p.1.net .undefined
        { p.1 with res := q.1, net := q.2 }
      else p.1
    | none =>
      let q := (t.res.status NOT_FOUND).send t.net .undefined
      { t with curHandler := max t.curHandler handlers.length, res := q.1, net := q.2 }

/-- The callback the server gives to `listen`: builds the response and,
    unless the response constructor threw, starts the chain of handlers.
    Returns the connection afterwards and the handlers invoked. -/
def onRequest (extname : Str → Str) (handlers : List RequestHandlerObj) (n : Net)
    (httpRequest : ReqObj) : Net × List Nat :=
  let p := responseObj n httpRequest
  if p.2.2 then (p.2.1, [])
  else
    match httpRequest with
    | .error _ => (p.2.1, [])
    | .request q =>
      let t := next extname handlers q (handlers.length + 1)
        { net := p.2.1, res := p.1, curHandler := 0, params := q.params, invoked := [] }
      (t.net, t.invoked)

/-! ## Predicates used in the statements -/

/-- State `y` lies at or after state `x` in the same text. -/
def Adv (x y : MState) : Prop := ∃ w : Str, x.rest = w ++ y.rest ∧ y.idx = x.idx + w.length

/-- A matcher is forward when every success continues from a state at or
    after the start. -/
def Forward (m : MState → Cont → Option MState) : Prop :=
  ∀ (x : MState) (c : Cont) (z : MState), m x c = some z → ∃ y, Adv x y ∧ c y = some z

/-- A sample of the library functions (used in examples): the query is kept
    as text, there are no cookies, and no body is JSON. -/
def sampleExt : Ext := ⟨fun s => .str s, fun _ => [], fun _ => none⟩

/-- The request of the lines `GET / HTTP/1.0` and `Connection: keep-alive`
    (used in examples). -/
def keepAliveRequest : HttpRequest :=
  { path := "/".toList, query := .obj [], method := "GET".toList, protocol := "HTTP".toList,
    httpVer := "1.0".toList, params := [], cookies := [],
    headers := [("connection".toList, "keep-alive".toList)], shouldDisconnect := false,
    host := none, bodyParams := .obj [], body := none }

/-- Does `sendResponse` close the connection after writing this response
    with close decision `d`, according to the specification: the response
    is marked error, or `d` is true, or the status code is one of 404, 415,
    403, 500, 414. -/
def closesAfter (r : Response) (d : Bool) : Bool :=
  r.error || d || r.statusCode == some 404 || r.statusCode == some 415 ||
  r.statusCode == some 403 || r.statusCode == some 500 || r.statusCode == some 414

/-- The response with its headers and the options of its cookies listed in
    the order of `Object.keys`. -/
def Response.inKeyOrder (r : Response) : Response :=
  { r with headers := ownEntries r.headers
           cookies := r.cookies.map fun c => { c with options := ownEntries c.options } }

/-- The wire format of the specification, line by line: the status line,
    one line per header, one line per cookie, an empty line, the body. -/
def wireFormat (r : Response) : Str :=
  "HTTP/".toList ++ optStr r.httpVer ++ " ".toList ++ optStr r.statusMsg ++ "\r\n".toList ++
  (r.headers.map fun h => h.1 ++ ": ".toList ++ h.2.toStr ++ "\r\n".toList).flatten ++
  (r.cookies.map fun c =>
    "Set-Cookie: ".toList ++ c.name ++ "=".toList ++ c.value ++
    (c.options.map fun o => "; ".toList ++ o.1 ++ "=".toList ++ o.2).flatten ++ "\r\n".toList).flatten ++
  "\r\n".toList ++
  (match r.body with
   | .undefined => []
   | b => b.toStr)

/-- The seven known status codes with their messages. -/
def KNOWN_STATUS : List (Nat × Str) :=
  [(200, "OK".toList), (400, "Bad Request".toList), (403, "Forbidden".toList),
   (404, "Not Found".toList), (414, "URI TOO LONG".toList),
   (415, "Unsupported Media Type".toList), (500, "Internal Server Error".toList)]

/-- A body as the data model has it, text or none, as the value `send`
    receives. -/
def bodyVal : Option Str → JVal
  | some s => .str s
  | none => .undefined

/-- The text of the response the server writes for an error object. -/
def errorResponseText (msg : Str) : Str :=
  "HTTP/1.0 ".toList ++ msg ++ "\r\ncontent-length: 0\r\n\r\n".toList

/-- The lines of a serialized response before its blank line: the status
    line, the header lines and the cookie lines (without their line
    breaks). -/
def headLines (r : Response) : List Str :=
  ["HTTP/".toList ++ optStr r.httpVer ++ " ".toList ++ optStr r.statusMsg] ++
  ((ownEntries r.headers).map fun h => h.1 ++ ": ".toList ++ h.2.toStr) ++
  (r.cookies.map fun c =>
    "Set-Cookie: ".toList ++ c.name ++ "=".toList ++ c.value ++
    ((ownEntries c.options).map fun o => "; ".toList ++ o.1 ++ "=".toList ++ o.2).flatten)

/-- The response the constructor builds and sends for the error object
    `{error: code}`. -/
def errorResponse (code : Nat) : Response :=
  { headers := [("content-length".toList, .num 0)], cookies := [], httpVer := some "1.0".toList,
    shouldDisconnect := true, error := true, statusCode := some code,
    statusMsg := some ((codeToMsg code).getD (natStr code)), body := .undefined }

/-- A stand-in for the library function `path.extname` (used in
    examples): the text from the last dot on, empty when there is no dot. -/
def sampleExtname (path : Str) : Str :=
  match path.reverse.span (fun c => c != '.') with
  | (_, []) => []
  | (ext, _ :: _) => '.' :: ext.reverse

/-- A fresh response of an HTTP/1.0 request that keeps the connection
    alive (used in examples). -/
def freshResponse : Response :=
  { headers := [], cookies := [], httpVer := some "1.0".toList, shouldDisconnect := false,
    error := false, statusCode := none, statusMsg := none, body := .undefined }

/-- A writable connection on which nothing has happened yet (used in
    examples). -/
def freshNet : Net := { writable := true, ops := [], sendSuccess := none, streams := [] }

/-- Does the registration accept the request: its method filter is `ALL`
    or equals the request method, and its path pattern matches the request
    path. -/
def accepts (h : RequestHandlerObj) (req : HttpRequest) : Prop :=
  (h.method = ALL ∨ h.method = req.method) ∧ (exec h.routeRegex req.path).isSome = true

/-- What `next` does after the handler it invoked has returned or thrown:
    a throw is answered with status 500. -/
def afterHandler (p : Turn × Bool) : Turn :=
  if p.2 then
    { p.1 with res := ((p.1.res.status 500).send p.1.net .undefined).1,
               net := ((p.1.res.status 500).send p.1.net .undefined).2 }
  else p.1

/-- A registration for every method under the resource `/` whose handler
    sets a status and then throws (used in examples). -/
def throwingRoute : RequestHandlerObj :=
  { method := ALL, handle := fun _ => [.status 200, .throw], routeRegex := regExp "^/".toList,
    params := [], firstMatchIndex := 1 }

/-- The state in which the server starts the chain of handlers for
    `keepAliveRequest` on a fresh connection (used in examples). -/
def sampleTurn : Turn :=
  { net := freshNet, res := (responseObj freshNet (.request keepAliveRequest)).1, curHandler := 0,
    params := [], invoked := [] }

/-- Greedy backtracking over a run of characters `w` followed by `rest`:
    the continuation is tried after the whole of `w` first, then after
    shorter and shorter prefixes of it. -/
def greedy (c : Cont) (caps : Caps) : Nat → Str → Str → Option MState
  | idx, [], rest => c ⟨idx, rest, caps⟩
  | idx, a :: w, rest =>
    match greedy c caps (idx + 1) w rest with
    | some z => some z
    | none => c ⟨idx, a :: w ++ rest, caps⟩

/-- The length of the line delimiter (a line feed, or a carriage return and
    a line feed) at the start of a text; 0 when the text does not start
    with one. -/
def delimLen : Str → Nat
  | [] => 0
  | d :: tl =>
    if d = '\n' then 1
    else if d = '\r' then
      match tl with
      | e :: _ => if e = '\n' then 2 else 0
      | [] => 0
    else 0

/-- The length of the body delimiter (two line delimiters in a row) at the
    start of a text; 0 when the text does not start with one. -/
def bodyDelimLen (s : Str) : Nat :=
  if delimLen s = 0 then 0
  else if delimLen (s.drop (delimLen s)) = 0 then 0
  else delimLen s + delimLen (s.drop (delimLen s))

/-- The first index at or after `idx` where `len` is not 0 (`len` gives the
    length of what is looked for at the start of a text). -/
def findFirst (len : Str → Nat) : Nat → Str → Option Nat
  | idx, [] => if len [] ≠ 0 then some idx else none
  | idx, c :: cs => if len (c :: cs) ≠ 0 then some idx else findFirst len (idx + 1) cs

/-- A line of a head: not empty and without line feed or carriage return. -/
def PlainLine (l : Str) : Prop := l ≠ [] ∧ ∀ c ∈ l, c ≠ '\n' ∧ c ≠ '\r'

/-- A line ending: a line feed, or a carriage return and a line feed. -/
def IsLineEnd (e : Str) : Prop := e = ['\n'] ∨ e = ['\r', '\n']

/-- The four blank-line delimiters. -/
def BLANK_LINE_DELIMITERS : List Str :=
  [['\n', '\n'], ['\r', '\n', '\r', '\n'], ['\n', '\r', '\n'], ['\r', '\n', '\n']]

/-- The text of a head: a first line, then for every further line a line
    ending and the line. -/
def joinHead (first : Str) (more : List (Str × Str)) : Str :=
  first ++ (more.map fun p => p.1 ++ p.2).flatten

/-- The regular expression of a literal text followed by `r`. -/
def litThen (l : Str) (r : Regex) : Regex := l.foldr (fun c acc => .seq (.chr c) acc) r

/-- The disjunction of a list of alternatives. -/
def altList : List Regex → Regex
  | [] => .empty
  | [a] => a
  | a :: b :: rest => .alt a (altList (b :: rest))

/-- The part `(.*)+` of the request-line pattern. -/
def TARGET_RE : Regex := .rep 1 none (.group 2 (.seq (.rep 0 none .dot) .empty))

/-- The part `(1.0|1.1)` of the request-line pattern. -/
def VERSION_RE : Regex :=
  .group 3 (.alt (.seq (.chr '1') (.seq .dot (.seq (.chr '0') .empty)))
                 (.seq (.chr '1') (.seq .dot (.seq (.chr '1') .empty))))

/-- The part ` HTTP/(1.0|1.1)$` of the request-line pattern. -/
def SUFFIX_RE : Regex := litThen " HTTP/".toList (.seq VERSION_RE (.seq .eol .empty))

/-- The part of a target up to (not including) its first `?`. -/
def pathOf (target : Str) : Str := target.takeWhile fun c => c != '?'

/-- The part of a target after its first `?` (`none` when it has none). -/
def queryTextOf (target : Str) : Option Str :=
  match target.dropWhile fun c => c != '?' with
  | [] => none
  | _ :: q => some q

/-- The request line `M T HTTP/V`. -/
def requestLineOf (M T V : Str) : Str := M ++ [' '] ++ T ++ " HTTP/".toList ++ V

/-- The number of characters the reader holds: the pending line buffer and
    the accumulated request text. -/
def Reader.held (st : Reader) : Nat := st.lineBuffer.length + st.requestStr.length

/-- While the reader is reading headers, the pending line buffer does not
    start with a line delimiter (a blank line starts the body at once). -/
def Reader.Tidy (st : Reader) : Prop :=
  st.isInSideRequest = true → st.isInSideBody = false → delimLen st.lineBuffer = 0

/-- A header line with its line ending, as the reader accepts it while
    reading headers: a non-empty line without line terminators that is a
    header line and not a request line. -/
def HeaderLineOK (p : Str × Str) : Prop :=
  PlainLine p.1 ∧ IsLineEnd p.2 ∧ isRequestLineValid p.1 = none ∧
  (isHeaderLineValid p.1).isSome = true

/-- The text of header lines with their line endings. -/
def headerText (hdrs : List (Str × Str)) : Str := (hdrs.map fun p => p.1 ++ p.2).flatten

/-- The expected body length after the header lines: the number of the last
    line in which `contentLengthCheck` finds one, else the length before. -/
def expectedLength : Nat → List (Str × Str) → Nat
  | n, [] => n
  | n, p :: ps => expectedLength ((contentLengthCheck (p.1 ++ p.2)).getD n) ps

/-- The number of a header line spelled `Content-Length: N`: the name, a
    colon, one space and a run of digits (`none` for any other line). -/
def spelledLength (line : Str) : Option Nat :=
  if line.take 16 = "Content-Length: ".toList ∧ line.drop 16 ≠ [] ∧
      (line.drop 16).all isDigit = true then
    some (parseInt (line.drop 16))
  else none

/-- The body length that header lines announce: the number of the last line
    spelled `Content-Length: N`, and 0 when no line is spelled so. -/
def announcedLength (hdrs : List (Str × Str)) : Nat :=
  hdrs.foldl (fun n p => (spelledLength p.1).getD n) 0

/-- A header line that is spelled `Content-Length: N` or does not hold the
    text `Content-Length:` at all. -/
def LengthLineOK (line : Str) : Prop :=
  (spelledLength line).isSome = true ∨ ¬ ("Content-Length:".toList <:+: line)

/-- The error code of an object handed to the callback (`none` for a
    request). -/
def ReqObj.errorCode : ReqObj → Option Nat
  | .request _ => none
  | .error code => some code


/-! ## More of httpresponse.js, httprequest.js and hujidynamicserver.js -/

/-- The value of a character as a digit of the given radix. -/
def digitVal (radix : Nat) (c : Char) : Option Nat :=
  let v : Option Nat :=
    if '0' ≤ c ∧ c ≤ '9' then some (c.toNat - '0'.toNat)
    else if 'a' ≤ c ∧ c ≤ 'z' then some (c.toNat - 'a'.toNat + 10)
    else if 'A' ≤ c ∧ c ≤ 'Z' then some (c.toNat - 'A'.toNat + 10)
    else none
  v.filter fun d => d < radix

/-- The digits at the start of a text, most significant first. -/
def leadingDigits (radix : Nat) : Str → List Nat
  | [] => []
  | c :: cs =>
    match digitVal radix c with
    | some d => d :: leadingDigits radix cs
    | none => []

/-- The global function `parseInt(text)` without a radix (`none`: NaN):
    leading white space is skipped, a sign is read, the prefix `0x` selects
    radix 16, and the longest run of digits is the number. -/
def parseIntText (s : Str) : Option Int :=
  let s := s.dropWhile isSpace
  let negative := s.head? = some '-'
  let s := if s.head? = some '-' ∨ s.head? = some '+' then s.drop 1 else s
  let hex := s.take 2 = "0x".toList ∨ s.take 2 = "0X".toList
  let radix := if hex then 16 else 10
  let s := if hex then s.drop 2 else s
  match leadingDigits radix s with
  | [] => none
  | ds =>
    let n : Nat := ds.foldl (fun acc d => acc * radix + d) 0
    some (if negative then -(n : Int) else (n : Int))

/-- The global function `parseInt(value)` (`none`: NaN): the value is
    turned into its text and the text is read.  A whole number of at most
    21 digits that a number holds exactly (every whole number up to
    `2 ^ 53` is one) is written with all its digits and so is its own
    result; the properties below use numbers in that range only. -/
def parseIntOf : JVal → Option Int
  | .num n => some n
  | .str s => parseIntText s
  | v => parseIntText v.toStr

/-- The source's `ResponseObj.prototype.status` for any argument.  The
    field `statusCode` holds `none` for NaN and for a negative number; the
    field `statusMsg` holds the text its value is written as (`none`:
    undefined). -/
def Response.statusOf (r : Response) (code : JVal) : Response :=
  let codeInt := parseIntOf code
  let statusCode : Option Nat :=
    match codeInt with
    | some n => if 0 ≤ n then some n.toNat else none
    | none => none
  let statusMsg : Option Str :=
    match statusCode with
    | some n => codeToMsg n
    | none => none
  let verbatim : Option Str :=
    match code with
    | .undefined => none
    | v => some v.toStr
  { r with statusCode := statusCode
           statusMsg := match statusMsg with
             | some m => if m.isEmpty then verbatim else some m
             | none => verbatim }

/-- The source's `value.hasOwnProperty(name)`; it throws on `null` and
    `undefined`.  A text and a list own `length` and their indexes. -/
def JVal.hasOwn : JVal → Str → Except Err Bool
  | .undefined, _ => .error .typeError
  | .null, _ => .error .typeError
  | .bool _, _ => .ok false
  | .num _, _ => .ok false
  | .str s, name =>
    .ok (name == "length".toList || (List.range s.length).any fun i => natStr i == name)
  | .arr items, name =>
    .ok (name == "length".toList || (List.range items.length).any fun i => natStr i == name)
  | .obj props, name => .ok (hasOwnProperty props name)

/-- The source's `value[name]` for a property the value owns. -/
def JVal.getOwn : JVal → Str → JVal
  | .str s, name =>
    if name == "length".toList then .num s.length
    else
      match (List.range s.length).find? fun i => natStr i == name with
      | some i => (s.get? i).elim .undefined fun c => .str [c]
      | none => .undefined
  | .arr items, name =>
    if name == "length".toList then .num items.length
    else
      match (List.range items.length).find? fun i => natStr i == name with
      | some i => (items.get? i).getD .undefined
      | none => .undefined
  | .obj props, name => (getProp props name).getD .undefined
  | _, _ => .undefined

/-- The source's `HttpRequest.prototype.param`. -/
def HttpRequest.param (req : HttpRequest) (name : Str) (defaultValue : JVal) : Except Err JVal :=
  if hasOwnProperty req.params name then .ok ((getProp req.params name).getD .undefined)
  else
    match req.bodyParams.hasOwn name with
    | .error e => .error e
    | .ok true => .ok (req.bodyParams.getOwn name)
    | .ok false =>
      match req.query.hasOwn name with
      | .error e => .error e
      | .ok true => .ok (req.query.getOwn name)
      | .ok false => .ok defaultValue

/-- A sample of the library functions in which the text `null` is JSON, as
    it is for `JSON.parse` (used in examples). -/
def nullBodyExt : Ext :=
  ⟨fun s => .str s, fun _ => [], fun s => if s = "null".toList then some .null else none⟩


/-- An argument of `use`: undefined, null, a text, a function, or `other`
    for a value that is none of these and has no method `replace` (a
    number, a boolean). -/
inductive Arg where
  | undefined
  | null
  | text (s : Str)
  | func (h : Handler)
  | other

/-- The default resource to use if no one was given. -/
def DEFAULT_RESOURCE : Str := "/".toList

/-- Supported request methods of the server. -/
def SUPPORTED_METHODS : List (Str × Str) :=
  [("ALL".toList, "ALL".toList), ("GET".toList, "GET".toList), ("HEAD".toList, "HEAD".toList),
   ("POST".toList, "POST".toList), ("PUT".toList, "PUT".toList),
   ("DELETE".toList, "DELETE".toList)]

/-- The method filter `use` registers for the argument `method`
    (`none`: undefined). -/
def methodFilter (method : Option Str) : Str :=
  match method with
  | none => ALL
  | some m => if !hasOwnProperty SUPPORTED_METHODS m then ALL else m

/-- The source's `HujiDynamicServer.prototype.use` on the list
    `this.handlers`, over any behaviour `newRegExp` of the platform's
    `new RegExp(text)` (`none`: it throws): the list afterwards and whether
    the call threw (the constructor of the registration throws when the
    resource has no method `replace` or when `new RegExp` throws on the
    pattern text built from it). -/
def use (newRegExp : Str → Option Regex) (handlers : List RequestHandlerObj)
    (resource requestHandler : Arg) (method : Option Str) : List RequestHandlerObj × Bool :=
  match resource with
  | .null => (handlers, false)
  | .undefined => (handlers, false)
  | _ =>
    let swap : Bool := match requestHandler with
      | .undefined => true
      | _ => false
    let handler := if swap then resource else requestHandler
    let resource := if swap then Arg.text DEFAULT_RESOURCE else resource
    let method := methodFilter method
    match handler with
    | .func h =>
      match resource with
      | .text s =>
        match requestHandlerObjWith newRegExp s h method with
        | some o => (handlers ++ [o], false)
        | none => (handlers, true)
      | _ => (handlers, true)
    | _ => (handlers, false)

/-- The source's `HujiDynamicServer.prototype.get`. -/
def get (newRegExp : Str → Option Regex) (handlers : List RequestHandlerObj)
    (resource requestHandler : Arg) : List RequestHandlerObj × Bool :=
  use newRegExp handlers resource requestHandler (some "GET".toList)

/-- The source's `HujiDynamicServer.prototype.post`. -/
def post (newRegExp : Str → Option Regex) (handlers : List RequestHandlerObj)
    (resource requestHandler : Arg) : List RequestHandlerObj × Bool :=
  use newRegExp handlers resource requestHandler (some "POST".toList)

/-- The source's `HujiDynamicServer.prototype.delete`. -/
def delete (newRegExp : Str → Option Regex) (handlers : List RequestHandlerObj)
    (resource requestHandler : Arg) : List RequestHandlerObj × Bool :=
  use newRegExp handlers resource requestHandler (some "DELETE".toList)

/-- The source's `HujiDynamicServer.prototype.put`. -/
def put (newRegExp : Str → Option Regex) (handlers : List RequestHandlerObj)
    (resource requestHandler : Arg) : List RequestHandlerObj × Bool :=
  use newRegExp handlers resource requestHandler (some "PUT".toList)


/-! ## hujinet.js: the timeout handler of `listen` -/

/-- What `listen` keeps for one connection: the framing state and the two
    flags of the `HujiNet` object that the timeout handler reads (`none`:
    never assigned). -/
structure Listener where
  reader : Reader
  sendSuccess : Option Bool
  recivedRequest : Option Bool

/-- The listener when `listen` returns: the constructor assigns neither flag. -/
def Listener.start : Listener := ⟨init, none, none⟩

/-- Something the listener does that is seen from outside. -/
inductive Step where
  | callback (obj : ReqObj)
  | socketEnd

/-- The error code of a callback step (`none` for a request); `none` for
    the closing of the socket. -/
def Step.tag : Step → Option (Option Nat)
  | .callback obj => some obj.errorCode
  | .socketEnd => none

/-- The timeout handler of `listen`: what it does, in order. -/
def timeoutHandler (l : Listener) : List Step :=
  (if l.sendSuccess = some false ∧ l.recivedRequest = some true then
    [Step.callback (.error NOT_FOUND)] else []) ++ [Step.socketEnd]

/-- The objects that the reader hands to the callback as completed frames
    while a chunk is processed (the object of the size guard is not one). -/
def framesOf (ext : Ext) (st : Reader) (data : Str) : List ReqObj :=
  if st.lineBuffer.length > REQUEST_MAX_LENGTH ∨ data.length > REQUEST_MAX_LENGTH ∨
      st.requestStr.length > REQUEST_MAX_LENGTH then []
  else (feedChars ext st data).2

/-- The data handler of `listen` with the two flags; `respond obj` tells
    whether the callback, called with `obj`, writes a response successfully
    before it returns (`sendResponse` on a writable socket). -/
def dataHandler (ext : Ext) (respond : ReqObj → Bool) (l : Listener) (data : Str) : Listener :=
  { reader := (onData ext l.reader data).1
    sendSuccess := some ((onData ext l.reader data).2.any respond)
    recivedRequest := some (!(framesOf ext l.reader data).isEmpty) }

/-- What happens on a connection between timeouts: a chunk arrives, or a
    response is written successfully after the callback has returned
    (`sendResponse` on a writable socket, the end of a file stream). -/
inductive Ev where
  | data (d : Str)
  | responded

/-- One event. -/
def Listener.step (ext : Ext) (respond : ReqObj → Bool) (l : Listener) : Ev → Listener
  | .data d => dataHandler ext respond l d
  | .responded => { l with sendSuccess := some true }

/-- The listener after a history of events. -/
def Listener.run (ext : Ext) (respond : ReqObj → Bool) (l : Listener) (evs : List Ev) : Listener :=
  evs.foldl (Listener.step ext respond) l


/-- A line with at most one character before its line feed. -/
def ShortLine (short : Str) : Prop := short = ['\n'] ∨ ∃ c, c ≠ '\n' ∧ short = [c, '\n']

/-- No chunk of the sequence trips the size guard of a reader whose line
    buffer holds `held` characters and only grows: every chunk has at most
    8194 characters and arrives while the buffer holds at most 8194. -/
def GuardFree : Nat → List Str → Prop
  | _, [] => True
  | held, d :: ds => held ≤ 8194 ∧ d.length ≤ 8194 ∧ GuardFree (held + d.length) ds


/-- A header name: not empty, without white space and without a colon. -/
def GoodName (name : Str) : Prop :=
  name ≠ [] ∧ ∀ a ∈ name, isSpace a = false ∧ a ≠ ':'

/-- A header value: without line terminators, and not starting with white
    space or a colon. -/
def GoodValue (value : Str) : Prop :=
  (∀ a ∈ value, isLineTerminator a = false) ∧
  (value.head?.all fun b => !isSpace b && b != ':') = true

/-- The header line `Name: value`. -/
def headerLineOf (p : Str × Str) : Str := p.1 ++ ':' :: (' ' :: p.2)

/-- The values of the lines whose name is `name` when compared in lower
    case, in encounter order. -/
def valuesOf (lower : Str → Str) (name : Str) (nv : List (Str × Str)) : List Str :=
  (nv.filter fun p => lower p.1 == name).map Prod.snd

/-- The fold of `addHeaders` on names (already lowercased) and values. -/
def foldHeaders (pairs : List (Str × Str)) (headers : Obj) : Obj :=
  pairs.foldl (fun hs p =>
    setProp hs p.1 (match getProp hs p.1 with
      | some old => old ++ HEADER_VALUES_DELIMITER ++ p.2
      | none => p.2)) headers


/-- The name the constructor reads from a header line, lowercased: cell 1
    of the header-line pattern (`none` when the line is no header line). -/
def headerNameOf (line : Str) : Option Str :=
  (isHeaderLineValid line).map fun m => toLowerCase (m.cellStr 1)


/-- State `y` lies at or after state `x` in the same text, and the
    characters in between satisfy `P`. -/
def AdvP (P : Char → Prop) (x y : MState) : Prop :=
  ∃ w : Str, x.rest = w ++ y.rest ∧ y.idx = x.idx + w.length ∧ ∀ a ∈ w, P a

/-- Every success of the matcher continues from a state reached over
    characters that satisfy `P`. -/
def ForwardP (P : Char → Prop) (m : MState → Cont → Option MState) : Prop :=
  ∀ (x : MState) (c : Cont) (z : MState), m x c = some z → ∃ y, AdvP P x y ∧ c y = some z


/-- The part `\s*([^\s]+)\s*=\s*([^\s]+)` of the body parameter pattern. -/
def PAIR_RE : Regex :=
  .seq (.rep 0 none (.cls false [.space]))
    (.seq (.group 1 (.seq (.rep 1 none (.cls true [.space])) .empty))
      (.seq (.rep 0 none (.cls false [.space]))
        (.seq (.chr '=')
          (.seq (.rep 0 none (.cls false [.space]))
            (.seq (.group 2 (.seq (.rep 1 none (.cls true [.space])) .empty)) .empty)))))

/-- The part `\s*=\s*([^\s]+)` of the body parameter pattern, after the
    key. -/
def PAIR_TAIL_RE : Regex :=
  .seq (.rep 0 none (.cls false [.space]))
    (.seq (.chr '=')
      (.seq (.rep 0 none (.cls false [.space]))
        (.seq (.group 2 (.seq (.rep 1 none (.cls true [.space])) .empty)) .empty)))

/-- A pair `key=value` of a body with the white space before it and the
    white space around its `=`. -/
structure Item where
  before : Str
  key : Str
  keyGap : Str
  valueGap : Str
  value : Str

/-- The text of a pair with the white space before it. -/
def Item.text (i : Item) : Str :=
  i.before ++ (i.key ++ (i.keyGap ++ '=' :: (i.valueGap ++ i.value)))

/-- A word without `=` with the white space after it. -/
structure Plain where
  word : Str
  gap : Str

/-- The text of a word with the white space after it. -/
def Plain.text (p : Plain) : Str := p.word ++ p.gap

/-- What follows a run of pairs and the white space after it: nothing, or
    a word without `=`, white space and a text that does not start with
    `=`. -/
structure Stop where
  word : Str
  gap : Str
  rest : Str

/-- The text of what follows a run of pairs. -/
def Stop.text (t : Stop) : Str := t.word ++ (t.gap ++ t.rest)

/-- A piece of a body between two `&`: white space and words without `=`,
    then a run of pairs `key=value` separated by white space, then white
    space and what follows the run; or a text without `=`. -/
inductive Segment where
  | pairs (lead : Str) (words : List Plain) (first : Item) (more : List Item) (after : Str)
      (stop : Stop)
  | plain (text : Str)

/-- The text of a segment. -/
def Segment.text : Segment → Str
  | .pairs lead words first more after stop =>
    lead ++ ((words.map Plain.text).flatten ++
      (first.text ++ ((more.map Item.text).flatten ++ (after ++ stop.text))))
  | .plain text => text

/-- A word of a pair: not empty, without white space, `=` and `&`. -/
def GoodWord (w : Str) : Prop := w ≠ [] ∧ ∀ a ∈ w, isSpace a = false ∧ a ≠ '=' ∧ a ≠ '&'

/-- A well-formed pair: white space, a key that is a word, white space,
    `=`, white space, and a value that is a word. -/
def Item.Good (i : Item) : Prop :=
  (∀ a ∈ i.before, isSpace a = true) ∧ GoodWord i.key ∧ (∀ a ∈ i.keyGap, isSpace a = true) ∧
  (∀ a ∈ i.valueGap, isSpace a = true) ∧ GoodWord i.value

/-- A word without `=` followed by at least one white space character. -/
def Plain.Good (p : Plain) : Prop :=
  GoodWord p.word ∧ p.gap ≠ [] ∧ ∀ a ∈ p.gap, isSpace a = true

/-- What follows a run of pairs and the white space `after` it: nothing;
    or, after at least one white space character, a word without `=`,
    alone or followed by white space and a text whose first character is
    neither white space nor `=`. -/
def Stop.Good (after : Str) (t : Stop) : Prop :=
  (t.word = [] → t.gap = [] ∧ t.rest = []) ∧ (t.word ≠ [] → after ≠ []) ∧
  (∀ a ∈ t.word, isSpace a = false ∧ a ≠ '=' ∧ a ≠ '&') ∧
  (∀ a ∈ t.gap, isSpace a = true) ∧ (t.gap = [] → t.rest = []) ∧
  (t.rest.head?.all fun b => !isSpace b && b != '=') = true ∧ (∀ a ∈ t.rest, a ≠ '&')

/-- A well-formed segment: white space, words without `=` each followed by
    white space, a pair, further pairs each after at least one white space
    character, white space, and what follows the run; or a text without
    `=` and `&`. -/
def Segment.Good : Segment → Prop
  | .pairs lead words first more after stop =>
    (∀ a ∈ lead, isSpace a = true) ∧ (∀ p ∈ words, p.Good) ∧ first.Good ∧
    (∀ i ∈ more, i.Good ∧ i.before ≠ []) ∧ (∀ a ∈ after, isSpace a = true) ∧ stop.Good after
  | .plain text => ∀ a ∈ text, a ≠ '=' ∧ a ≠ '&'

/-- The last of a pair and the pairs after it. -/
def lastItem : Item → List Item → Item
  | i, [] => i
  | _, j :: js => lastItem j js

/-- The last pair of the run of pairs of a segment, if it holds one. -/
def Segment.lastPair : Segment → Option (Str × Str)
  | .pairs _ _ first more _ _ => some ((lastItem first more).key, (lastItem first more).value)
  | .plain _ => none


/-- The route `/:n1/.../:nk` of the given parameter names. -/
def routeOf (names : List Str) : Str := (names.map fun n => '/' :: ':' :: n).flatten

/-- The path `/v1/.../vk` of the given values. -/
def pathOfValues (vals : List Str) : Str := (vals.map fun v => '/' :: v).flatten

/-- The regular expression of `j` segments `/([^/]+)` whose groups are
    numbered from `i`, followed by `tail`. -/
def routeSegs (i : Nat) : Nat → Regex → Regex
  | 0, tail => tail
  | j + 1, tail =>
    .seq (.chr '/')
      (.seq (.group i (.seq (.rep 1 none (.cls true [.chr '/'])) .empty)) (routeSegs (i + 1) j tail))

/-- The captures after the groups `i, i+1, ...` have captured the values. -/
def capsFrom (i : Nat) : List Str → Caps → Caps
  | [], caps => caps
  | v :: vs, caps => capsFrom (i + 1) vs (setCap i v caps)

/-- The tokens of the pattern text `/([^/]+)`. -/
def SEGMENT_TOKS : List Tok :=
  [.atom (.chr '/'), .lparen true, .atom (.cls true [.chr '/']), .quant 1 none, .rparen]


/-- The terms of the parser (latest first) after `k` segments `/([^/]+)`
    whose groups are numbered from `i`. -/
def segTerms (i : Nat) : Nat → List Regex → List Regex
  | 0, terms => terms
  | k + 1, terms =>
    segTerms (i + 1) k
      (.group i (.seq (.rep 1 none (.cls true [.chr '/'])) .empty) :: .chr '/' :: terms)


/-! ## hujinet.js: chunks of bytes -/

/-- The bytes of a chunk of data (a `Buffer`). -/
abbrev Bytes := List UInt8

/-- The replacement character U+FFFD. -/
def REPLACEMENT : Char := Char.ofNat 0xFFFD

/-- The state of the UTF-8 decoder inside a sequence of several bytes: the
    bits of the code point read so far, the number of bytes still needed and
    the bounds of the next byte. -/
structure Utf8State where
  codePoint : Nat
  needed : Nat
  lower : Nat
  upper : Nat
  deriving DecidableEq, Repr

/-- The decoder between two characters. -/
def utf8Start : Utf8State := ⟨0, 0, 0x80, 0xBF⟩

/-- The units of a JavaScript string for a decoded code point: the
    character itself below U+10000, and a high and a low surrogate from
    U+10000 on.  `Char` has no surrogates: the surrogate unit `u` is written
    as the character `0x100000 + u`. -/
def unitsOf (cp : Nat) : Str :=
  if cp < 0x10000 then [Char.ofNat cp]
  else [Char.ofNat (0x100000 + 0xD800 + (cp - 0x10000) / 0x400),
        Char.ofNat (0x100000 + 0xDC00 + (cp - 0x10000) % 0x400)]

/-- The decoder on a byte that starts a character: the new state and the
    units written. -/
def utf8Lead (b : Nat) : Utf8State × Str :=
  if b ≤ 0x7F then (utf8Start, [Char.ofNat b])
  else if 0xC2 ≤ b ∧ b ≤ 0xDF then (⟨b - 0xC0, 1, 0x80, 0xBF⟩, [])
  else if 0xE0 ≤ b ∧ b ≤ 0xEF then
    (⟨b - 0xE0, 2, if b = 0xE0 then 0xA0 else 0x80, if b = 0xED then 0x9F else 0xBF⟩, [])
  else if 0xF0 ≤ b ∧ b ≤ 0xF4 then
    (⟨b - 0xF0, 3, if b = 0xF0 then 0x90 else 0x80, if b = 0xF4 then 0x8F else 0xBF⟩, [])
  else (utf8Start, [REPLACEMENT])

/-- One step of the UTF-8 decoder of `data.toString()`: an ill-formed
    sequence is written as U+FFFD and the byte that ended it is read again
    as the start of a character. -/
def utf8Step (st : Utf8State) (b : Nat) : Utf8State × Str :=
  if st.needed = 0 then utf8Lead b
  else if b < st.lower ∨ st.upper < b then ((utf8Lead b).1, REPLACEMENT :: (utf8Lead b).2)
  else if st.needed = 1 then (utf8Start, unitsOf (st.codePoint * 64 + (b - 0x80)))
  else (⟨st.codePoint * 64 + (b - 0x80), st.needed - 1, 0x80, 0xBF⟩, [])

/-- The decoder over the bytes of a chunk: the state at the end of the
    chunk and the units written. -/
def utf8Run : Utf8State → Bytes → Utf8State × Str
  | st, [] => (st, [])
  | st, b :: bs =>
    let r := utf8Step st b.toNat
    let r2 := utf8Run r.1 bs
    (r2.1, r.2 ++ r2.2)

/-- Does the chunk end inside a character of several bytes? -/
def utf8Cut (data : Bytes) : Bool := (utf8Run utf8Start data).1.needed != 0

/-- The source's `data.toString()` on a `Buffer`: the text the bytes encode
    in UTF-8; a sequence that the end of the chunk cuts short is written as
    U+FFFD. -/
def utf8Decode (data : Bytes) : Str :=
  (utf8Run utf8Start data).2 ++ (if utf8Cut data then [REPLACEMENT] else [])

/-- The data handler of `listen` on one chunk as the socket delivers it, a
    `Buffer` (no encoding is set on the socket): the size guard, which tests
    the number of bytes of the chunk, then the characters of the text of the
    chunk, which is decoded on its own. -/
def onDataBuffer (ext : Ext) (st : Reader) (data : Bytes) : Reader × List ReqObj :=
  if st.lineBuffer.length > REQUEST_MAX_LENGTH ∨ data.length > REQUEST_MAX_LENGTH ∨
      st.requestStr.length > REQUEST_MAX_LENGTH then
    (init, [.error URI_TOO_LONG])
  else feedChars ext st (utf8Decode data)

/-- Feeds a sequence of chunks of bytes, collecting the callback
    invocations. -/
def feedBuffers (ext : Ext) : Reader → List Bytes → Reader × List ReqObj
  | st, [] => (st, [])
  | st, d :: ds =>
    let r := onDataBuffer ext st d
    let r2 := feedBuffers ext r.1 ds
    (r2.1, r.2 ++ r2.2)

/-- The size guard at the start of the data handler: does it fire for the
    reader state and the chunk? -/
abbrev guardFires (st : Reader) (data : Bytes) : Prop :=
  st.lineBuffer.length > REQUEST_MAX_LENGTH ∨ data.length > REQUEST_MAX_LENGTH ∨
    st.requestStr.length > REQUEST_MAX_LENGTH

/-- The bytes of a text of single-byte characters (used in examples). -/
def asciiBytes (s : Str) : Bytes := s.map fun c => c.toNat.toUInt8

/-! # Properties -/

set_option maxRecDepth 100000

/-! ## Chunks of bytes -/

/-- One for a decoder inside a character, zero between two characters. -/
theorem utf8Lead_bound (b : Nat) :
    (utf8Lead b).2.length + (if (utf8Lead b).1.needed = 0 then 0 else 1) ≤ 1 := by
  unfold utf8Lead
  split_ifs <;> simp_all [utf8Start]

theorem unitsOf_length (cp : Nat) : (unitsOf cp).length ≤ 2 := by
  unfold unitsOf
  split <;> simp

theorem utf8Step_bound (st : Utf8State) (b : Nat) :
    (utf8Step st b).2.length + (if (utf8Step st b).1.needed = 0 then 0 else 1) ≤
      1 + (if st.needed = 0 then 0 else 1) := by
  unfold utf8Step
  by_cases h0 : st.needed = 0
  · rw [if_pos h0, if_pos h0]
    exact utf8Lead_bound b
  · rw [if_neg h0, if_neg h0]
    by_cases hb : b < st.lower ∨ st.upper < b
    · rw [if_pos hb]
      have := utf8Lead_bound b
      simp only [List.length_cons]
      omega
    · rw [if_neg hb]
      by_cases h1 : st.needed = 1
      · rw [if_pos h1]
        have := unitsOf_length (st.codePoint * 64 + (b - 0x80))
        simp only [utf8Start, if_true]
        omega
      · rw [if_neg h1]
        have : ¬ (st.needed - 1 = 0) := by omega
        simp [this]

theorem utf8Run_bound (bs : Bytes) : ∀ st : Utf8State,
    (utf8Run st bs).2.length + (if (utf8Run st bs).1.needed = 0 then 0 else 1) ≤
      bs.length + (if st.needed = 0 then 0 else 1) := by
  induction bs with
  | nil => intro st; simp [utf8Run]
  | cons b bs ih =>
    intro st
    have e : utf8Run st (b :: bs) =
        ((utf8Run (utf8Step st b.toNat).1 bs).1,
         (utf8Step st b.toNat).2 ++ (utf8Run (utf8Step st b.toNat).1 bs).2) := rfl
    rw [e]
    have h1 := utf8Step_bound st b.toNat
    have h2 := ih (utf8Step st b.toNat).1
    simp only [List.length_append, List.length_cons]
    omega

/-- The text of a chunk has at most as many characters as the chunk has
    bytes. -/
theorem utf8Decode_length (data : Bytes) : (utf8Decode data).length ≤ data.length := by
  unfold utf8Decode utf8Cut
  have h := utf8Run_bound data utf8Start
  simp only [utf8Start, if_true, Nat.add_zero] at h
  by_cases hn : (utf8Run ⟨0, 0, 0x80, 0xBF⟩ data).1.needed = 0
  · simp only [utf8Start, hn, if_true, bne_self_eq_false, Bool.false_eq_true, if_false,
      List.append_nil, Nat.add_zero] at h ⊢
    exact h
  · have hb : ((utf8Run ⟨0, 0, 0x80, 0xBF⟩ data).1.needed != 0) = true := by
      simpa using hn
    simp only [utf8Start, hn, if_false, hb, if_true, List.length_append, List.length_cons,
      List.length_nil] at h ⊢
    omega

theorem utf8Run_append (a b : Bytes) : ∀ st : Utf8State,
    utf8Run st (a ++ b) =
      ((utf8Run (utf8Run st a).1 b).1, (utf8Run st a).2 ++ (utf8Run (utf8Run st a).1 b).2) := by
  induction a with
  | nil => intro st; simp [utf8Run]
  | cons x xs ih =>
    intro st
    have e1 : utf8Run st (x :: xs ++ b) =
        ((utf8Run (utf8Step st x.toNat).1 (xs ++ b)).1,
         (utf8Step st x.toNat).2 ++ (utf8Run (utf8Step st x.toNat).1 (xs ++ b)).2) := rfl
    have e2 : utf8Run st (x :: xs) =
        ((utf8Run (utf8Step st x.toNat).1 xs).1,
         (utf8Step st x.toNat).2 ++ (utf8Run (utf8Step st x.toNat).1 xs).2) := rfl
    rw [e1, e2, ih]
    simp [List.append_assoc]

theorem utf8Lead_start (b : Nat) (h : (utf8Lead b).1.needed = 0) : (utf8Lead b).1 = utf8Start := by
  unfold utf8Lead at h ⊢
  split_ifs at h ⊢ <;> rfl

theorem utf8Step_start (st : Utf8State) (b : Nat) (h : (utf8Step st b).1.needed = 0) :
    (utf8Step st b).1 = utf8Start := by
  unfold utf8Step at h ⊢
  split_ifs at h ⊢
  · exact utf8Lead_start b h
  · exact utf8Lead_start b h
  · rfl
  · simp only at h
    omega

theorem utf8Run_start (bs : Bytes) : ∀ st : Utf8State, (st.needed = 0 → st = utf8Start) →
    (utf8Run st bs).1.needed = 0 → (utf8Run st bs).1 = utf8Start := by
  induction bs with
  | nil => intro st hst h; exact hst h
  | cons b bs ih =>
    intro st _ h
    exact ih (utf8Step st b.toNat).1 (utf8Step_start st b.toNat) h

/-- A chunk that does not end inside a character of several bytes is
    decoded as it is within a longer chunk. -/
theorem utf8Decode_append (a b : Bytes) (h : utf8Cut a = false) :
    utf8Decode (a ++ b) = utf8Decode a ++ utf8Decode b := by
  have hn : (utf8Run utf8Start a).1.needed = 0 := by
    unfold utf8Cut at h
    simpa using h
  have hs := utf8Run_start a utf8Start (fun _ => rfl) hn
  unfold utf8Decode utf8Cut
  rw [utf8Run_append]
  have h0 : (utf8Start.needed != 0) = false := rfl
  simp only [hs, hn, h0, bne_self_eq_false, Bool.false_eq_true, if_false, List.append_nil,
    List.append_assoc, List.nil_append]

theorem utf8Run_ascii (a : Bytes) (h : ∀ x ∈ a, x.toNat < 128) :
    utf8Run utf8Start a = (utf8Start, a.map fun x => Char.ofNat x.toNat) := by
  induction a with
  | nil => rfl
  | cons x xs ih =>
    have hx : x.toNat ≤ 0x7F := by
      have := h x (List.mem_cons_self _ _)
      omega
    have e : utf8Run utf8Start (x :: xs) =
        ((utf8Run (utf8Step utf8Start x.toNat).1 xs).1,
         (utf8Step utf8Start x.toNat).2 ++ (utf8Run (utf8Step utf8Start x.toNat).1 xs).2) := rfl
    have hstep : utf8Step utf8Start x.toNat = (utf8Start, [Char.ofNat x.toNat]) := by
      unfold utf8Step utf8Lead
      simp [utf8Start, hx]
    rw [e, hstep, ih (fun y hy => h y (List.mem_cons_of_mem _ hy))]
    rfl

/-- A chunk of single-byte characters: its text is its bytes, and it does
    not end inside a character. -/
theorem utf8Decode_ascii (a : Bytes) (h : ∀ x ∈ a, x.toNat < 128) :
    utf8Decode a = (a.map fun x => Char.ofNat x.toNat) ∧ utf8Cut a = false := by
  unfold utf8Decode utf8Cut
  rw [utf8Run_ascii a h]
  simp [utf8Start]

theorem decoded_length_le (bufs : List Bytes) :
    ((bufs.map utf8Decode).flatten).length ≤ bufs.flatten.length := by
  induction bufs with
  | nil => simp
  | cons d ds ih =>
    have := utf8Decode_length d
    simp only [List.map_cons, List.flatten_cons, List.length_append]
    omega

theorem onDataBuffer_eq_onData (ext : Ext) (st : Reader) (data : Bytes)
    (h : data.length ≤ 8194) : onDataBuffer ext st data = onData ext st (utf8Decode data) := by
  unfold onDataBuffer onData
  have h2 := utf8Decode_length data
  by_cases hg : st.lineBuffer.length > REQUEST_MAX_LENGTH ∨
      st.requestStr.length > REQUEST_MAX_LENGTH
  · rw [if_pos (by tauto), if_pos (by tauto)]
  · have h3 : ¬ (st.lineBuffer.length > REQUEST_MAX_LENGTH ∨ data.length > REQUEST_MAX_LENGTH ∨
        st.requestStr.length > REQUEST_MAX_LENGTH) := by
      simp only [REQUEST_MAX_LENGTH] at hg ⊢
      omega
    have h4 : ¬ (st.lineBuffer.length > REQUEST_MAX_LENGTH ∨
        (utf8Decode data).length > REQUEST_MAX_LENGTH ∨
        st.requestStr.length > REQUEST_MAX_LENGTH) := by
      simp only [REQUEST_MAX_LENGTH] at hg ⊢
      omega
    rw [if_neg h3, if_neg h4]

/-- Chunks of at most 8194 bytes are handled as their texts. -/
theorem feedBuffers_eq_feedChunks (ext : Ext) (bufs : List Bytes)
    (h : ∀ d ∈ bufs, d.length ≤ 8194) : ∀ st : Reader,
    feedBuffers ext st bufs = feedChunks ext st (bufs.map utf8Decode) := by
  induction bufs with
  | nil => intro st; rfl
  | cons d ds ih =>
    intro st
    have e1 : feedBuffers ext st (d :: ds) =
        ((feedBuffers ext (onDataBuffer ext st d).1 ds).1,
         (onDataBuffer ext st d).2 ++ (feedBuffers ext (onDataBuffer ext st d).1 ds).2) := rfl
    have e2 : feedChunks ext st ((d :: ds).map utf8Decode) =
        ((feedChunks ext (onData ext st (utf8Decode d)).1 (ds.map utf8Decode)).1,
         (onData ext st (utf8Decode d)).2 ++
           (feedChunks ext (onData ext st (utf8Decode d)).1 (ds.map utf8Decode)).2) := rfl
    rw [e1, e2, onDataBuffer_eq_onData ext st d (h d (List.mem_cons_self _ _)),
      ih (fun x hx => h x (List.mem_cons_of_mem _ hx))]

theorem chunk_length_le (bufs : List Bytes) (n : Nat) (h : bufs.flatten.length ≤ n) :
    ∀ d ∈ bufs, d.length ≤ n := by
  induction bufs with
  | nil => intro d hd; cases hd
  | cons x xs ih =>
    intro d hd
    simp only [List.flatten_cons, List.length_append] at h
    rcases List.mem_cons.mp hd with rfl | hd
    · omega
    · exact ih (by omega) d hd

/-! ## The matcher only moves forward -/

theorem Adv.refl (x : MState) : Adv x x := ⟨[], by simp, by simp⟩

theorem Adv.trans {x y z : MState} (h1 : Adv x y) (h2 : Adv y z) : Adv x z := by
  obtain ⟨w1, hr1, hi1⟩ := h1
  obtain ⟨w2, hr2, hi2⟩ := h2
  refine ⟨w1 ++ w2, ?_, ?_⟩
  · rw [hr1, hr2, List.append_assoc]
  · rw [hi2, hi1, List.length_append, Nat.add_assoc]

theorem Adv.of_eq {x x2 y : MState} (hi : x2.idx = x.idx) (hr : x2.rest = x.rest) (h : Adv x2 y) :
    Adv x y := by
  obtain ⟨w, h1, h2⟩ := h
  exact ⟨w, by rw [← hr, h1], by rw [h2, hi]⟩

theorem Adv.length_le {x y : MState} (h : Adv x y) : y.rest.length ≤ x.rest.length := by
  obtain ⟨w, h1, _⟩ := h
  rw [h1, List.length_append]
  omega

theorem Adv.idx_le {x y : MState} (h : Adv x y) : x.idx ≤ y.idx := by
  obtain ⟨w, _, h2⟩ := h
  omega

theorem Adv.length_lt {x y : MState} (h : Adv x y) (hne : y.idx ≠ x.idx) :
    y.rest.length < x.rest.length := by
  obtain ⟨w, h1, h2⟩ := h
  rw [h1, List.length_append]
  have : w.length ≠ 0 := fun h0 => hne (by omega)
  omega

theorem stepChar_forward (p : Char → Bool) : Forward (stepChar p) := by
  intro x c z h
  unfold stepChar at h
  split at h
  · rename_i d ds hrest
    split at h
    · exact ⟨_, ⟨[d], by simp [hrest], by simp⟩, h⟩
    · cases h
  · cases h

theorem repeatMatcher_forward (m : MState → Cont → Option MState) (gs : List Nat)
    (hm : Forward m) (fuel : Nat) :
    ∀ (min : Nat) (max : Option Nat), Forward (repeatMatcher m gs fuel min max) := by
  induction fuel with
  | zero => intro min max x c z h; simp [repeatMatcher] at h
  | succ fuel ih =>
    intro min max x c z h
    unfold repeatMatcher at h
    split at h
    · exact ⟨x, Adv.refl x, h⟩
    · simp only at h
      have key : ∀ z, m { x with caps := clearCaps gs x.caps }
          (fun y => if min = 0 ∧ y.idx = x.idx then none
            else repeatMatcher m gs fuel (min - 1) (max.map fun n => n - 1) y c) = some z →
          ∃ y, Adv x y ∧ c y = some z := by
        intro z hz
        obtain ⟨y, hy, hc⟩ := hm _ _ _ hz
        have hy : Adv x y := Adv.of_eq rfl rfl hy
        split at hc
        · cases hc
        · obtain ⟨y2, hy2, hc2⟩ := ih _ _ _ _ _ hc
          exact ⟨y2, hy.trans hy2, hc2⟩
      split at h
      · exact key z h
      · split at h
        · rename_i z2 hz2
          cases h
          exact key _ hz2
        · exact ⟨x, Adv.refl x, h⟩

theorem run_forward (r : Regex) : Forward r.run := by
  induction r with
  | empty => intro x c z h; exact ⟨x, Adv.refl x, h⟩
  | chr d => intro x c z h; exact stepChar_forward _ x c z h
  | dot => intro x c z h; exact stepChar_forward _ x c z h
  | cls neg items => intro x c z h; exact stepChar_forward _ x c z h
  | bol =>
    intro x c z h
    simp only [Regex.run] at h
    split at h
    · exact ⟨x, Adv.refl x, h⟩
    · cases h
  | eol =>
    intro x c z h
    simp only [Regex.run] at h
    split at h
    · exact ⟨x, Adv.refl x, h⟩
    · cases h
  | seq a b iha ihb =>
    intro x c z h
    simp only [Regex.run] at h
    obtain ⟨y, hy, hc⟩ := iha _ _ _ h
    obtain ⟨y2, hy2, hc2⟩ := ihb _ _ _ hc
    exact ⟨y2, hy.trans hy2, hc2⟩
  | alt a b iha ihb =>
    intro x c z h
    simp only [Regex.run] at h
    split at h
    · rename_i z2 hz2
      cases h
      exact iha _ _ _ hz2
    · exact ihb _ _ _ h
  | group i r ih =>
    intro x c z h
    simp only [Regex.run] at h
    obtain ⟨y, hy, hc⟩ := ih _ _ _ h
    exact ⟨_, Adv.of_eq rfl rfl (hy.trans ⟨[], by simp, by simp⟩), hc⟩
  | rep min max r ih =>
    intro x c z h
    simp only [Regex.run] at h
    exact repeatMatcher_forward _ _ ih _ _ _ x c z h

/-! ## Objects as mappings -/

theorem hasOwnProperty_iff_getProp_isSome {α : Type} (o : List (Str × α)) (name : Str) :
    hasOwnProperty o name = (getProp o name).isSome := by
  induction o with
  | nil => rfl
  | cons p ps ih =>
    unfold hasOwnProperty getProp at *
    by_cases hp : (p.1 == name) = true
    · simp [List.find?, hp]
    · simp only [Bool.not_eq_true] at hp
      simp [List.find?, hp, ih]

theorem shouldDisconnect_eq_false_iff (headers : Obj) (httpVer : Str) :
    shouldDisconnect headers httpVer = false ↔
      getProp headers CONNECTION_HEADER = some CONNECTION_KEEP_ALIVE_VAL := by
  unfold shouldDisconnect
  rw [hasOwnProperty_iff_getProp_isSome]
  cases hg : getProp headers CONNECTION_HEADER with
  | none => simp
  | some v =>
    by_cases h1 : v = CONNECTION_CLOSE_VAL
    · subst h1
      simp
      decide
    · by_cases h2 : v = CONNECTION_KEEP_ALIVE_VAL
      · subst h2
        simp
        decide
      · simp [h1, h2]

theorem httpRequest_shouldDisconnect (ext : Ext) (lines : List Str) (body : Str) (req : HttpRequest)
    (h : httpRequest ext lines body = .ok req) :
    req.shouldDisconnect = shouldDisconnect req.headers req.httpVer := by
  unfold httpRequest at h
  split at h
  · cases h
  · simp only at h
    split at h
    · cases h
    · cases h
      rfl

/-- C7: for every constructed request, `shouldDisconnect` is false if and
    only if the request has a Connection header whose value is exactly
    `keep-alive`; in every other case it is true. -/
theorem shouldDisconnect_false_iff_keep_alive (ext : Ext) (lines : List Str) (body : Str)
    (req : HttpRequest) (h : httpRequest ext lines body = .ok req) :
    (req.shouldDisconnect = false ↔
      getProp req.headers CONNECTION_HEADER = some CONNECTION_KEEP_ALIVE_VAL) ∧
    (getProp req.headers CONNECTION_HEADER ≠ some CONNECTION_KEEP_ALIVE_VAL →
      req.shouldDisconnect = true) := by
  rw [httpRequest_shouldDisconnect ext lines body req h]
  refine ⟨shouldDisconnect_eq_false_iff _ _, fun hne => ?_⟩
  cases hs : shouldDisconnect req.headers req.httpVer with
  | true => rfl
  | false => exact absurd ((shouldDisconnect_eq_false_iff _ _).mp hs) hne


theorem shouldDisconnect_false_iff_keep_alive_witness :
    httpRequest sampleExt ["GET / HTTP/1.0".toList, "Connection: keep-alive".toList] [] =
      .ok keepAliveRequest ∧
    ((keepAliveRequest.shouldDisconnect = false ↔
      getProp keepAliveRequest.headers CONNECTION_HEADER = some CONNECTION_KEEP_ALIVE_VAL) ∧
    (getProp keepAliveRequest.headers CONNECTION_HEADER ≠ some CONNECTION_KEEP_ALIVE_VAL →
      keepAliveRequest.shouldDisconnect = true)) :=
  ⟨by rfl, shouldDisconnect_false_iff_keep_alive sampleExt
    ["GET / HTTP/1.0".toList, "Connection: keep-alive".toList] [] keepAliveRequest (by rfl)⟩

/-! ## The connection writer and the wire format -/

theorem closesAfter_eq (r : Response) (d : Bool) :
    closesAfter r d =
      (r.error || (d || (match r.statusCode with
        | some code => disconnectErrorCode code
        | none => false))) := by
  unfold closesAfter disconnectErrorCode
  cases r.error <;> cases d <;> cases r.statusCode <;> simp
  rename_i c
  simp only [List.contains, List.elem, Bool.or_assoc, Bool.or_false]
  rfl

theorem sendResponse_writable (n : Net) (r : Response) (d : Bool) (h : n.writable = true) :
    sendResponse n r d =
      { n with ops := n.ops ++ [if closesAfter r d then SockOp.endWith (stringify r)
                                else SockOp.write (stringify r)],
               writable := !closesAfter r d,
               sendSuccess := some true } := by
  rw [closesAfter_eq]
  unfold sendResponse
  simp only [h, Bool.not_true, Bool.false_eq_true, if_false]
  cases he : r.error
  · cases hd : (d || (match r.statusCode with
        | some code => disconnectErrorCode code
        | none => false))
    · simp [Net.socketWrite, h]
    · simp [Net.socketEnd]
  · simp [Net.socketEnd]

/-- C11: on a connection that is not writable `sendResponse` changes
    nothing (nothing written, nothing closed, no sent response recorded);
    on a writable connection it performs exactly one socket operation with
    the serialized response, which closes the connection if and only if
    the response is marked error, or `d` is true, or the status code is one
    of 404, 415, 403, 500, 414; so a non-error 200 or 400 response with `d`
    false leaves the connection open. -/
theorem sendResponse_writes_once_and_closes_iff (n : Net) (r : Response) (d : Bool) :
    (n.writable = false → sendResponse n r d = n) ∧
    (n.writable = true →
      (sendResponse n r d).ops =
        n.ops ++ [if closesAfter r d then SockOp.endWith (stringify r) else SockOp.write (stringify r)] ∧
      ((sendResponse n r d).writable = false ↔ closesAfter r d = true) ∧
      (sendResponse n r d).sendSuccess = some true) ∧
    (r.error = false → (r.statusCode = some 200 ∨ r.statusCode = some 400) →
      closesAfter r false = false) := by
  refine ⟨?_, ?_, ?_⟩
  · intro h
    simp [sendResponse, h]
  · intro h
    rw [sendResponse_writable n r d h]
    refine ⟨rfl, ?_, rfl⟩
    cases closesAfter r d <;> simp
  · intro he hs
    unfold closesAfter
    rcases hs with hs | hs <;> simp [he, hs]

theorem foldl_append_acc {α : Type} (f : α → Str) (l : List α) (acc : Str) :
    l.foldl (fun a x => a ++ f x) acc = acc ++ (l.map f).flatten := by
  induction l generalizing acc with
  | nil => simp
  | cons x xs ih => simp [ih, List.append_assoc]

theorem headerLinesStr_eq (headers : List (Str × JVal)) :
    headerLinesStr headers =
      ((ownEntries headers).map fun h =>
        h.1 ++ ": ".toList ++ h.2.toStr ++ "\r\n".toList).flatten := by
  unfold headerLinesStr
  have := foldl_append_acc (fun h : Str × JVal => h.1 ++ ": ".toList ++ h.2.toStr ++ "\r\n".toList)
    (ownEntries headers) []
  simp only [List.nil_append] at this
  rw [← this]
  congr 1
  funext acc h
  simp [headerDelimiter, STRINGIFY_LINE_BREAK, List.append_assoc]

theorem cookieLineStr_eq (c : Cookie) :
    cookieLineStr c = "Set-Cookie: ".toList ++ c.name ++ "=".toList ++ c.value ++
      ((ownEntries c.options).map fun o =>
        "; ".toList ++ o.1 ++ "=".toList ++ o.2).flatten ++ "\r\n".toList := by
  unfold cookieLineStr
  have := foldl_append_acc (fun o : Str × Str => "; ".toList ++ o.1 ++ "=".toList ++ o.2)
    (ownEntries c.options)
    ("Set-Cookie".toList ++ headerDelimiter ++ " ".toList ++ c.name ++ "=".toList ++ c.value)
  have h2 : (fun (acc : Str) (o : Str × Str) => acc ++ "; ".toList ++ o.1 ++ "=".toList ++ o.2) =
      (fun a x => a ++ ("; ".toList ++ x.1 ++ "=".toList ++ x.2)) := by
    funext acc o
    simp [List.append_assoc]
  rw [h2, this]
  simp [headerDelimiter, STRINGIFY_LINE_BREAK, List.append_assoc]

theorem stringify_eq_wireFormat (r : Response) : stringify r = wireFormat r.inKeyOrder := by
  unfold stringify wireFormat Response.inKeyOrder
  simp only [foldl_append_acc, headerLinesStr_eq]
  have hc : (r.cookies.map cookieLineStr) = r.cookies.map fun c =>
      "Set-Cookie: ".toList ++ c.name ++ "=".toList ++ c.value ++
      ((ownEntries c.options).map fun o =>
        "; ".toList ++ o.1 ++ "=".toList ++ o.2).flatten ++ "\r\n".toList := by
    apply List.map_congr_left
    intro c _
    exact cookieLineStr_eq c
  rw [hc]
  cases r.body <;> simp [STRINGIFY_LINE_BREAK, List.append_assoc, Function.comp_def]

theorem insertByIndex_mem {α : Type} (i : Nat) (e : Str × α) (l : List (Nat × (Str × α)))
    (x : Nat × (Str × α)) : x ∈ insertByIndex i e l ↔ x = (i, e) ∨ x ∈ l := by
  induction l with
  | nil => simp [insertByIndex]
  | cons q rest ih =>
    unfold insertByIndex
    split
    · simp
    · simp only [List.mem_cons, ih]
      tauto

theorem ownEntries_self {α : Type} (o : List (Str × α))
    (h : ∀ e ∈ o, arrayIndex e.1 = none) : ownEntries o = o := by
  unfold ownEntries
  have h1 : ∀ (l : List (Str × α)) (acc : List (Nat × (Str × α))),
      (∀ e ∈ l, arrayIndex e.1 = none) →
      l.foldl (fun acc e =>
        match arrayIndex e.1 with
        | some i => insertByIndex i e acc
        | none => acc) acc = acc := by
    intro l
    induction l with
    | nil => intro acc _; rfl
    | cons e es ih =>
      intro acc hl
      rw [List.foldl_cons, hl e (List.mem_cons_self _ _)]
      exact ih acc (fun x hx => hl x (List.mem_cons_of_mem _ hx))
  rw [h1 o [] h]
  simp only [List.map_nil, List.nil_append]
  apply List.filter_eq_self.mpr
  intro e he
  rw [h e he]
  rfl

theorem mem_ownEntries {α : Type} (o : List (Str × α)) (x : Str × α) :
    x ∈ ownEntries o ↔ x ∈ o := by
  unfold ownEntries
  have h1 : ∀ (l : List (Str × α)) (acc : List (Nat × (Str × α))) (y : Nat × (Str × α)),
      y ∈ l.foldl (fun acc e =>
        match arrayIndex e.1 with
        | some i => insertByIndex i e acc
        | none => acc) acc ↔ y ∈ acc ∨ (y.2 ∈ l ∧ arrayIndex y.2.1 = some y.1) := by
    intro l
    induction l with
    | nil => intro acc y; simp
    | cons e es ih =>
      intro acc y
      rw [List.foldl_cons, ih]
      cases he : arrayIndex e.1 with
      | none =>
        simp only [List.mem_cons]
        constructor
        · rintro (h | ⟨h, h2⟩)
          · exact Or.inl h
          · exact Or.inr ⟨Or.inr h, h2⟩
        · rintro (h | ⟨h | h, h2⟩)
          · exact Or.inl h
          · rw [h, he] at h2
            cases h2
          · exact Or.inr ⟨h, h2⟩
      | some i =>
        simp only [insertByIndex_mem, List.mem_cons]
        constructor
        · rintro ((h | h) | ⟨h, h2⟩)
          · refine Or.inr ⟨Or.inl ?_, ?_⟩
            · rw [h]
            · rw [h]
              exact he
          · exact Or.inl h
          · exact Or.inr ⟨Or.inr h, h2⟩
        · rintro (h | ⟨h | h, h2⟩)
          · exact Or.inl (Or.inr h)
          · refine Or.inl (Or.inl ?_)
            rw [h, he] at h2
            cases y with
            | mk y1 y2 =>
              simp only at h h2
              rw [h, ← Option.some.inj h2]
          · exact Or.inr ⟨h, h2⟩
  rw [List.mem_append, List.mem_map, List.mem_filter]
  constructor
  · rintro (⟨y, hy, rfl⟩ | ⟨h, _⟩)
    · rcases (h1 o [] y).mp hy with h | ⟨h, _⟩
      · cases h
      · exact h
    · exact h
  · intro hx
    cases hi : arrayIndex x.1 with
    | none => exact Or.inr ⟨hx, by simp⟩
    | some i => exact Or.inl ⟨(i, x), (h1 o [] (i, x)).mpr (Or.inr ⟨hx, hi⟩), rfl⟩

theorem inKeyOrder_self (r : Response) (hh : ∀ h ∈ r.headers, arrayIndex h.1 = none)
    (hc : ∀ c ∈ r.cookies, ∀ o ∈ c.options, arrayIndex o.1 = none) : r.inKeyOrder = r := by
  unfold Response.inKeyOrder
  rw [ownEntries_self r.headers hh]
  have : (r.cookies.map fun c => { c with options := ownEntries c.options }) = r.cookies := by
    conv => rhs; rw [← List.map_id r.cookies]
    apply List.map_congr_left
    intro c hcm
    rw [ownEntries_self c.options (hc c hcm)]
    rfl
  rw [this]

/-- C12 (amended): `stringify` returns exactly the status line
    `HTTP/version status` and a line break, one line `name: value` per
    header in the order in which `Object.keys` lists the names (the names
    that are array indices in ascending order, then the other names in
    insertion order), one `Set-Cookie` line per cookie (with
    `; option=value` for each option, in the same order of the option
    names) in the order the cookies were added, an empty line, and the body
    verbatim (nothing when the response has no body); when no header name
    and no option name is an array index this is the wire format with the
    headers in insertion order; after `status(code)` with one of the seven
    known codes the status text is `code message`. -/
theorem stringify_wire_format (r : Response) :
    stringify r = wireFormat r.inKeyOrder ∧
    ((∀ h ∈ r.headers, arrayIndex h.1 = none) →
      (∀ c ∈ r.cookies, ∀ o ∈ c.options, arrayIndex o.1 = none) → stringify r = wireFormat r) ∧
    (r.body = .undefined →
      stringify r = stringify { r with body := .str [] }) ∧
    (∀ s : Str, r.body = .str s → ∃ head : Str, stringify r = head ++ "\r\n".toList ++ s) ∧
    (∀ code msg, (code, msg) ∈ KNOWN_STATUS →
      (r.status code).statusCode = some code ∧
      (r.status code).statusMsg = some (natStr code ++ " ".toList ++ msg) ∧
      ∃ tail : Str, stringify (r.status code) =
        "HTTP/".toList ++ optStr r.httpVer ++ " ".toList ++ natStr code ++ " ".toList ++ msg ++
          "\r\n".toList ++ tail) := by
  refine ⟨stringify_eq_wireFormat r, ?_, ?_, ?_, ?_⟩
  · intro hh hc
    rw [stringify_eq_wireFormat, inKeyOrder_self r hh hc]
  · intro hb
    rw [stringify_eq_wireFormat, stringify_eq_wireFormat]
    unfold wireFormat Response.inKeyOrder
    simp [hb, JVal.toStr]
  · intro s hb
    rw [stringify_eq_wireFormat]
    unfold wireFormat Response.inKeyOrder
    simp only [hb]
    exact ⟨_, rfl⟩
  · intro code msg hmem
    have hmsg : (r.status code).statusMsg = some (natStr code ++ " ".toList ++ msg) := by
      simp only [KNOWN_STATUS, List.mem_cons, Prod.mk.injEq, List.mem_singleton, List.not_mem_nil,
        or_false] at hmem
      rcases hmem with ⟨rfl, rfl⟩ | ⟨rfl, rfl⟩ | ⟨rfl, rfl⟩ | ⟨rfl, rfl⟩ | ⟨rfl, rfl⟩ | ⟨rfl, rfl⟩ |
        ⟨rfl, rfl⟩ <;> rfl
    refine ⟨rfl, hmsg, ?_⟩
    rw [stringify_eq_wireFormat]
    have hmsg2 : (r.status code).inKeyOrder.statusMsg =
        some (natStr code ++ " ".toList ++ msg) := hmsg
    unfold wireFormat
    rw [hmsg2]
    simp only [optStr, Option.getD_some, List.append_assoc, Response.status,
      Response.inKeyOrder]
    exact ⟨_, rfl⟩


theorem getProp_append_new {α : Type} (o : List (Str × α)) (name : Str) (v : α)
    (h : hasOwnProperty o name = false) : getProp (o ++ [(name, v)]) name = some v := by
  unfold getProp hasOwnProperty at *
  induction o with
  | nil => simp [List.find?]
  | cons p ps ih =>
    rw [List.any_cons, Bool.or_eq_false_iff] at h
    simp only [List.cons_append, List.find?, h.1]
    exact ih h.2

theorem getProp_map_set {α : Type} (o : List (Str × α)) (name : Str) (v : α)
    (h : hasOwnProperty o name = true) :
    getProp (o.map fun p => if p.1 == name then (p.1, v) else p) name = some v := by
  unfold getProp hasOwnProperty at *
  induction o with
  | nil => exact absurd h (by simp)
  | cons p ps ih =>
    by_cases hp : (p.1 == name) = true
    · simp [List.find?, hp]
    · simp only [Bool.not_eq_true] at hp
      rw [List.any_cons, hp, Bool.false_or] at h
      simp only [List.map_cons, hp, Bool.false_eq_true, if_false, List.find?]
      exact ih h

theorem getProp_setProp_same {α : Type} (o : List (Str × α)) (name : Str) (v : α)
    (hn : name ≠ PROTO) : getProp (setProp o name v) name = some v := by
  unfold setProp
  by_cases h : hasOwnProperty o name = true
  · rw [if_pos h]
    exact getProp_map_set o name v h
  · rw [if_neg h, if_neg hn]
    exact getProp_append_new o name v (by simpa using h)

theorem stringify_eq_headLines (r : Response) :
    stringify r = ((headLines r).map fun l => l ++ "\r\n".toList).flatten ++ "\r\n".toList ++
      (match r.body with
       | .undefined => []
       | b => b.toStr) := by
  rw [stringify_eq_wireFormat]
  unfold wireFormat headLines Response.inKeyOrder
  simp [List.map_append, List.flatten_append, List.append_assoc, Function.comp_def]

/-- After `send(body)`, for a body that is a text or absent, the
    Content-Length header is the number of characters the serialized
    response carries after its blank line (the body's length for a
    non-empty text, 0 for an empty or absent body, after which nothing
    follows the blank line), and the response is handed to the connection
    writer exactly once, with the response's close decision. -/
theorem send_content_length (r : Response) (n : Net) (body : Option Str) :
    getProp (r.send n (bodyVal body)).1.headers "content-length".toList =
      some (.num ((body.getD []).length : Nat)) ∧
    stringify (r.send n (bodyVal body)).1 =
      ((headLines (r.send n (bodyVal body)).1).map fun l => l ++ "\r\n".toList).flatten ++
        "\r\n".toList ++ body.getD [] ∧
    (r.send n (bodyVal body)).2 = sendResponse n (r.send n (bodyVal body)).1 r.shouldDisconnect := by
  have hk : toLowerCase CONTENT_LENGTH = "content-length".toList := by decide
  refine ⟨?_, ?_, ?_⟩
  · cases body with
    | none =>
      simp [Response.send, bodyVal, JVal.falsy, Response.set, hk]
      exact getProp_setProp_same _ _ _ (by decide)
    | some s =>
      cases s with
      | nil =>
        simp [Response.send, bodyVal, JVal.falsy, Response.set, hk]
        exact getProp_setProp_same _ _ _ (by decide)
      | cons c cs =>
        simp [Response.send, bodyVal, JVal.falsy, Response.set, hk, JVal.length]
        exact getProp_setProp_same _ _ _ (by decide)
  · rw [stringify_eq_headLines]
    congr 1
    cases body with
    | none => simp [Response.send, bodyVal, JVal.falsy, Response.set]
    | some s =>
      cases s <;> simp [Response.send, bodyVal, JVal.falsy, Response.set, JVal.toStr]
  · cases body with
    | none => simp [Response.send, bodyVal, JVal.falsy, Response.set]
    | some s =>
      cases s <;> simp [Response.send, bodyVal, JVal.falsy, Response.set]


theorem responseObj_error (n : Net) (c : Nat) :
    responseObj n (.error c) = (errorResponse c, sendResponse n (errorResponse c) true, true) := by
  rfl

theorem sendResponse_error (n : Net) (r : Response) (d : Bool) (hw : n.writable = true)
    (he : r.error = true) :
    sendResponse n r d =
      { n with ops := n.ops ++ [SockOp.endWith (stringify r)], writable := false,
               sendSuccess := some true } := by
  simp [sendResponse, hw, he, Net.socketEnd]

/-- C14: for every error object `{error: c}` with `c` among 400, 404, 414,
    on a writable connection, constructing the response performs exactly
    one socket operation: it writes the response `HTTP/1.0 ` followed by the
    canonical message of `c`, with Content-Length 0 and no body, and closes
    the connection; the constructor raises and the server invokes no
    handler. -/
theorem error_object_answered_once (extname : Str → Str) (handlers : List RequestHandlerObj)
    (n : Net) (c : Nat) (msg : Str)
    (hc : (c, msg) ∈ [(400, "400 Bad Request".toList), (404, "404 Not Found".toList),
      (414, "414 URI TOO LONG".toList)])
    (hw : n.writable = true) :
    (responseObj n (.error c)).2.1.ops = n.ops ++ [SockOp.endWith (errorResponseText msg)] ∧
    (responseObj n (.error c)).2.1.writable = false ∧
    (responseObj n (.error c)).2.2 = true ∧
    (responseObj n (.error c)).1.statusCode = some c ∧
    getProp (responseObj n (.error c)).1.headers "content-length".toList = some (.num 0) ∧
    (responseObj n (.error c)).1.body = .undefined ∧
    onRequest extname handlers n (.error c) = ((responseObj n (.error c)).2.1, []) := by
  have hs : stringify (errorResponse c) = errorResponseText msg := by
    simp only [List.mem_cons, Prod.mk.injEq, List.mem_singleton, List.not_mem_nil, or_false] at hc
    rcases hc with ⟨rfl, rfl⟩ | ⟨rfl, rfl⟩ | ⟨rfl, rfl⟩ <;> decide!
  have hn : sendResponse n (errorResponse c) true =
      { n with ops := n.ops ++ [SockOp.endWith (errorResponseText msg)], writable := false,
               sendSuccess := some true } := by
    rw [sendResponse_error n (errorResponse c) true hw rfl, hs]
  rw [responseObj_error, hn]
  refine ⟨rfl, rfl, rfl, rfl, rfl, rfl, ?_⟩
  simp [onRequest, responseObj_error, hn]

theorem error_object_answered_once_witness :
    ((400, "400 Bad Request".toList) ∈ [(400, "400 Bad Request".toList),
      (404, "404 Not Found".toList), (414, "414 URI TOO LONG".toList)]) ∧
    (responseObj ⟨true, [], none, []⟩ (.error 400)).2.1.ops =
      [SockOp.endWith (errorResponseText "400 Bad Request".toList)] :=
  ⟨by decide, (error_object_answered_once (fun s => s) [] ⟨true, [], none, []⟩ 400
    "400 Bad Request".toList (by decide) rfl).1⟩


/-! ## The size guard of the reader -/

/-- C15: for every reader state and chunk, if the pending line buffer, the
    chunk or the accumulated request text is longer than 8194, the reader
    processes none of the chunk, invokes the callback exactly once with the
    error object of status 414 and returns to the initial state, so that
    whatever is fed afterwards is handled exactly as from the initial
    state of a fresh connection. -/
theorem size_guard_resets (ext : Ext) (st : Reader) (data : Str)
    (h : st.lineBuffer.length > 8194 ∨ data.length > 8194 ∨ st.requestStr.length > 8194) :
    onData ext st data = (init, [ReqObj.error 414]) ∧
    ∀ later : List Str,
      feedChunks ext st (data :: later) =
        ((feedChunks ext init later).1, ReqObj.error 414 :: (feedChunks ext init later).2) := by
  have h1 : onData ext st data = (init, [ReqObj.error 414]) := by
    have h2 : st.lineBuffer.length > REQUEST_MAX_LENGTH ∨ data.length > REQUEST_MAX_LENGTH ∨
        st.requestStr.length > REQUEST_MAX_LENGTH := h
    unfold onData
    rw [if_pos h2]
    rfl
  refine ⟨h1, fun later => ?_⟩
  simp [feedChunks, h1]

theorem size_guard_resets_witness :
    ((⟨true, true, [], [], 5⟩ : Reader).lineBuffer.length > 8194 ∨
      (List.replicate 8195 'a').length > 8194 ∨
      (⟨true, true, [], [], 5⟩ : Reader).requestStr.length > 8194) ∧
    onData sampleExt ⟨true, true, [], [], 5⟩ (List.replicate 8195 'a') =
      (init, [ReqObj.error 414]) :=
  ⟨Or.inr (Or.inl (by rw [List.length_replicate]; omega)),
   (size_guard_resets sampleExt ⟨true, true, [], [], 5⟩ (List.replicate 8195 'a')
     (Or.inr (Or.inl (by rw [List.length_replicate]; omega)))).1⟩

/-! ## Evaluations at concrete inputs -/

/-- C4 (the code at the claim's own example): for the header line
    `Host:example.com:8080` the header-line pattern captures the name
    `Host:example.com` and the value `8080`, not the name `Host` and the
    value `example.com:8080`. -/
theorem header_line_greedy_name :
    (isHeaderLineValid "Host:example.com:8080".toList).map (fun m => (m.cell 1, m.cell 2)) =
      some (some "Host:example.com".toList, some "8080".toList) := by
  decide!

/-- C20 (the code at a host name with a hyphen): for the Host value
    `my-host.com:8080` the request's host is `my`, not `my-host.com`. -/
theorem host_with_hyphen_truncated :
    hostOf [("host".toList, "my-host.com:8080".toList)] = some "my".toList := by
  decide!

/-- When the caller has already set Content-Type, whatever the path and its
    extension, `sendFile` marks the response as error, sets status 415 and
    hands it to the writer with forced closure; no file is streamed. -/
theorem sendFile_content_type_set (extname : Str → Str) (r : Response) (n : Net)
    (fullPath : Str) (hset : (r.get CONTENT_TYPE).falsy = false) :
    (r.sendFile extname n fullPath).1.statusCode = some 415 ∧
    (r.sendFile extname n fullPath).1.error = true ∧
    (r.sendFile extname n fullPath).2 =
      sendResponse n (r.sendFile extname n fullPath).1 true := by
  simp [Response.sendFile, hset, Response.status, UNSUPPORTED_MEDIA]

theorem getProp_some_mem {α : Type} (o : List (Str × α)) (name : Str) (v : α)
    (h : getProp o name = some v) : (name, v) ∈ o := by
  unfold getProp at h
  induction o with
  | nil => cases h
  | cons p ps ih =>
    by_cases hp : (p.1 == name) = true
    · simp only [List.find?, hp, Option.map_some', Option.some.injEq] at h
      have h1 : p.1 = name := by simpa using hp
      have : p = (name, v) := by
        obtain ⟨a, b⟩ := p
        simp only at h1 h
        rw [h1, h]
      rw [this]
      exact List.mem_cons_self _ _
    · simp only [Bool.not_eq_true] at hp
      simp only [List.find?, hp] at h
      exact List.mem_cons_of_mem _ (ih h)

/-- On an unrecognized extension with Content-Type unset, `sendFile` stores
    the header `content-type` with the value undefined. -/
theorem sendFile_unknown_extension (extname : Str → Str) (r : Response) (n : Net)
    (fullPath : Str) (hunset : (r.get CONTENT_TYPE).falsy = true)
    (hext : getProp CONTENT_TYPE_EXT (substringFrom (extname fullPath) 1) = none) :
    (r.sendFile extname n fullPath).1.statusCode = some 415 ∧
    hasOwnProperty (r.sendFile extname n fullPath).1.headers "content-type".toList = true ∧
    getProp (r.sendFile extname n fullPath).1.headers "content-type".toList = some .undefined ∧
    "content-type: undefined".toList ∈ headLines (r.sendFile extname n fullPath).1 := by
  have hk : toLowerCase CONTENT_TYPE = "content-type".toList := by decide
  have hg : getProp (r.sendFile extname n fullPath).1.headers "content-type".toList =
      some .undefined := by
    simp [Response.sendFile, hunset, hext, Response.status, Response.set, hk]
    exact getProp_setProp_same _ _ _ (by decide)
  refine ⟨?_, ?_, hg, ?_⟩
  · simp [Response.sendFile, hunset, hext, Response.status, UNSUPPORTED_MEDIA]
  · rw [hasOwnProperty_iff_getProp_isSome, hg]
    rfl
  · unfold headLines
    have hm := (mem_ownEntries _ _).mpr (getProp_some_mem _ _ _ hg)
    simp only [List.mem_append, List.mem_map]
    exact Or.inl (Or.inr ⟨_, hm, rfl⟩)

/-- C17 (the code when the caller has already set Content-Type): for a
    response whose Content-Type is `text/html` and the path `/index.html`,
    `sendFile` answers 415 and closes the connection instead of writing the
    status and headers and streaming the file. -/
theorem sendFile_415_although_content_type_set :
    ((freshResponse.set CONTENT_TYPE (.str "text/html".toList)).sendFile sampleExtname freshNet
      "/index.html".toList).1.statusCode = some 415 ∧
    ((freshResponse.set CONTENT_TYPE (.str "text/html".toList)).sendFile sampleExtname freshNet
      "/index.html".toList).2.ops =
      [SockOp.endWith
        "HTTP/1.0 415 Unsupported Media Type\r\ncontent-type: text/html\r\n\r\n".toList] := by
  decide!

/-- C18 (the code on an unrecognized extension with Content-Type unset):
    for a fresh response and the path `/file.gdb`, `sendFile` answers 415
    and closes, but the header mapping has a content-type entry afterwards
    (with the value undefined) and the serialized response carries the line
    `content-type: undefined`. -/
theorem sendFile_415_writes_undefined_content_type :
    (freshResponse.sendFile sampleExtname freshNet "/file.gdb".toList).1.statusCode = some 415 ∧
    hasOwnProperty (freshResponse.sendFile sampleExtname freshNet "/file.gdb".toList).1.headers
      "content-type".toList = true ∧
    (freshResponse.sendFile sampleExtname freshNet "/file.gdb".toList).2.ops =
      [SockOp.endWith
        "HTTP/1.0 415 Unsupported Media Type\r\ncontent-type: undefined\r\n\r\n".toList] := by
  decide!


/-! ## The router -/

theorem scan_some_iff (method path : Str) (hs : List RequestHandlerObj) (c : Nat) :
    ∀ (i : Nat) (h : RequestHandlerObj) (m : Match),
      scan method path hs c = some (i, h, m) ↔
        c ≤ i ∧ hs.get? (i - c) = some h ∧ (h.method = ALL ∨ h.method = method) ∧
        exec h.routeRegex path = some m ∧
        ∀ j h2, c ≤ j → j < i → hs.get? (j - c) = some h2 →
          ¬ ((h2.method = ALL ∨ h2.method = method) ∧ (exec h2.routeRegex path).isSome = true) := by
  induction hs generalizing c with
  | nil =>
    intro i h m
    simp [scan]
  | cons h0 rest ih =>
    intro i h m
    unfold scan
    by_cases hm : method ≠ h0.method ∧ h0.method ≠ ALL
    · rw [if_pos hm, ih]
      constructor
      · rintro ⟨hci, hget, hacc, hex, hmin⟩
        refine ⟨by omega, ?_, hacc, hex, ?_⟩
        · have : i - c = (i - (c + 1)) + 1 := by omega
          rw [this]
          exact hget
        · intro j h2 hcj hji hg
          by_cases hjc : j = c
          · subst hjc
            simp only [Nat.sub_self, List.get?_cons_zero, Option.some.injEq] at hg
            subst hg
            rintro ⟨h1 | h1, _⟩
            · exact hm.2 h1
            · exact hm.1 h1.symm
          · have : j - c = (j - (c + 1)) + 1 := by omega
            rw [this] at hg
            exact hmin j h2 (by omega) hji hg
      · rintro ⟨hci, hget, hacc, hex, hmin⟩
        have hne : i ≠ c := by
          intro hic
          subst hic
          simp only [Nat.sub_self, List.get?_cons_zero, Option.some.injEq] at hget
          subst hget
          rcases hacc with h1 | h1
          · exact hm.2 h1
          · exact hm.1 h1.symm
        refine ⟨by omega, ?_, hacc, hex, ?_⟩
        · have : i - c = (i - (c + 1)) + 1 := by omega
          rw [this] at hget
          exact hget
        · intro j h2 hcj hji hg
          apply hmin j h2 (by omega) hji
          have : j - c = (j - (c + 1)) + 1 := by omega
          rw [this]
          exact hg
    · rw [if_neg hm]
      have hacc0 : h0.method = ALL ∨ h0.method = method := by
        by_contra hcon
        apply hm
        constructor
        · intro h1
          exact hcon (Or.inr h1.symm)
        · intro h1
          exact hcon (Or.inl h1)
      cases hex0 : exec h0.routeRegex path with
      | none =>
        simp only
        rw [ih]
        constructor
        · rintro ⟨hci, hget, hacc, hex, hmin⟩
          refine ⟨by omega, ?_, hacc, hex, ?_⟩
          · have : i - c = (i - (c + 1)) + 1 := by omega
            rw [this]
            exact hget
          · intro j h2 hcj hji hg
            by_cases hjc : j = c
            · subst hjc
              simp only [Nat.sub_self, List.get?_cons_zero, Option.some.injEq] at hg
              subst hg
              rintro ⟨_, h1⟩
              rw [hex0] at h1
              cases h1
            · have : j - c = (j - (c + 1)) + 1 := by omega
              rw [this] at hg
              exact hmin j h2 (by omega) hji hg
        · rintro ⟨hci, hget, hacc, hex, hmin⟩
          have hne : i ≠ c := by
            intro hic
            subst hic
            simp only [Nat.sub_self, List.get?_cons_zero, Option.some.injEq] at hget
            subst hget
            rw [hex0] at hex
            cases hex
          refine ⟨by omega, ?_, hacc, hex, ?_⟩
          · have : i - c = (i - (c + 1)) + 1 := by omega
            rw [this] at hget
            exact hget
          · intro j h2 hcj hji hg
            apply hmin j h2 (by omega) hji
            have : j - c = (j - (c + 1)) + 1 := by omega
            rw [this]
            exact hg
      | some m0 =>
        simp only [Option.some.injEq, Prod.mk.injEq]
        constructor
        · rintro ⟨rfl, rfl, rfl⟩
          refine ⟨Nat.le_refl _, by simp, hacc0, hex0, ?_⟩
          intro j h2 hcj hji
          omega
        · rintro ⟨hci, hget, hacc, hex, hmin⟩
          have hic : i = c := by
            by_contra hne
            exact hmin c h0 (Nat.le_refl _) (by omega) (by simp) ⟨hacc0, by rw [hex0]; rfl⟩
          subst hic
          simp only [Nat.sub_self, List.get?_cons_zero, Option.some.injEq] at hget
          subst hget
          rw [hex0] at hex
          cases hex
          exact ⟨rfl, rfl, rfl⟩


theorem get?_drop_sub {α : Type} (l : List α) (c i : Nat) (h : c ≤ i) :
    (l.drop c).get? (i - c) = l.get? i := by
  rw [List.get?_eq_getElem?, List.getElem?_drop, ← List.get?_eq_getElem?]
  congr 1
  omega

theorem scan_none_iff (method path : Str) (hs : List RequestHandlerObj) (c : Nat) :
    scan method path hs c = none ↔
      ∀ k h, hs.get? k = some h →
        ¬ ((h.method = ALL ∨ h.method = method) ∧ (exec h.routeRegex path).isSome = true) := by
  induction hs generalizing c with
  | nil => simp [scan]
  | cons h0 rest ih =>
    unfold scan
    by_cases hm : method ≠ h0.method ∧ h0.method ≠ ALL
    · rw [if_pos hm, ih]
      constructor
      · intro hall k h hg
        cases k with
        | zero =>
          simp only [List.get?_cons_zero, Option.some.injEq] at hg
          subst hg
          rintro ⟨h1 | h1, _⟩
          · exact hm.2 h1
          · exact hm.1 h1.symm
        | succ k => exact hall k h hg
      · intro hall k h hg
        exact hall (k + 1) h hg
    · rw [if_neg hm]
      have hacc0 : h0.method = ALL ∨ h0.method = method := by
        by_contra hcon
        exact hm ⟨fun h1 => hcon (Or.inr h1.symm), fun h1 => hcon (Or.inl h1)⟩
      cases hex0 : exec h0.routeRegex path with
      | none =>
        simp only
        rw [ih]
        constructor
        · intro hall k h hg
          cases k with
          | zero =>
            simp only [List.get?_cons_zero, Option.some.injEq] at hg
            subst hg
            rintro ⟨_, h1⟩
            rw [hex0] at h1
            cases h1
          | succ k => exact hall k h hg
        · intro hall k h hg
          exact hall (k + 1) h hg
      | some m0 =>
        simp only [reduceCtorEq, false_iff, not_forall]
        exact ⟨0, h0, rfl, fun hcon => hcon ⟨hacc0, by rw [hex0]; rfl⟩⟩

/-- C8: one invocation of the continuation, whatever the handler list, the
    request and the cursor: when a registration at an index `i` at or after
    the cursor accepts the request (method filter `ALL` or the request
    method, path pattern matching the path) and none between the cursor and
    `i` does, the continuation sets the cursor to `i + 1` and runs the
    steps of that one handler (answering 500 if it throws); when no
    registration at or after the cursor accepts the request, it invokes no
    handler and sends a 404 response. -/
theorem next_invokes_first_accepting (extname : Str → Str) (handlers : List RequestHandlerObj)
    (req : HttpRequest) (fuel : Nat) (t : Turn) :
    (∀ i h, t.curHandler ≤ i → handlers.get? i = some h → accepts h req →
      (∀ j h2, t.curHandler ≤ j → j < i → handlers.get? j = some h2 → ¬ accepts h2 req) →
      ∃ m, exec h.routeRegex req.path = some m ∧
        next extname handlers req (fuel + 1) t =
          afterHandler (runActions extname (next extname handlers req fuel)
            (h.handle { req with params := routeParams h m })
            { t with params := routeParams h m, curHandler := i + 1,
                     invoked := t.invoked ++ [i] })) ∧
    ((∀ i h, t.curHandler ≤ i → handlers.get? i = some h → ¬ accepts h req) →
      next extname handlers req (fuel + 1) t =
        { t with curHandler := max t.curHandler handlers.length,
                 res := ((t.res.status 404).send t.net .undefined).1,
                 net := ((t.res.status 404).send t.net .undefined).2 }) := by
  constructor
  · intro i h hci hget hacc hmin
    obtain ⟨hmeth, hex⟩ := hacc
    cases hm : exec h.routeRegex req.path with
    | none => rw [hm] at hex; cases hex
    | some m =>
      refine ⟨m, rfl, ?_⟩
      have hscan : scan req.method req.path (handlers.drop t.curHandler) t.curHandler =
          some (i, h, m) := by
        rw [scan_some_iff]
        refine ⟨hci, ?_, hmeth, hm, ?_⟩
        · rw [get?_drop_sub _ _ _ hci]
          exact hget
        · intro j h2 hcj hji hg
          rw [get?_drop_sub _ _ _ hcj] at hg
          exact hmin j h2 hcj hji hg
      unfold next
      rw [hscan]
      rfl
  · intro hnone
    have hscan : scan req.method req.path (handlers.drop t.curHandler) t.curHandler = none := by
      rw [scan_none_iff]
      intro k h hg
      rw [List.get?_eq_getElem?, List.getElem?_drop, ← List.get?_eq_getElem?] at hg
      exact hnone (t.curHandler + k) h (by omega) hg
    unfold next
    rw [hscan]
    rfl


theorem send_undefined_writable (r : Response) (n : Net) (hw : n.writable = true) :
    (r.send n .undefined).1 = { r with body := .undefined, headers := setProp r.headers ("content-length".toList) (.num 0) } ∧
    (r.send n .undefined).2 =
      { n with ops := n.ops ++ [if closesAfter (r.send n .undefined).1 r.shouldDisconnect
                                then SockOp.endWith (stringify (r.send n .undefined).1)
                                else SockOp.write (stringify (r.send n .undefined).1)],
               writable := !closesAfter (r.send n .undefined).1 r.shouldDisconnect,
               sendSuccess := some true } := by
  have hk : toLowerCase CONTENT_LENGTH = "content-length".toList := by decide
  have h1 : (r.send n .undefined).1 = { r with body := .undefined, headers := setProp r.headers ("content-length".toList) (.num 0) } := by
    simp [Response.send, JVal.falsy, Response.set, hk]
  refine ⟨h1, ?_⟩
  have h2 : (r.send n .undefined).2 =
      sendResponse n (r.send n .undefined).1 r.shouldDisconnect := by
    simp [Response.send, JVal.falsy, Response.set]
  rw [h2]
  exact sendResponse_writable n _ _ hw


theorem closesAfter_status_500 (r : Response) (d : Bool) (h : r.statusCode = some 500) :
    closesAfter r d = true := by
  unfold closesAfter
  simp [h]

/-- C10: when the handler matched by the continuation raises before
    anything was sent (the connection still as it was, and writable), the
    continuation catches the error (it returns normally), hands exactly one
    response to the writer, with status 500, Content-Length 0 and no body,
    and the writer writes it and closes the connection whatever the close
    decision, because 500 is one of the status codes that force closure. -/
theorem handler_throw_answers_500 (extname : Str → Str) (handlers : List RequestHandlerObj)
    (req : HttpRequest) (fuel : Nat) (t : Turn) (i : Nat) (h : RequestHandlerObj) (m : Match)
    (hscan : scan req.method req.path (handlers.drop t.curHandler) t.curHandler = some (i, h, m))
    (hthrow : (runActions extname (next extname handlers req fuel)
      (h.handle { req with params := routeParams h m })
      { t with params := routeParams h m, curHandler := i + 1, invoked := t.invoked ++ [i] }).2 = true)
    (hnet : (runActions extname (next extname handlers req fuel)
      (h.handle { req with params := routeParams h m })
      { t with params := routeParams h m, curHandler := i + 1, invoked := t.invoked ++ [i] }).1.net =
        t.net)
    (hw : t.net.writable = true) :
    (next extname handlers req (fuel + 1) t).res.statusCode = some 500 ∧
    (next extname handlers req (fuel + 1) t).res.statusMsg =
      some "500 Internal Server Error".toList ∧
    getProp (next extname handlers req (fuel + 1) t).res.headers "content-length".toList =
      some (.num 0) ∧
    (next extname handlers req (fuel + 1) t).res.body = .undefined ∧
    (next extname handlers req (fuel + 1) t).net.ops =
      t.net.ops ++ [SockOp.endWith (stringify (next extname handlers req (fuel + 1) t).res)] ∧
    (next extname handlers req (fuel + 1) t).net.writable = false ∧
    (∀ d, closesAfter (next extname handlers req (fuel + 1) t).res d = true) ∧
    disconnectErrorCode 500 = true := by
  have hn : next extname handlers req (fuel + 1) t =
      afterHandler (runActions extname (next extname handlers req fuel)
        (h.handle { req with params := routeParams h m })
        { t with params := routeParams h m, curHandler := i + 1, invoked := t.invoked ++ [i] }) := by
    unfold next
    rw [hscan]
    rfl
  rw [hn]
  generalize runActions extname (next extname handlers req fuel)
        (h.handle { req with params := routeParams h m })
        { t with params := routeParams h m, curHandler := i + 1, invoked := t.invoked ++ [i] } = p
    at hthrow hnet
  have hw2 : p.1.net.writable = true := by rw [hnet]; exact hw
  obtain ⟨hr, hnn⟩ := send_undefined_writable (p.1.res.status 500) p.1.net hw2
  have hres : (afterHandler p).res = ((p.1.res.status 500).send p.1.net .undefined).1 := by
    simp [afterHandler, hthrow]
  have hnet2 : (afterHandler p).net = ((p.1.res.status 500).send p.1.net .undefined).2 := by
    simp [afterHandler, hthrow]
  have hcode : ((p.1.res.status 500).send p.1.net .undefined).1.statusCode = some 500 := by
    rw [hr]
    rfl
  have hcl : ∀ d, closesAfter ((p.1.res.status 500).send p.1.net .undefined).1 d = true :=
    fun d => closesAfter_status_500 _ d hcode
  rw [hres, hnet2]
  refine ⟨hcode, ?_, ?_, ?_, ?_, ?_, hcl, by decide⟩
  · rw [hr]
    rfl
  · rw [hr]
    exact getProp_setProp_same _ _ _ (by decide)
  · rw [hr]
  · rw [hnn, hcl, hnet]
    rfl
  · rw [hnn, hcl]
    rfl

theorem handler_throw_answers_500_witness :
    scan keepAliveRequest.method keepAliveRequest.path ([throwingRoute].drop sampleTurn.curHandler)
      sampleTurn.curHandler = some (0, throwingRoute, ⟨0, "/".toList, []⟩) ∧
    (next sampleExtname [throwingRoute] keepAliveRequest 1 sampleTurn).net.ops =
      [SockOp.endWith (stringify (next sampleExtname [throwingRoute] keepAliveRequest 1 sampleTurn).res)] :=
  ⟨by rfl,
   (handler_throw_answers_500 sampleExtname [throwingRoute] keepAliveRequest 0 sampleTurn 0
     throwingRoute ⟨0, "/".toList, []⟩ (by rfl) (by rfl) (by rfl) (by rfl)).2.2.2.2.1⟩


/-! ## The matcher on atoms and greedy loops -/

theorem stepChar_cons (p : Char → Bool) (idx : Nat) (d : Char) (ds : Str) (caps : Caps) (c : Cont) :
    stepChar p ⟨idx, d :: ds, caps⟩ c = if p d then c ⟨idx + 1, ds, caps⟩ else none := rfl

theorem stepChar_nil (p : Char → Bool) (idx : Nat) (caps : Caps) (c : Cont) :
    stepChar p ⟨idx, [], caps⟩ c = none := rfl

theorem stepChar_some_iff (p : Char → Bool) (x : MState) (c : Cont) (z : MState) :
    stepChar p x c = some z ↔
      ∃ d ds, x.rest = d :: ds ∧ p d = true ∧ c ⟨x.idx + 1, ds, x.caps⟩ = some z := by
  obtain ⟨idx, rest, caps⟩ := x
  cases rest with
  | nil => simp [stepChar]
  | cons d ds =>
    rw [stepChar_cons]
    by_cases hp : p d = true
    · simp only [hp, if_true, List.cons.injEq, true_and]
      constructor
      · intro h
        exact ⟨d, ds, ⟨rfl, rfl⟩, hp, h⟩
      · rintro ⟨d2, ds2, ⟨rfl, rfl⟩, _, h⟩
        exact h
    · simp only [hp, Bool.false_eq_true, if_false, reduceCtorEq, List.cons.injEq, false_iff,
        not_exists, not_and]
      rintro d2 ds2 ⟨rfl, rfl⟩ h
      exact absurd h hp

theorem clearCaps_nil (caps : Caps) : clearCaps [] caps = caps := by
  unfold clearCaps
  induction caps with
  | nil => rfl
  | cons p ps ih => simp [List.filter]

theorem greedy_full (c : Cont) (caps : Caps) (w rest : Str) (idx : Nat) (z : MState)
    (h : c ⟨idx + w.length, rest, caps⟩ = some z) : greedy c caps idx w rest = some z := by
  induction w generalizing idx with
  | nil => simpa [greedy] using h
  | cons a w ih =>
    unfold greedy
    rw [ih (idx + 1) (by rw [← h]; congr 2; simp; omega)]

theorem greedy_some (c : Cont) (caps : Caps) (w rest : Str) (idx : Nat) (z : MState)
    (h : greedy c caps idx w rest = some z) :
    ∃ j, j ≤ w.length ∧ c ⟨idx + j, w.drop j ++ rest, caps⟩ = some z := by
  induction w generalizing idx with
  | nil => exact ⟨0, Nat.le_refl _, by simpa [greedy] using h⟩
  | cons a w ih =>
    unfold greedy at h
    split at h
    · rename_i z2 hz2
      cases h
      obtain ⟨j, hj, hc⟩ := ih (idx + 1) hz2
      refine ⟨j + 1, by simp; omega, ?_⟩
      rw [← hc]
      congr 2
      omega
    · exact ⟨0, Nat.zero_le _, by simpa using h⟩

theorem greedy_append (c : Cont) (caps : Caps) (w1 : Str) (a : Char) (w2 rest : Str) (idx : Nat) :
    greedy c caps idx (w1 ++ a :: w2) rest =
      match greedy c caps (idx + w1.length + 1) w2 rest with
      | some z => some z
      | none => greedy c caps idx w1 (a :: w2 ++ rest) := by
  induction w1 generalizing idx with
  | nil => simp [greedy]
  | cons b w1 ih =>
    have e1 : idx + 1 + w1.length + 1 = idx + (w1.length + 1) + 1 := by omega
    have h1 : greedy c caps idx (b :: w1 ++ a :: w2) rest =
        match greedy c caps (idx + 1) (w1 ++ a :: w2) rest with
        | some z => some z
        | none => c ⟨idx, b :: (w1 ++ a :: w2) ++ rest, caps⟩ := rfl
    have h2 : greedy c caps idx (b :: w1) (a :: w2 ++ rest) =
        match greedy c caps (idx + 1) w1 (a :: w2 ++ rest) with
        | some z => some z
        | none => c ⟨idx, b :: w1 ++ (a :: w2 ++ rest), caps⟩ := rfl
    rw [h1, h2, ih (idx + 1), List.length_cons, e1]
    cases greedy c caps (idx + (w1.length + 1) + 1) w2 rest with
    | some z => rfl
    | none =>
      simp only [List.append_assoc, List.cons_append]

theorem star_greedy (p : Char → Bool) (c : Cont) (caps : Caps) (w rest : Str)
    (hw : ∀ a ∈ w, p a = true) (hrest : ∀ b rest2, rest = b :: rest2 → p b = false) :
    ∀ (idx fuel : Nat), w.length + 1 ≤ fuel →
      repeatMatcher (stepChar p) [] fuel 0 none ⟨idx, w ++ rest, caps⟩ c =
        greedy c caps idx w rest := by
  induction w with
  | nil =>
    intro idx fuel hf
    obtain ⟨f, rfl⟩ : ∃ f, fuel = f + 1 := ⟨fuel - 1, by simp at hf; omega⟩
    unfold repeatMatcher
    simp only [reduceCtorEq, if_false, ne_eq, not_true_eq_false, clearCaps_nil, List.nil_append]
    cases rest with
    | nil => simp [stepChar, greedy]
    | cons b rest2 =>
      rw [stepChar_cons, hrest b rest2 rfl]
      simp [greedy]
  | cons a w ih =>
    intro idx fuel hf
    obtain ⟨f, rfl⟩ : ∃ f, fuel = f + 1 := ⟨fuel - 1, by simp at hf; omega⟩
    unfold repeatMatcher
    simp only [reduceCtorEq, if_false, ne_eq, not_true_eq_false, clearCaps_nil, List.cons_append]
    rw [stepChar_cons, hw a (List.mem_cons_self _ _)]
    simp only [if_true, true_and, Nat.succ_ne_self, Nat.sub_zero, Option.map_none']
    rw [ih (fun b hb => hw b (List.mem_cons_of_mem _ hb)) (idx + 1) f (by simp at hf; omega)]
    simp [greedy]


/-! ## The line delimiter and the body delimiter -/

theorem lineDelimiterRegex_eq :
    lineDelimiterRegex = .seq (.rep 0 (some 1) (.chr '\r')) (.seq (.chr '\n') .empty) := by
  decide!

theorem BODY_DELIMITER_REGEX_eq :
    BODY_DELIMITER_REGEX = .seq (.rep 0 (some 1) (.chr '\r')) (.seq (.chr '\n')
      (.seq (.rep 0 (some 1) (.chr '\r')) (.seq (.chr '\n') .empty))) := by
  decide!

theorem run_chr (d : Char) (x : MState) (c : Cont) :
    (Regex.chr d).run x c = stepChar (fun e => e == d) x c := rfl

theorem run_seq (a b : Regex) (x : MState) (c : Cont) :
    (Regex.seq a b).run x c = a.run x fun y => b.run y c := rfl

theorem run_empty (x : MState) (c : Cont) : Regex.empty.run x c = c x := rfl

/-- The optional carriage return followed by a line feed. -/
theorem run_optCR_LF (idx : Nat) (rest : Str) (caps : Caps) (c : Cont) :
    (Regex.rep 0 (some 1) (.chr '\r')).run ⟨idx, rest, caps⟩
        (fun y => (Regex.chr '\n').run y c) =
      if delimLen rest = 0 then none
      else c ⟨idx + delimLen rest, rest.drop (delimLen rest), caps⟩ := by
  cases rest with
  | nil => simp [Regex.run, repeatMatcher, stepChar, delimLen, clearCaps_nil, Regex.groups]
  | cons d tl =>
    by_cases h1 : d = '\n'
    · subst h1
      simp [Regex.run, repeatMatcher, stepChar, delimLen, clearCaps_nil, Regex.groups]
    · by_cases h2 : d = '\r'
      · subst h2
        cases tl with
        | nil => simp [Regex.run, repeatMatcher, stepChar, delimLen, clearCaps_nil, Regex.groups]
        | cons e tl2 =>
          by_cases h3 : e = '\n'
          · subst h3
            simp [Regex.run, repeatMatcher, stepChar, delimLen, clearCaps_nil, Regex.groups]
            cases c ⟨idx + 1 + 1, tl2, caps⟩ <;> rfl
          · simp [Regex.run, repeatMatcher, stepChar, delimLen, clearCaps_nil, Regex.groups, h3]
      · simp [Regex.run, repeatMatcher, stepChar, delimLen, clearCaps_nil, Regex.groups, h1, h2]

theorem lineDelim_run (idx : Nat) (rest : Str) (caps : Caps) (c : Cont) :
    lineDelimiterRegex.run ⟨idx, rest, caps⟩ c =
      if delimLen rest = 0 then none
      else c ⟨idx + delimLen rest, rest.drop (delimLen rest), caps⟩ := by
  rw [lineDelimiterRegex_eq, run_seq]
  have : (fun y => (Regex.seq (.chr '\n') .empty).run y c) =
      (fun y => (Regex.chr '\n').run y c) := by
    funext y
    rfl
  rw [this, run_optCR_LF]

theorem bodyDelim_run (idx : Nat) (rest : Str) (caps : Caps) (c : Cont) :
    BODY_DELIMITER_REGEX.run ⟨idx, rest, caps⟩ c =
      if bodyDelimLen rest = 0 then none
      else c ⟨idx + bodyDelimLen rest, rest.drop (bodyDelimLen rest), caps⟩ := by
  rw [BODY_DELIMITER_REGEX_eq, run_seq]
  have h1 : (fun y => (Regex.seq (.chr '\n') (.seq (.rep 0 (some 1) (.chr '\r'))
      (.seq (.chr '\n') .empty))).run y c) =
      (fun y => (Regex.chr '\n').run y fun y2 =>
        (Regex.rep 0 (some 1) (.chr '\r')).run y2 fun y3 => (Regex.chr '\n').run y3 c) := by
    funext y
    rfl
  rw [h1, run_optCR_LF]
  unfold bodyDelimLen
  by_cases ha : delimLen rest = 0
  · simp [ha]
  · simp only [ha, if_false]
    rw [run_optCR_LF]
    by_cases hb : delimLen (List.drop (delimLen rest) rest) = 0
    · simp [hb]
    · simp only [hb, if_false]
      have : delimLen rest + delimLen (List.drop (delimLen rest) rest) ≠ 0 := by omega
      simp only [this, if_false, List.drop_drop, Nat.add_assoc]


theorem execAt_of_len (r : Regex) (len : Str → Nat)
    (hrun : ∀ idx rest caps (c : Cont), r.run ⟨idx, rest, caps⟩ c =
      if len rest = 0 then none else c ⟨idx + len rest, rest.drop (len rest), caps⟩)
    (idx : Nat) (rest : Str) :
    execAt r idx rest =
      if len rest = 0 then none else some ⟨idx, rest.take (len rest), []⟩ := by
  unfold execAt
  rw [hrun]
  by_cases h : len rest = 0
  · simp [h]
  · simp [h]

theorem findFirst_ge (len : Str → Nat) (s : Str) (idx i : Nat)
    (h : findFirst len idx s = some i) : idx ≤ i := by
  induction s generalizing idx with
  | nil =>
    unfold findFirst at h
    split at h
    · cases h; exact Nat.le_refl _
    · cases h
  | cons d ds ih =>
    unfold findFirst at h
    split at h
    · cases h; exact Nat.le_refl _
    · have := ih (idx + 1) h
      omega

theorem execFrom_of_len (r : Regex) (len : Str → Nat)
    (hrun : ∀ idx rest caps (c : Cont), r.run ⟨idx, rest, caps⟩ c =
      if len rest = 0 then none else c ⟨idx + len rest, rest.drop (len rest), caps⟩)
    (s : Str) : ∀ idx : Nat,
    execFrom r idx s =
      (findFirst len idx s).map fun i =>
        ⟨i, (s.drop (i - idx)).take (len (s.drop (i - idx))), []⟩ := by
  induction s with
  | nil =>
    intro idx
    unfold execFrom findFirst
    rw [execAt_of_len r len hrun]
    by_cases h : len [] = 0
    · simp [h]
    · simp [h]
  | cons c cs ih =>
    intro idx
    unfold execFrom findFirst
    rw [execAt_of_len r len hrun]
    by_cases h : len (c :: cs) = 0
    · simp only [h, if_true, ne_eq, not_true_eq_false, if_false]
      rw [ih (idx + 1)]
      cases hf : findFirst len (idx + 1) cs with
      | none => rfl
      | some i =>
        have hle : idx + 1 ≤ i := findFirst_ge len cs (idx + 1) i hf
        simp only [Option.map_some', Option.some.injEq, Match.mk.injEq, true_and, and_true]
        have e : i - idx = (i - (idx + 1)) + 1 := by omega
        rw [e, List.drop_succ_cons]
    · simp [h]

theorem exec_lineDelimiter (s : Str) :
    exec lineDelimiterRegex s =
      (findFirst delimLen 0 s).map fun i => ⟨i, (s.drop i).take (delimLen (s.drop i)), []⟩ := by
  unfold exec
  rw [execFrom_of_len lineDelimiterRegex delimLen lineDelim_run]
  rfl

theorem exec_bodyDelimiter (s : Str) :
    exec BODY_DELIMITER_REGEX s =
      (findFirst bodyDelimLen 0 s).map fun i =>
        ⟨i, (s.drop i).take (bodyDelimLen (s.drop i)), []⟩ := by
  unfold exec
  rw [execFrom_of_len BODY_DELIMITER_REGEX bodyDelimLen bodyDelim_run]
  rfl

theorem search_lineDelimiter (s : Str) :
    search lineDelimiterRegex s =
      match findFirst delimLen 0 s with
      | some i => (i : Int)
      | none => -1 := by
  unfold search
  rw [exec_lineDelimiter]
  cases findFirst delimLen 0 s <;> rfl


theorem delimLen_plain (c : Char) (rest : Str) (h1 : c ≠ '\n') (h2 : c ≠ '\r') :
    delimLen (c :: rest) = 0 := by
  simp [delimLen, h1, h2]

theorem bodyDelimLen_plain (c : Char) (rest : Str) (h1 : c ≠ '\n') (h2 : c ≠ '\r') :
    bodyDelimLen (c :: rest) = 0 := by
  simp [bodyDelimLen, delimLen_plain c rest h1 h2]

theorem findFirst_skip (len : Str → Nat) (w rest : Str)
    (h : ∀ j, j < w.length → len (w.drop j ++ rest) = 0) :
    ∀ idx, findFirst len idx (w ++ rest) = findFirst len (idx + w.length) rest := by
  induction w with
  | nil => intro idx; rfl
  | cons c cs ih =>
    intro idx
    have h0 : len (c :: cs ++ rest) = 0 := h 0 (by simp)
    have hstep : findFirst len idx (c :: cs ++ rest) = findFirst len (idx + 1) (cs ++ rest) := by
      simp only [List.cons_append, findFirst]
      simp only [List.cons_append] at h0
      simp [h0]
    rw [hstep, ih (fun j hj => by
      have := h (j + 1) (by simp; omega)
      simpa using this) (idx + 1)]
    congr 1
    simp
    omega

theorem PlainLine.head {l : Str} (h : PlainLine l) :
    ∃ c tl, l = c :: tl ∧ c ≠ '\n' ∧ c ≠ '\r' := by
  obtain ⟨hne, hall⟩ := h
  cases l with
  | nil => exact absurd rfl hne
  | cons c tl => exact ⟨c, tl, rfl, hall c (List.mem_cons_self _ _)⟩

theorem bodyDelimLen_drop_plain (l rest : Str) (hl : ∀ c ∈ l, c ≠ '\n' ∧ c ≠ '\r') :
    ∀ j, j < l.length → bodyDelimLen (l.drop j ++ rest) = 0 := by
  intro j hj
  have hmem : ∀ c ∈ l.drop j, c ≠ '\n' ∧ c ≠ '\r' := fun c hc => hl c (List.mem_of_mem_drop hc)
  cases hd : l.drop j with
  | nil =>
    have := congrArg List.length hd
    simp at this
    omega
  | cons c tl =>
    rw [hd] at hmem
    have := hmem c (List.mem_cons_self _ _)
    exact bodyDelimLen_plain c _ this.1 this.2

theorem bodyDelimLen_lineEnd_plain (e l rest : Str) (he : IsLineEnd e) (hl : PlainLine l) :
    ∀ j, j < e.length → bodyDelimLen (e.drop j ++ (l ++ rest)) = 0 := by
  obtain ⟨c, tl, rfl, h1, h2⟩ := hl.head
  intro j hj
  rcases he with rfl | rfl
  · have : j = 0 := by simp at hj; omega
    subst this
    simp [bodyDelimLen, delimLen, h1, h2]
  · have : j = 0 ∨ j = 1 := by simp at hj; omega
    rcases this with rfl | rfl
    · simp [bodyDelimLen, delimLen, h1, h2]
    · simp [bodyDelimLen, delimLen, h1, h2]

theorem bodyDelimLen_delimiter (D B : Str) (hD : D ∈ BLANK_LINE_DELIMITERS) :
    bodyDelimLen (D ++ B) = D.length := by
  simp only [BLANK_LINE_DELIMITERS, List.mem_cons, List.mem_singleton, List.not_mem_nil,
    or_false] at hD
  rcases hD with rfl | rfl | rfl | rfl <;> simp [bodyDelimLen, delimLen]

theorem findFirst_bodyDelim_more (more : List (Str × Str)) (D B : Str)
    (hmore : ∀ p ∈ more, IsLineEnd p.1 ∧ PlainLine p.2) (hD : D ∈ BLANK_LINE_DELIMITERS) :
    ∀ idx, findFirst bodyDelimLen idx ((more.map fun p => p.1 ++ p.2).flatten ++ (D ++ B)) =
      some (idx + (more.map fun p => p.1 ++ p.2).flatten.length) := by
  induction more with
  | nil =>
    intro idx
    have hlen := bodyDelimLen_delimiter D B hD
    have hDne : D.length ≠ 0 := by
      simp only [BLANK_LINE_DELIMITERS, List.mem_cons, List.mem_singleton, List.not_mem_nil,
        or_false] at hD
      rcases hD with rfl | rfl | rfl | rfl <;> simp
    simp only [List.map_nil, List.flatten_nil, List.nil_append, List.length_nil, Nat.add_zero]
    cases hDB : D ++ B with
    | nil =>
      have := congrArg List.length hDB
      simp only [List.length_append, List.length_nil] at this
      omega
    | cons c cs =>
      rw [hDB] at hlen
      unfold findFirst
      simp [hlen, hDne]
  | cons p ps ih =>
    intro idx
    obtain ⟨he, hl⟩ := hmore p (List.mem_cons_self _ _)
    have hps : ∀ q ∈ ps, IsLineEnd q.1 ∧ PlainLine q.2 :=
      fun q hq => hmore q (List.mem_cons_of_mem _ hq)
    simp only [List.map_cons, List.flatten_cons, List.append_assoc, List.length_append]
    rw [findFirst_skip bodyDelimLen p.1 _ (by
      intro j hj
      have := bodyDelimLen_lineEnd_plain p.1 p.2
        ((ps.map fun p => p.1 ++ p.2).flatten ++ (D ++ B)) he hl j hj
      simpa using this)]
    rw [findFirst_skip bodyDelimLen p.2 _ (bodyDelimLen_drop_plain p.2 _ hl.2)]
    rw [ih hps]
    congr 1
    omega

theorem findFirst_bodyDelim_head (first : Str) (more : List (Str × Str)) (D B : Str)
    (hfirst : PlainLine first) (hmore : ∀ p ∈ more, IsLineEnd p.1 ∧ PlainLine p.2)
    (hD : D ∈ BLANK_LINE_DELIMITERS) :
    findFirst bodyDelimLen 0 (joinHead first more ++ D ++ B) =
      some (joinHead first more).length := by
  unfold joinHead
  simp only [List.append_assoc]
  rw [findFirst_skip bodyDelimLen first _ (bodyDelimLen_drop_plain first _ hfirst.2)]
  rw [findFirst_bodyDelim_more more D B hmore hD]
  simp


theorem lineDelim_run_some (idx : Nat) (rest : Str) :
    lineDelimiterRegex.run ⟨idx, rest, []⟩ some =
      if delimLen rest = 0 then none
      else some ⟨idx + delimLen rest, rest.drop (delimLen rest), []⟩ :=
  lineDelim_run idx rest [] some

theorem splitLoop_cons (r : Regex) (f idx : Nat) (piece : Str) (c : Char) (cs : Str) :
    splitLoop r (f + 1) idx piece (c :: cs) =
      match r.run ⟨idx, c :: cs, []⟩ some with
      | some y =>
        if y.idx = idx ∧ piece = [] then splitLoop r f (idx + 1) [c] cs
        else piece :: splitLoop r f y.idx [] y.rest
      | none => splitLoop r f (idx + 1) (piece ++ [c]) cs := rfl

theorem splitLoop_plain (w : Str) (hw : ∀ c ∈ w, c ≠ '\n' ∧ c ≠ '\r') :
    ∀ (f idx : Nat) (piece rest : Str),
      splitLoop lineDelimiterRegex (f + w.length) idx piece (w ++ rest) =
        splitLoop lineDelimiterRegex f (idx + w.length) (piece ++ w) rest := by
  induction w with
  | nil => intro f idx piece rest; simp
  | cons c cs ih =>
    intro f idx piece rest
    have hc := hw c (List.mem_cons_self _ _)
    have e1 : f + (c :: cs).length = (f + cs.length) + 1 := by simp; omega
    rw [e1]
    simp only [List.cons_append]
    rw [splitLoop_cons, lineDelim_run_some, delimLen_plain c _ hc.1 hc.2]
    simp only [if_true]
    rw [ih (fun d hd => hw d (List.mem_cons_of_mem _ hd))]
    congr 1
    · simp only [List.length_cons]; omega
    · simp

theorem splitLoop_lineEnd (e : Str) (he : IsLineEnd e) (f idx : Nat) (piece rest : Str) :
    splitLoop lineDelimiterRegex (f + 1) idx piece (e ++ rest) =
      piece :: splitLoop lineDelimiterRegex f (idx + e.length) [] rest := by
  rcases he with rfl | rfl
  · simp only [List.singleton_append]
    rw [splitLoop_cons, lineDelim_run_some]
    simp [delimLen]
  · simp only [List.cons_append, List.nil_append]
    rw [splitLoop_cons, lineDelim_run_some]
    simp [delimLen]

theorem splitLoop_lines (more : List (Str × Str))
    (hmore : ∀ p ∈ more, IsLineEnd p.1 ∧ PlainLine p.2) :
    ∀ (l piece : Str) (idx f : Nat), (∀ c ∈ l, c ≠ '\n' ∧ c ≠ '\r') →
      l.length + (more.map fun p => p.1 ++ p.2).flatten.length < f →
      splitLoop lineDelimiterRegex f idx piece (l ++ (more.map fun p => p.1 ++ p.2).flatten) =
        (piece ++ l) :: more.map Prod.snd := by
  induction more with
  | nil =>
    intro l piece idx f hl hf
    simp only [List.map_nil, List.flatten_nil, List.length_nil, Nat.add_zero] at hf ⊢
    obtain ⟨g, rfl⟩ : ∃ g, f = (g + 1) + l.length := ⟨f - l.length - 1, by omega⟩
    rw [splitLoop_plain l hl]
    rfl
  | cons p ps ih =>
    intro l piece idx f hl hf
    obtain ⟨he, hpl⟩ := hmore p (List.mem_cons_self _ _)
    have hps : ∀ q ∈ ps, IsLineEnd q.1 ∧ PlainLine q.2 :=
      fun q hq => hmore q (List.mem_cons_of_mem _ hq)
    simp only [List.map_cons, List.flatten_cons, List.length_append, List.append_assoc] at hf ⊢
    have he1 : 1 ≤ p.1.length := by
      rcases he with h | h <;> rw [h] <;> simp
    obtain ⟨g, rfl⟩ : ∃ g, f = (g + 1) + l.length := ⟨f - l.length - 1, by omega⟩
    rw [splitLoop_plain l hl, splitLoop_lineEnd p.1 he]
    rw [ih hps p.2 [] _ g hpl.2 (by omega)]
    simp

theorem split_joinHead (first : Str) (more : List (Str × Str)) (hfirst : PlainLine first)
    (hmore : ∀ p ∈ more, IsLineEnd p.1 ∧ PlainLine p.2) :
    split lineDelimiterRegex (joinHead first more) = first :: more.map Prod.snd := by
  obtain ⟨c, tl, hc, _, _⟩ := hfirst.head
  unfold split
  have hne : joinHead first more = c :: (tl ++ (more.map fun p => p.1 ++ p.2).flatten) := by
    unfold joinHead
    rw [hc]
    rfl
  rw [hne]
  simp only
  rw [← hne]
  unfold joinHead
  rw [splitLoop_lines more hmore first [] 0 _ hfirst.2 (by simp; omega)]
  simp


theorem delimLen_ne_zero (t : Str) (h : delimLen t ≠ 0) :
    ∃ e post, IsLineEnd e ∧ t = e ++ post ∧ delimLen t = e.length := by
  cases t with
  | nil => simp [delimLen] at h
  | cons d tl =>
    by_cases h1 : d = '\n'
    · subst h1
      exact ⟨['\n'], tl, Or.inl rfl, rfl, by simp [delimLen]⟩
    · by_cases h2 : d = '\r'
      · subst h2
        cases tl with
        | nil => simp [delimLen] at h
        | cons e tl2 =>
          by_cases h3 : e = '\n'
          · subst h3
            exact ⟨['\r', '\n'], tl2, Or.inr rfl, rfl, by simp [delimLen]⟩
          · simp [delimLen, h3] at h
      · simp [delimLen, h1, h2] at h

theorem bodyDelimLen_ne_zero (t : Str) (h : bodyDelimLen t ≠ 0) :
    ∃ D post, D ∈ BLANK_LINE_DELIMITERS ∧ t = D ++ post := by
  unfold bodyDelimLen at h
  by_cases ha : delimLen t = 0
  · simp [ha] at h
  · by_cases hb : delimLen (t.drop (delimLen t)) = 0
    · simp [ha, hb] at h
    · obtain ⟨e1, p1, he1, ht1, hl1⟩ := delimLen_ne_zero t ha
      rw [hl1, ht1, List.drop_left] at hb
      obtain ⟨e2, p2, he2, ht2, _⟩ := delimLen_ne_zero p1 hb
      refine ⟨e1 ++ e2, p2, ?_, by rw [ht1, ht2, List.append_assoc]⟩
      rcases he1 with rfl | rfl <;> rcases he2 with rfl | rfl <;>
        simp [BLANK_LINE_DELIMITERS]

theorem findFirst_none (len : Str → Nat) (s : Str)
    (h : ∀ j, len (s.drop j) = 0) : ∀ idx, findFirst len idx s = none := by
  induction s with
  | nil =>
    intro idx
    have := h 0
    simp [findFirst, this] at *
    exact this
  | cons c cs ih =>
    intro idx
    have h0 := h 0
    simp only [List.drop_zero] at h0
    unfold findFirst
    simp only [h0, ne_eq, not_true_eq_false, if_false]
    exact ih (fun j => by simpa using h (j + 1)) (idx + 1)

theorem parse_no_delimiter (ext : Ext) (s : Str)
    (h : ∀ pre D post, D ∈ BLANK_LINE_DELIMITERS → s ≠ pre ++ D ++ post) :
    parse ext s = .error .typeError := by
  unfold parse
  rw [exec_bodyDelimiter, findFirst_none]
  · rfl
  · intro j
    by_contra hne
    obtain ⟨D, post, hD, ht⟩ := bodyDelimLen_ne_zero _ hne
    apply h (s.take j) D post hD
    rw [List.append_assoc, ← ht, List.take_append_drop]

theorem parse_head_delimiter_body (ext : Ext) (first : Str) (more : List (Str × Str)) (D B : Str)
    (hfirst : PlainLine first) (hmore : ∀ p ∈ more, IsLineEnd p.1 ∧ PlainLine p.2)
    (hD : D ∈ BLANK_LINE_DELIMITERS) :
    parse ext (joinHead first more ++ D ++ B) = httpRequest ext (first :: more.map Prod.snd) B := by
  unfold parse
  rw [exec_bodyDelimiter, findFirst_bodyDelim_head first more D B hfirst hmore hD]
  simp only [Option.map_some']
  have hdrop : (joinHead first more ++ D ++ B).drop (joinHead first more).length = D ++ B := by
    rw [List.append_assoc, List.drop_left]
  rw [hdrop, bodyDelimLen_delimiter D B hD, List.take_left]
  have h1 : sliceFrom (joinHead first more ++ D ++ B)
      (((joinHead first more).length + D.length : Nat) : Int) = B := by
    unfold sliceFrom relIndex
    have : ¬ (((joinHead first more).length + D.length : Nat) : Int) < 0 := by omega
    rw [if_neg this]
    simp only [Int.toNat_ofNat, List.length_append]
    rw [Nat.min_eq_left (by omega), ← List.length_append, List.drop_left]
  have h2 : slice (joinHead first more ++ D ++ B) 0 ((joinHead first more).length : Int) =
      joinHead first more := by
    unfold slice relIndex
    have : ¬ (((joinHead first more).length : Nat) : Int) < 0 := by omega
    rw [if_neg this]
    simp only [Int.lt_irrefl, if_false, Int.toNat_zero, Int.toNat_ofNat, List.length_append,
      Nat.zero_min, List.drop_zero, Nat.sub_zero]
    rw [Nat.min_eq_left (by omega), List.append_assoc, List.take_left]
  rw [h1, h2, split_joinHead first more hfirst hmore]

theorem httpRequest_body (ext : Ext) (lines : List Str) (B : Str) (req : HttpRequest)
    (h : httpRequest ext lines B = .ok req) : req.body = if B = [] then none else some B := by
  unfold httpRequest at h
  split at h
  · cases h
  · simp only at h
    split at h
    · cases h
    · cases h
      rfl

/-- C5: for every head made of non-empty lines without line terminators
    joined by line endings, every blank-line delimiter `D` among the four
    and every body text `B`, `parse(H + D + B)` splits at the first
    delimiter: it builds the request from the lines of `H` and the body `B`
    (the request's body is `B` verbatim, none when `B` is empty, also when
    `B` contains blank lines); a text that contains no blank-line delimiter
    makes `parse` throw. -/
theorem parse_splits_at_first_delimiter (ext : Ext) :
    (∀ (first : Str) (more : List (Str × Str)) (D B : Str),
      PlainLine first → (∀ p ∈ more, IsLineEnd p.1 ∧ PlainLine p.2) →
      D ∈ BLANK_LINE_DELIMITERS →
      parse ext (joinHead first more ++ D ++ B) = httpRequest ext (first :: more.map Prod.snd) B ∧
      ∀ req, parse ext (joinHead first more ++ D ++ B) = .ok req →
        req.body = if B = [] then none else some B) ∧
    (∀ s : Str, (∀ pre D post, D ∈ BLANK_LINE_DELIMITERS → s ≠ pre ++ D ++ post) →
      parse ext s = .error .typeError) := by
  refine ⟨fun first more D B hfirst hmore hD => ?_, fun s h => parse_no_delimiter ext s h⟩
  have hp := parse_head_delimiter_body ext first more D B hfirst hmore hD
  refine ⟨hp, fun req hreq => ?_⟩
  rw [hp] at hreq
  exact httpRequest_body ext _ B req hreq


/-! ## The request-line pattern -/

theorem REQUEST_LINE_REGEX_eq :
    REQUEST_LINE_REGEX =
      .seq (.group 1 (altList (REQUEST_METHODS.map fun m => litThen m .empty)))
        (.seq (.chr ' ') (.seq TARGET_RE SUFFIX_RE)) := by
  decide!

theorem run_litThen (l : Str) (r : Regex) (c : Cont) :
    ∀ (idx : Nat) (rest : Str) (caps : Caps),
      (litThen l r).run ⟨idx, l ++ rest, caps⟩ c = r.run ⟨idx + l.length, rest, caps⟩ c := by
  induction l with
  | nil => intro idx rest caps; rfl
  | cons a l ih =>
    intro idx rest caps
    have : litThen (a :: l) r = .seq (.chr a) (litThen l r) := rfl
    rw [this, run_seq, run_chr]
    simp only [List.cons_append, stepChar_cons, beq_self_eq_true, if_true]
    rw [ih]
    congr 2
    simp only [List.length_cons]
    omega

theorem run_litThen_some (l : Str) (r : Regex) (c : Cont) (z : MState) :
    ∀ (x : MState), (litThen l r).run x c = some z →
      ∃ rest, x.rest = l ++ rest ∧ r.run ⟨x.idx + l.length, rest, x.caps⟩ c = some z := by
  induction l with
  | nil => intro x h; exact ⟨x.rest, rfl, h⟩
  | cons a l ih =>
    intro x h
    have : litThen (a :: l) r = .seq (.chr a) (litThen l r) := rfl
    rw [this, run_seq, run_chr, stepChar_some_iff] at h
    obtain ⟨d, ds, hrest, hd, hrun⟩ := h
    obtain ⟨rest, hr2, hrun2⟩ := ih _ hrun
    simp only [beq_iff_eq] at hd
    subst hd
    refine ⟨rest, ?_, ?_⟩
    · rw [hrest]
      simp only at hr2
      rw [hr2]
      rfl
    · rw [← hrun2]
      congr 2
      simp only [List.length_cons]
      omega

theorem run_altList_some (rs : List Regex) (x : MState) (c : Cont) (z : MState)
    (hne : rs ≠ []) (h : (altList rs).run x c = some z) : ∃ r ∈ rs, r.run x c = some z := by
  induction rs with
  | nil => exact absurd rfl hne
  | cons a rest ih =>
    cases rest with
    | nil => exact ⟨a, List.mem_cons_self _ _, h⟩
    | cons b rest2 =>
      have e : altList (a :: b :: rest2) = .alt a (altList (b :: rest2)) := rfl
      rw [e] at h
      simp only [Regex.run] at h
      split at h
      · rename_i z2 hz2
        cases h
        exact ⟨a, List.mem_cons_self _ _, hz2⟩
      · obtain ⟨r, hr, hrun⟩ := ih (by simp) h
        exact ⟨r, List.mem_cons_of_mem _ hr, hrun⟩


theorem run_dot (x : MState) (c : Cont) :
    Regex.dot.run x c = stepChar (fun e => !isLineTerminator e) x c := rfl

theorem run_group (i : Nat) (r : Regex) (x : MState) (c : Cont) :
    (Regex.group i r).run x c =
      r.run x fun y => c { y with caps := setCap i (x.rest.take (y.idx - x.idx)) y.caps } := rfl

theorem run_alt_some (a b : Regex) (x : MState) (c : Cont) (z : MState)
    (h : (Regex.alt a b).run x c = some z) : a.run x c = some z ∨ b.run x c = some z := by
  simp only [Regex.run] at h
  split at h
  · rename_i z2 hz2
    cases h
    exact Or.inl hz2
  · exact Or.inr h

theorem run_eol_some (x : MState) (c : Cont) (z : MState) (h : Regex.eol.run x c = some z) :
    x.rest = [] ∧ c x = some z := by
  simp only [Regex.run] at h
  split at h
  · rename_i he
    exact ⟨by simpa using he, h⟩
  · cases h

theorem version_run_some (d0 : Char) (x : MState) (c : Cont) (z : MState)
    (h : (Regex.seq (.chr '1') (.seq .dot (.seq (.chr d0) .empty))).run x c = some z) :
    ∃ c1 rest, x.rest = '1' :: c1 :: d0 :: rest ∧ isLineTerminator c1 = false ∧
      c ⟨x.idx + 3, rest, x.caps⟩ = some z := by
  rw [run_seq, run_chr, stepChar_some_iff] at h
  obtain ⟨a, r1, hr1, ha, h⟩ := h
  rw [run_seq, run_dot, stepChar_some_iff] at h
  obtain ⟨c1, r2, hr2, hc1, h⟩ := h
  rw [run_seq, run_chr, stepChar_some_iff] at h
  obtain ⟨d, r3, hr3, hd, h⟩ := h
  rw [run_empty] at h
  simp only [beq_iff_eq] at ha hd
  simp only at hr2 hr3
  subst ha hd
  refine ⟨c1, r3, by rw [hr1, hr2, hr3], by simpa using hc1, ?_⟩
  simpa [Nat.add_assoc] using h

theorem suffix_run_some (x : MState) (c : Cont) (z : MState)
    (h : SUFFIX_RE.run x c = some z) :
    ∃ c1 d, x.rest = " HTTP/".toList ++ ['1', c1, d] ∧ isLineTerminator c1 = false ∧
      (d = '0' ∨ d = '1') ∧
      c ⟨x.idx + 9, [], setCap 3 ['1', c1, d] x.caps⟩ = some z := by
  unfold SUFFIX_RE at h
  obtain ⟨rest, hrest, h⟩ := run_litThen_some _ _ _ _ _ h
  rw [run_seq] at h
  unfold VERSION_RE at h
  rw [run_group] at h
  rcases run_alt_some _ _ _ _ _ h with h | h
  · obtain ⟨c1, r, hr, hc1, h⟩ := version_run_some '0' _ _ _ h
    simp only at hr h
    rw [run_seq] at h
    obtain ⟨he, h⟩ := run_eol_some _ _ _ h
    simp only at he
    subst he
    refine ⟨c1, '0', by rw [hrest, hr], hc1, Or.inl rfl, ?_⟩
    rw [run_empty] at h
    rw [← h]
    subst hr
    simp [Nat.add_assoc]
  · obtain ⟨c1, r, hr, hc1, h⟩ := version_run_some '1' _ _ _ h
    simp only at hr h
    rw [run_seq] at h
    obtain ⟨he, h⟩ := run_eol_some _ _ _ h
    simp only at he
    subst he
    refine ⟨c1, '1', by rw [hrest, hr], hc1, Or.inr rfl, ?_⟩
    rw [run_empty] at h
    rw [← h]
    subst hr
    simp [Nat.add_assoc]

theorem execFrom_some (r : Regex) (s : Str) (m : Match) :
    ∀ idx, execFrom r idx s = some m →
      ∃ pre rest, s = pre ++ rest ∧ execAt r (idx + pre.length) rest = some m := by
  induction s with
  | nil =>
    intro idx h
    exact ⟨[], [], rfl, by simpa [execFrom] using h⟩
  | cons c cs ih =>
    intro idx h
    unfold execFrom at h
    split at h
    · rename_i m2 hm2
      cases h
      exact ⟨[], c :: cs, rfl, by simpa using hm2⟩
    · obtain ⟨pre, rest, hs, he⟩ := ih (idx + 1) h
      refine ⟨c :: pre, rest, by rw [hs]; rfl, ?_⟩
      rw [← he]
      congr 1
      simp only [List.length_cons]
      omega


theorem getCap_setCap_same (i : Nat) (v : Str) (caps : Caps) :
    getCap i (setCap i v caps) = some v := by
  simp [getCap, setCap, List.find?]

theorem request_line_run_some (idx : Nat) (rest : Str) (z : MState)
    (h : REQUEST_LINE_REGEX.run ⟨idx, rest, []⟩ some = some z) :
    ∃ M target c1 d, rest = M ++ [' '] ++ target ++ " HTTP/".toList ++ ['1', c1, d] ∧
      M ∈ REQUEST_METHODS ∧ isLineTerminator c1 = false ∧ (d = '0' ∨ d = '1') ∧
      z.idx = idx + rest.length ∧ getCap 3 z.caps = some ['1', c1, d] := by
  rw [REQUEST_LINE_REGEX_eq, run_seq, run_group] at h
  obtain ⟨r, hr, h⟩ := run_altList_some _ _ _ _ (by decide) h
  obtain ⟨M, hM, rfl⟩ := List.mem_map.mp hr
  obtain ⟨rest1, hrest1, h⟩ := run_litThen_some _ _ _ _ _ h
  rw [run_empty, run_seq, run_chr, stepChar_some_iff] at h
  obtain ⟨sp, rest2, hrest2, hsp, h⟩ := h
  rw [run_seq] at h
  obtain ⟨y3, hadv, h⟩ := run_forward TARGET_RE _ _ _ h
  obtain ⟨c1, d, hy3, hc1, hd, h⟩ := suffix_run_some _ _ _ h
  obtain ⟨w, hw, hwi⟩ := hadv
  simp only [beq_iff_eq] at hsp
  simp only at hrest1 hrest2 hw hwi
  subst hsp
  cases h
  refine ⟨M, w, c1, d, ?_, hM, hc1, hd, ?_, getCap_setCap_same _ _ _⟩
  · rw [hrest1, hrest2, hw, hy3]
    simp
  · simp only
    rw [hwi, hrest1, hrest2, hw, hy3]
    simp
    omega

/-- C3 (amended): `isRequestLineValid(s)` is non-null only if `s` holds,
    after any text, one of the eight methods, a space, a target and
    ` HTTP/` followed by a three-character version that ends the text,
    begins with `1` and ends with `0` or `1` (so a version whose middle
    character is a dot is `1.0` or `1.1`); the match starts at the method
    and extends to the end of the text. -/
theorem request_line_shape (s : Str) (m : Match) (h : isRequestLineValid s = some m) :
    ∃ pre M target c1 d,
      s = pre ++ M ++ [' '] ++ target ++ " HTTP/".toList ++ ['1', c1, d] ∧
      M ∈ REQUEST_METHODS ∧ (d = '0' ∨ d = '1') ∧
      (c1 = '.' → ['1', c1, d] = "1.0".toList ∨ ['1', c1, d] = "1.1".toList) ∧
      m.index = pre.length ∧
      m.text = M ++ [' '] ++ target ++ " HTTP/".toList ++ ['1', c1, d] ∧
      m.cell 3 = some ['1', c1, d] := by
  unfold isRequestLineValid exec at h
  obtain ⟨pre, rest, hs, he⟩ := execFrom_some _ _ _ _ h
  unfold execAt at he
  cases hrun : REQUEST_LINE_REGEX.run ⟨0 + pre.length, rest, []⟩ some with
  | none => rw [hrun] at he; cases he
  | some z =>
    rw [hrun] at he
    simp only [Option.map_some', Option.some.injEq] at he
    obtain ⟨M, target, c1, d, hrest, hM, hc1, hd, hzi, hcap⟩ := request_line_run_some _ _ _ hrun
    refine ⟨pre, M, target, c1, d, ?_, hM, hd, ?_, ?_, ?_, ?_⟩
    · rw [hs, hrest]
      simp
    · intro hdot
      subst hdot
      rcases hd with rfl | rfl
      · exact Or.inl rfl
      · exact Or.inr rfl
    · rw [← he]
      simp
    · rw [← he]
      simp only
      rw [hzi, ← hrest]
      simp
    · rw [← he]
      exact hcap

theorem request_line_shape_witness :
    isRequestLineValid "GET / HTTP/1.0".toList =
      some ⟨0, "GET / HTTP/1.0".toList,
        [(3, "1.0".toList), (2, "/".toList), (1, "GET".toList)]⟩ ∧
    ∃ pre M target c1 d,
      "GET / HTTP/1.0".toList = pre ++ M ++ [' '] ++ target ++ " HTTP/".toList ++ ['1', c1, d] ∧
      M ∈ REQUEST_METHODS ∧ (d = '0' ∨ d = '1') ∧
      (c1 = '.' → ['1', c1, d] = "1.0".toList ∨ ['1', c1, d] = "1.1".toList) ∧
      (⟨0, "GET / HTTP/1.0".toList,
        [(3, "1.0".toList), (2, "/".toList), (1, "GET".toList)]⟩ : Match).index = pre.length ∧
      (⟨0, "GET / HTTP/1.0".toList,
        [(3, "1.0".toList), (2, "/".toList), (1, "GET".toList)]⟩ : Match).text =
        M ++ [' '] ++ target ++ " HTTP/".toList ++ ['1', c1, d] ∧
      (⟨0, "GET / HTTP/1.0".toList,
        [(3, "1.0".toList), (2, "/".toList), (1, "GET".toList)]⟩ : Match).cell 3 =
        some ['1', c1, d] :=
  ⟨by decide!, request_line_shape "GET / HTTP/1.0".toList _ (by decide!)⟩

/-- C3 (counterexample): a text with a character before the method is
    accepted as a request line although it does not begin with one of the
    eight methods. -/
theorem request_line_accepts_leading_text :
    (isRequestLineValid "xGET / HTTP/1.0".toList).isSome = true ∧
    REQUEST_METHODS.all (fun M => !M.isPrefixOf "xGET / HTTP/1.0".toList) = true := by
  decide!


theorem run_rep_dot_star (x : MState) (c : Cont) :
    (Regex.rep 0 none .dot).run x c =
      repeatMatcher (stepChar fun e => !isLineTerminator e) [] (0 + x.rest.length + 1) 0 none x c :=
  rfl

theorem greedy_none (c : Cont) (caps : Caps) (w rest : Str) (idx : Nat)
    (h : ∀ j, j ≤ w.length → c ⟨idx + j, w.drop j ++ rest, caps⟩ = none) :
    greedy c caps idx w rest = none := by
  cases hg : greedy c caps idx w rest with
  | none => rfl
  | some z =>
    obtain ⟨j, hj, hc⟩ := greedy_some c caps w rest idx z hg
    rw [h j hj] at hc
    cases hc

theorem repeatMatcher_min_one (m : MState → Cont → Option MState) (gs : List Nat) (f : Nat)
    (x : MState) (c : Cont) :
    repeatMatcher m gs (f + 1) 1 none x c =
      m { x with caps := clearCaps gs x.caps } (fun y => repeatMatcher m gs f 0 none y c) := by
  conv => lhs; unfold repeatMatcher
  simp

theorem repeatMatcher_min_zero (m : MState → Cont → Option MState) (gs : List Nat) (f : Nat)
    (x : MState) (c : Cont) :
    repeatMatcher m gs (f + 1) 0 none x c =
      match m { x with caps := clearCaps gs x.caps }
          (fun y => if y.idx = x.idx then none else repeatMatcher m gs f 0 none y c) with
      | some z => some z
      | none => c x := by
  conv => lhs; unfold repeatMatcher
  simp only [reduceCtorEq, if_false, ne_eq, not_true_eq_false, true_and, Nat.sub_zero,
    Option.map_none']

/-- After a state with fewer than nine characters left, more iterations of
    a forward matcher cannot help a continuation that needs nine. -/
theorem repeatMatcher_none_of_short (m : MState → Cont → Option MState) (gs : List Nat)
    (hm : Forward m) (f min : Nat) (max : Option Nat) (y : MState) (c : Cont) (n : Nat)
    (hfail : ∀ y : MState, y.rest.length < n → c y = none) (hy : y.rest.length < n) :
    repeatMatcher m gs f min max y c = none := by
  cases h : repeatMatcher m gs f min max y c with
  | none => rfl
  | some z =>
    obtain ⟨y2, hadv, hc⟩ := repeatMatcher_forward m gs hm f min max y c z h
    rw [hfail y2 (Nat.lt_of_le_of_lt hadv.length_le hy)] at hc
    cases hc

/-- The part `(.*)+` followed by a continuation that only succeeds with
    exactly nine characters left: it captures everything up to the last
    nine characters. -/
theorem target_run (c : Cont) (idx : Nat) (t suf : Str) (caps : Caps) (z : MState)
    (ht : ∀ a ∈ t, isLineTerminator a = false) (hsuf : ∀ a ∈ suf, isLineTerminator a = false)
    (hlen : suf.length = 9)
    (hfail : ∀ y : MState, y.rest.length < 9 → c y = none)
    (hok : c ⟨idx + t.length, suf, setCap 2 t (clearCaps [2] caps)⟩ = some z) :
    TARGET_RE.run ⟨idx, t ++ suf, caps⟩ c = some z := by
  let G : Regex := .group 2 (.seq (.rep 0 none .dot) .empty)
  let M : MState → Cont → Option MState := fun y k => G.run y k
  have hM : Forward M := fun x c z h => run_forward G x c z h
  let f : Nat := 1 + (t ++ suf).length
  let K : Cont := fun y => repeatMatcher M [2] f 0 none y c
  let K2 : Cont := fun y => K { y with caps := setCap 2 ((t ++ suf).take (y.idx - idx)) y.caps }
  have e1 : TARGET_RE.run ⟨idx, t ++ suf, caps⟩ c =
      repeatMatcher M [2] (f + 1) 1 none ⟨idx, t ++ suf, caps⟩ c := rfl
  have e2 : M ⟨idx, t ++ suf, clearCaps [2] caps⟩ K =
      repeatMatcher (stepChar fun e => !isLineTerminator e) [] (0 + (t ++ suf).length + 1) 0 none
        ⟨idx, t ++ suf ++ [], clearCaps [2] caps⟩ K2 := by
    simp only [List.append_nil]
    rfl
  rw [e1, repeatMatcher_min_one, e2]
  rw [star_greedy (fun e => !isLineTerminator e) K2 (clearCaps [2] caps) (t ++ suf) []
    (by
      intro a ha
      rcases List.mem_append.mp ha with h | h
      · simp [ht a h]
      · simp [hsuf a h])
    (by intro b r2 h; cases h) idx _ (by omega)]
  -- split the run of characters at the end of the target
  obtain ⟨s0, suf2, rfl⟩ : ∃ s0 suf2, suf = s0 :: suf2 := by
    cases suf with
    | nil => simp at hlen
    | cons s0 suf2 => exact ⟨s0, suf2, rfl⟩
  rw [greedy_append]
  have hlen2 : suf2.length = 8 := by simpa using hlen
  have hK2short : ∀ y : MState, y.rest.length < 9 → K2 y = none := by
    intro y hy
    exact repeatMatcher_none_of_short M [2] hM f 0 none _ c 9 hfail hy
  rw [greedy_none K2 _ suf2 [] _ (by
    intro j hj
    apply hK2short
    simp only [List.append_nil, List.length_drop]
    omega)]
  simp only
  apply greedy_full
  -- the capture is the target; one more iteration cannot succeed
  show repeatMatcher M [2] f 0 none
    ⟨idx + t.length, s0 :: suf2 ++ [],
      setCap 2 ((t ++ s0 :: suf2).take (idx + t.length - idx)) (clearCaps [2] caps)⟩ c = some z
  have hf : f = (f - 1) + 1 := by
    show 1 + (t ++ s0 :: suf2).length = (1 + (t ++ s0 :: suf2).length - 1) + 1
    omega
  rw [hf, repeatMatcher_min_zero]
  have hnone : M ⟨idx + t.length, s0 :: suf2 ++ [],
        clearCaps [2] (setCap 2 ((t ++ s0 :: suf2).take (idx + t.length - idx))
          (clearCaps [2] caps))⟩
      (fun y => if y.idx = idx + t.length then none
        else repeatMatcher M [2] (f - 1) 0 none y c) = none := by
    cases h : M ⟨idx + t.length, s0 :: suf2 ++ [],
        clearCaps [2] (setCap 2 ((t ++ s0 :: suf2).take (idx + t.length - idx))
          (clearCaps [2] caps))⟩
      (fun y => if y.idx = idx + t.length then none
        else repeatMatcher M [2] (f - 1) 0 none y c) with
    | none => rfl
    | some z2 =>
      obtain ⟨y, hadv, hy⟩ := hM _ _ _ h
      split at hy
      · cases hy
      · rename_i hne
        have hlt := hadv.length_lt hne
        simp only [List.append_nil, List.length_cons] at hlt
        rw [repeatMatcher_none_of_short M [2] hM _ 0 none y c 9 hfail (by omega)] at hy
        cases hy
  simp only at hnone ⊢
  rw [hnone]
  simp only
  rw [← hok]
  congr 2
  · simp
  · have : idx + t.length - idx = t.length := by omega
    rw [this, List.take_left]


theorem run_litThen_none (l : Str) (r : Regex) (c : Cont) :
    ∀ (idx : Nat) (s : Str) (caps : Caps), l.isPrefixOf s = false →
      (litThen l r).run ⟨idx, s, caps⟩ c = none := by
  induction l with
  | nil => intro idx s caps h; simp at h
  | cons a l ih =>
    intro idx s caps h
    have e : litThen (a :: l) r = .seq (.chr a) (litThen l r) := rfl
    rw [e, run_seq, run_chr]
    cases s with
    | nil => rfl
    | cons b s2 =>
      rw [stepChar_cons]
      by_cases hab : b = a
      · subst hab
        simp only [beq_self_eq_true, if_true]
        apply ih
        simpa [List.isPrefixOf] using h
      · simp [hab]

theorem altList_lit_run (k : Cont) (z : MState) (M rest : Str) (idx : Nat) (caps : Caps)
    (hk : k ⟨idx + M.length, rest, caps⟩ = some z) :
    ∀ ls : List Str, M ∈ ls → (∀ M2 ∈ ls, M2 ≠ M → M2.isPrefixOf (M ++ rest) = false) →
      (altList (ls.map fun m => litThen m .empty)).run ⟨idx, M ++ rest, caps⟩ k = some z := by
  intro ls
  induction ls with
  | nil => intro h; cases h
  | cons a ls ih =>
    intro hmem hne
    have hlit : (litThen M .empty).run ⟨idx, M ++ rest, caps⟩ k = some z := by
      rw [run_litThen, run_empty]
      exact hk
    cases ls with
    | nil =>
      have : a = M := by simpa using (List.mem_singleton.mp hmem).symm
      subst this
      exact hlit
    | cons b ls2 =>
      have e : altList ((a :: b :: ls2).map fun m => litThen m .empty) =
          .alt (litThen a .empty) (altList ((b :: ls2).map fun m => litThen m .empty)) := rfl
      rw [e]
      simp only [Regex.run]
      by_cases ha : a = M
      · subst ha
        rw [hlit]
      · rw [run_litThen_none a _ _ _ _ _ (hne a (List.mem_cons_self _ _) ha)]
        simp only
        apply ih
        · rcases List.mem_cons.mp hmem with h | h
          · exact absurd h.symm ha
          · exact h
        · intro M2 hM2 hne2
          exact hne M2 (List.mem_cons_of_mem _ hM2) hne2

theorem methods_not_prefix (M M2 rest : Str) (hM : M ∈ REQUEST_METHODS) (hM2 : M2 ∈ REQUEST_METHODS)
    (hne : M2 ≠ M) : M2.isPrefixOf (M ++ ' ' :: rest) = false := by
  simp only [REQUEST_METHODS, List.mem_cons, List.mem_singleton, List.not_mem_nil, or_false]
    at hM hM2
  rcases hM with rfl | rfl | rfl | rfl | rfl | rfl | rfl | rfl <;>
    rcases hM2 with rfl | rfl | rfl | rfl | rfl | rfl | rfl | rfl <;>
    first
      | exact absurd rfl hne
      | simp [List.isPrefixOf]

theorem suffix_run_short (y : MState) (h : y.rest.length < 9) : SUFFIX_RE.run y some = none := by
  cases hr : SUFFIX_RE.run y some with
  | none => rfl
  | some z =>
    obtain ⟨c1, d, hy, _⟩ := suffix_run_some y some z hr
    rw [hy] at h
    simp at h

theorem suffix_run_version (idx : Nat) (caps : Caps) (V : Str)
    (hV : V = "1.0".toList ∨ V = "1.1".toList) :
    SUFFIX_RE.run ⟨idx, " HTTP/".toList ++ V, caps⟩ some =
      some ⟨idx + 9, [], setCap 3 V caps⟩ := by
  unfold SUFFIX_RE
  rw [run_litThen]
  rcases hV with rfl | rfl
  · simp [VERSION_RE, Regex.run, stepChar, isLineTerminator, Nat.add_assoc]
  · simp [VERSION_RE, Regex.run, stepChar, isLineTerminator, Nat.add_assoc]


theorem execFrom_of_execAt (r : Regex) (idx : Nat) (s : Str) (m : Match)
    (h : execAt r idx s = some m) : execFrom r idx s = some m := by
  cases s with
  | nil => exact h
  | cons c cs =>
    unfold execFrom
    rw [h]

/-- The request-line pattern on a well-formed request line: the match is
    the whole line and the cells are the method, the target and the
    version. -/
theorem request_line_exec (M T V : Str) (hM : M ∈ REQUEST_METHODS)
    (hT : ∀ a ∈ T, isLineTerminator a = false) (hV : V = "1.0".toList ∨ V = "1.1".toList) :
    isRequestLineValid (M ++ [' '] ++ T ++ " HTTP/".toList ++ V) =
      some ⟨0, M ++ [' '] ++ T ++ " HTTP/".toList ++ V, [(3, V), (2, T), (1, M)]⟩ := by
  unfold isRequestLineValid exec
  apply execFrom_of_execAt
  unfold execAt
  have hsufLT : ∀ a ∈ " HTTP/".toList ++ V, isLineTerminator a = false := by
    rcases hV with rfl | rfl <;> decide
  have hsufLen : (" HTTP/".toList ++ V).length = 9 := by
    rcases hV with rfl | rfl <;> rfl
  have hrun : REQUEST_LINE_REGEX.run ⟨0, M ++ [' '] ++ T ++ " HTTP/".toList ++ V, []⟩ some =
      some ⟨(M ++ [' '] ++ T ++ " HTTP/".toList ++ V).length, [],
        [(3, V), (2, T), (1, M)]⟩ := by
    rw [REQUEST_LINE_REGEX_eq, run_seq, run_group]
    have hshape : M ++ [' '] ++ T ++ " HTTP/".toList ++ V =
        M ++ (' ' :: (T ++ (" HTTP/".toList ++ V))) := by simp
    rw [hshape]
    apply altList_lit_run
    · simp only
      rw [run_seq, run_chr, stepChar_cons]
      simp only [beq_self_eq_true, if_true]
      rw [run_seq]
      rw [target_run (fun y => SUFFIX_RE.run y some) _ T (" HTTP/".toList ++ V) _ _ hT hsufLT hsufLen
        (fun y hy => suffix_run_short y hy) (suffix_run_version _ _ V hV)]
      congr 1
      have hl : (M ++ ' ' :: (T ++ (" HTTP/".toList ++ V))).length = M.length + 1 + T.length + 9 := by
        simp only [List.length_append, List.length_cons, hsufLen]
        omega
      have hcap : setCap 3 V (setCap 2 T (clearCaps [2]
          (setCap 1 ((M ++ ' ' :: (T ++ (" HTTP/".toList ++ V))).take (0 + M.length - 0)) []))) =
          [(3, V), (2, T), (1, M)] := by
        have : 0 + M.length - 0 = M.length := by omega
        rw [this, List.take_left]
        rfl
      simp only [hl, Nat.zero_add]
      rw [← hcap]
      simp
    · exact hM
    · intro M2 hM2 hne
      exact methods_not_prefix M M2 _ hM hM2 hne
  rw [hrun]
  simp


theorem indexOfFrom_spec (c : Char) (s : Str) : ∀ i : Nat,
    indexOfFrom c i s =
      match s.dropWhile (fun d => d != c) with
      | [] => -1
      | _ :: _ => ((i + (s.takeWhile fun d => d != c).length : Nat) : Int) := by
  induction s with
  | nil => intro i; rfl
  | cons d ds ih =>
    intro i
    unfold indexOfFrom
    by_cases h : d = c
    · subst h
      simp [List.dropWhile, List.takeWhile]
    · have h1 : (d == c) = false := by simpa using h
      have h2 : (d != c) = true := by simpa using h
      simp only [h1, Bool.false_eq_true, if_false, List.dropWhile, h2, List.takeWhile, List.length_cons]
      rw [ih (i + 1)]
      cases ds.dropWhile (fun d => d != c) with
      | nil => rfl
      | cons a as =>
        simp only
        congr 1
        omega

theorem path_query_split (ext : Ext) (T : Str) :
    (if indexOf T '?' = -1 then T else substringTo T (indexOf T '?')) = pathOf T ∧
    (if indexOf T '?' = -1 then JVal.obj []
      else ext.querystringParse (substringFrom T (indexOf T '?' + 1))) =
      (match queryTextOf T with
       | some q => ext.querystringParse q
       | none => JVal.obj []) := by
  unfold indexOf pathOf queryTextOf
  rw [indexOfFrom_spec]
  have hsplit := List.takeWhile_append_dropWhile (fun d => d != '?') T
  cases hd : T.dropWhile (fun d => d != '?') with
  | nil =>
    rw [hd, List.append_nil] at hsplit
    simp only [if_true]
    exact ⟨hsplit.symm, trivial⟩
  | cons a q =>
    rw [hd] at hsplit
    generalize hP : (T.takeWhile fun d => d != '?') = P at hsplit ⊢
    have hne : ¬ (((0 + P.length : Nat) : Int) = -1) := by omega
    have hne2 : ¬ (((P.length : Nat) : Int) = -1) := by omega
    simp only [hne, if_false, Nat.zero_add]
    constructor
    · unfold substringTo
      simp only [Int.toNat_ofNat]
      rw [← hsplit, List.take_left, if_neg hne2]
    · unfold substringFrom
      have : ((P.length : Nat) : Int) + 1 = ((P.length + 1 : Nat) : Int) := by omega
      rw [this]
      simp only [Int.toNat_ofNat]
      rw [← hsplit, List.drop_append]
      simp

theorem requestLine_plain (M T V : Str) (hM : M ∈ REQUEST_METHODS)
    (hT : ∀ a ∈ T, isLineTerminator a = false) (hV : V = "1.0".toList ∨ V = "1.1".toList) :
    PlainLine (requestLineOf M T V) := by
  have hMne : M ≠ [] ∧ ∀ c ∈ M, c ≠ '\n' ∧ c ≠ '\r' := by
    simp only [REQUEST_METHODS, List.mem_cons, List.mem_singleton, List.not_mem_nil, or_false]
      at hM
    rcases hM with rfl | rfl | rfl | rfl | rfl | rfl | rfl | rfl <;> decide
  have hVp : ∀ c ∈ " HTTP/".toList ++ V, c ≠ '\n' ∧ c ≠ '\r' := by
    rcases hV with rfl | rfl <;> decide
  unfold requestLineOf
  constructor
  · intro h
    apply hMne.1
    cases M with
    | nil => rfl
    | cons a as => simp at h
  · intro c hc
    simp only [List.append_assoc, List.mem_append, List.mem_singleton] at hc
    rcases hc with h | h | h | h
    · exact hMne.2 c h
    · subst h
      decide
    · have := hT c h
      simp only [isLineTerminator, Bool.or_eq_false_iff, beq_eq_false_iff_ne, ne_eq] at this
      exact ⟨this.1.1.1, this.1.1.2⟩
    · exact hVp c (List.mem_append.mpr h)

/-- C2: for every method `M` among the eight, every version `V` in
    {1.0, 1.1}, every target `T` without line terminators (it may hold
    spaces) and every list of header lines that `addHeaders` accepts for
    `V` (header lines that satisfy `V`'s required headers), parsing the text
    `M T HTTP/V` + headers + blank line yields a request with method `M`,
    protocol `HTTP`, version `V`, path equal to `T` up to its first `?` and
    query equal to the decoded text after that `?` (the empty mapping when
    there is none). -/
theorem parse_request_line_fields (ext : Ext) (M T V : Str) (more : List (Str × Str)) (D : Str)
    (headers : Obj) (hM : M ∈ REQUEST_METHODS) (hV : V = "1.0".toList ∨ V = "1.1".toList)
    (hT : ∀ a ∈ T, isLineTerminator a = false)
    (hmore : ∀ p ∈ more, IsLineEnd p.1 ∧ PlainLine p.2) (hD : D ∈ BLANK_LINE_DELIMITERS)
    (hreq : addHeaders V (requestLineOf M T V :: more.map Prod.snd) 1 = .ok headers) :
    ∃ req, parse ext (joinHead (requestLineOf M T V) more ++ D) = .ok req ∧
      req.method = M ∧ req.protocol = "HTTP".toList ∧ req.httpVer = V ∧
      req.path = pathOf T ∧
      req.query = (match queryTextOf T with
        | some q => ext.querystringParse q
        | none => JVal.obj []) ∧
      req.headers = headers ∧ req.body = none := by
  have hp := parse_head_delimiter_body ext (requestLineOf M T V) more D []
    (requestLine_plain M T V hM hT hV) hmore hD
  rw [List.append_nil] at hp
  rw [hp]
  unfold httpRequest
  have hex : exec REQUEST_LINE_REGEX
      ((requestLineOf M T V :: more.map Prod.snd).head?.getD "undefined".toList) =
      some ⟨0, requestLineOf M T V, [(3, V), (2, T), (1, M)]⟩ :=
    request_line_exec M T V hM hT hV
  rw [hex]
  have hc1 : (⟨0, requestLineOf M T V, [(3, V), (2, T), (1, M)]⟩ : Match).cellStr 1 = M := rfl
  have hc2 : (⟨0, requestLineOf M T V, [(3, V), (2, T), (1, M)]⟩ : Match).cellStr 2 = T := rfl
  have hc3 : (⟨0, requestLineOf M T V, [(3, V), (2, T), (1, M)]⟩ : Match).cellStr 3 = V := rfl
  simp only [hc1, hc2, hc3, hreq]
  obtain ⟨h1, h2⟩ := path_query_split ext T
  exact ⟨_, rfl, rfl, rfl, rfl, h1, h2, rfl, rfl⟩

theorem parse_request_line_fields_witness :
    addHeaders "1.1".toList (requestLineOf "GET".toList "/a?x=1".toList "1.1".toList ::
      [("\r\n".toList, "Host: example.com".toList)].map Prod.snd) 1 =
      .ok [("host".toList, "example.com".toList)] ∧
    ∃ req, parse sampleExt (joinHead (requestLineOf "GET".toList "/a?x=1".toList "1.1".toList)
        [("\r\n".toList, "Host: example.com".toList)] ++ "\r\n\r\n".toList) = .ok req ∧
      req.method = "GET".toList ∧ req.protocol = "HTTP".toList ∧ req.httpVer = "1.1".toList ∧
      req.path = pathOf "/a?x=1".toList ∧
      req.query = (match queryTextOf "/a?x=1".toList with
        | some q => sampleExt.querystringParse q
        | none => JVal.obj []) ∧
      req.headers = [("host".toList, "example.com".toList)] ∧ req.body = none :=
  ⟨by rfl,
   parse_request_line_fields sampleExt "GET".toList "/a?x=1".toList "1.1".toList
     [("\r\n".toList, "Host: example.com".toList)] "\r\n\r\n".toList
     [("host".toList, "example.com".toList)] (by decide) (Or.inr rfl) (by decide)
     (by
       intro p hp
       simp only [List.mem_singleton] at hp
       subst hp
       exact ⟨Or.inr rfl, by decide, by decide⟩)
     (by decide) (by rfl)⟩


/-! ## The reader: how much it holds -/

theorem execAt_text_length (r : Regex) (idx : Nat) (rest : Str) (m : Match)
    (h : execAt r idx rest = some m) : m.text.length ≤ rest.length := by
  unfold execAt at h
  cases hr : r.run ⟨idx, rest, []⟩ some with
  | none => rw [hr] at h; cases h
  | some y =>
    rw [hr] at h
    simp only [Option.map_some', Option.some.injEq] at h
    rw [← h]
    simp only [List.length_take]
    omega

theorem exec_text_length (r : Regex) (s : Str) (m : Match) (h : exec r s = some m) :
    m.text.length ≤ s.length := by
  obtain ⟨pre, rest, hs, he⟩ := execFrom_some r s m 0 h
  have := execAt_text_length r _ rest m he
  rw [hs, List.length_append]
  omega

theorem findFirst_lt (s : Str) : ∀ (idx i : Nat), findFirst delimLen idx s = some i →
    i < idx + s.length := by
  induction s with
  | nil =>
    intro idx i h
    simp [findFirst, delimLen] at h
  | cons c cs ih =>
    intro idx i h
    unfold findFirst at h
    split at h
    · cases h
      simp
    · have := ih (idx + 1) i h
      simp only [List.length_cons]
      omega

theorem slice_to_search_length (lb : Str) (hne : lb ≠ []) :
    (slice lb 0 (search lineDelimiterRegex lb)).length + 1 ≤ lb.length := by
  have hpos : 0 < lb.length := List.length_pos.mpr hne
  rw [search_lineDelimiter]
  cases hf : findFirst delimLen 0 lb with
  | none =>
    simp only [slice, relIndex]
    simp only [Int.lt_irrefl, if_false, Int.toNat_zero, Nat.zero_min, List.drop_zero,
      Nat.sub_zero, List.length_take]
    have : ((-1 : Int) < 0) := by omega
    simp only [this, if_true]
    omega
  | some i =>
    have hlt := findFirst_lt lb 0 i hf
    simp only [slice, relIndex]
    have : ¬ ((i : Int) < 0) := by omega
    simp only [Int.lt_irrefl, if_false, Int.toNat_zero, Nat.zero_min, List.drop_zero,
      Nat.sub_zero, List.length_take, this, Int.toNat_ofNat]
    omega

theorem search_eq_zero_iff (s : Str) : search lineDelimiterRegex s = 0 ↔ delimLen s ≠ 0 := by
  rw [search_lineDelimiter]
  cases s with
  | nil => simp [findFirst, delimLen]
  | cons c cs =>
    unfold findFirst
    by_cases h : delimLen (c :: cs) = 0
    · simp only [h, ne_eq, not_true_eq_false, if_false, iff_false]
      cases hf : findFirst delimLen (0 + 1) cs with
      | none => simp
      | some i =>
        have := findFirst_ge delimLen cs (0 + 1) i hf
        simp only
        omega
    · simp [h]


theorem isRequestLineValid_text_length (s : Str) (m : Match) (h : isRequestLineValid s = some m) :
    m.text.length ≤ s.length := exec_text_length _ s m h

/-- What `lineStep` can do to the state: append the character; reset;
    start a request with the matched request line; append a header line. -/
theorem lineStep_cases (st : Reader) (c : Char) :
    lineStep st c = { st with lineBuffer := st.lineBuffer ++ [c] } ∨
    lineStep st c = init ∨
    (st.isInSideBody = false ∧ c = '\n' ∧ ∃ t : Str, t.length ≤ st.lineBuffer.length + 1 ∧
      lineStep st c = { st with isInSideRequest := true, requestStr := t, lineBuffer := [] }) ∨
    (st.isInSideBody = false ∧ c = '\n' ∧ st.isInSideRequest = true ∧ ∃ n : Nat,
      lineStep st c = { st with requestStr := st.requestStr ++ (st.lineBuffer ++ [c]),
                                lengthOfBody := n, lineBuffer := [] }) := by
  unfold lineStep
  simp only
  by_cases hcond : st.isInSideBody = false ∧ c = LINE_DELIMITER
  · rw [if_pos hcond]
    have hc : c = '\n' := hcond.2
    cases ht : isRequestLineValid
        (slice (st.lineBuffer ++ [c]) 0 (search lineDelimiterRegex (st.lineBuffer ++ [c]))) with
    | some title =>
      simp only
      right; right; left
      refine ⟨hcond.1, hc, title.text ++ [LINE_DELIMITER], ?_, rfl⟩
      have h1 := isRequestLineValid_text_length _ _ ht
      have h2 := slice_to_search_length (st.lineBuffer ++ [c]) (by simp)
      simp only [List.length_append, List.length_singleton] at h2 ⊢
      omega
    | none =>
      simp only
      by_cases hh : st.isInSideRequest = true ∧
          (isHeaderLineValid (slice (st.lineBuffer ++ [c]) 0
            (search lineDelimiterRegex (st.lineBuffer ++ [c])))).isSome = true
      · rw [if_pos hh]
        right; right; right
        exact ⟨hcond.1, hc, hh.1, _, rfl⟩
      · rw [if_neg hh]
        by_cases hi : indexOf (st.lineBuffer ++ [c]) LINE_DELIMITER > 1
        · rw [if_pos hi]
          right; left; rfl
        · rw [if_neg hi]
          left; rfl
  · rw [if_neg hcond]
    left; rfl

theorem delimLen_snoc (l : Str) (c : Char) (h0 : delimLen l = 0) (h1 : delimLen (l ++ [c]) ≠ 0) :
    l ++ [c] = ['\n'] ∨ l ++ [c] = ['\r', '\n'] := by
  cases l with
  | nil =>
    left
    by_cases hc : c = '\n'
    · rw [hc]; rfl
    · simp [delimLen, hc] at h1
  | cons a l2 =>
    by_cases ha : a = '\n'
    · subst ha
      simp [delimLen] at h0
    · by_cases ha2 : a = '\r'
      · subst ha2
        cases l2 with
        | nil =>
          right
          by_cases hc : c = '\n'
          · rw [hc]; rfl
          · simp [delimLen, hc] at h1
        | cons b l3 =>
          by_cases hb : b = '\n'
          · subst hb
            simp [delimLen] at h0
          · simp [delimLen, hb] at h1
      · simp [delimLen, ha, ha2] at h1

/-- What `bodyStep` can do to the state. -/
theorem bodyStep_cases (ext : Ext) (st : Reader) :
    (bodyStep ext st).1 = st ∨ (bodyStep ext st).1 = init ∨
    (st.isInSideRequest = true ∧ st.isInSideBody = false ∧ delimLen st.lineBuffer ≠ 0 ∧
      (bodyStep ext st).1 =
        { st with requestStr := st.requestStr ++ st.lineBuffer, isInSideBody := true,
                  lineBuffer := substringFrom st.lineBuffer (indexOf st.lineBuffer '\n' + 1) }) := by
  unfold bodyStep
  by_cases hr : st.isInSideRequest = true
  · rw [if_pos hr]
    simp only
    by_cases he : st.isInSideBody = false ∧ search lineDelimiterRegex st.lineBuffer = 0
    · rw [if_pos he]
      split
      · right; left; rfl
      · right; right
        exact ⟨hr, he.1, (search_eq_zero_iff _).mp he.2, rfl⟩
    · rw [if_neg he]
      split
      · right; left; rfl
      · left; rfl
  · rw [if_neg hr]
    left; rfl

theorem bodyStep_tidy (ext : Ext) (st : Reader) : (bodyStep ext st).1.Tidy := by
  unfold bodyStep
  by_cases hr : st.isInSideRequest = true
  · rw [if_pos hr]
    simp only
    by_cases he : st.isInSideBody = false ∧ search lineDelimiterRegex st.lineBuffer = 0
    · rw [if_pos he]
      split
      · intro h; cases h
      · intro _ hb; cases hb
    · rw [if_neg he]
      split
      · intro h; cases h
      · intro _ hb
        by_contra hd
        exact he ⟨hb, (search_eq_zero_iff _).mpr hd⟩
  · rw [if_neg hr]
    intro h
    exact absurd h hr


theorem init_held : init.held = 0 := rfl

theorem init_tidy : init.Tidy := by
  intro h
  cases h

theorem substringFrom_after_delim (l : Str) (h : l = ['\n'] ∨ l = ['\r', '\n']) :
    substringFrom l (indexOf l '\n' + 1) = [] := by
  rcases h with rfl | rfl <;> decide

theorem charStep_bound (ext : Ext) (st : Reader) (c : Char) (ht : st.Tidy) :
    (charStep ext st c).1.lineBuffer.length ≤ st.lineBuffer.length + 1 ∧
    (charStep ext st c).1.held ≤ st.held + 1 ∧ (charStep ext st c).1.Tidy := by
  refine ⟨?_, ?_, bodyStep_tidy ext _⟩
  all_goals
    unfold charStep
    rcases lineStep_cases st c with h1 | h1 | ⟨hb, hc, t, hlen, h1⟩ | ⟨hb, hc, hr, n, h1⟩
    · rcases bodyStep_cases ext (lineStep st c) with h2 | h2 | ⟨hr2, hb2, hd2, h2⟩
      · rw [h2, h1]
        simp [Reader.held]
        try omega
      · rw [h2]
        simp [init, Reader.held]
      · rw [h2]
        rw [h1] at hr2 hb2 hd2 ⊢
        simp only at hr2 hb2 hd2 ⊢
        have h0 := ht hr2 hb2
        rw [substringFrom_after_delim _ (delimLen_snoc _ _ h0 hd2)]
        simp [Reader.held]
        try omega
    · rw [h1]
      have : (bodyStep ext init).1 = init := rfl
      rw [this]
      simp [init, Reader.held]
    · rcases bodyStep_cases ext (lineStep st c) with h2 | h2 | ⟨hr2, hb2, hd2, h2⟩
      · rw [h2, h1]
        simp [Reader.held]
        try omega
      · rw [h2]
        simp [init, Reader.held]
      · rw [h1] at hd2
        simp [delimLen] at hd2
    · rcases bodyStep_cases ext (lineStep st c) with h2 | h2 | ⟨hr2, hb2, hd2, h2⟩
      · rw [h2, h1]
        simp [Reader.held]
        try omega
      · rw [h2]
        simp [init, Reader.held]
      · rw [h1] at hd2
        simp [delimLen] at hd2

theorem feedChars_bound (ext : Ext) (data : Str) : ∀ (st : Reader), st.Tidy →
    (feedChars ext st data).1.lineBuffer.length ≤ st.lineBuffer.length + data.length ∧
    (feedChars ext st data).1.held ≤ st.held + data.length ∧ (feedChars ext st data).1.Tidy := by
  induction data with
  | nil => intro st ht; exact ⟨Nat.le_refl _, Nat.le_refl _, ht⟩
  | cons c cs ih =>
    intro st ht
    obtain ⟨h1, h2, h3⟩ := charStep_bound ext st c ht
    obtain ⟨h4, h5, h6⟩ := ih (charStep ext st c).1 h3
    simp only [feedChars, List.length_cons]
    exact ⟨by omega, by omega, h6⟩


theorem onData_bound (ext : Ext) (st : Reader) (d : Str) (ht : st.Tidy)
    (hl : st.lineBuffer.length ≤ 2 * 8194) (hr : st.requestStr.length ≤ 3 * 8194) :
    (onData ext st d).1.Tidy ∧ (onData ext st d).1.lineBuffer.length ≤ 2 * 8194 ∧
    (onData ext st d).1.requestStr.length ≤ 3 * 8194 := by
  unfold onData
  by_cases hg : st.lineBuffer.length > REQUEST_MAX_LENGTH ∨ d.length > REQUEST_MAX_LENGTH ∨
      st.requestStr.length > REQUEST_MAX_LENGTH
  · rw [if_pos hg]
    exact ⟨init_tidy, by simp [init], by simp [init]⟩
  · rw [if_neg hg]
    simp only [REQUEST_MAX_LENGTH, not_or, not_lt] at hg
    obtain ⟨h1, h2, h3⟩ := feedChars_bound ext d st ht
    refine ⟨h3, by omega, ?_⟩
    simp only [Reader.held] at h2
    omega

theorem feedChunks_bound (ext : Ext) (chunks : List Str) : ∀ (st : Reader), st.Tidy →
    st.lineBuffer.length ≤ 2 * 8194 → st.requestStr.length ≤ 3 * 8194 →
    (feedChunks ext st chunks).1.Tidy ∧ (feedChunks ext st chunks).1.lineBuffer.length ≤ 2 * 8194 ∧
    (feedChunks ext st chunks).1.requestStr.length ≤ 3 * 8194 := by
  induction chunks with
  | nil => intro st ht hl hr; exact ⟨ht, hl, hr⟩
  | cons d ds ih =>
    intro st ht hl hr
    obtain ⟨h1, h2, h3⟩ := onData_bound ext st d ht hl hr
    exact ih _ h1 h2 h3

/-- C16 (amended): in every reader state reached from the initial state by
    feeding any sequence of chunks, the pending line buffer holds at most
    2 * 8194 characters and the accumulated request text at most 3 * 8194;
    the maximum of 8194 is enforced when a chunk starts: a chunk that finds
    more than 8194 characters in either is rejected and resets the reader,
    and while a chunk of at most 8194 characters is processed the same two
    bounds hold after each of its characters. -/
theorem reader_buffers_bounded (ext : Ext) (chunks : List Str) :
    (feedChunks ext init chunks).1.lineBuffer.length ≤ 2 * 8194 ∧
    (feedChunks ext init chunks).1.requestStr.length ≤ 3 * 8194 ∧
    (∀ d : Str, (feedChunks ext init chunks).1.lineBuffer.length > 8194 ∨
        (feedChunks ext init chunks).1.requestStr.length > 8194 →
      onData ext (feedChunks ext init chunks).1 d = (init, [ReqObj.error 414])) ∧
    (∀ p : Str, p.length ≤ 8194 →
      (feedChunks ext init chunks).1.lineBuffer.length ≤ 8194 →
      (feedChunks ext init chunks).1.requestStr.length ≤ 8194 →
      (feedChars ext (feedChunks ext init chunks).1 p).1.lineBuffer.length ≤ 2 * 8194 ∧
      (feedChars ext (feedChunks ext init chunks).1 p).1.requestStr.length ≤ 3 * 8194) := by
  obtain ⟨ht, hl, hr⟩ := feedChunks_bound ext chunks init init_tidy (by simp [init])
    (by simp [init])
  refine ⟨hl, hr, ?_, ?_⟩
  · intro d hd
    unfold onData
    rw [if_pos]
    · rfl
    · rcases hd with h | h
      · exact Or.inl h
      · exact Or.inr (Or.inr h)
  · intro p hp hl2 hr2
    obtain ⟨h1, h2, _⟩ := feedChars_bound ext p _ ht
    simp only [Reader.held] at h2
    exact ⟨by omega, by omega⟩

theorem feedChars_idle (ext : Ext) (w : Str) : ∀ (st : Reader), st.isInSideRequest = false →
    (∀ c ∈ w, c ≠ '\n') →
    feedChars ext st w = ({ st with lineBuffer := st.lineBuffer ++ w }, []) := by
  induction w with
  | nil => intro st _ _; simp [feedChars]
  | cons c cs ih =>
    intro st hr hw
    have hc : c ≠ '\n' := hw c (List.mem_cons_self _ _)
    have hstep : charStep ext st c = ({ st with lineBuffer := st.lineBuffer ++ [c] }, []) := by
      unfold charStep lineStep bodyStep
      simp [hc, hr, LINE_DELIMITER]
    simp only [feedChars, hstep]
    rw [ih { st with lineBuffer := st.lineBuffer ++ [c] } hr
      (fun d hd => hw d (List.mem_cons_of_mem _ hd))]
    simp

theorem feedChunks_two_idle (ext : Ext) (w : Str) (hw : ∀ c ∈ w, c ≠ '\n')
    (hlen : w.length = 8194) :
    (feedChunks ext init [w, ['a']]).1.lineBuffer.length = 8195 := by
  have h1 : onData ext init w = ({ init with lineBuffer := init.lineBuffer ++ w }, []) := by
    unfold onData
    rw [if_neg]
    · exact feedChars_idle ext _ init rfl hw
    · simp only [init, REQUEST_MAX_LENGTH, List.length_nil, hlen]
      omega
  have h2 : onData ext { init with lineBuffer := init.lineBuffer ++ w } ['a'] =
      ({ init with lineBuffer := init.lineBuffer ++ w ++ ['a'] }, []) := by
    unfold onData
    rw [if_neg]
    · exact feedChars_idle ext _ _ rfl (by decide)
    · simp only [init, REQUEST_MAX_LENGTH, List.length_nil, List.nil_append, hlen,
        List.length_singleton]
      omega
  simp only [feedChunks, h1, h2]
  simp only [init, List.nil_append, List.length_append, hlen, List.length_singleton]

/-- C16 (counterexample): after a chunk of 8194 characters without a line
    feed and one more character, the pending line buffer holds 8195
    characters, more than the maximum. -/
theorem line_buffer_exceeds_maximum :
    (feedChunks sampleExt init [List.replicate 8194 'a', ['a']]).1.lineBuffer.length = 8195 :=
  feedChunks_two_idle sampleExt (List.replicate 8194 'a')
    (fun c hc => by rw [List.eq_of_mem_replicate hc]; decide) (List.length_replicate _ _)


/-! ## The reader: framing a well-formed request -/

theorem feedChars_append (ext : Ext) (a b : Str) : ∀ st : Reader,
    feedChars ext st (a ++ b) =
      ((feedChars ext (feedChars ext st a).1 b).1,
       (feedChars ext st a).2 ++ (feedChars ext (feedChars ext st a).1 b).2) := by
  induction a with
  | nil => intro st; simp [feedChars]
  | cons c cs ih =>
    intro st
    have e1 : feedChars ext st (c :: cs ++ b) =
        ((feedChars ext (charStep ext st c).1 (cs ++ b)).1,
         (charStep ext st c).2 ++ (feedChars ext (charStep ext st c).1 (cs ++ b)).2) := rfl
    have e2 : feedChars ext st (c :: cs) =
        ((feedChars ext (charStep ext st c).1 cs).1,
         (charStep ext st c).2 ++ (feedChars ext (charStep ext st c).1 cs).2) := rfl
    rw [e1, e2, ih]
    simp [List.append_assoc]

theorem feedChunks_eq_feedChars (ext : Ext) (chunks : List Str) : ∀ st : Reader, st.Tidy →
    st.held + chunks.flatten.length ≤ 8194 →
    feedChunks ext st chunks = feedChars ext st chunks.flatten := by
  induction chunks with
  | nil => intro st _ _; rfl
  | cons d ds ih =>
    intro st ht hlen
    simp only [List.flatten_cons, List.length_append] at hlen
    have hd : onData ext st d = feedChars ext st d := by
      unfold onData
      rw [if_neg]
      simp only [REQUEST_MAX_LENGTH, Reader.held] at hlen ⊢
      omega
    obtain ⟨_, h2, h3⟩ := feedChars_bound ext d st ht
    simp only [feedChunks, hd, List.flatten_cons]
    rw [ih _ h3 (by omega), feedChars_append]

theorem feedChars_plain (ext : Ext) (w : Str) : ∀ st : Reader, st.isInSideBody = false →
    (∀ c ∈ w, c ≠ '\n') →
    (st.isInSideRequest = true → ∀ p, p ≠ [] → p <+: w → delimLen (st.lineBuffer ++ p) = 0) →
    feedChars ext st w = ({ st with lineBuffer := st.lineBuffer ++ w }, []) := by
  induction w with
  | nil => intro st _ _ _; simp [feedChars]
  | cons c cs ih =>
    intro st hb hw hp
    have hc : c ≠ '\n' := hw c (List.mem_cons_self _ _)
    have hstep : charStep ext st c = ({ st with lineBuffer := st.lineBuffer ++ [c] }, []) := by
      unfold charStep
      have hl : lineStep st c = { st with lineBuffer := st.lineBuffer ++ [c] } := by
        unfold lineStep
        simp [hc, LINE_DELIMITER]
      rw [hl]
      unfold bodyStep
      by_cases hr : st.isInSideRequest = true
      · have h0 := hp hr [c] (by simp) (by simp [List.prefix_cons_inj])
        have hs : ¬ (search lineDelimiterRegex (st.lineBuffer ++ [c]) = 0) := by
          rw [search_eq_zero_iff]
          simpa using h0
        simp [hr, hb, hs]
      · simp [hr]
    simp only [feedChars, hstep]
    rw [ih { st with lineBuffer := st.lineBuffer ++ [c] } hb
      (fun d hd => hw d (List.mem_cons_of_mem _ hd))
      (by
        intro hr p hpne hpre
        have := hp hr (c :: p) (by simp) (by simpa [List.prefix_cons_inj] using hpre)
        simpa using this)]
    simp


theorem delimLen_drop_plain (l rest : Str) (hl : ∀ c ∈ l, c ≠ '\n' ∧ c ≠ '\r') :
    ∀ j, j < l.length → delimLen (l.drop j ++ rest) = 0 := by
  intro j hj
  have hmem : ∀ c ∈ l.drop j, c ≠ '\n' ∧ c ≠ '\r' := fun c hc => hl c (List.mem_of_mem_drop hc)
  cases hd : l.drop j with
  | nil =>
    have := congrArg List.length hd
    simp at this
    omega
  | cons c tl =>
    rw [hd] at hmem
    have := hmem c (List.mem_cons_self _ _)
    exact delimLen_plain c _ this.1 this.2

theorem search_line (l e : Str) (hl : ∀ c ∈ l, c ≠ '\n' ∧ c ≠ '\r') (he : IsLineEnd e) :
    search lineDelimiterRegex (l ++ e) = (l.length : Int) := by
  rw [search_lineDelimiter, findFirst_skip delimLen l e (delimLen_drop_plain l e hl)]
  rcases he with rfl | rfl <;> simp [findFirst, delimLen]

theorem slice_line (l e : Str) (hl : ∀ c ∈ l, c ≠ '\n' ∧ c ≠ '\r') (he : IsLineEnd e) :
    slice (l ++ e) 0 (search lineDelimiterRegex (l ++ e)) = l := by
  rw [search_line l e hl he]
  unfold slice relIndex
  have : ¬ ((l.length : Int) < 0) := by omega
  simp only [Int.lt_irrefl, if_false, Int.toNat_zero, Nat.zero_min, List.drop_zero, Nat.sub_zero,
    this, Int.toNat_ofNat, List.length_append]
  rw [Nat.min_eq_left (by omega), List.take_left]

theorem isRequestLineValid_nil : isRequestLineValid [] = none := by decide!

theorem isHeaderLineValid_nil : isHeaderLineValid [] = none := by decide!

/-- The line feed that ends a request line. -/
theorem charStep_request_line (ext : Ext) (st : Reader) (l pre : Str) (m : Match)
    (hb : st.isInSideBody = false) (hlb : st.lineBuffer = l ++ pre)
    (hl : ∀ c ∈ l, c ≠ '\n' ∧ c ≠ '\r') (hpre : IsLineEnd (pre ++ ['\n']))
    (hm : isRequestLineValid l = some m) :
    charStep ext st '\n' =
      ({ st with isInSideRequest := true, requestStr := m.text ++ ['\n'], lineBuffer := [] }, []) := by
  unfold charStep
  have h1 : lineStep st '\n' =
      { st with isInSideRequest := true, requestStr := m.text ++ ['\n'], lineBuffer := [] } := by
    unfold lineStep
    simp only [hb, LINE_DELIMITER, and_self, if_true, hlb, List.append_assoc]
    rw [slice_line l (pre ++ ['\n']) hl hpre, hm]
  rw [h1]
  unfold bodyStep
  have hs : ¬ (search lineDelimiterRegex [] = 0) := by
    rw [search_eq_zero_iff]
    simp [delimLen]
  simp [hb, hs]

/-- The line feed that ends a header line. -/
theorem charStep_header_line (ext : Ext) (st : Reader) (h pre : Str)
    (hr : st.isInSideRequest = true) (hb : st.isInSideBody = false)
    (hlb : st.lineBuffer = h ++ pre)
    (hl : ∀ c ∈ h, c ≠ '\n' ∧ c ≠ '\r') (hpre : IsLineEnd (pre ++ ['\n']))
    (hnr : isRequestLineValid h = none) (hh : (isHeaderLineValid h).isSome = true) :
    charStep ext st '\n' =
      ({ st with requestStr := st.requestStr ++ (h ++ (pre ++ ['\n'])),
                 lengthOfBody := (contentLengthCheck (h ++ (pre ++ ['\n']))).getD st.lengthOfBody,
                 lineBuffer := [] }, []) := by
  unfold charStep
  have h1 : lineStep st '\n' =
      { st with requestStr := st.requestStr ++ (h ++ (pre ++ ['\n'])),
                lengthOfBody := (contentLengthCheck (h ++ (pre ++ ['\n']))).getD st.lengthOfBody,
                lineBuffer := [] } := by
    unfold lineStep
    simp only [hb, LINE_DELIMITER, and_self, if_true, hlb, List.append_assoc]
    rw [slice_line h (pre ++ ['\n']) hl hpre, hnr]
    simp [hr, hh]
  rw [h1]
  unfold bodyStep
  have hs : ¬ (search lineDelimiterRegex [] = 0) := by
    rw [search_eq_zero_iff]
    simp [delimLen]
  simp [hb, hs]

/-- The line feed that ends the blank line after the headers. -/
theorem charStep_blank_line (ext : Ext) (st : Reader) (pre : Str)
    (hr : st.isInSideRequest = true) (hb : st.isInSideBody = false)
    (hlb : st.lineBuffer = pre) (hpre : IsLineEnd (pre ++ ['\n'])) :
    charStep ext st '\n' =
      if st.lengthOfBody = 0 then
        (init, [tryParse ext (st.requestStr ++ (pre ++ ['\n']))])
      else
        ({ st with requestStr := st.requestStr ++ (pre ++ ['\n']), isInSideBody := true,
                   lineBuffer := [] }, []) := by
  unfold charStep
  have h1 : lineStep st '\n' = { st with lineBuffer := pre ++ ['\n'] } := by
    unfold lineStep
    simp only [hb, LINE_DELIMITER, and_self, if_true, hlb]
    have hsl := slice_line [] (pre ++ ['\n']) (by simp) hpre
    simp only [List.nil_append] at hsl
    rw [hsl, isRequestLineValid_nil]
    simp only [isHeaderLineValid_nil, Option.isSome_none, Bool.false_eq_true, and_false, if_false]
    have hi : ¬ (indexOf (pre ++ ['\n']) '\n' > 1) := by
      rcases hpre with h | h <;> rw [h] <;> decide
    rw [if_neg hi]
  rw [h1]
  unfold bodyStep
  have hs : search lineDelimiterRegex (pre ++ ['\n']) = 0 := by
    rw [search_eq_zero_iff]
    rcases hpre with h | h <;> rw [h] <;> simp [delimLen]
  have hsub : substringFrom (pre ++ ['\n']) (indexOf (pre ++ ['\n']) LINE_DELIMITER + 1) = [] :=
    substringFrom_after_delim _ hpre
  simp only [hr, hb, hs, and_self, if_true, hsub, List.length_nil, true_and, List.append_nil]
  by_cases hn : st.lengthOfBody = 0
  · simp [hn]
  · have : ¬ (0 = st.lengthOfBody) := fun h => hn h.symm
    simp [hn, this]

/-- The characters of the body. -/
theorem feedChars_body (ext : Ext) (w : Str) : ∀ st : Reader,
    st.isInSideRequest = true → st.isInSideBody = true → w ≠ [] →
    st.lineBuffer.length + w.length = st.lengthOfBody →
    feedChars ext st w = (init, [tryParse ext (st.requestStr ++ (st.lineBuffer ++ w))]) := by
  induction w with
  | nil => intro st _ _ h; exact absurd rfl h
  | cons c cs ih =>
    intro st hr hb _ hlen
    have hl : lineStep st c = { st with lineBuffer := st.lineBuffer ++ [c] } := by
      unfold lineStep
      simp [hb]
    cases cs with
    | nil =>
      have hstep : charStep ext st c =
          (init, [tryParse ext (st.requestStr ++ (st.lineBuffer ++ [c]))]) := by
        unfold charStep
        rw [hl]
        unfold bodyStep
        simp only [List.length_cons, List.length_nil] at hlen
        simp [hr, hb, hlen]
      simp [feedChars, hstep]
    | cons d ds =>
      have hstep : charStep ext st c = ({ st with lineBuffer := st.lineBuffer ++ [c] }, []) := by
        unfold charStep
        rw [hl]
        unfold bodyStep
        simp only [List.length_cons] at hlen
        have : ¬ (st.lineBuffer.length + 1 = st.lengthOfBody) := by omega
        simp [hr, hb, this]
      have e : feedChars ext st (c :: d :: ds) =
          ((feedChars ext (charStep ext st c).1 (d :: ds)).1,
           (charStep ext st c).2 ++ (feedChars ext (charStep ext st c).1 (d :: ds)).2) := rfl
      rw [e, hstep]
      simp only
      rw [ih { st with lineBuffer := st.lineBuffer ++ [c] } hr hb (by simp)
        (by simp only [List.length_append, List.length_cons, List.length_nil] at hlen ⊢; omega)]
      simp


theorem lineEnd_split (e : Str) (he : IsLineEnd e) :
    ∃ pre, e = pre ++ ['\n'] ∧ (pre = [] ∨ pre = ['\r']) := by
  rcases he with rfl | rfl
  · exact ⟨[], rfl, Or.inl rfl⟩
  · exact ⟨['\r'], rfl, Or.inr rfl⟩

theorem feedChars_singleton (ext : Ext) (st : Reader) (c : Char) :
    feedChars ext st [c] = charStep ext st c := by
  simp [feedChars]

theorem feed_request_line (ext : Ext) (st : Reader) (l e : Str) (m : Match)
    (hr : st.isInSideRequest = false) (hb : st.isInSideBody = false) (hlb : st.lineBuffer = [])
    (hl : ∀ c ∈ l, c ≠ '\n' ∧ c ≠ '\r') (he : IsLineEnd e)
    (hm : isRequestLineValid l = some m) :
    feedChars ext st (l ++ e) =
      ({ st with isInSideRequest := true, requestStr := m.text ++ ['\n'], lineBuffer := [] }, []) := by
  obtain ⟨pre, rfl, hpre⟩ := lineEnd_split e he
  rw [← List.append_assoc, feedChars_append]
  have hplain : ∀ c ∈ l ++ pre, c ≠ '\n' := by
    intro c hc
    rcases List.mem_append.mp hc with h | h
    · exact (hl c h).1
    · rcases hpre with rfl | rfl
      · cases h
      · rw [List.mem_singleton.mp h]; decide
  rw [feedChars_plain ext (l ++ pre) st hb hplain (fun h => by rw [hr] at h; cases h)]
  simp only [feedChars_singleton, List.nil_append]
  rw [charStep_request_line ext { st with lineBuffer := st.lineBuffer ++ (l ++ pre) } l pre m hb
    (by simp [hlb]) hl he hm]

theorem feed_header_line (ext : Ext) (st : Reader) (p : Str × Str)
    (hr : st.isInSideRequest = true) (hb : st.isInSideBody = false) (hlb : st.lineBuffer = [])
    (hp : HeaderLineOK p) :
    feedChars ext st (p.1 ++ p.2) =
      ({ st with requestStr := st.requestStr ++ (p.1 ++ p.2),
                 lengthOfBody := (contentLengthCheck (p.1 ++ p.2)).getD st.lengthOfBody,
                 lineBuffer := [] }, []) := by
  obtain ⟨hpl, he, hnr, hh⟩ := hp
  obtain ⟨pre, hpe, hpre⟩ := lineEnd_split p.2 he
  obtain ⟨a, tl, ha, ha1, ha2⟩ := hpl.head
  rw [hpe, ← List.append_assoc, feedChars_append]
  have hplain : ∀ c ∈ p.1 ++ pre, c ≠ '\n' := by
    intro c hc
    rcases List.mem_append.mp hc with h | h
    · exact (hpl.2 c h).1
    · rcases hpre with rfl | rfl
      · cases h
      · rw [List.mem_singleton.mp h]; decide
  rw [feedChars_plain ext (p.1 ++ pre) st hb hplain (by
    intro _ q hq hpre2
    rw [hlb, List.nil_append]
    obtain ⟨t, ht⟩ := hpre2
    cases q with
    | nil => exact absurd rfl hq
    | cons b q2 =>
      rw [ha] at ht
      simp only [List.cons_append, List.cons.injEq] at ht
      rw [ht.1]
      exact delimLen_plain a _ ha1 ha2)]
  simp only [feedChars_singleton, List.nil_append]
  rw [charStep_header_line ext { st with lineBuffer := st.lineBuffer ++ (p.1 ++ pre) } p.1 pre hr hb
    (by simp [hlb]) hpl.2 (hpe ▸ he) hnr hh]
  simp [List.append_assoc]

theorem feed_headers (ext : Ext) (hdrs : List (Str × Str)) : ∀ st : Reader,
    st.isInSideRequest = true → st.isInSideBody = false → st.lineBuffer = [] →
    (∀ p ∈ hdrs, HeaderLineOK p) →
    feedChars ext st (headerText hdrs) =
      ({ st with requestStr := st.requestStr ++ headerText hdrs,
                 lengthOfBody := expectedLength st.lengthOfBody hdrs }, []) := by
  induction hdrs with
  | nil =>
    intro st _ _ _ _
    simp [headerText, feedChars, expectedLength]
  | cons p ps ih =>
    intro st hr hb hlb hall
    have e : headerText (p :: ps) = (p.1 ++ p.2) ++ headerText ps := by
      simp [headerText]
    rw [e, feedChars_append,
      feed_header_line ext st p hr hb hlb (hall p (List.mem_cons_self _ _))]
    rw [ih { st with requestStr := st.requestStr ++ (p.1 ++ p.2),
                     lengthOfBody := (contentLengthCheck (p.1 ++ p.2)).getD st.lengthOfBody,
                     lineBuffer := [] } hr hb rfl (fun q hq => hall q (List.mem_cons_of_mem _ hq))]
    simp [expectedLength, hlb, List.append_assoc]

theorem feed_blank_line (ext : Ext) (st : Reader) (e : Str)
    (hr : st.isInSideRequest = true) (hb : st.isInSideBody = false) (hlb : st.lineBuffer = [])
    (he : IsLineEnd e) :
    feedChars ext st e =
      if st.lengthOfBody = 0 then (init, [tryParse ext (st.requestStr ++ e)])
      else ({ st with requestStr := st.requestStr ++ e, isInSideBody := true }, []) := by
  obtain ⟨pre, rfl, hpre⟩ := lineEnd_split e he
  rw [feedChars_append]
  have hplain : ∀ c ∈ pre, c ≠ '\n' := by
    intro c h
    rcases hpre with rfl | rfl
    · cases h
    · rw [List.mem_singleton.mp h]; decide
  rw [feedChars_plain ext pre st hb hplain (by
    intro _ q hq hpre2
    rw [hlb, List.nil_append]
    rcases hpre with rfl | rfl
    · have := List.prefix_nil.mp hpre2
      exact absurd this hq
    · obtain ⟨t, ht⟩ := hpre2
      cases q with
      | nil => exact absurd rfl hq
      | cons b q2 =>
        cases q2 with
        | nil =>
          simp only [List.cons_append, List.nil_append, List.cons.injEq] at ht
          rw [ht.1]
          rfl
        | cons b2 q3 => simp at ht)]
  simp only [feedChars_singleton, List.nil_append]
  rw [charStep_blank_line ext { st with lineBuffer := st.lineBuffer ++ pre } pre hr hb
    (by simp [hlb]) he]
  simp only [hlb, List.nil_append]


theorem feed_frame (ext : Ext) (l e0 : Str) (m : Match) (hdrs : List (Str × Str))
    (blank body : Str)
    (hl : ∀ c ∈ l, c ≠ '\n' ∧ c ≠ '\r') (he0 : IsLineEnd e0)
    (hm : isRequestLineValid l = some m)
    (hall : ∀ p ∈ hdrs, HeaderLineOK p) (hblank : IsLineEnd blank)
    (hbody : body.length = expectedLength 0 hdrs) :
    feedChars ext init (l ++ e0 ++ headerText hdrs ++ blank ++ body) =
      (init, [tryParse ext (m.text ++ ['\n'] ++ headerText hdrs ++ blank ++ body)]) := by
  have h1 := feed_request_line ext init l e0 m rfl rfl rfl hl he0 hm
  have h2 := feed_headers ext hdrs
    { init with isInSideRequest := true, requestStr := m.text ++ ['\n'], lineBuffer := [] }
    rfl rfl rfl hall
  have h3 := feed_blank_line ext
    { init with isInSideRequest := true,
                requestStr := (m.text ++ ['\n']) ++ headerText hdrs,
                lineBuffer := [],
                lengthOfBody := expectedLength init.lengthOfBody hdrs }
    blank rfl rfl rfl hblank
  have e : l ++ e0 ++ headerText hdrs ++ blank ++ body =
      (l ++ e0) ++ (headerText hdrs ++ (blank ++ body)) := by
    simp [List.append_assoc]
  rw [e, feedChars_append, h1]
  simp only
  rw [feedChars_append, h2]
  simp only
  rw [feedChars_append, h3]
  simp only [List.nil_append]
  have hi : init.lengthOfBody = 0 := rfl
  rw [hi]
  by_cases hn : expectedLength 0 hdrs = 0
  · rw [if_pos hn]
    have hb0 : body = [] := List.length_eq_zero.mp (hbody.trans hn)
    subst hb0
    simp [feedChars, List.append_assoc]
  · rw [if_neg hn]
    simp only
    have hne : body ≠ [] := by
      intro h
      rw [h] at hbody
      exact hn hbody.symm
    rw [feedChars_body ext body _ rfl rfl hne (by simpa using hbody)]
    simp [List.append_assoc]

theorem feedChunks_frame (ext : Ext) (l e0 : Str) (m : Match) (hdrs : List (Str × Str))
    (blank body : Str) (chunks : List Str)
    (hl : ∀ c ∈ l, c ≠ '\n' ∧ c ≠ '\r') (he0 : IsLineEnd e0)
    (hm : isRequestLineValid l = some m)
    (hall : ∀ p ∈ hdrs, HeaderLineOK p) (hblank : IsLineEnd blank)
    (hbody : body.length = expectedLength 0 hdrs)
    (hchunks : chunks.flatten = l ++ e0 ++ headerText hdrs ++ blank ++ body)
    (hlen : (l ++ e0 ++ headerText hdrs ++ blank ++ body).length ≤ 8194) :
    feedChunks ext init chunks =
      (init, [tryParse ext (m.text ++ ['\n'] ++ headerText hdrs ++ blank ++ body)]) := by
  rw [feedChunks_eq_feedChars ext chunks init init_tidy (by rw [init_held, hchunks]; omega),
    hchunks]
  exact feed_frame ext l e0 m hdrs blank body hl he0 hm hall hblank hbody


theorem isRequestLineValid_text (s : Str) (m : Match) (h : isRequestLineValid s = some m) :
    ∃ pre, s = pre ++ m.text ∧ m.text ≠ [] := by
  unfold isRequestLineValid exec at h
  obtain ⟨pre, rest, hs, he⟩ := execFrom_some _ _ _ _ h
  unfold execAt at he
  cases hrun : REQUEST_LINE_REGEX.run ⟨0 + pre.length, rest, []⟩ some with
  | none => rw [hrun] at he; cases he
  | some z =>
    rw [hrun] at he
    simp only [Option.map_some', Option.some.injEq] at he
    obtain ⟨M, target, c1, d, hrest, hM, hc1, hd, hzi, hcap⟩ := request_line_run_some _ _ _ hrun
    have ht : m.text = rest := by
      rw [← he]
      simp only
      rw [hzi]
      simp
    refine ⟨pre, by rw [ht, hs], ?_⟩
    rw [ht, hrest]
    simp

theorem isRequestLineValid_text_plain (s : Str) (m : Match)
    (h : isRequestLineValid s = some m) (hs : ∀ c ∈ s, c ≠ '\n' ∧ c ≠ '\r') :
    PlainLine m.text := by
  obtain ⟨pre, hpre, hne⟩ := isRequestLineValid_text s m h
  refine ⟨hne, fun c hc => hs c ?_⟩
  rw [hpre]
  exact List.mem_append_right _ hc

theorem lineEnds_blank (e blank : Str) (he : IsLineEnd e) (hb : IsLineEnd blank) :
    e ++ blank ∈ BLANK_LINE_DELIMITERS := by
  rcases he with rfl | rfl <;> rcases hb with rfl | rfl <;> decide

theorem head_reassoc (hdrs : List (Str × Str)) (blank : Str) (hblank : IsLineEnd blank) :
    ∀ (e : Str), IsLineEnd e → (∀ p ∈ hdrs, PlainLine p.1 ∧ IsLineEnd p.2) →
    ∃ (more : List (Str × Str)) (D : Str),
      (∀ p ∈ more, IsLineEnd p.1 ∧ PlainLine p.2) ∧ D ∈ BLANK_LINE_DELIMITERS ∧
      more.map Prod.snd = hdrs.map Prod.fst ∧
      ∀ first : Str, first ++ e ++ headerText hdrs ++ blank = joinHead first more ++ D := by
  induction hdrs with
  | nil =>
    intro e he _
    refine ⟨[], e ++ blank, by simp, lineEnds_blank e blank he hblank, rfl, ?_⟩
    intro first
    simp [headerText, joinHead]
  | cons p ps ih =>
    intro e he hall
    obtain ⟨more, D, hmore, hD, hmap, heq⟩ := ih p.2 (hall p (List.mem_cons_self _ _)).2
      (fun q hq => hall q (List.mem_cons_of_mem _ hq))
    refine ⟨(e, p.1) :: more, D, ?_, hD, ?_, ?_⟩
    · intro q hq
      rcases List.mem_cons.mp hq with rfl | hq
      · exact ⟨he, (hall p (List.mem_cons_self _ _)).1⟩
      · exact hmore q hq
    · simp [hmap]
    · intro first
      have h1 := heq (first ++ e ++ p.1)
      have e1 : headerText (p :: ps) = p.1 ++ p.2 ++ headerText ps := by
        simp [headerText]
      rw [e1]
      have e2 : first ++ e ++ (p.1 ++ p.2 ++ headerText ps) ++ blank =
          first ++ e ++ p.1 ++ p.2 ++ headerText ps ++ blank := by
        simp [List.append_assoc]
      rw [e2, h1]
      simp [joinHead, List.append_assoc]

theorem parse_frame (ext : Ext) (first : Str) (hdrs : List (Str × Str)) (blank body : Str)
    (hfirst : PlainLine first) (hall : ∀ p ∈ hdrs, PlainLine p.1 ∧ IsLineEnd p.2)
    (hblank : IsLineEnd blank) :
    parse ext (first ++ ['\n'] ++ headerText hdrs ++ blank ++ body) =
      httpRequest ext (first :: hdrs.map Prod.fst) body := by
  obtain ⟨more, D, hmore, hD, hmap, heq⟩ :=
    head_reassoc hdrs blank hblank ['\n'] (Or.inl rfl) hall
  rw [heq first, ← hmap]
  exact parse_head_delimiter_body ext first more D body hfirst hmore hD


/-! ## Status codes, parameters and registrations -/

/-- C23 (the code at the claim's own example): for the header line
    `X-Content-Length: 5` with its line ending, whose header name is not
    Content-Length, `contentLengthCheck` returns 5, not null; and for the
    Content-Length header `Content-Length:5`, written without a space, it
    returns null. -/
theorem contentLengthCheck_other_name :
    contentLengthCheck "X-Content-Length: 5\r\n".toList = some 5 ∧
    contentLengthCheck "Content-Length:5\r\n".toList = none := by
  decide!

/-- C25 (the code at resources with a pattern character): the registration
    built from the resource `/a.b`, which holds no parameter segment,
    accepts the path `/axb`, of which the resource is not a prefix; and the
    registration built from `/a+b` does not accept the path `/a+b`, of which
    the resource is a prefix. -/
theorem route_pattern_characters_not_literal :
    ((requestHandlerObj "/a.b".toList (fun _ => []) ALL).map
        fun o => (exec o.routeRegex "/axb".toList).isSome) = some true ∧
    ¬ ("/a.b".toList <+: "/axb".toList) ∧
    ((requestHandlerObj "/a+b".toList (fun _ => []) ALL).map
        fun o => (exec o.routeRegex "/a+b".toList).isSome) = some false ∧
    "/a+b".toList <+: "/a+b".toList := by
  refine ⟨by decide!, by decide, by decide!, List.prefix_refl _⟩

theorem codeToMsg_known (p : Nat × Str) (hp : p ∈ KNOWN_STATUS) :
    codeToMsg p.1 = some (natStr p.1 ++ " ".toList ++ p.2) := by
  simp only [KNOWN_STATUS, List.mem_cons, List.mem_singleton, List.not_mem_nil, or_false] at hp
  rcases hp with rfl | rfl | rfl | rfl | rfl | rfl | rfl <;> decide

theorem codeToMsg_some (n : Nat) (m : Str) (h : codeToMsg n = some m) :
    m.isEmpty = false ∧ ∃ p ∈ KNOWN_STATUS, p.1 = n := by
  unfold codeToMsg at h
  have hmem : ∀ q ∈ STATUS_CODES, q.2.isEmpty = false ∧ ∃ p ∈ KNOWN_STATUS, p.1 = q.1 := by
    decide
  cases hf : STATUS_CODES.find? (fun p => p.1 == n) with
  | none => rw [hf] at h; cases h
  | some q =>
    rw [hf] at h
    simp only [Option.map_some', Option.some.injEq] at h
    have h1 := List.mem_of_find?_eq_some hf
    have h2 := List.find?_some hf
    simp only [beq_iff_eq] at h2
    obtain ⟨ha, p, hp, hq⟩ := hmem q h1
    exact ⟨h ▸ ha, p, hp, hq.trans h2⟩


/-- The fields `status` sets when `parseInt` reads a number that is not
    negative. -/
theorem statusOf_of_parseInt (r : Response) (code : JVal) (n : Nat)
    (h : parseIntOf code = some (n : Int)) :
    (r.statusOf code).statusCode = some n ∧
    (r.statusOf code).statusMsg = some ((codeToMsg n).getD code.toStr) := by
  have h0 : (0 : Int) ≤ (n : Int) := by omega
  have key : ∀ v : Str,
      (match codeToMsg n with
        | some m => if m.isEmpty then some v else some m
        | none => some v) = some ((codeToMsg n).getD v) := by
    intro v
    cases hm : codeToMsg n with
    | none => rfl
    | some m =>
      have := (codeToMsg_some n m hm).1
      simp only [this, Bool.false_eq_true, if_false, Option.getD_some]
  cases code with
  | num k =>
    simp only [Response.statusOf, h, h0, if_true, Int.toNat_ofNat, true_and]
    exact key _
  | str x =>
    simp only [Response.statusOf, h, h0, if_true, Int.toNat_ofNat, true_and]
    exact key _
  | undefined =>
    have e : parseIntOf .undefined = none := by decide
    rw [e] at h
    cases h
  | null =>
    have e : parseIntOf .null = none := by decide
    rw [e] at h
    cases h
  | bool b =>
    have e : parseIntOf (.bool b) = none := by cases b <;> decide
    rw [e] at h
    cases h
  | arr items =>
    simp only [Response.statusOf, h, h0, if_true, Int.toNat_ofNat, true_and]
    exact key _
  | obj props =>
    have e : parseIntOf (.obj props) = none := by
      have e2 : parseIntOf (.obj props) = parseIntText "[object Object]".toList := rfl
      rw [e2]
      decide
    rw [e] at h
    cases h

/-- C27 (amended): for every response, `status(c)` with `c` one of the
    numbers 200, 400, 403, 404, 414, 415, 500 sets the numeric status to `c`
    and the status message to the canonical message of `c`; `status(x)`
    with a text `x` sets the status from the whole number that `parseInt`
    reads at the start of `x`: when that number is one of the seven, the
    numeric status is that number and the message is its canonical message,
    and otherwise (another number, or no number at all) the message is `x`
    verbatim; `status(n)` with any other whole number `n` up to `2 ^ 53`
    (the range in which a number holds every whole number exactly) sets the
    numeric status to `n` and keeps `n` as the message; in all cases the
    other fields of the response are unchanged (the same response object is
    returned). -/
theorem status_sets_code_and_message (r : Response) :
    (∀ p ∈ KNOWN_STATUS,
      (r.statusOf (.num (p.1 : Nat))).statusCode = some p.1 ∧
      (r.statusOf (.num (p.1 : Nat))).statusMsg = some (natStr p.1 ++ " ".toList ++ p.2)) ∧
    (∀ (x : Str), ∀ p ∈ KNOWN_STATUS, parseIntText x = some (p.1 : Int) →
      (r.statusOf (.str x)).statusCode = some p.1 ∧
      (r.statusOf (.str x)).statusMsg = some (natStr p.1 ++ " ".toList ++ p.2)) ∧
    (∀ (x : Str), (∀ p ∈ KNOWN_STATUS, parseIntText x ≠ some (p.1 : Int)) →
      (r.statusOf (.str x)).statusMsg = some x) ∧
    (∀ (n : Nat), n ≤ 2 ^ 53 → (∀ p ∈ KNOWN_STATUS, p.1 ≠ n) →
      (r.statusOf (.num (n : Nat))).statusCode = some n ∧
      (r.statusOf (.num (n : Nat))).statusMsg = some (natStr n)) ∧
    (∀ (x : JVal), (r.statusOf x).headers = r.headers ∧ (r.statusOf x).cookies = r.cookies ∧
      (r.statusOf x).httpVer = r.httpVer ∧ (r.statusOf x).shouldDisconnect = r.shouldDisconnect ∧
      (r.statusOf x).error = r.error ∧ (r.statusOf x).body = r.body) := by
  refine ⟨?_, ?_, ?_, ?_, fun x => ⟨rfl, rfl, rfl, rfl, rfl, rfl⟩⟩
  · intro p hp
    obtain ⟨h1, h2⟩ := statusOf_of_parseInt r (.num (p.1 : Nat)) p.1 rfl
    rw [codeToMsg_known p hp] at h2
    exact ⟨h1, h2⟩
  · intro x p hp hx
    obtain ⟨h1, h2⟩ := statusOf_of_parseInt r (.str x) p.1 hx
    rw [codeToMsg_known p hp] at h2
    exact ⟨h1, h2⟩
  · intro x hx
    cases hpi : parseIntText x with
    | none => simp [Response.statusOf, parseIntOf, hpi, JVal.toStr]
    | some n =>
      by_cases hn : 0 ≤ n
      · obtain ⟨k, rfl⟩ := Int.eq_ofNat_of_zero_le hn
        obtain ⟨_, h2⟩ := statusOf_of_parseInt r (.str x) k hpi
        rw [h2]
        cases hm : codeToMsg k with
        | none => rfl
        | some m =>
          exfalso
          obtain ⟨_, p, hp, hpn⟩ := codeToMsg_some _ _ hm
          apply hx p hp
          rw [hpi, hpn]
      · simp [Response.statusOf, parseIntOf, hpi, hn, JVal.toStr]
  · intro n _ hn
    obtain ⟨h1, h2⟩ := statusOf_of_parseInt r (.num (n : Nat)) n rfl
    refine ⟨h1, ?_⟩
    rw [h2]
    cases hm : codeToMsg n with
    | none =>
      have : ¬ ((n : Int) < 0) := by omega
      simp [JVal.toStr, this]
    | some m =>
      exfalso
      obtain ⟨_, p, hp, hpn⟩ := codeToMsg_some _ _ hm
      exact hn p hp hpn

/-- C27 (the claim as stated fails): `status('200 Fine')`, whose argument is
    none of the seven numbers, does not keep the text as the status message:
    the message is the canonical `200 OK` and the numeric status is 200. -/
theorem status_text_with_known_code :
    (freshResponse.statusOf (.str "200 Fine".toList)).statusMsg = some "200 OK".toList ∧
    (freshResponse.statusOf (.str "200 Fine".toList)).statusCode = some 200 := by
  decide!

/-- C28 (the code at a body that is the JSON text `null`): the constructor
    builds the request, its `bodyParams` is `null`, and `param('x', 'd')`
    throws instead of returning a value. -/
theorem param_throws_on_null_body :
    ∃ req, httpRequest nullBodyExt ["POST / HTTP/1.0".toList] "null".toList = .ok req ∧
      req.param "x".toList (.str "d".toList) = .error .typeError := by
  refine ⟨_, rfl, ?_⟩
  rfl


theorem methodFilter_supported (m : Str) (h : m ∈ SUPPORTED_METHODS.map Prod.fst) :
    methodFilter (some m) = m := by
  simp only [SUPPORTED_METHODS, List.map_cons, List.map_nil, List.mem_cons, List.mem_singleton,
    List.not_mem_nil, or_false] at h
  rcases h with rfl | rfl | rfl | rfl | rfl | rfl <;> decide

theorem methodFilter_other (m : Str) (h : m ∉ SUPPORTED_METHODS.map Prod.fst) :
    methodFilter (some m) = ALL := by
  unfold methodFilter
  have : hasOwnProperty SUPPORTED_METHODS m = false := by
    unfold hasOwnProperty
    rw [Bool.eq_false_iff]
    intro hany
    rw [List.any_eq_true] at hany
    obtain ⟨p, hp, hpm⟩ := hany
    apply h
    rw [List.mem_map]
    exact ⟨p, hp, by simpa using hpm⟩
  simp [this]

/-- C26 (amended): for every behaviour `newRegExp` of the platform's
    `new RegExp` that builds a pattern from the text `^/`, every handler
    list and every call of `use` (and so of `get`, `post`, `put` and
    `delete`, which call `use` with their method), the previous
    registrations remain an unchanged prefix of the list and at most one
    registration is appended at the end: exactly one when the resource is a
    text, the handler is a function and `new RegExp` builds a pattern from
    the pattern text of the resource (when it throws, the call throws and
    appends nothing), exactly one with the resource `/` when only a handler
    was given, and none in every other case; the appended registration holds
    the given handler and its method filter is the given method when it is
    one of ALL, GET, HEAD, POST, PUT, DELETE and `ALL` for any other or
    missing method. -/
theorem use_appends_at_most_one (newRegExp : Str → Option Regex)
    (handlers : List RequestHandlerObj) (resource requestHandler : Arg) (method : Option Str)
    (hroot : (newRegExp "^/".toList).isSome = true) :
    handlers <+: (use newRegExp handlers resource requestHandler method).1 ∧
    ((use newRegExp handlers resource requestHandler method).1 = handlers ∨
      ∃ o, (use newRegExp handlers resource requestHandler method).1 = handlers ++ [o] ∧
        (use newRegExp handlers resource requestHandler method).2 = false ∧
        o.method = methodFilter method) ∧
    (∀ s h, resource = .text s → requestHandler = .func h →
      (use newRegExp handlers resource requestHandler method).1 =
        handlers ++ (requestHandlerObjWith newRegExp s h (methodFilter method)).toList ∧
      (use newRegExp handlers resource requestHandler method).2 =
        (requestHandlerObjWith newRegExp s h (methodFilter method)).isNone ∧
      ((requestHandlerObjWith newRegExp s h (methodFilter method)).isNone =
        (newRegExp (START_OF_LINE ++
          replaceAll PATH_REGEX RESOURCE_PARAM_REPLACEMENT (s.length + 1) 0 s)).isNone) ∧
      ∀ o, requestHandlerObjWith newRegExp s h (methodFilter method) = some o →
        o.handle = h ∧ o.method = methodFilter method) ∧
    (∀ h, resource = .func h → requestHandler = .undefined →
      ∃ o, (use newRegExp handlers resource requestHandler method) = (handlers ++ [o], false) ∧
        requestHandlerObjWith newRegExp DEFAULT_RESOURCE h (methodFilter method) = some o ∧
        o.handle = h ∧ o.method = methodFilter method ∧ o.params = []) ∧
    ((∀ s h, ¬ (resource = .text s ∧ requestHandler = .func h)) →
      (∀ h, ¬ (resource = .func h ∧ requestHandler = .undefined)) →
      (use newRegExp handlers resource requestHandler method).1 = handlers) ∧
    methodFilter none = ALL ∧
    (∀ m, m ∈ SUPPORTED_METHODS.map Prod.fst → methodFilter (some m) = m) ∧
    (∀ m, m ∉ SUPPORTED_METHODS.map Prod.fst → methodFilter (some m) = ALL) ∧
    get newRegExp handlers resource requestHandler =
      use newRegExp handlers resource requestHandler (some "GET".toList) ∧
    post newRegExp handlers resource requestHandler =
      use newRegExp handlers resource requestHandler (some "POST".toList) ∧
    put newRegExp handlers resource requestHandler =
      use newRegExp handlers resource requestHandler (some "PUT".toList) ∧
    delete newRegExp handlers resource requestHandler =
      use newRegExp handlers resource requestHandler (some "DELETE".toList) := by
  have hobj : ∀ s h o, requestHandlerObjWith newRegExp s h (methodFilter method) = some o →
      o.method = methodFilter method ∧ o.handle = h := by
    intro s h o ho
    unfold requestHandlerObjWith at ho
    split at ho
    · cases ho
    · cases ho
      exact ⟨rfl, rfl⟩
  have hnone : ∀ s h, (requestHandlerObjWith newRegExp s h (methodFilter method)).isNone =
      (newRegExp (START_OF_LINE ++
        replaceAll PATH_REGEX RESOURCE_PARAM_REPLACEMENT (s.length + 1) 0 s)).isNone := by
    intro s h
    unfold requestHandlerObjWith
    split <;> rename_i hx <;> rw [hx] <;> rfl
  have e_tf : ∀ s h, use newRegExp handlers (.text s) (.func h) method =
      match requestHandlerObjWith newRegExp s h (methodFilter method) with
      | some o => (handlers ++ [o], false)
      | none => (handlers, true) := fun _ _ => rfl
  have e_fu : ∀ h, use newRegExp handlers (.func h) .undefined method =
      match requestHandlerObjWith newRegExp DEFAULT_RESOURCE h (methodFilter method) with
      | some o => (handlers ++ [o], false)
      | none => (handlers, true) := fun _ => rfl
  obtain ⟨rx, hrx⟩ := Option.isSome_iff_exists.mp hroot
  have e_def : ∀ h, requestHandlerObjWith newRegExp DEFAULT_RESOURCE h (methodFilter method) =
      some ⟨methodFilter method, h, rx, [], 1⟩ := by
    intro h
    have e : START_OF_LINE ++ replaceAll PATH_REGEX RESOURCE_PARAM_REPLACEMENT
        (DEFAULT_RESOURCE.length + 1) 0 DEFAULT_RESOURCE = "^/".toList := by decide!
    have e2 : (globalMatches PATH_REGEX (DEFAULT_RESOURCE.length + 1) 0 DEFAULT_RESOURCE).map
        (fun result => result.cellStr 1) = [] := by decide!
    unfold requestHandlerObjWith
    rw [e, hrx, e2]
  have hmain : (∃ s h, resource = .text s ∧ requestHandler = .func h) ∨
      (∃ h, resource = .func h ∧ requestHandler = .undefined) ∨
      (∃ b, use newRegExp handlers resource requestHandler method = (handlers, b)) := by
    cases resource <;> cases requestHandler
    all_goals first
      | exact Or.inl ⟨_, _, rfl, rfl⟩
      | exact Or.inr (Or.inl ⟨_, rfl, rfl⟩)
      | exact Or.inr (Or.inr ⟨_, rfl⟩)
  have htext : ∀ s h, use newRegExp handlers (.text s) (.func h) method =
      (handlers ++ (requestHandlerObjWith newRegExp s h (methodFilter method)).toList,
        (requestHandlerObjWith newRegExp s h (methodFilter method)).isNone) := by
    intro s h
    rw [e_tf]
    cases requestHandlerObjWith newRegExp s h (methodFilter method) <;> simp
  refine ⟨?_, ?_, ?_, ?_, ?_, rfl, methodFilter_supported, methodFilter_other, rfl, rfl, rfl, rfl⟩
  · rcases hmain with ⟨s, h, rfl, rfl⟩ | ⟨h, rfl, rfl⟩ | ⟨b, hb⟩
    · rw [htext]
      exact List.prefix_append _ _
    · rw [e_fu, e_def]
      exact List.prefix_append _ _
    · rw [hb]
  · rcases hmain with ⟨s, h, rfl, rfl⟩ | ⟨h, rfl, rfl⟩ | ⟨b, hb⟩
    · rw [e_tf]
      cases ho : requestHandlerObjWith newRegExp s h (methodFilter method) with
      | none => exact Or.inl rfl
      | some o => exact Or.inr ⟨o, rfl, rfl, (hobj s h o ho).1⟩
    · rw [e_fu, e_def]
      exact Or.inr ⟨_, rfl, rfl, rfl⟩
    · rw [hb]
      exact Or.inl rfl
  · intro s h hr hh
    subst hr hh
    rw [htext]
    exact ⟨rfl, rfl, hnone s h, fun o ho => ⟨(hobj s h o ho).2, (hobj s h o ho).1⟩⟩
  · intro h hr hh
    subst hr hh
    rw [e_fu, e_def]
    exact ⟨_, rfl, rfl, rfl, rfl, rfl⟩
  · intro h1 h2
    rcases hmain with ⟨s, h, hr, hh⟩ | ⟨h, hr, hh⟩ | ⟨b, hb⟩
    · exact absurd ⟨hr, hh⟩ (h1 s h)
    · exact absurd ⟨hr, hh⟩ (h2 h)
    · rw [hb]

theorem use_appends_at_most_one_witness :
    (compile "^/".toList).isSome = true ∧
    (use compile [] (.text "/a".toList) (.func fun _ => []) none).1 =
      [] ++ (requestHandlerObjWith compile "/a".toList (fun _ => []) (methodFilter none)).toList ∧
    (use compile [] (.text "/a".toList) (.func fun _ => []) none).2 = false :=
  ⟨by decide!,
    ((use_appends_at_most_one compile [] (.text "/a".toList) (.func fun _ => []) none
      (by decide!)).2.2.1 "/a".toList (fun _ => []) rfl rfl).1,
    by decide!⟩

/-- C26 (the claim as stated fails): `use('/(', handler)` is called with a
    resource that is neither null nor undefined and with a function, and no
    registration is appended: the call throws, because `^/(` is not a
    pattern (an unterminated group). -/
theorem use_throws_on_bad_pattern :
    use compile [] (.text "/(".toList) (.func fun _ => []) none = ([], true) := by
  rfl


/-! ## The timeout handler -/

theorem run_append (ext : Ext) (respond : ReqObj → Bool) (l : Listener) (a b : List Ev) :
    Listener.run ext respond l (a ++ b) =
      Listener.run ext respond (Listener.run ext respond l a) b := by
  simp [Listener.run, List.foldl_append]

theorem run_responded (ext : Ext) (respond : ReqObj → Bool) (k : Nat) : ∀ l : Listener,
    Listener.run ext respond l (List.replicate k Ev.responded) =
      { l with sendSuccess := if k = 0 then l.sendSuccess else some true } := by
  induction k with
  | zero => intro l; rfl
  | succ k ih =>
    intro l
    have : List.replicate (k + 1) Ev.responded = Ev.responded :: List.replicate k Ev.responded := rfl
    rw [this]
    have h2 : Listener.run ext respond l (Ev.responded :: List.replicate k Ev.responded) =
        Listener.run ext respond { l with sendSuccess := some true }
          (List.replicate k Ev.responded) := rfl
    rw [h2, ih]
    by_cases hk : k = 0 <;> simp [hk]

theorem history_shape (evs : List Ev) :
    (∃ k, evs = List.replicate k Ev.responded) ∨
    ∃ before d k, evs = before ++ [Ev.data d] ++ List.replicate k Ev.responded := by
  induction evs with
  | nil => exact Or.inl ⟨0, rfl⟩
  | cons e es ih =>
    rcases ih with ⟨k, rfl⟩ | ⟨before, d, k, rfl⟩
    · cases e with
      | data d => exact Or.inr ⟨[], d, k, rfl⟩
      | responded => exact Or.inl ⟨k + 1, rfl⟩
    · exact Or.inr ⟨e :: before, d, k, by simp⟩

/-- C24 (amended): when the idle timeout fires after any history of
    chunks and responses, the reader invokes the callback with the
    Not-Found error (`{error: 404}`) if and only if, since the last chunk
    arrived, it has handed a completed frame to the callback (a request, or
    the object `{error: 400}` when parsing the frame threw) and no response
    has been successfully written; it never does so before the first chunk;
    in every case the socket is closed, and when the callback is invoked it
    is invoked before the socket is closed.  Every history is of one of the
    two shapes. -/
theorem timeout_notifies_iff_unanswered (ext : Ext) (respond : ReqObj → Bool) :
    (∀ k, timeoutHandler (Listener.run ext respond Listener.start
        (List.replicate k Ev.responded)) = [Step.socketEnd]) ∧
    (∀ before d k,
      timeoutHandler (Listener.run ext respond Listener.start
          (before ++ [Ev.data d] ++ List.replicate k Ev.responded)) =
        if ((framesOf ext (Listener.run ext respond Listener.start before).reader d).isEmpty = false ∧
            (onData ext (Listener.run ext respond Listener.start before).reader d).2.any respond
              = false ∧ k = 0) then
          [Step.callback (.error 404), Step.socketEnd]
        else [Step.socketEnd]) ∧
    (∀ evs : List Ev, (∃ k, evs = List.replicate k Ev.responded) ∨
      ∃ before d k, evs = before ++ [Ev.data d] ++ List.replicate k Ev.responded) := by
  refine ⟨?_, ?_, history_shape⟩
  · intro k
    rw [run_responded]
    by_cases hk : k = 0 <;> simp [hk, timeoutHandler, Listener.start]
  · intro before d k
    rw [run_append, run_append, run_responded]
    have h1 : Listener.run ext respond (Listener.run ext respond Listener.start before)
        [Ev.data d] =
        dataHandler ext respond (Listener.run ext respond Listener.start before) d := rfl
    rw [h1]
    generalize Listener.run ext respond Listener.start before = l
    unfold timeoutHandler dataHandler
    by_cases hk : k = 0
    · subst hk
      simp only [if_true, Option.some.injEq, and_true]
      cases hf : framesOf ext l.reader d with
      | nil => simp [NOT_FOUND]
      | cons o os =>
        cases hr : (onData ext l.reader d).2.any respond <;> simp [NOT_FOUND]
    · simp [hk]

/-- C24 (the claim as stated fails): after the chunk `GET / HTTP/1.1`, line
    ending, empty line, the reader has delivered no request (the callback
    received the object `{error: 400}`); when nothing is written in answer
    and the timeout fires, the callback is invoked with `{error: 404}`. -/
theorem timeout_notifies_without_request :
    (onData sampleExt init "GET / HTTP/1.1\r\n\r\n".toList).2.map ReqObj.errorCode = [some 400] ∧
    (timeoutHandler (Listener.run sampleExt (fun _ => false) Listener.start
        [Ev.data "GET / HTTP/1.1\r\n\r\n".toList])).map Step.tag = [some (some 404), none] := by
  decide!


/-! ## The reader: lines that are not recognised -/

theorem isRequestLineValid_text_ge (s : Str) (m : Match) (h : isRequestLineValid s = some m) :
    10 ≤ s.length := by
  unfold isRequestLineValid exec at h
  obtain ⟨pre, rest, hs, he⟩ := execFrom_some _ _ _ _ h
  unfold execAt at he
  cases hrun : REQUEST_LINE_REGEX.run ⟨0 + pre.length, rest, []⟩ some with
  | none => rw [hrun] at he; cases he
  | some z =>
    obtain ⟨M, target, c1, d, hrest, hM, -, -, -, -⟩ := request_line_run_some _ _ _ hrun
    rw [hs, hrest]
    simp only [List.length_append, List.length_cons, List.length_nil, List.length_singleton]
    have h6 : " HTTP/".toList.length = 6 := rfl
    have h3 : ∀ M ∈ REQUEST_METHODS, 3 ≤ M.length := by decide
    have := h3 M hM
    omega

theorem isRequestLineValid_short (s : Str) (h : s.length < 10) : isRequestLineValid s = none := by
  cases hm : isRequestLineValid s with
  | none => rfl
  | some m =>
    have := isRequestLineValid_text_ge s m hm
    omega

theorem isHeaderLineValid_single (c : Char) : isHeaderLineValid [c] = none := by
  unfold isHeaderLineValid exec
  have e : HEADER_LINE_REGEX =
      .seq (.group 1 (.seq (.rep 1 none (.cls true [.space])) .empty))
        (.seq (.rep 0 none (.cls false [.space]))
          (.seq (.chr ':')
            (.seq (.rep 0 none (.cls false [.space]))
              (.seq (.group 2 (.seq (.rep 0 none .dot) .empty))
                (.seq (.rep 0 none (.cls false [.space])) .empty))))) := by
    decide!
  rw [e]
  simp [execFrom, execAt, Regex.run, repeatMatcher, stepChar, Regex.groups]


theorem short_slice (short rest : Str) (hs : ShortLine short) :
    slice (short ++ rest) 0 (search lineDelimiterRegex (short ++ rest)) = [] ∨
    ∃ c, slice (short ++ rest) 0 (search lineDelimiterRegex (short ++ rest)) = [c] := by
  rw [search_lineDelimiter]
  rcases hs with rfl | ⟨c, hc, rfl⟩
  · left
    simp [findFirst, delimLen, slice, relIndex]
  · by_cases hr : c = '\r'
    · subst hr
      left
      simp [findFirst, delimLen, slice, relIndex]
    · right
      refine ⟨c, ?_⟩
      simp [findFirst, delimLen, slice, relIndex, hc, hr]

theorem short_indexOf (short rest : Str) (hs : ShortLine short) :
    ¬ (indexOf (short ++ rest) '\n' > 1) := by
  rcases hs with rfl | ⟨c, hc, rfl⟩
  · simp [indexOf, indexOfFrom]
  · simp [indexOf, indexOfFrom, hc]

theorem charStep_blocked (ext : Ext) (st : Reader) (ch : Char) (short rest : Str)
    (hb : st.isInSideBody = false) (hbuf : st.lineBuffer ++ [ch] = short ++ rest)
    (hs : ShortLine short)
    (hreq : st.isInSideRequest = true → ∃ c, c ≠ '\n' ∧ c ≠ '\r' ∧ short = [c, '\n']) :
    charStep ext st ch = ({ st with lineBuffer := st.lineBuffer ++ [ch] }, []) := by
  have hl : lineStep st ch = { st with lineBuffer := st.lineBuffer ++ [ch] } := by
    unfold lineStep
    simp only [hb, LINE_DELIMITER, true_and]
    by_cases hch : ch = '\n'
    · rw [if_pos hch, hbuf]
      have hnone : isRequestLineValid
          (slice (short ++ rest) 0 (search lineDelimiterRegex (short ++ rest))) = none := by
        rcases short_slice short rest hs with h | ⟨c, h⟩ <;> rw [h]
        · exact isRequestLineValid_nil
        · exact isRequestLineValid_short _ (by simp)
      have hhdr : isHeaderLineValid
          (slice (short ++ rest) 0 (search lineDelimiterRegex (short ++ rest))) = none := by
        rcases short_slice short rest hs with h | ⟨c, h⟩ <;> rw [h]
        · exact isHeaderLineValid_nil
        · exact isHeaderLineValid_single c
      rw [hnone]
      simp only [hhdr, Option.isSome_none, Bool.false_eq_true, and_false, if_false]
      rw [if_neg (short_indexOf short rest hs)]
    · rw [if_neg hch]
  unfold charStep
  rw [hl]
  unfold bodyStep
  by_cases hr : st.isInSideRequest = true
  · obtain ⟨c, hc1, hc2, rfl⟩ := hreq hr
    simp only [hr, if_true, hb, true_and, hbuf]
    have hd : delimLen ([c, '\n'] ++ rest) = 0 := delimLen_plain c _ hc1 hc2
    have hsearch : ¬ (search lineDelimiterRegex ([c, '\n'] ++ rest) = 0) := by
      rw [search_eq_zero_iff]
      exact fun h => h hd
    rw [if_neg hsearch]
    simp [hb]
  · simp [hr]

theorem feedChars_blocked (ext : Ext) (w : Str) : ∀ (st : Reader) (short rest : Str),
    st.isInSideBody = false → st.lineBuffer ++ w = short ++ rest → ShortLine short →
    (st.isInSideRequest = true → ∃ c, c ≠ '\n' ∧ c ≠ '\r' ∧ short = [c, '\n']) →
    short.length ≤ st.lineBuffer.length + 1 →
    feedChars ext st w = ({ st with lineBuffer := st.lineBuffer ++ w }, []) := by
  induction w with
  | nil => intro st _ _ _ _ _ _ _; simp [feedChars]
  | cons ch cs ih =>
    intro st short rest hb hbuf hs hreq hlen
    have hp1 : short <+: short ++ rest := List.prefix_append _ _
    have hp2 : st.lineBuffer ++ [ch] <+: short ++ rest := by
      rw [← hbuf]
      exact ⟨cs, by simp⟩
    have hpre : short <+: st.lineBuffer ++ [ch] :=
      List.prefix_of_prefix_length_le hp1 hp2 (by simpa using hlen)
    obtain ⟨rest1, hrest1⟩ := hpre
    have hstep := charStep_blocked ext st ch short rest1 hb hrest1.symm hs hreq
    simp only [feedChars, hstep]
    rw [ih { st with lineBuffer := st.lineBuffer ++ [ch] } short rest hb
      (by simpa using hbuf) hs hreq (by simp only [List.length_append]; simp; omega)]
    simp

/-- Once the line buffer starts with a short line, everything fed is
    appended to it and nothing is handed to the callback. -/
theorem feedChars_short_line (ext : Ext) (st : Reader) (short w : Str)
    (hb : st.isInSideBody = false) (hlb : st.lineBuffer = []) (hs : ShortLine short)
    (hreq : st.isInSideRequest = true → ∃ c, c ≠ '\n' ∧ c ≠ '\r' ∧ short = [c, '\n']) :
    feedChars ext st (short ++ w) = ({ st with lineBuffer := short ++ w }, []) := by
  rcases hs with rfl | ⟨c, hc, rfl⟩
  · have := feedChars_blocked ext (['\n'] ++ w) st ['\n'] w hb (by simp [hlb]) (Or.inl rfl) hreq
      (by simp)
    rw [this, hlb]
    rfl
  · have e : [c, '\n'] ++ w = [c] ++ ('\n' :: w) := rfl
    rw [e, feedChars_append]
    have h1 : feedChars ext st [c] = ({ st with lineBuffer := st.lineBuffer ++ [c] }, []) := by
      apply feedChars_plain ext [c] st hb
      · intro d hd
        rw [List.mem_singleton.mp hd]
        exact hc
      · intro hr p hp hpre
        obtain ⟨c2, h21, h22, h23⟩ := hreq hr
        have hcc : c = c2 := by
          simp only [List.cons.injEq, and_true] at h23
          exact h23
        subst hcc
        rw [hlb, List.nil_append]
        cases p with
        | nil => exact absurd rfl hp
        | cons a p2 =>
          obtain ⟨t, ht⟩ := hpre
          simp only [List.cons_append, List.cons.injEq] at ht
          rw [ht.1]
          exact delimLen_plain c _ h21 h22
    rw [h1]
    simp only
    have := feedChars_blocked ext ('\n' :: w) { st with lineBuffer := st.lineBuffer ++ [c] }
      [c, '\n'] w hb (by simp [hlb]) (Or.inr ⟨c, hc, rfl⟩) hreq (by simp)
    rw [this, hlb]
    rfl


theorem feedChunks_blocked (ext : Ext) (chunks : List Str) : ∀ (st : Reader) (short rest : Str),
    st.isInSideBody = false → st.lineBuffer = short ++ rest → ShortLine short →
    (st.isInSideRequest = true → ∃ c, c ≠ '\n' ∧ c ≠ '\r' ∧ short = [c, '\n']) →
    st.requestStr.length ≤ 8194 → GuardFree st.lineBuffer.length chunks →
    feedChunks ext st chunks = ({ st with lineBuffer := st.lineBuffer ++ chunks.flatten }, []) := by
  induction chunks with
  | nil => intro st _ _ _ _ _ _ _ _; simp [feedChunks]
  | cons d ds ih =>
    intro st short rest hb hbuf hs hreq hrs hg
    obtain ⟨hg1, hg2, hg3⟩ := hg
    have hd : onData ext st d = ({ st with lineBuffer := st.lineBuffer ++ d }, []) := by
      unfold onData
      rw [if_neg (by simp only [REQUEST_MAX_LENGTH]; omega)]
      exact feedChars_blocked ext d st short (rest ++ d) hb (by rw [hbuf, List.append_assoc]) hs
        hreq (by rw [hbuf, List.length_append]; omega)
    simp only [feedChunks, hd]
    rw [ih { st with lineBuffer := st.lineBuffer ++ d } short (rest ++ d) hb
      (by simp [hbuf]) hs hreq hrs (by simpa using hg3)]
    simp

theorem indexOf_append_lf (lb : Str) (h : ∀ c ∈ lb, c ≠ '\n') :
    indexOf (lb ++ ['\n']) '\n' = (lb.length : Int) := by
  unfold indexOf
  rw [indexOfFrom_spec]
  have h1 : (lb ++ ['\n']).dropWhile (fun d => d != '\n') = ['\n'] := by
    rw [List.dropWhile_append_of_pos (by simpa using h)]
    rfl
  have h2 : (lb ++ ['\n']).takeWhile (fun d => d != '\n') = lb := by
    rw [List.takeWhile_append_of_pos (by simpa using h)]
    simp [List.takeWhile]
  rw [h1, h2]
  simp

/-- C29 (amended): for every reader state that is not in the body phase and
    whose pending buffer holds no earlier line feed, when a line feed
    completes a line (the pending buffer up to its first line delimiter)
    that is not a valid request line and is not a header line received
    while reading headers, and more than one character precedes the line
    feed in the pending buffer, the reader returns to the initial state and
    invokes no callback for that line. -/
theorem unrecognised_line_resets (ext : Ext) (st : Reader)
    (hb : st.isInSideBody = false) (hno : ∀ c ∈ st.lineBuffer, c ≠ '\n')
    (hline : isRequestLineValid (slice (st.lineBuffer ++ ['\n']) 0
      (search lineDelimiterRegex (st.lineBuffer ++ ['\n']))) = none)
    (hhdr : ¬ (st.isInSideRequest = true ∧ (isHeaderLineValid (slice (st.lineBuffer ++ ['\n']) 0
      (search lineDelimiterRegex (st.lineBuffer ++ ['\n'])))).isSome = true))
    (hlen : 1 < st.lineBuffer.length) :
    charStep ext st '\n' = (init, []) ∧
    init = ⟨false, false, [], [], 0⟩ := by
  have hl : lineStep st '\n' = init := by
    unfold lineStep
    simp only [hb, LINE_DELIMITER, true_and, if_true]
    rw [hline]
    simp only
    rw [if_neg (by simpa using hhdr), indexOf_append_lf _ hno, if_pos (by omega)]
  refine ⟨?_, rfl⟩
  unfold charStep
  rw [hl]
  rfl

theorem unrecognised_line_resets_witness :
    charStep sampleExt ⟨true, false, "garbage\r".toList, "GET / HTTP/1.0\n".toList, 0⟩ '\n' =
      (init, []) ∧
    init = ⟨false, false, [], [], 0⟩ :=
  unrecognised_line_resets sampleExt ⟨true, false, "garbage\r".toList, "GET / HTTP/1.0\n".toList, 0⟩
    rfl (by decide) (by decide!) (by decide!) (by decide)

/-- C29 (the claim as stated fails): after the chunk that is one line feed
    the reader is idle, not in the body phase, with that line feed pending;
    the line `garbage` that follows is not a request line, seven characters
    precede its line feed, and the reader is not reset: the buffer keeps
    both lines. -/
theorem pending_line_feed_prevents_reset :
    isRequestLineValid "garbage".toList = none ∧
    (feedChunks sampleExt init ["\n".toList]).1 = ⟨false, false, "\n".toList, [], 0⟩ ∧
    (feedChunks sampleExt init ["\n".toList, "garbage\n".toList]).1 =
      ⟨false, false, "\ngarbage\n".toList, [], 0⟩ := by
  decide!

/-- C30: from the idle phase with an empty buffer, a line with at most one
    character before its line feed is neither discarded nor treated as a
    framing error: it stays at the front of the pending line buffer,
    whatever is fed afterwards is appended behind it and nothing is handed
    to the callback, for every sequence of chunks of bytes, as long as the
    size guard does not fire (every chunk has at most 8194 bytes and
    arrives while the buffer holds at most 8194 characters); a chunk that
    arrives while the buffer holds more than 8194 characters resets the
    reader with `{error: 414}`.  The same holds while reading headers for a
    one-character line other than a carriage return. -/
theorem short_line_blocks_reader (ext : Ext) :
    (∀ (st : Reader) (short w : Str), st.isInSideRequest = false → st.isInSideBody = false →
      st.lineBuffer = [] → ShortLine short →
      feedChars ext st (short ++ w) = ({ st with lineBuffer := short ++ w }, [])) ∧
    (∀ (st : Reader) (c : Char) (w : Str), st.isInSideRequest = true → st.isInSideBody = false →
      st.lineBuffer = [] → c ≠ '\n' → c ≠ '\r' →
      feedChars ext st ([c, '\n'] ++ w) = ({ st with lineBuffer := [c, '\n'] ++ w }, [])) ∧
    (∀ (short w : Str) (bufs : List Bytes), ShortLine short →
      (bufs.map utf8Decode).flatten = short ++ w → bufs.flatten.length ≤ 8194 →
      feedBuffers ext init bufs = ({ init with lineBuffer := short ++ w }, [])) ∧
    (∀ (st : Reader) (short rest : Str) (bufs : List Bytes), st.isInSideBody = false →
      st.lineBuffer = short ++ rest → ShortLine short →
      (st.isInSideRequest = true → ∃ c, c ≠ '\n' ∧ c ≠ '\r' ∧ short = [c, '\n']) →
      st.requestStr.length ≤ 8194 → (∀ d ∈ bufs, d.length ≤ 8194) →
      GuardFree st.lineBuffer.length (bufs.map utf8Decode) →
      feedBuffers ext st bufs =
        ({ st with lineBuffer := st.lineBuffer ++ (bufs.map utf8Decode).flatten }, [])) ∧
    (∀ (st : Reader) (d : Bytes), st.lineBuffer.length > 8194 →
      onDataBuffer ext st d = (init, [ReqObj.error 414])) := by
  refine ⟨?_, ?_, ?_, ?_, ?_⟩
  · intro st short w hr hb hlb hs
    exact feedChars_short_line ext st short w hb hlb hs (fun h => by rw [hr] at h; cases h)
  · intro st c w _ hb hlb hc1 hc2
    exact feedChars_short_line ext st [c, '\n'] w hb hlb (Or.inr ⟨c, hc1, rfl⟩)
      (fun _ => ⟨c, hc1, hc2, rfl⟩)
  · intro short w bufs hs hflat hlen
    have hdec := decoded_length_le bufs
    rw [feedBuffers_eq_feedChunks ext bufs (chunk_length_le bufs 8194 hlen),
      feedChunks_eq_feedChars ext _ init init_tidy (by rw [init_held]; omega), hflat]
    exact feedChars_short_line ext init short w rfl rfl hs (fun h => by cases h)
  · intro st short rest bufs hb hbuf hs hreq hrs hbytes hg
    rw [feedBuffers_eq_feedChunks ext bufs hbytes]
    exact feedChunks_blocked ext _ st short rest hb hbuf hs hreq hrs hg
  · intro st d h
    have h2 : st.lineBuffer.length > REQUEST_MAX_LENGTH ∨ d.length > REQUEST_MAX_LENGTH ∨
        st.requestStr.length > REQUEST_MAX_LENGTH := Or.inl h
    unfold onDataBuffer
    rw [if_pos h2]
    rfl

theorem short_line_blocks_reader_witness :
    feedBuffers sampleExt init
        [asciiBytes "\r".toList, asciiBytes "\nGET / HTTP/1.0\r\n\r\n".toList,
         asciiBytes "GET / HTTP/1.0\r\n\r\n".toList] =
      ({ init with lineBuffer :=
          "\r\n".toList ++ "GET / HTTP/1.0\r\n\r\nGET / HTTP/1.0\r\n\r\n".toList }, []) :=
  (short_line_blocks_reader sampleExt).2.2.1 "\r\n".toList
    "GET / HTTP/1.0\r\n\r\nGET / HTTP/1.0\r\n\r\n".toList
    [asciiBytes "\r".toList, asciiBytes "\nGET / HTTP/1.0\r\n\r\n".toList,
     asciiBytes "GET / HTTP/1.0\r\n\r\n".toList]
    (Or.inr ⟨'\r', by decide, rfl⟩) (by decide) (by decide)


/-! ## Greedy runs of one character class -/

theorem run_star_cls (neg : Bool) (items : List ClassItem) (c : Cont) (caps : Caps)
    (w rest : Str) (idx : Nat) (hw : ∀ a ∈ w, classTest neg items a = true)
    (hrest : ∀ b rest2, rest = b :: rest2 → classTest neg items b = false) :
    (Regex.rep 0 none (.cls neg items)).run ⟨idx, w ++ rest, caps⟩ c =
      greedy c caps idx w rest := by
  have e : (Regex.rep 0 none (.cls neg items)).run ⟨idx, w ++ rest, caps⟩ c =
      repeatMatcher (stepChar (classTest neg items)) [] (0 + (w ++ rest).length + 1) 0 none
        ⟨idx, w ++ rest, caps⟩ c := rfl
  rw [e, star_greedy _ c caps w rest hw hrest idx _ (by simp only [List.length_append]; omega)]

theorem run_star_dot (c : Cont) (caps : Caps) (w rest : Str) (idx : Nat)
    (hw : ∀ a ∈ w, isLineTerminator a = false)
    (hrest : ∀ b rest2, rest = b :: rest2 → isLineTerminator b = true) :
    (Regex.rep 0 none .dot).run ⟨idx, w ++ rest, caps⟩ c = greedy c caps idx w rest := by
  rw [run_rep_dot_star, star_greedy _ c caps w rest (by intro a ha; simp [hw a ha])
    (by intro b r2 h; simp [hrest b r2 h]) idx _ (by simp only [List.length_append]; omega)]

theorem run_plus_cls (neg : Bool) (items : List ClassItem) (c : Cont) (caps : Caps)
    (a : Char) (w rest : Str) (idx : Nat) (ha : classTest neg items a = true)
    (hw : ∀ b ∈ w, classTest neg items b = true)
    (hrest : ∀ b rest2, rest = b :: rest2 → classTest neg items b = false) :
    (Regex.rep 1 none (.cls neg items)).run ⟨idx, a :: (w ++ rest), caps⟩ c =
      greedy c caps (idx + 1) w rest := by
  have e : (Regex.rep 1 none (.cls neg items)).run ⟨idx, a :: (w ++ rest), caps⟩ c =
      repeatMatcher (stepChar (classTest neg items)) [] ((1 + (w ++ rest).length + 1) + 1) 1 none
        ⟨idx, a :: (w ++ rest), caps⟩ c := rfl
  rw [e, repeatMatcher_min_one]
  simp only [clearCaps_nil]
  rw [stepChar_cons, ha, if_pos rfl,
    star_greedy _ c caps w rest hw hrest (idx + 1) _ (by simp only [List.length_append]; omega)]

theorem run_plus_cls_none (neg : Bool) (items : List ClassItem) (c : Cont) (caps : Caps)
    (rest : Str) (idx : Nat)
    (hrest : ∀ b rest2, rest = b :: rest2 → classTest neg items b = false) :
    (Regex.rep 1 none (.cls neg items)).run ⟨idx, rest, caps⟩ c = none := by
  have e : (Regex.rep 1 none (.cls neg items)).run ⟨idx, rest, caps⟩ c =
      repeatMatcher (stepChar (classTest neg items)) [] ((1 + rest.length) + 1) 1 none
        ⟨idx, rest, caps⟩ c := rfl
  rw [e, repeatMatcher_min_one]
  simp only [clearCaps_nil]
  cases rest with
  | nil => rfl
  | cons b r2 => rw [stepChar_cons, hrest b r2 rfl]; rfl

/-- Greedy backtracking stops at the longest prefix after which the
    continuation succeeds. -/
theorem greedy_last (c : Cont) (caps : Caps) (w rest : Str) (idx j : Nat) (z : MState)
    (hj : j ≤ w.length) (hok : c ⟨idx + j, w.drop j ++ rest, caps⟩ = some z)
    (hfail : ∀ i, j < i → i ≤ w.length → c ⟨idx + i, w.drop i ++ rest, caps⟩ = none) :
    greedy c caps idx w rest = some z := by
  induction w generalizing idx j with
  | nil =>
    have : j = 0 := by simpa using hj
    subst this
    simpa [greedy] using hok
  | cons a w ih =>
    unfold greedy
    cases j with
    | zero =>
      have hnone : greedy c caps (idx + 1) w rest = none := by
        apply greedy_none
        intro i hi
        have := hfail (i + 1) (by omega) (by simp; omega)
        rw [← this]
        congr 2
        omega
      rw [hnone]
      simpa using hok
    | succ j =>
      rw [ih (idx + 1) j (by simpa using hj) (by rw [← hok]; congr 2; omega) (by
        intro i hi1 hi2
        have := hfail (i + 1) (by omega) (by simp; omega)
        rw [← this]
        congr 2
        omega)]

theorem run_seq_empty (r : Regex) (x : MState) (c : Cont) :
    (Regex.seq r .empty).run x c = r.run x c := rfl


/-! ## The header-line pattern on a line `Name: value` -/

theorem HEADER_LINE_REGEX_eq :
    HEADER_LINE_REGEX =
      .seq (.group 1 (.seq (.rep 1 none (.cls true [.space])) .empty))
        (.seq (.rep 0 none (.cls false [.space]))
          (.seq (.chr ':')
            (.seq (.rep 0 none (.cls false [.space]))
              (.seq (.group 2 (.seq (.rep 0 none .dot) .empty))
                (.seq (.rep 0 none (.cls false [.space])) .empty))))) := by
  decide!

theorem classTest_space (a : Char) : classTest false [.space] a = isSpace a := by
  simp [classTest, ClassItem.test]

theorem classTest_not_space (a : Char) : classTest true [.space] a = !isSpace a := by
  simp [classTest, ClassItem.test]

theorem header_tail_run (idx : Nat) (sp V : Str) (caps : Caps)
    (hspc : ∀ a ∈ sp, isSpace a = true)
    (hV : ∀ a ∈ V, isLineTerminator a = false)
    (hV0 : ∀ b V2, V = b :: V2 → isSpace b = false) :
    (Regex.seq (.rep 0 none (.cls false [.space]))
        (.seq (.group 2 (.seq (.rep 0 none .dot) .empty))
          (.seq (.rep 0 none (.cls false [.space])) .empty))).run ⟨idx, sp ++ V, caps⟩ some =
      some ⟨idx + sp.length + V.length, [], setCap 2 V caps⟩ := by
  rw [run_seq, run_star_cls false [.space] _ caps sp V idx
    (by intro a ha; rw [classTest_space]; exact hspc a ha)
    (by intro b r2 h; rw [classTest_space]; exact hV0 b r2 h)]
  apply greedy_full
  rw [run_seq, run_group, run_seq_empty]
  have e : (⟨idx + sp.length, V, caps⟩ : MState) = ⟨idx + sp.length, V ++ [], caps⟩ := by simp
  rw [e, run_star_dot _ caps V [] (idx + sp.length) hV (by intro b r2 h; cases h)]
  apply greedy_full
  simp only [List.append_nil]
  rw [run_seq_empty]
  have e2 : (Regex.rep 0 none (.cls false [.space])).run
      ⟨idx + sp.length + V.length, [],
        setCap 2 (V.take (idx + sp.length + V.length - (idx + sp.length))) caps⟩ some =
      greedy some (setCap 2 (V.take (idx + sp.length + V.length - (idx + sp.length))) caps)
        (idx + sp.length + V.length) [] [] :=
    run_star_cls false [.space] some _ [] [] _ (by intro a ha; cases ha) (by intro b r2 h; cases h)
  rw [e2]
  simp [greedy]


theorem header_after_name_run (idx : Nat) (sp V : Str) (caps : Caps)
    (hspc : ∀ a ∈ sp, isSpace a = true)
    (hV : ∀ a ∈ V, isLineTerminator a = false)
    (hV0 : ∀ b V2, V = b :: V2 → isSpace b = false) :
    (Regex.seq (.rep 0 none (.cls false [.space]))
        (.seq (.chr ':')
          (.seq (.rep 0 none (.cls false [.space]))
            (.seq (.group 2 (.seq (.rep 0 none .dot) .empty))
              (.seq (.rep 0 none (.cls false [.space])) .empty))))).run
        ⟨idx, ':' :: (sp ++ V), caps⟩ some =
      some ⟨idx + 1 + sp.length + V.length, [], setCap 2 V caps⟩ := by
  rw [run_seq]
  have e : (⟨idx, ':' :: (sp ++ V), caps⟩ : MState) = ⟨idx, [] ++ ':' :: (sp ++ V), caps⟩ := rfl
  rw [e, run_star_cls false [.space] _ caps [] (':' :: (sp ++ V)) idx
    (by intro a ha; cases ha)
    (by intro b r2 h; simp only [List.cons.injEq] at h; rw [classTest_space, ← h.1]; decide)]
  simp only [greedy]
  rw [run_seq, run_chr, stepChar_cons]
  simp only [beq_self_eq_true, if_true]
  exact header_tail_run (idx + 1) sp V caps hspc hV hV0

theorem header_after_colon_fail (idx : Nat) (sp V : Str) (caps : Caps) (r : Regex)
    (hspc : ∀ a ∈ sp, isSpace a = true)
    (hV0 : ∀ b V2, V = b :: V2 → isSpace b = false ∧ b ≠ ':') :
    (Regex.seq (.rep 0 none (.cls false [.space])) (.seq (.chr ':') r)).run
        ⟨idx, sp ++ V, caps⟩ some = none := by
  rw [run_seq, run_star_cls false [.space] _ caps sp V idx
    (by intro a ha; rw [classTest_space]; exact hspc a ha)
    (by intro b r2 h; rw [classTest_space]; exact (hV0 b r2 h).1)]
  apply greedy_none
  intro j hj
  rw [run_seq, run_chr]
  cases hd : sp.drop j ++ V with
  | nil => rfl
  | cons b r2 =>
    rw [stepChar_cons]
    have hb : b ≠ ':' := by
      cases hdj : sp.drop j with
      | nil =>
        rw [hdj, List.nil_append] at hd
        exact (hV0 b r2 hd).2
      | cons b2 r3 =>
        rw [hdj] at hd
        simp only [List.cons_append, List.cons.injEq] at hd
        have hmem : b2 ∈ sp := List.mem_of_mem_drop (by rw [hdj]; exact List.mem_cons_self _ _)
        have := hspc b2 hmem
        rw [← hd.1]
        intro h
        rw [h] at this
        revert this
        decide
    simp [hb]

/-- The header-line pattern on `Name:` followed by white space and a value:
    the match is the whole line, cell 1 is the name and cell 2 the value. -/
theorem header_line_exec (N sp V : Str) (hN : N ≠ [])
    (hNc : ∀ a ∈ N, isSpace a = false ∧ a ≠ ':')
    (hsp : sp ≠ []) (hspc : ∀ a ∈ sp, isSpace a = true)
    (hV : ∀ a ∈ V, isLineTerminator a = false)
    (hV0 : ∀ b V2, V = b :: V2 → isSpace b = false ∧ b ≠ ':') :
    isHeaderLineValid (N ++ ':' :: (sp ++ V)) =
      some ⟨0, N ++ ':' :: (sp ++ V), [(2, V), (1, N)]⟩ := by
  unfold isHeaderLineValid exec
  apply execFrom_of_execAt
  unfold execAt
  obtain ⟨a, N1, rfl⟩ : ∃ a N1, N = a :: N1 := by
    cases N with
    | nil => exact absurd rfl hN
    | cons a N1 => exact ⟨a, N1, rfl⟩
  obtain ⟨s0, sp1, rfl⟩ : ∃ s0 sp1, sp = s0 :: sp1 := by
    cases sp with
    | nil => exact absurd rfl hsp
    | cons s0 sp1 => exact ⟨s0, sp1, rfl⟩
  have hrun : HEADER_LINE_REGEX.run ⟨0, a :: N1 ++ ':' :: (s0 :: sp1 ++ V), []⟩ some =
      some ⟨(a :: N1 ++ ':' :: (s0 :: sp1 ++ V)).length, [], [(2, V), (1, a :: N1)]⟩ := by
    rw [HEADER_LINE_REGEX_eq, run_seq, run_group, run_seq_empty]
    have hshape : a :: N1 ++ ':' :: (s0 :: sp1 ++ V) =
        a :: ((N1 ++ [':']) ++ (s0 :: sp1 ++ V)) := by simp
    rw [hshape, run_plus_cls true [.space] _ [] a (N1 ++ [':']) (s0 :: sp1 ++ V) 0
      (by rw [classTest_not_space, (hNc a (List.mem_cons_self _ _)).1]; rfl)
      (by
        intro b hb
        rw [classTest_not_space]
        rcases List.mem_append.mp hb with h | h
        · rw [(hNc b (List.mem_cons_of_mem _ h)).1]; rfl
        · rw [List.mem_singleton.mp h]; decide)
      (by
        intro b r2 h
        simp only [List.cons_append, List.cons.injEq] at h
        rw [classTest_not_space, ← h.1, hspc s0 (List.mem_cons_self _ _)]
        rfl)]
    apply greedy_last _ _ _ _ _ N1.length _ (by simp)
    · -- after the name: the colon, the white space and the value
      simp only [List.drop_left, List.cons_append, List.nil_append]
      have h := header_after_name_run (0 + 1 + N1.length) (s0 :: sp1) V
        (setCap 1 ((a :: (N1 ++ [':'] ++ s0 :: (sp1 ++ V))).take (0 + 1 + N1.length - 0)) [])
        hspc hV (fun b V2 hb => (hV0 b V2 hb).1)
      simp only [List.cons_append] at h
      rw [h]
      have ht : (a :: (N1 ++ [':'] ++ s0 :: (sp1 ++ V))).take (0 + 1 + N1.length - 0) = a :: N1 := by
        have : 0 + 1 + N1.length - 0 = N1.length + 1 := by omega
        rw [this, List.take_succ_cons, List.append_assoc, List.take_left]
      rw [ht]
      simp [setCap]
      omega
    · intro i hi1 hi2
      have hi : i = N1.length + 1 := by
        simp only [List.length_append, List.length_singleton] at hi2
        omega
      subst hi
      have hd : List.drop (N1.length + 1) (N1 ++ [':']) = [] := by
        apply List.drop_of_length_le
        simp
      simp only [hd, List.nil_append]
      exact header_after_colon_fail _ (s0 :: sp1) V _ _ hspc hV0
  rw [hrun]
  simp


/-! ## The fold of the header lines -/

theorem hasOwnProperty_iff_mem {α : Type} (o : List (Str × α)) (name : Str) :
    hasOwnProperty o name = true ↔ name ∈ o.map Prod.fst := by
  unfold hasOwnProperty
  rw [List.any_eq_true, List.mem_map]
  constructor
  · rintro ⟨p, hp, h⟩
    exact ⟨p, hp, by simpa using h⟩
  · rintro ⟨p, hp, h⟩
    exact ⟨p, hp, by simpa using h⟩

theorem keys_setProp {α : Type} (o : List (Str × α)) (name : Str) (v : α) :
    (setProp o name v).map Prod.fst =
      if hasOwnProperty o name then o.map Prod.fst
      else if name = PROTO then o.map Prod.fst else o.map Prod.fst ++ [name] := by
  unfold setProp
  split
  · rw [List.map_map]
    apply List.map_congr_left
    intro p _
    by_cases hp : p.1 = name <;> simp [hp]
  · split
    · rfl
    · simp

theorem getProp_setProp_other {α : Type} (o : List (Str × α)) (name other : Str) (v : α)
    (h : other ≠ name) : getProp (setProp o name v) other = getProp o other := by
  have hmap : ∀ o : List (Str × α),
      getProp (o.map fun p => if p.1 == name then (p.1, v) else p) other = getProp o other := by
    intro o
    unfold getProp
    induction o with
    | nil => rfl
    | cons p ps ih =>
      by_cases hp : (p.1 == name) = true
      · have hpn : p.1 = name := by simpa using hp
        have hpo : (p.1 == other) = false := by
          rw [beq_eq_false_iff_ne]
          intro e
          exact h (e.symm.trans hpn)
        simp only [List.map_cons, hp, if_true, List.find?, hpo]
        exact ih
      · simp only [Bool.not_eq_true] at hp
        simp only [List.map_cons, hp, Bool.false_eq_true, if_false, List.find?]
        cases hpo : (p.1 == other) with
        | true => rfl
        | false => exact ih
  unfold setProp
  split
  · exact hmap o
  · split
    · rfl
    · unfold getProp
      rw [List.find?_append]
      have : List.find? (fun p => p.1 == other) [(name, v)] = none := by
        simp only [List.find?, beq_eq_false_iff_ne.mpr (Ne.symm h)]
      rw [this]
      simp

theorem setProp_nodup {α : Type} (o : List (Str × α)) (name : Str) (v : α)
    (h : (o.map Prod.fst).Nodup) : ((setProp o name v).map Prod.fst).Nodup := by
  rw [keys_setProp]
  split
  · exact h
  · rename_i hn
    split
    · exact h
    · rw [List.nodup_append]
      refine ⟨h, List.nodup_singleton _, ?_⟩
      intro a ha hb
      rw [List.mem_singleton] at hb
      subst hb
      exact hn ((hasOwnProperty_iff_mem o a).mpr ha)

theorem addHeaderLinesWith_toLowerCase (lines : List Str) : ∀ headers : Obj,
    addHeaderLinesWith toLowerCase lines headers = addHeaderLines lines headers := by
  induction lines with
  | nil => intro headers; rfl
  | cons line rest ih =>
    intro headers
    unfold addHeaderLinesWith addHeaderLines
    cases exec HEADER_LINE_REGEX line with
    | none => rfl
    | some m =>
      simp only
      split <;> exact ih _

theorem addHeadersWith_toLowerCase (httpVer : Str) (headerLines : List Str) (headersStart : Nat) :
    addHeadersWith toLowerCase httpVer headerLines headersStart =
      addHeaders httpVer headerLines headersStart := by
  unfold addHeadersWith addHeaders
  rw [addHeaderLinesWith_toLowerCase]

theorem addHeaderLinesWith_good (lower : Str → Str) (nv : List (Str × Str))
    (hgood : ∀ p ∈ nv, GoodName p.1 ∧ GoodValue p.2) : ∀ headers : Obj,
    addHeaderLinesWith lower (nv.map headerLineOf) headers =
      .ok (foldHeaders (nv.map fun p => (lower p.1, p.2)) headers) := by
  induction nv with
  | nil => intro headers; rfl
  | cons p ps ih =>
    intro headers
    obtain ⟨⟨hn1, hn2⟩, hv1, hv2⟩ := hgood p (List.mem_cons_self _ _)
    have hex : exec HEADER_LINE_REGEX (headerLineOf p) =
        some ⟨0, headerLineOf p, [(2, p.2), (1, p.1)]⟩ := by
      have := header_line_exec p.1 [' '] p.2 hn1 hn2 (by simp)
        (by intro a ha; rw [List.mem_singleton.mp ha]; decide) hv1
        (by
          intro b V2 hb
          rw [hb] at hv2
          simpa using hv2)
      exact this
    have ih2 := ih (fun q hq => hgood q (List.mem_cons_of_mem _ hq))
    simp only [List.map_cons]
    unfold addHeaderLinesWith
    rw [hex]
    have hc1 : (⟨0, headerLineOf p, [(2, p.2), (1, p.1)]⟩ : Match).cellStr 1 = p.1 := rfl
    have hc2 : (⟨0, headerLineOf p, [(2, p.2), (1, p.1)]⟩ : Match).cellStr 2 = p.2 := rfl
    simp only [hc1, hc2]
    have hstep : foldHeaders ((lower p.1, p.2) :: ps.map fun p => (lower p.1, p.2))
        headers =
        foldHeaders (ps.map fun p => (lower p.1, p.2))
          (setProp headers (lower p.1) (match getProp headers (lower p.1) with
            | some old => old ++ HEADER_VALUES_DELIMITER ++ p.2
            | none => p.2)) := rfl
    rw [hstep]
    by_cases hown : hasOwnProperty headers (lower p.1) = true
    · have hsome := hown
      rw [hasOwnProperty_iff_getProp_isSome] at hsome
      obtain ⟨old, hold⟩ := Option.isSome_iff_exists.mp hsome
      simp only [hown, Bool.not_true, Bool.false_eq_true, if_false, hold, Option.getD_some]
      exact ih2 _
    · simp only [Bool.not_eq_true] at hown
      have hnone : getProp headers (lower p.1) = none := by
        have := hasOwnProperty_iff_getProp_isSome headers (lower p.1)
        rw [hown] at this
        cases hg : getProp headers (lower p.1) with
        | none => rfl
        | some x => rw [hg] at this; cases this
      simp only [hown, Bool.not_false, if_true, hnone]
      exact ih2 _


theorem foldHeaders_cons (p : Str × Str) (ps : List (Str × Str)) (headers : Obj) :
    foldHeaders (p :: ps) headers =
      foldHeaders ps (setProp headers p.1 (match getProp headers p.1 with
        | some old => old ++ HEADER_VALUES_DELIMITER ++ p.2
        | none => p.2)) := rfl

theorem foldHeaders_nodup (pairs : List (Str × Str)) : ∀ headers : Obj,
    (headers.map Prod.fst).Nodup → ((foldHeaders pairs headers).map Prod.fst).Nodup := by
  induction pairs with
  | nil => intro headers h; exact h
  | cons p ps ih =>
    intro headers h
    rw [foldHeaders_cons]
    exact ih _ (setProp_nodup _ _ _ h)

theorem foldHeaders_keys (pairs : List (Str × Str)) : ∀ (headers : Obj) (n : Str),
    n ∈ (foldHeaders pairs headers).map Prod.fst ↔
      n ∈ headers.map Prod.fst ∨ (n ∈ pairs.map Prod.fst ∧ n ≠ PROTO) := by
  induction pairs with
  | nil => intro headers n; simp [foldHeaders]
  | cons p ps ih =>
    intro headers n
    rw [foldHeaders_cons, ih, keys_setProp]
    by_cases hown : hasOwnProperty headers p.1 = true
    · rw [if_pos hown]
      have hmem := (hasOwnProperty_iff_mem headers p.1).mp hown
      simp only [List.map_cons, List.mem_cons]
      constructor
      · rintro (h | ⟨h, hne⟩)
        · exact Or.inl h
        · exact Or.inr ⟨Or.inr h, hne⟩
      · rintro (h | ⟨h | h, hne⟩)
        · exact Or.inl h
        · exact Or.inl (h ▸ hmem)
        · exact Or.inr ⟨h, hne⟩
    · rw [if_neg hown]
      by_cases hpr : p.1 = PROTO
      · rw [if_pos hpr]
        simp only [List.map_cons, List.mem_cons]
        constructor
        · rintro (h | ⟨h, hne⟩)
          · exact Or.inl h
          · exact Or.inr ⟨Or.inr h, hne⟩
        · rintro (h | ⟨h | h, hne⟩)
          · exact Or.inl h
          · exact absurd (h.trans hpr) hne
          · exact Or.inr ⟨h, hne⟩
      · rw [if_neg hpr]
        simp only [List.map_cons, List.mem_cons, List.mem_append, List.not_mem_nil, or_false]
        constructor
        · rintro ((h | h) | ⟨h, hne⟩)
          · exact Or.inl h
          · exact Or.inr ⟨Or.inl h, fun e => hpr (h ▸ e)⟩
          · exact Or.inr ⟨Or.inr h, hne⟩
        · rintro (h | ⟨h | h, hne⟩)
          · exact Or.inl (Or.inl h)
          · exact Or.inl (Or.inr h)
          · exact Or.inr ⟨h, hne⟩

theorem foldHeaders_get (pairs : List (Str × Str)) (n : Str) (hn : n ≠ PROTO) :
    ∀ headers : Obj,
    getProp (foldHeaders pairs headers) n =
      match getProp headers n with
      | some old =>
        some (((pairs.filter fun p => p.1 == n).map Prod.snd).foldl
          (fun acc v => acc ++ HEADER_VALUES_DELIMITER ++ v) old)
      | none =>
        match (pairs.filter fun p => p.1 == n).map Prod.snd with
        | [] => none
        | v :: vs => some (vs.foldl (fun acc v => acc ++ HEADER_VALUES_DELIMITER ++ v) v) := by
  induction pairs with
  | nil =>
    intro headers
    cases hg : getProp headers n <;> simp [foldHeaders, hg]
  | cons p ps ih =>
    intro headers
    rw [foldHeaders_cons, ih]
    by_cases hp : p.1 = n
    · subst hp
      rw [getProp_setProp_same _ _ _ hn]
      have hf : (List.filter (fun q => q.1 == p.1) (p :: ps)) =
          p :: List.filter (fun q => q.1 == p.1) ps := by
        simp [List.filter]
      rw [hf]
      cases hg : getProp headers p.1 <;> simp
    · have hne : n ≠ p.1 := fun e => hp e.symm
      rw [getProp_setProp_other _ _ _ _ hne]
      have hf : (List.filter (fun q => q.1 == n) (p :: ps)) =
          List.filter (fun q => q.1 == n) ps := by
        have hb : (p.1 == n) = false := beq_eq_false_iff_ne.mpr hp
        simp only [List.filter, hb]
      rw [hf]

theorem foldl_join_shift (sep : Str) (vs : List Str) : ∀ (pre x : Str),
    vs.foldl (fun acc v => acc ++ sep ++ v) (pre ++ sep ++ x) =
      pre ++ sep ++ vs.foldl (fun acc v => acc ++ sep ++ v) x := by
  induction vs with
  | nil => intro pre x; rfl
  | cons v vs ih =>
    intro pre x
    simp only [List.foldl_cons]
    have : pre ++ sep ++ x ++ sep ++ v = pre ++ sep ++ (x ++ sep ++ v) := by
      simp [List.append_assoc]
    rw [this, ih]

theorem join_eq_foldl (sep : Str) (vs : List Str) : ∀ v : Str,
    join sep (v :: vs) = vs.foldl (fun acc x => acc ++ sep ++ x) v := by
  induction vs with
  | nil => intro v; rfl
  | cons x vs ih =>
    intro v
    have : join sep (v :: x :: vs) = v ++ sep ++ join sep (x :: vs) := rfl
    rw [this, ih, List.foldl_cons, foldl_join_shift]

theorem valuesOf_eq (lower : Str → Str) (n : Str) (nv : List (Str × Str)) :
    ((nv.map fun p => (lower p.1, p.2)).filter fun p => p.1 == n).map Prod.snd =
      valuesOf lower n nv := by
  unfold valuesOf
  induction nv with
  | nil => rfl
  | cons p ps ih =>
    simp only [List.map_cons, List.filter_cons]
    by_cases hp : (lower p.1 == n) = true
    · simp only [hp, if_true, List.map_cons, ih]
    · simp only [hp, Bool.false_eq_true, if_false, ih]


theorem httpRequest_headers (ext : Ext) (lines : List Str) (body : Str) (req : HttpRequest)
    (h : httpRequest ext lines body = .ok req) :
    addHeaders req.httpVer lines 1 = .ok req.headers := by
  unfold httpRequest at h
  split at h
  · cases h
  · simp only at h
    split at h
    · cases h
    · rename_i hs heq
      cases h
      exact heq

theorem addHeaders_lines (httpVer : Str) (first : Str) (lines : List Str) (headers : Obj)
    (h : addHeaders httpVer (first :: lines) 1 = .ok headers) :
    addHeaderLines lines [] = .ok headers := by
  unfold addHeaders at h
  simp only [List.drop_succ_cons, List.drop_zero] at h
  split at h
  · cases h
  · rename_i hs heq
    split at h
    · cases h
    · split at h
      · cases h
      · cases h
        exact heq

theorem addHeadersWith_lines (lower : Str → Str) (httpVer : Str) (first : Str)
    (lines : List Str) (headers : Obj)
    (h : addHeadersWith lower httpVer (first :: lines) 1 = .ok headers) :
    addHeaderLinesWith lower lines [] = .ok headers := by
  unfold addHeadersWith at h
  simp only [List.drop_succ_cons, List.drop_zero] at h
  split at h
  · cases h
  · rename_i hs heq
    split at h
    · cases h
    · split at h
      · cases h
      · cases h
        exact heq

/-- C19 (amended): for every behaviour `lower` of `toLowerCase` and every
    list of header lines of the form `Name: value` (a name that is not empty
    and holds no white space and no colon, a colon, a space, and a value
    without line terminators that does not start with white space or a
    colon), the fold of the lines builds a headers mapping with exactly one
    entry per distinct lowercased name other than `__proto__`, whose value
    is the values of all lines with that name (compared in lower case) in
    encounter order joined with `,`; a line whose lowercased name is
    `__proto__` adds no entry; this mapping is what `addHeaders` leaves as
    the headers of the request whenever it does not throw. -/
theorem header_lines_fold (lower : Str → Str) (nv : List (Str × Str))
    (hgood : ∀ p ∈ nv, GoodName p.1 ∧ GoodValue p.2) :
    ∃ headers : Obj, addHeaderLinesWith lower (nv.map headerLineOf) [] = .ok headers ∧
      (headers.map Prod.fst).Nodup ∧
      (∀ n, hasOwnProperty headers n = true ↔ (∃ p ∈ nv, lower p.1 = n) ∧ n ≠ PROTO) ∧
      (∀ p ∈ nv, lower p.1 ≠ PROTO → getProp headers (lower p.1) =
        some (join HEADER_VALUES_DELIMITER (valuesOf lower (lower p.1) nv))) ∧
      (∀ (httpVer first : Str) (h : Obj),
        addHeadersWith lower httpVer (first :: nv.map headerLineOf) 1 = .ok h → h = headers) ∧
      (∀ (httpVer first : Str), httpVer = "1.0".toList ∨
          (httpVer = "1.1".toList ∧ ∃ p ∈ nv, lower p.1 = "host".toList) →
        addHeadersWith lower httpVer (first :: nv.map headerLineOf) 1 = .ok headers) := by
  refine ⟨foldHeaders (nv.map fun p => (lower p.1, p.2)) [],
    addHeaderLinesWith_good lower nv hgood [], foldHeaders_nodup _ [] List.nodup_nil, ?_, ?_, ?_, ?_⟩
  · intro n
    rw [hasOwnProperty_iff_mem, foldHeaders_keys]
    simp only [List.map_nil, List.not_mem_nil, false_or, List.map_map, List.mem_map,
      Function.comp_apply]
  · intro p hp hproto
    rw [foldHeaders_get _ _ hproto, valuesOf_eq]
    have hmem : p.2 ∈ valuesOf lower (lower p.1) nv := by
      unfold valuesOf
      rw [List.mem_map]
      exact ⟨p, List.mem_filter.mpr ⟨hp, by simp⟩, rfl⟩
    have hget : getProp ([] : Obj) (lower p.1) = none := rfl
    rw [hget]
    cases hv : valuesOf lower (lower p.1) nv with
    | nil => rw [hv] at hmem; cases hmem
    | cons v vs =>
      simp only
      rw [join_eq_foldl]
  · intro httpVer first h hreq
    have h1 := addHeadersWith_lines lower _ _ _ _ hreq
    rw [addHeaderLinesWith_good lower nv hgood []] at h1
    exact (Except.ok.inj h1).symm
  · intro httpVer first hv
    unfold addHeadersWith
    simp only [List.drop_succ_cons, List.drop_zero]
    rw [addHeaderLinesWith_good lower nv hgood []]
    rcases hv with rfl | ⟨rfl, p, hp, hhost⟩
    · rfl
    · have hown : hasOwnProperty (foldHeaders (nv.map fun p => (lower p.1, p.2)) [])
          "host".toList = true := by
        rw [hasOwnProperty_iff_mem, foldHeaders_keys]
        refine Or.inr ⟨?_, by decide⟩
        simp only [List.map_map, List.mem_map, Function.comp_apply]
        exact ⟨p, hp, hhost⟩
      have e : getProp HTTP_VERSIONS "1.1".toList = some ["host".toList] := by decide
      simp only [e, checkRequired, hown, Bool.not_true, Bool.false_eq_true, if_false]

theorem header_lines_fold_witness :
    ∃ headers : Obj,
      addHeaderLinesWith toLowerCase
        ["X-Foo: a".toList, "Host: h".toList, "x-foo: b".toList] [] = .ok headers ∧
      headers.map Prod.fst = ["x-foo".toList, "host".toList] ∧
      getProp headers "x-foo".toList = some "a,b".toList := by
  obtain ⟨headers, h1, _, _, h4, _⟩ := header_lines_fold toLowerCase
    [("X-Foo".toList, "a".toList), ("Host".toList, "h".toList), ("x-foo".toList, "b".toList)]
    (by
      intro p hp
      simp only [List.mem_cons, List.mem_singleton, List.not_mem_nil, or_false] at hp
      rcases hp with rfl | rfl | rfl <;> exact ⟨⟨by decide, by decide⟩, by decide, by decide⟩)
  refine ⟨headers, h1, ?_, ?_⟩
  · have h2 : addHeaderLinesWith toLowerCase
        ["X-Foo: a".toList, "Host: h".toList, "x-foo: b".toList] [] =
        .ok [("x-foo".toList, "a,b".toList), ("host".toList, "h".toList)] := by rfl
    have h3 := Except.ok.inj (h1.symm.trans h2)
    rw [h3]
    rfl
  · exact h4 ("X-Foo".toList, "a".toList) (List.mem_cons_self _ _) (by decide)

/-- C19 (the claim as stated fails): the header line `__proto__: x` adds no
    entry to the headers mapping, so the mapping has no entry for this
    name: the constructor builds the request with empty headers. -/
theorem proto_header_line_adds_no_entry :
    addHeaderLines ["__proto__: x".toList] [] = .ok [] ∧
    addHeaders "1.0".toList ["GET / HTTP/1.0".toList, "__proto__: x".toList] 1 = .ok [] ∧
    ((httpRequest sampleExt ["GET / HTTP/1.0".toList, "__proto__: x".toList] []).toOption.map
      fun req => req.headers) = some [] := by
  refine ⟨by rfl, by rfl, by rfl⟩


/-! ## Required headers -/

theorem addHeaderLines_keys (lines : List Str) : ∀ (headers res : Obj) (n : Str),
    addHeaderLines lines headers = .ok res → hasOwnProperty res n = true →
    hasOwnProperty headers n = true ∨ ∃ line ∈ lines, headerNameOf line = some n := by
  induction lines with
  | nil =>
    intro headers res n h hn
    cases h
    exact Or.inl hn
  | cons line rest ih =>
    intro headers res n h hn
    unfold addHeaderLines at h
    cases hex : exec HEADER_LINE_REGEX line with
    | none => rw [hex] at h; cases h
    | some m =>
      rw [hex] at h
      simp only at h
      have hname : headerNameOf line = some (toLowerCase (m.cellStr 1)) := by
        unfold headerNameOf isHeaderLineValid
        rw [hex]
        rfl
      have key : ∀ v, addHeaderLines rest (setProp headers (toLowerCase (m.cellStr 1)) v) = .ok res →
          hasOwnProperty headers n = true ∨ ∃ l ∈ line :: rest, headerNameOf l = some n := by
        intro v hv
        rcases ih _ res n hv hn with h1 | ⟨l, hl, hl2⟩
        · rw [hasOwnProperty_iff_mem, keys_setProp] at h1
          split at h1
          · exact Or.inl ((hasOwnProperty_iff_mem _ _).mpr h1)
          · split at h1
            · exact Or.inl ((hasOwnProperty_iff_mem _ _).mpr h1)
            · rcases List.mem_append.mp h1 with h2 | h2
              · exact Or.inl ((hasOwnProperty_iff_mem _ _).mpr h2)
              · rw [List.mem_singleton] at h2
                exact Or.inr ⟨line, List.mem_cons_self _ _, by rw [hname, h2]⟩
        · exact Or.inr ⟨l, List.mem_cons_of_mem _ hl, hl2⟩
      split at h
      · exact key _ h
      · exact key _ h

theorem addHeaderLines_error (lines : List Str) : ∀ (headers : Obj) (e : Err),
    addHeaderLines lines headers = .error e → e = .typeError := by
  induction lines with
  | nil => intro headers e h; cases h
  | cons line rest ih =>
    intro headers e h
    unfold addHeaderLines at h
    cases hex : exec HEADER_LINE_REGEX line with
    | none => rw [hex] at h; cases h; rfl
    | some m =>
      rw [hex] at h
      simp only at h
      split at h <;> exact ih _ e h

theorem addHeaderLines_total (lines : List Str)
    (hall : ∀ line ∈ lines, (isHeaderLineValid line).isSome = true) : ∀ headers : Obj,
    ∃ res, addHeaderLines lines headers = .ok res := by
  induction lines with
  | nil => intro headers; exact ⟨headers, rfl⟩
  | cons line rest ih =>
    intro headers
    unfold addHeaderLines
    have h1 := hall line (List.mem_cons_self _ _)
    unfold isHeaderLineValid at h1
    obtain ⟨m, hm⟩ := Option.isSome_iff_exists.mp h1
    rw [hm]
    simp only
    split <;> exact ih (fun l hl => hall l (List.mem_cons_of_mem _ hl)) _

theorem httpRequest_of_line (ext : Ext) (lines : List Str) (body : Str) (m : Match)
    (hm : exec REQUEST_LINE_REGEX (lines.head?.getD "undefined".toList) = some m) :
    (∀ e, addHeaders (m.cellStr 3) lines 1 = .error e → httpRequest ext lines body = .error e) ∧
    (∀ headers, addHeaders (m.cellStr 3) lines 1 = .ok headers →
      ∃ req, httpRequest ext lines body = .ok req ∧ req.headers = headers ∧
        req.httpVer = m.cellStr 3 ∧ req.method = m.cellStr 1) := by
  constructor
  · intro e he
    unfold httpRequest
    rw [hm]
    simp only [he]
  · intro headers hh
    unfold httpRequest
    rw [hm]
    simp only [hh]
    exact ⟨_, rfl, rfl, rfl, rfl⟩


theorem addHeaders_without_host (lines : List Str)
    (hno : ∀ line ∈ lines.tail, headerNameOf line ≠ some HOSTNAME_HEADER_NAME) :
    addHeaders "1.1".toList lines 1 = .error .typeError ∨
    addHeaders "1.1".toList lines 1 =
      .error (.missingHeader "host".toList "1.1".toList) := by
  unfold addHeaders
  have hd : lines.drop 1 = lines.tail := by cases lines <;> rfl
  rw [hd]
  cases hl : addHeaderLines lines.tail [] with
  | error e =>
    left
    rw [addHeaderLines_error _ _ e hl]
  | ok headers =>
    right
    have hv : getProp HTTP_VERSIONS "1.1".toList = some ["host".toList] := by decide
    simp only [hv]
    have hown : hasOwnProperty headers "host".toList = false := by
      cases ho : hasOwnProperty headers "host".toList with
      | false => rfl
      | true =>
        rcases addHeaderLines_keys _ _ _ _ hl ho with h | ⟨line, hline, hn⟩
        · cases h
        · exact absurd hn (hno line hline)
    unfold checkRequired
    rw [hown]
    rfl

theorem addHeaders_version_10 (lines : List Str) :
    (∀ name ver, addHeaders "1.0".toList lines 1 ≠ .error (.missingHeader name ver)) ∧
    ((∀ line ∈ lines.tail, (isHeaderLineValid line).isSome = true) →
      ∃ headers, addHeaders "1.0".toList lines 1 = .ok headers) := by
  have hd : lines.drop 1 = lines.tail := by cases lines <;> rfl
  have hv : getProp HTTP_VERSIONS "1.0".toList = some [] := by decide
  constructor
  · intro name ver h
    unfold addHeaders at h
    rw [hd] at h
    cases hl : addHeaderLines lines.tail [] with
    | error e =>
      rw [hl] at h
      simp only at h
      have := addHeaderLines_error _ _ e hl
      rw [this] at h
      cases h
    | ok headers =>
      rw [hl] at h
      simp only [hv, checkRequired] at h
      cases h
  · intro hall
    obtain ⟨res, hres⟩ := addHeaderLines_total lines.tail hall []
    refine ⟨res, ?_⟩
    unfold addHeaders
    rw [hd, hres]
    simp only [hv, checkRequired]


/-- C6: for every list of lines whose request line has version 1.1 and none
    of whose header lines has the name `host` (the name the constructor
    reads from the line, compared in lower case), request construction
    throws (a Missing-Required-Header error for `host`, or a TypeError when
    a line is no header line); for every request text
    `M T HTTP/1.1` + header lines + empty line + body that the reader frames,
    arriving as chunks of at most 8194 bytes together whose decoded texts
    make up the request text, the reader delivers the object
    `{error: 400}` and returns to its initial state; for version 1.0
    construction never throws a Missing-Required-Header error, and it builds
    a request whenever every header line is a header line.  The name read
    from a line `Name: value` is `Name` in lower case. -/
theorem missing_host_is_bad_request (ext : Ext) :
    (∀ (lines : List Str) (body : Str) (m : Match),
      exec REQUEST_LINE_REGEX (lines.head?.getD "undefined".toList) = some m →
      m.cellStr 3 = "1.1".toList →
      (∀ line ∈ lines.tail, headerNameOf line ≠ some HOSTNAME_HEADER_NAME) →
      httpRequest ext lines body = .error .typeError ∨
      httpRequest ext lines body = .error (.missingHeader "host".toList "1.1".toList)) ∧
    (∀ (M T : Str) (e0 : Str) (hdrs : List (Str × Str)) (blank body : Str) (bufs : List Bytes),
      M ∈ REQUEST_METHODS → (∀ a ∈ T, isLineTerminator a = false) → IsLineEnd e0 →
      (∀ p ∈ hdrs, HeaderLineOK p) → IsLineEnd blank →
      (∀ p ∈ hdrs, headerNameOf p.1 ≠ some HOSTNAME_HEADER_NAME) →
      body.length = expectedLength 0 hdrs →
      (bufs.map utf8Decode).flatten =
        requestLineOf M T "1.1".toList ++ e0 ++ headerText hdrs ++ blank ++ body →
      bufs.flatten.length ≤ 8194 →
      feedBuffers ext init bufs = (init, [ReqObj.error 400])) ∧
    (∀ (lines : List Str) (body : Str) (m : Match),
      exec REQUEST_LINE_REGEX (lines.head?.getD "undefined".toList) = some m →
      m.cellStr 3 = "1.0".toList →
      (∀ name ver, httpRequest ext lines body ≠ .error (.missingHeader name ver)) ∧
      ((∀ line ∈ lines.tail, (isHeaderLineValid line).isSome = true) →
        ∃ req, httpRequest ext lines body = .ok req)) ∧
    (∀ p : Str × Str, GoodName p.1 → GoodValue p.2 →
      headerNameOf (headerLineOf p) = some (toLowerCase p.1)) := by
  have part1 : ∀ (lines : List Str) (body : Str) (m : Match),
      exec REQUEST_LINE_REGEX (lines.head?.getD "undefined".toList) = some m →
      m.cellStr 3 = "1.1".toList →
      (∀ line ∈ lines.tail, headerNameOf line ≠ some HOSTNAME_HEADER_NAME) →
      httpRequest ext lines body = .error .typeError ∨
      httpRequest ext lines body = .error (.missingHeader "host".toList "1.1".toList) := by
    intro lines body m hm hv hno
    obtain ⟨h1, _⟩ := httpRequest_of_line ext lines body m hm
    rw [hv] at h1
    rcases addHeaders_without_host lines hno with h | h
    · exact Or.inl (h1 _ h)
    · exact Or.inr (h1 _ h)
  refine ⟨part1, ?_, ?_, ?_⟩
  · intro M T e0 hdrs blank body bufs hM hT he0 hall hblank hno hbody hchunks hlen
    have hex := request_line_exec M T "1.1".toList hM hT (Or.inr rfl)
    have hpl := requestLine_plain M T "1.1".toList hM hT (Or.inr rfl)
    have hdec := decoded_length_le bufs
    have hframe := feedChunks_frame ext (requestLineOf M T "1.1".toList) e0 _ hdrs blank body
      (bufs.map utf8Decode) hpl.2 he0 hex hall hblank hbody hchunks (by rw [← hchunks]; omega)
    rw [feedBuffers_eq_feedChunks ext bufs (chunk_length_le bufs 8194 hlen), hframe]
    have hparse := parse_frame ext (requestLineOf M T "1.1".toList) hdrs blank body hpl
      (fun p hp => ⟨(hall p hp).1, (hall p hp).2.1⟩) hblank
    have hthrow := part1 (requestLineOf M T "1.1".toList :: hdrs.map Prod.fst) body _ hex rfl
      (by
        intro line hline
        simp only [List.tail_cons, List.mem_map] at hline
        obtain ⟨p, hp, rfl⟩ := hline
        exact hno p hp)
    have htry : tryParse ext (requestLineOf M T "1.1".toList ++ ['\n'] ++ headerText hdrs ++
        blank ++ body) = ReqObj.error 400 := by
      unfold tryParse
      rw [hparse]
      rcases hthrow with h | h <;> rw [h] <;> rfl
    show (init, [tryParse ext ((requestLineOf M T "1.1".toList) ++ ['\n'] ++ headerText hdrs ++
        blank ++ body)]) = (init, [ReqObj.error 400])
    rw [htry]
  · intro lines body m hm hv
    obtain ⟨h1, h2⟩ := httpRequest_of_line ext lines body m hm
    rw [hv] at h1 h2
    obtain ⟨h3, h4⟩ := addHeaders_version_10 lines
    constructor
    · intro name ver h
      cases ha : addHeaders "1.0".toList lines 1 with
      | error e =>
        have := h1 e ha
        rw [this] at h
        cases h
        exact h3 name ver ha
      | ok headers =>
        obtain ⟨req, hreq, _⟩ := h2 headers ha
        rw [hreq] at h
        cases h
    · intro hall
      obtain ⟨headers, hh⟩ := h4 hall
      obtain ⟨req, hreq, _⟩ := h2 headers hh
      exact ⟨req, hreq⟩
  · intro p hn hv
    unfold headerNameOf
    have := header_line_exec p.1 [' '] p.2 hn.1 hn.2 (by simp)
      (by intro a ha; rw [List.mem_singleton.mp ha]; decide) hv.1
      (by
        intro b V2 hb
        have h2 := hv.2
        rw [hb] at h2
        simpa using h2)
    have e : headerLineOf p = p.1 ++ ':' :: ([' '] ++ p.2) := rfl
    rw [e, this]
    rfl

theorem missing_host_is_bad_request_witness :
    (httpRequest sampleExt ["GET / HTTP/1.1".toList, "Accept: text/html".toList] [] =
        .error .typeError ∨
      httpRequest sampleExt ["GET / HTTP/1.1".toList, "Accept: text/html".toList] [] =
        .error (.missingHeader "host".toList "1.1".toList)) ∧
    feedBuffers sampleExt init
        [asciiBytes "GET / HT".toList,
         asciiBytes "TP/1.1\r\nAccept: text/html\r\n\r\n".toList] =
      (init, [ReqObj.error 400]) :=
  ⟨(missing_host_is_bad_request sampleExt).1 ["GET / HTTP/1.1".toList, "Accept: text/html".toList]
      [] ⟨0, "GET / HTTP/1.1".toList, [(3, "1.1".toList), (2, "/".toList), (1, "GET".toList)]⟩
      (by decide!) (by decide) (by
        intro line hline
        simp only [List.tail_cons, List.mem_singleton] at hline
        subst hline
        decide!),
   (missing_host_is_bad_request sampleExt).2.1 "GET".toList "/".toList "\r\n".toList
      [("Accept: text/html".toList, "\r\n".toList)] "\r\n".toList []
      [asciiBytes "GET / HT".toList, asciiBytes "TP/1.1\r\nAccept: text/html\r\n\r\n".toList]
      (by decide) (by decide) (Or.inr rfl)
      (by
        intro p hp
        simp only [List.mem_singleton] at hp
        subst hp
        exact ⟨⟨by decide, by decide⟩, Or.inr rfl, by decide!, by decide!⟩)
      (Or.inr rfl)
      (by
        intro p hp
        simp only [List.mem_singleton] at hp
        subst hp
        decide!)
      (by decide!) (by decide) (by decide)⟩


/-! ## What a greedy loop consumes -/

theorem advP_refl (P : Char → Prop) (x : MState) : AdvP P x x :=
  ⟨[], by simp, by simp, by intro a ha; cases ha⟩

theorem advP_trans {P : Char → Prop} {x y z : MState} (h1 : AdvP P x y) (h2 : AdvP P y z) :
    AdvP P x z := by
  obtain ⟨w1, hr1, hi1, hp1⟩ := h1
  obtain ⟨w2, hr2, hi2, hp2⟩ := h2
  refine ⟨w1 ++ w2, ?_, ?_, ?_⟩
  · rw [hr1, hr2, List.append_assoc]
  · rw [hi2, hi1, List.length_append, Nat.add_assoc]
  · intro a ha
    rcases List.mem_append.mp ha with h | h
    · exact hp1 a h
    · exact hp2 a h

theorem advP_of_eq {P : Char → Prop} {x x2 y : MState} (hi : x2.idx = x.idx)
    (hr : x2.rest = x.rest) (h : AdvP P x2 y) : AdvP P x y := by
  obtain ⟨w, h1, h2, h3⟩ := h
  exact ⟨w, by rw [← hr, h1], by rw [h2, hi], h3⟩

theorem stepChar_forwardP (P : Char → Prop) (p : Char → Bool) (hp : ∀ a, p a = true → P a) :
    ForwardP P (stepChar p) := by
  intro x c z h
  unfold stepChar at h
  split at h
  · rename_i d ds hrest
    split at h
    · rename_i hpd
      exact ⟨_, ⟨[d], by simp [hrest], by simp, by
        intro a ha
        rw [List.mem_singleton.mp ha]
        exact hp d hpd⟩, h⟩
    · cases h
  · cases h

theorem repeatMatcher_forwardP (P : Char → Prop) (m : MState → Cont → Option MState)
    (gs : List Nat) (hm : ForwardP P m) (fuel : Nat) :
    ∀ (min : Nat) (max : Option Nat), ForwardP P (repeatMatcher m gs fuel min max) := by
  induction fuel with
  | zero => intro min max x c z h; simp [repeatMatcher] at h
  | succ fuel ih =>
    intro min max x c z h
    unfold repeatMatcher at h
    split at h
    · exact ⟨x, advP_refl P x, h⟩
    · simp only at h
      have key : ∀ z, m { x with caps := clearCaps gs x.caps }
          (fun y => if min = 0 ∧ y.idx = x.idx then none
            else repeatMatcher m gs fuel (min - 1) (max.map fun n => n - 1) y c) = some z →
          ∃ y, AdvP P x y ∧ c y = some z := by
        intro z hz
        obtain ⟨y, hy, hc⟩ := hm _ _ _ hz
        have hy : AdvP P x y := advP_of_eq rfl rfl hy
        split at hc
        · cases hc
        · obtain ⟨y2, hy2, hc2⟩ := ih _ _ _ _ _ hc
          exact ⟨y2, advP_trans hy hy2, hc2⟩
      split at h
      · exact key z h
      · split at h
        · rename_i z2 hz2
          cases h
          exact key _ hz2
        · exact ⟨x, advP_refl P x, h⟩

theorem group_forwardP (P : Char → Prop) (i : Nat) (r : Regex) (hr : ForwardP P r.run) :
    ForwardP P (Regex.group i r).run := by
  intro x c z h
  rw [run_group] at h
  obtain ⟨y, hy, hc⟩ := hr _ _ _ h
  exact ⟨_, advP_of_eq rfl rfl (⟨hy.choose, hy.choose_spec⟩ : AdvP P x
    { y with caps := setCap i (x.rest.take (y.idx - x.idx)) y.caps }), hc⟩

theorem target_forwardP :
    ForwardP (fun a => isLineTerminator a = false) TARGET_RE.run := by
  have h1 : ForwardP (fun a => isLineTerminator a = false)
      (Regex.seq (.rep 0 none .dot) .empty).run := by
    intro x c z h
    rw [run_seq_empty, run_rep_dot_star] at h
    exact repeatMatcher_forwardP _ _ [] (stepChar_forwardP _ _ (by intro a ha; simpa using ha))
      _ 0 none x c z h
  have h2 := group_forwardP _ 2 _ h1
  intro x c z h
  exact repeatMatcher_forwardP _ (fun y k => (Regex.group 2 (.seq (.rep 0 none .dot) .empty)).run y k)
    [2] h2 _ 1 none x c z h


/-! ## The request line: extraction round trip -/

theorem suffix_run_any (idx : Nat) (caps : Caps) (c1 d : Char)
    (hc1 : isLineTerminator c1 = false) (hd : d = '0' ∨ d = '1') :
    SUFFIX_RE.run ⟨idx, " HTTP/".toList ++ ['1', c1, d], caps⟩ some =
      some ⟨idx + 9, [], setCap 3 ['1', c1, d] caps⟩ := by
  unfold SUFFIX_RE
  rw [run_litThen]
  rcases hd with rfl | rfl
  · simp [VERSION_RE, Regex.run, stepChar, hc1, Nat.add_assoc]
  · simp [VERSION_RE, Regex.run, stepChar, hc1, Nat.add_assoc]

/-- The request-line pattern at any start index on `M T HTTP/V`, where `V`
    is a version the pattern accepts. -/
theorem request_line_run (idx : Nat) (M T : Str) (c1 d : Char) (hM : M ∈ REQUEST_METHODS)
    (hT : ∀ a ∈ T, isLineTerminator a = false)
    (hc1 : isLineTerminator c1 = false) (hd : d = '0' ∨ d = '1') :
    REQUEST_LINE_REGEX.run ⟨idx, M ++ [' '] ++ T ++ " HTTP/".toList ++ ['1', c1, d], []⟩ some =
      some ⟨idx + (M ++ [' '] ++ T ++ " HTTP/".toList ++ ['1', c1, d]).length, [],
        [(3, ['1', c1, d]), (2, T), (1, M)]⟩ := by
  have hsufLT : ∀ a ∈ " HTTP/".toList ++ ['1', c1, d], isLineTerminator a = false := by
    intro a ha
    simp only [String.toList, List.cons_append, List.nil_append, List.mem_cons,
      List.mem_singleton, List.not_mem_nil, or_false] at ha
    rcases ha with rfl | rfl | rfl | rfl | rfl | rfl | rfl | rfl | rfl
    all_goals first
      | exact hc1
      | (rcases hd with rfl | rfl <;> decide)
  have hsufLen : (" HTTP/".toList ++ ['1', c1, d]).length = 9 := rfl
  rw [REQUEST_LINE_REGEX_eq, run_seq, run_group]
  have hshape : M ++ [' '] ++ T ++ " HTTP/".toList ++ ['1', c1, d] =
      M ++ (' ' :: (T ++ (" HTTP/".toList ++ ['1', c1, d]))) := by simp
  rw [hshape]
  apply altList_lit_run
  · simp only
    rw [run_seq, run_chr, stepChar_cons]
    simp only [beq_self_eq_true, if_true]
    rw [run_seq]
    rw [target_run (fun y => SUFFIX_RE.run y some) _ T (" HTTP/".toList ++ ['1', c1, d]) _ _ hT
      hsufLT hsufLen (fun y hy => suffix_run_short y hy) (suffix_run_any _ _ c1 d hc1 hd)]
    congr 1
    have hl : (M ++ ' ' :: (T ++ (" HTTP/".toList ++ ['1', c1, d]))).length =
        M.length + 1 + T.length + 9 := by
      simp only [List.length_append, List.length_cons, hsufLen]
      omega
    have hcap : setCap 3 ['1', c1, d] (setCap 2 T (clearCaps [2]
        (setCap 1 ((M ++ ' ' :: (T ++ (" HTTP/".toList ++ ['1', c1, d]))).take
          (idx + M.length - idx)) []))) =
        [(3, ['1', c1, d]), (2, T), (1, M)] := by
      have : idx + M.length - idx = M.length := by omega
      rw [this, List.take_left]
      rfl
    rw [hl, ← hcap]
    simp only [MState.mk.injEq, and_true, true_and]
    omega
  · exact hM
  · intro M2 hM2 hne
    exact methods_not_prefix M M2 _ hM hM2 hne


/-- What a match of the request-line pattern is: the text from the method
    on, with the method, the target and the version in cells 1, 2 and 3. -/
theorem request_line_match (s : Str) (m : Match) (h : isRequestLineValid s = some m) :
    ∃ pre M T c1 d,
      s = pre ++ (M ++ [' '] ++ T ++ " HTTP/".toList ++ ['1', c1, d]) ∧
      M ∈ REQUEST_METHODS ∧ (∀ a ∈ T, isLineTerminator a = false) ∧
      isLineTerminator c1 = false ∧ (d = '0' ∨ d = '1') ∧
      m = ⟨pre.length, M ++ [' '] ++ T ++ " HTTP/".toList ++ ['1', c1, d],
        [(3, ['1', c1, d]), (2, T), (1, M)]⟩ := by
  unfold isRequestLineValid exec at h
  obtain ⟨pre, rest, hs, he⟩ := execFrom_some _ _ _ _ h
  unfold execAt at he
  cases hrun : REQUEST_LINE_REGEX.run ⟨0 + pre.length, rest, []⟩ some with
  | none => rw [hrun] at he; cases he
  | some z =>
    rw [hrun] at he
    simp only [Option.map_some', Option.some.injEq] at he
    have h2 := hrun
    rw [REQUEST_LINE_REGEX_eq, run_seq, run_group] at h2
    obtain ⟨r, hr, h2⟩ := run_altList_some _ _ _ _ (by decide) h2
    obtain ⟨M, hM, rfl⟩ := List.mem_map.mp hr
    obtain ⟨rest1, hrest1, h2⟩ := run_litThen_some _ _ _ _ _ h2
    rw [run_empty, run_seq, run_chr, stepChar_some_iff] at h2
    obtain ⟨sp, rest2, hrest2, hsp, h2⟩ := h2
    rw [run_seq] at h2
    obtain ⟨y3, hadv, h2⟩ := target_forwardP _ _ _ h2
    obtain ⟨c1, d, hy3, hc1, hd, -⟩ := suffix_run_some _ _ _ h2
    obtain ⟨w, hw, -, hwP⟩ := hadv
    simp only [beq_iff_eq] at hsp
    simp only at hrest1 hrest2 hw
    subst hsp
    have hrest : rest = M ++ [' '] ++ w ++ " HTTP/".toList ++ ['1', c1, d] := by
      rw [hrest1, hrest2, hw, hy3]
      simp
    have hz := request_line_run (0 + pre.length) M w c1 d hM hwP hc1 hd
    rw [← hrest, hrun] at hz
    have hz2 := Option.some.inj hz
    refine ⟨pre, M, w, c1, d, by rw [hs, hrest], hM, hwP, hc1, hd, ?_⟩
    rw [← he, hz2, ← hrest]
    simp

theorem pathOf_no_query (T : Str) : pathOf (pathOf T) = pathOf T := by
  unfold pathOf
  induction T with
  | nil => rfl
  | cons a T ih =>
    by_cases ha : (a != '?') = true
    · simp only [List.takeWhile, ha]
      rw [ih]
    · simp only [Bool.not_eq_true] at ha
      simp only [List.takeWhile, ha]

theorem pathOf_mem (T : Str) (a : Char) (h : a ∈ pathOf T) : a ∈ T :=
  (List.takeWhile_sublist _).subset h

/-- C22: for every string `s` accepted by `isRequestLineValid`, with the
    extracted method `m`, path `p` (the target up to its first `?`) and
    version `v`: the line `m + ' ' + p + ' HTTP/' + v` is accepted again,
    from its first character on, and the method, the path and the version
    extracted from it are `m`, `p` and `v`; the path the constructor
    computes from a target with `indexOf` and `substring` is the target up
    to its first `?`. -/
theorem request_line_round_trip (s : Str) (m : Match) (h : isRequestLineValid s = some m) :
    (∃ m2, isRequestLineValid
        (m.cellStr 1 ++ [' '] ++ pathOf (m.cellStr 2) ++ " HTTP/".toList ++ m.cellStr 3) =
          some m2 ∧
      m2.index = 0 ∧
      m2.cellStr 1 = m.cellStr 1 ∧
      pathOf (m2.cellStr 2) = pathOf (m.cellStr 2) ∧
      m2.cellStr 3 = m.cellStr 3) ∧
    (∀ T : Str, (if indexOf T '?' = -1 then T else substringTo T (indexOf T '?')) = pathOf T) := by
  refine ⟨?_, fun T => (path_query_split sampleExt T).1⟩
  obtain ⟨pre, M, T, c1, d, -, hM, hT, hc1, hd, rfl⟩ := request_line_match s m h
  have hc : (⟨pre.length, M ++ [' '] ++ T ++ " HTTP/".toList ++ ['1', c1, d],
      [(3, ['1', c1, d]), (2, T), (1, M)]⟩ : Match).cellStr 1 = M ∧
      (⟨pre.length, M ++ [' '] ++ T ++ " HTTP/".toList ++ ['1', c1, d],
      [(3, ['1', c1, d]), (2, T), (1, M)]⟩ : Match).cellStr 2 = T ∧
      (⟨pre.length, M ++ [' '] ++ T ++ " HTTP/".toList ++ ['1', c1, d],
      [(3, ['1', c1, d]), (2, T), (1, M)]⟩ : Match).cellStr 3 = ['1', c1, d] := ⟨rfl, rfl, rfl⟩
  rw [hc.1, hc.2.1, hc.2.2]
  have hrun := request_line_run 0 M (pathOf T) c1 d hM
    (fun a ha => hT a (pathOf_mem T a ha)) hc1 hd
  refine ⟨⟨0, M ++ [' '] ++ pathOf T ++ " HTTP/".toList ++ ['1', c1, d],
    [(3, ['1', c1, d]), (2, pathOf T), (1, M)]⟩, ?_, rfl, rfl, pathOf_no_query T, rfl⟩
  unfold isRequestLineValid exec
  apply execFrom_of_execAt
  unfold execAt
  rw [hrun]
  simp

theorem request_line_round_trip_witness :
    ∃ m2, isRequestLineValid
        ((⟨2, "GET /a?x=1 HTTP/1.1".toList,
            [(3, "1.1".toList), (2, "/a?x=1".toList), (1, "GET".toList)]⟩ : Match).cellStr 1 ++
          [' '] ++
          pathOf ((⟨2, "GET /a?x=1 HTTP/1.1".toList,
            [(3, "1.1".toList), (2, "/a?x=1".toList), (1, "GET".toList)]⟩ : Match).cellStr 2) ++
          " HTTP/".toList ++
          (⟨2, "GET /a?x=1 HTTP/1.1".toList,
            [(3, "1.1".toList), (2, "/a?x=1".toList), (1, "GET".toList)]⟩ : Match).cellStr 3) =
          some m2 ∧
      m2.index = 0 ∧
      m2.cellStr 1 = "GET".toList ∧
      pathOf (m2.cellStr 2) = "/a".toList ∧
      m2.cellStr 3 = "1.1".toList :=
  (request_line_round_trip "xxGET /a?x=1 HTTP/1.1".toList
    ⟨2, "GET /a?x=1 HTTP/1.1".toList,
      [(3, "1.1".toList), (2, "/a?x=1".toList), (1, "GET".toList)]⟩ (by decide!)).1


/-! ## The body parameter pattern -/

theorem BODY_PARAM_REGEX_eq :
    BODY_PARAM_REGEX = .seq (.rep 1 none PAIR_RE) (.seq (.rep 0 none (.cls false [.space])) .empty) := by
  decide!

theorem spaces_then_chr_fail (ch : Char) (hch : isSpace ch = false) (idx : Nat) (sp rest : Str)
    (caps : Caps) (r : Regex) (K : Cont)
    (hsp : ∀ a ∈ sp, isSpace a = true)
    (hrest : ∀ b r2, rest = b :: r2 → isSpace b = false ∧ b ≠ ch) :
    (Regex.seq (.rep 0 none (.cls false [.space])) (.seq (.chr ch) r)).run
        ⟨idx, sp ++ rest, caps⟩ K = none := by
  rw [run_seq, run_star_cls false [.space] _ caps sp rest idx
    (by intro a ha; rw [classTest_space]; exact hsp a ha)
    (by intro b r2 h; rw [classTest_space]; exact (hrest b r2 h).1)]
  apply greedy_none
  intro j hj
  rw [run_seq, run_chr]
  cases hd : sp.drop j ++ rest with
  | nil => rfl
  | cons b r2 =>
    rw [stepChar_cons]
    have hb : b ≠ ch := by
      cases hdj : sp.drop j with
      | nil =>
        rw [hdj, List.nil_append] at hd
        exact (hrest b r2 hd).2
      | cons b2 r3 =>
        rw [hdj] at hd
        simp only [List.cons_append, List.cons.injEq] at hd
        have hmem : b2 ∈ sp := List.mem_of_mem_drop (by rw [hdj]; exact List.mem_cons_self _ _)
        have := hsp b2 hmem
        rw [← hd.1]
        intro h
        rw [h, hch] at this
        cases this
    simp [hb]

theorem pair_none_on_spaces (idx : Nat) (ws : Str) (caps : Caps) (K : Cont)
    (hws : ∀ a ∈ ws, isSpace a = true) :
    PAIR_RE.run ⟨idx, ws, caps⟩ K = none := by
  unfold PAIR_RE
  have e : (⟨idx, ws, caps⟩ : MState) = ⟨idx, ws ++ [], caps⟩ := by simp
  rw [run_seq, e, run_star_cls false [.space] _ caps ws [] idx
    (by intro a ha; rw [classTest_space]; exact hws a ha)
    (by intro b r2 h; cases h)]
  apply greedy_none
  intro j hj
  rw [run_seq, run_group, run_seq_empty]
  apply run_plus_cls_none
  intro b r2 h
  simp only [List.append_nil] at h
  have hmem : b ∈ ws := List.mem_of_mem_drop (by rw [h]; exact List.mem_cons_self _ _)
  rw [classTest_not_space, hws b hmem]
  rfl


theorem eq_not_space : isSpace '=' = false := by decide



theorem PAIR_RE_eq :
    PAIR_RE = .seq (.rep 0 none (.cls false [.space]))
      (.seq (.group 1 (.seq (.rep 1 none (.cls true [.space])) .empty)) PAIR_TAIL_RE) := rfl

theorem head_cond (sp rest : Str) (hsp : ∀ a ∈ sp, isSpace a = true)
    (hsep : sp = [] → rest = []) :
    ∀ c r2, sp ++ rest = c :: r2 → classTest true [.space] c = false := by
  intro c r2 h
  cases sp with
  | nil =>
    rw [hsep rfl] at h
    cases h
  | cons s0 sp1 =>
    simp only [List.cons_append, List.cons.injEq] at h
    rw [classTest_not_space, ← h.1, hsp s0 (List.mem_cons_self _ _)]
    rfl

/-- The part of the pair pattern after the key on white space, `=`, white
    space and a value: it continues after the value, which is captured. -/
theorem value_run (idx : Nat) (g1 g2 v sp rest : Str) (caps : Caps) (K : Cont) (z : MState)
    (hg1 : ∀ a ∈ g1, isSpace a = true) (hg2 : ∀ a ∈ g2, isSpace a = true) (hv : GoodWord v)
    (hsp : ∀ a ∈ sp, isSpace a = true) (hsep : sp = [] → rest = [])
    (hK : K ⟨idx + g1.length + 1 + g2.length + v.length, sp ++ rest, setCap 2 v caps⟩ = some z) :
    PAIR_TAIL_RE.run ⟨idx, g1 ++ '=' :: (g2 ++ (v ++ (sp ++ rest))), caps⟩ K = some z := by
  obtain ⟨b, v1, rfl⟩ : ∃ b v1, v = b :: v1 := by
    cases v with
    | nil => exact absurd rfl hv.1
    | cons b v1 => exact ⟨b, v1, rfl⟩
  have hvb := hv.2 b (List.mem_cons_self _ _)
  have hhead := head_cond sp rest hsp hsep
  unfold PAIR_TAIL_RE
  rw [run_seq, run_star_cls false [.space] _ caps g1 _ idx
    (by intro c hc; rw [classTest_space]; exact hg1 c hc)
    (by intro c r2 h; simp only [List.cons.injEq] at h; rw [classTest_space, ← h.1]; rfl)]
  apply greedy_full
  rw [run_seq, run_chr, stepChar_cons]
  simp only [beq_self_eq_true, if_true]
  rw [run_seq, run_star_cls false [.space] _ caps g2 _ _
    (by intro c hc; rw [classTest_space]; exact hg2 c hc)
    (by
      intro c r2 h
      simp only [List.cons_append, List.cons.injEq] at h
      rw [classTest_space, ← h.1]
      exact hvb.1)]
  apply greedy_full
  rw [run_seq_empty, run_group, run_seq_empty, List.cons_append,
    run_plus_cls true [.space] _ _ b v1 (sp ++ rest) _ (by rw [classTest_not_space, hvb.1]; rfl)
      (by intro c hc; rw [classTest_not_space, (hv.2 c (List.mem_cons_of_mem _ hc)).1]; rfl)
      hhead]
  apply greedy_full
  have ht2 : (b :: (v1 ++ (sp ++ rest))).take (idx + g1.length + 1 + g2.length + 1 + v1.length -
      (idx + g1.length + 1 + g2.length)) = b :: v1 := by
    have : idx + g1.length + 1 + g2.length + 1 + v1.length -
        (idx + g1.length + 1 + g2.length) = v1.length + 1 := by omega
    rw [this, List.take_succ_cons, List.take_left]
  simp only [ht2]
  rw [← hK]
  congr 2
  simp only [List.length_cons]
  omega

theorem tail_fail (idx : Nat) (u sp rest : Str) (caps : Caps) (K : Cont)
    (hu : ∀ a ∈ u, isSpace a = false ∧ a ≠ '=')
    (hsp : ∀ a ∈ sp, isSpace a = true)
    (hrest : ∀ b r2, rest = b :: r2 → isSpace b = false ∧ b ≠ '=') :
    PAIR_TAIL_RE.run ⟨idx, u ++ (sp ++ rest), caps⟩ K = none := by
  cases u with
  | nil => exact spaces_then_chr_fail '=' eq_not_space _ sp rest _ _ K hsp hrest
  | cons c u1 =>
    have := hu c (List.mem_cons_self _ _)
    exact spaces_then_chr_fail '=' eq_not_space _ [] _ _ _ K (by intro d hd; cases hd)
      (by
        intro d r2 h
        simp only [List.cons_append, List.cons.injEq] at h
        rw [← h.1]
        exact this)

/-- The pair pattern fails on white space, a word without `=`, white space
    and a text that does not start with `=`. -/
theorem pair_none_word (idx : Nat) (sp w tsp trest : Str) (caps : Caps) (K : Cont)
    (hsp : ∀ a ∈ sp, isSpace a = true) (hwne : w ≠ [])
    (hw : ∀ a ∈ w, isSpace a = false ∧ a ≠ '=')
    (htsp : ∀ a ∈ tsp, isSpace a = true)
    (htrest : ∀ b r2, trest = b :: r2 → isSpace b = false ∧ b ≠ '=')
    (hsep : tsp = [] → trest = []) :
    PAIR_RE.run ⟨idx, sp ++ (w ++ (tsp ++ trest)), caps⟩ K = none := by
  have hhead := head_cond tsp trest htsp hsep
  have hwhead : ∀ c r2, w ++ (tsp ++ trest) = c :: r2 → classTest false [.space] c = false := by
    intro c r2 h
    rw [classTest_space]
    cases w with
    | nil => exact absurd rfl hwne
    | cons w0 w1 =>
      simp only [List.cons_append, List.cons.injEq] at h
      rw [← h.1]
      exact (hw w0 (List.mem_cons_self _ _)).1
  rw [PAIR_RE_eq, run_seq, run_star_cls false [.space] _ caps sp _ idx
    (by intro c hc; rw [classTest_space]; exact hsp c hc) hwhead]
  apply greedy_none
  intro j hj
  rw [run_seq, run_group, run_seq_empty]
  cases hd : sp.drop j with
  | cons c r =>
    apply run_plus_cls_none
    intro b r2 h
    simp only [List.cons_append, List.cons.injEq] at h
    have hmem : c ∈ sp := List.mem_of_mem_drop (by rw [hd]; exact List.mem_cons_self _ _)
    rw [classTest_not_space, ← h.1, hsp c hmem]
    rfl
  | nil =>
    rw [List.nil_append]
    cases w with
    | nil => exact absurd rfl hwne
    | cons w0 w1 =>
      have hw0 := hw w0 (List.mem_cons_self _ _)
      rw [List.cons_append, run_plus_cls true [.space] _ _ w0 w1 (tsp ++ trest) _
        (by rw [classTest_not_space, hw0.1]; rfl)
        (by intro c hc; rw [classTest_not_space, (hw c (List.mem_cons_of_mem _ hc)).1]; rfl)
        hhead]
      apply greedy_none
      intro i hi
      exact tail_fail _ (w1.drop i) tsp trest _ K
        (fun a ha => hw a (List.mem_cons_of_mem _ (List.mem_of_mem_drop ha))) htsp htrest

/-- The key of a pair whose `=` follows it directly: the longest run of
    characters before an `=` after which a value is found. -/
theorem key_tight (idx : Nat) (a : Char) (k1 X sp r : Str) (caps : Caps) (K : Cont) (z : MState)
    (hk : GoodWord (a :: k1)) (hX : ∀ c ∈ X, isSpace c = false ∧ c ≠ '=')
    (hsp : ∀ c ∈ sp, isSpace c = true)
    (hr : ∀ b r2, r = b :: r2 → isSpace b = false ∧ b ≠ '=') (hsep : sp = [] → r = [])
    (hok : PAIR_TAIL_RE.run ⟨idx + 1 + k1.length, '=' :: (X ++ (sp ++ r)),
      setCap 1 (a :: k1) caps⟩ K = some z) :
    (Regex.rep 1 none (.cls true [.space])).run ⟨idx, a :: (k1 ++ '=' :: (X ++ (sp ++ r))), caps⟩
      (fun y => PAIR_TAIL_RE.run
        { y with caps := setCap 1 ((a :: (k1 ++ '=' :: (X ++ (sp ++ r)))).take (y.idx - idx))
                   y.caps } K) = some z := by
  have hka := hk.2 a (List.mem_cons_self _ _)
  have hhead := head_cond sp r hsp hsep
  have hshape : a :: (k1 ++ '=' :: (X ++ (sp ++ r))) = a :: ((k1 ++ '=' :: X) ++ (sp ++ r)) := by
    simp
  rw [hshape, run_plus_cls true [.space] _ caps a (k1 ++ '=' :: X) (sp ++ r) idx
    (by rw [classTest_not_space, hka.1]; rfl)
    (by
      intro c hc
      rw [classTest_not_space]
      rcases List.mem_append.mp hc with h | h
      · rw [(hk.2 c (List.mem_cons_of_mem _ h)).1]; rfl
      · rcases List.mem_cons.mp h with rfl | h
        · rfl
        · rw [(hX c h).1]; rfl)
    hhead]
  apply greedy_last _ _ _ _ _ k1.length _ (by simp)
  · simp only [List.drop_left, List.cons_append]
    have ht : (a :: (k1 ++ '=' :: X ++ (sp ++ r))).take (idx + 1 + k1.length - idx) = a :: k1 := by
      have : idx + 1 + k1.length - idx = k1.length + 1 := by omega
      rw [this, List.take_succ_cons, List.append_assoc, List.take_left]
    simp only [ht]
    exact hok
  · intro i hi1 hi2
    simp only [List.length_append, List.length_cons] at hi2
    have hdrop : (k1 ++ '=' :: X).drop i = X.drop (i - k1.length - 1) := by
      rw [List.drop_append_eq_append_drop, List.drop_of_length_le (by omega), List.nil_append]
      obtain ⟨n, hn⟩ : ∃ n, i - k1.length = n + 1 := ⟨i - k1.length - 1, by omega⟩
      have hn2 : i - k1.length - 1 = n := by omega
      rw [hn, List.drop_succ_cons]
      rfl
    rw [hdrop]
    exact tail_fail _ (X.drop (i - k1.length - 1)) sp r _ K
      (fun c hc => hX c (List.mem_of_mem_drop hc)) hsp hr

/-- The pair pattern on white space, a key, `=` with white space around
    it and a value, followed by white space and a text that does not go on
    the value: it continues after the value with the key and the value
    captured. -/
theorem pair_run (idx : Nat) (ws1 k g1 g2 v sp rest : Str) (caps : Caps) (K : Cont) (z : MState)
    (hws1 : ∀ a ∈ ws1, isSpace a = true) (hk : GoodWord k)
    (hg1 : ∀ a ∈ g1, isSpace a = true) (hg2 : ∀ a ∈ g2, isSpace a = true) (hv : GoodWord v)
    (hsp : ∀ a ∈ sp, isSpace a = true)
    (hrest : ∀ b r2, rest = b :: r2 → isSpace b = false ∧ b ≠ '=')
    (hsep : sp = [] → rest = [])
    (hK : K ⟨idx + ws1.length + k.length + g1.length + 1 + g2.length + v.length, sp ++ rest,
      setCap 2 v (setCap 1 k caps)⟩ = some z) :
    PAIR_RE.run ⟨idx, ws1 ++ (k ++ (g1 ++ '=' :: (g2 ++ (v ++ (sp ++ rest))))), caps⟩ K =
      some z := by
  obtain ⟨a, k1, rfl⟩ : ∃ a k1, k = a :: k1 := by
    cases k with
    | nil => exact absurd rfl hk.1
    | cons a k1 => exact ⟨a, k1, rfl⟩
  have hka := hk.2 a (List.mem_cons_self _ _)
  have hv0 : ∀ b r2, v ++ (sp ++ rest) = b :: r2 → isSpace b = false ∧ b ≠ '=' := by
    intro b r2 h
    cases v with
    | nil => exact absurd rfl hv.1
    | cons v0 v1 =>
      simp only [List.cons_append, List.cons.injEq] at h
      rw [← h.1]
      exact ⟨(hv.2 v0 (List.mem_cons_self _ _)).1, (hv.2 v0 (List.mem_cons_self _ _)).2.1⟩
  rw [PAIR_RE_eq, run_seq, run_star_cls false [.space] _ caps ws1 _ idx
    (by intro c hc; rw [classTest_space]; exact hws1 c hc)
    (by
      intro c r2 h
      simp only [List.cons_append, List.cons.injEq] at h
      rw [classTest_space, ← h.1]
      exact hka.1)]
  apply greedy_full
  rw [run_seq, run_group, run_seq_empty]
  have hval : ∀ caps2, caps2 = setCap 1 (a :: k1) caps →
      PAIR_TAIL_RE.run ⟨idx + ws1.length + 1 + k1.length, g1 ++ '=' :: (g2 ++ (v ++ (sp ++ rest))),
        caps2⟩ K = some z := by
    intro caps2 hc
    apply value_run _ g1 g2 v sp rest _ K z hg1 hg2 hv hsp hsep
    rw [← hK, hc]
    congr 2
    simp only [List.length_cons]
    omega
  cases g1 with
  | cons c g1t =>
    rw [List.cons_append, run_plus_cls true [.space] _ caps a k1 _ _
      (by rw [classTest_not_space, hka.1]; rfl)
      (by intro b hb; rw [classTest_not_space, (hk.2 b (List.mem_cons_of_mem _ hb)).1]; rfl)
      (by
        intro b r2 h
        simp only [List.cons_append, List.cons.injEq] at h
        rw [classTest_not_space, ← h.1, hg1 c (List.mem_cons_self _ _)]
        rfl)]
    apply greedy_full
    have ht : (a :: (k1 ++ (c :: g1t ++ '=' :: (g2 ++ (v ++ (sp ++ rest)))))).take
        (idx + ws1.length + 1 + k1.length - (idx + ws1.length)) = a :: k1 := by
      have : idx + ws1.length + 1 + k1.length - (idx + ws1.length) = k1.length + 1 := by omega
      rw [this, List.take_succ_cons, List.take_left]
    simp only [ht]
    exact hval _ rfl
  | nil =>
    cases g2 with
    | nil =>
      exact key_tight (idx + ws1.length) a k1 v sp rest caps K z hk
        (fun c hc => ⟨(hv.2 c hc).1, (hv.2 c hc).2.1⟩) hsp hrest hsep (hval _ rfl)
    | cons d g2t =>
      exact key_tight (idx + ws1.length) a k1 [] (d :: g2t) (v ++ (sp ++ rest)) caps K z hk
        (by intro c hc; cases hc) hg2 hv0 (by intro h; cases h) (hval _ rfl)

theorem head_all (rest : Str)
    (h : (rest.head?.all fun b => !isSpace b && b != '=') = true) :
    ∀ b r2, rest = b :: r2 → isSpace b = false ∧ b ≠ '=' := by
  intro b r2 hb
  subst hb
  simp only [List.head?_cons, Option.all_some, Bool.and_eq_true, Bool.not_eq_true',
    bne_iff_ne, ne_eq] at h
  exact h

theorem stop_text_head (after : Str) (stop : Stop) (hstop : stop.Good after) :
    ∀ b r2, stop.text = b :: r2 → isSpace b = false ∧ b ≠ '=' := by
  intro b r2 h
  obtain ⟨h1, _, h3, _⟩ := hstop
  cases hw : stop.word with
  | nil =>
    obtain ⟨hg, hr⟩ := h1 hw
    rw [Stop.text, hw, hg, hr] at h
    cases h
  | cons c w =>
    rw [Stop.text, hw] at h
    simp only [List.cons_append, List.cons.injEq] at h
    rw [← h.1]
    have := h3 c (by rw [hw]; exact List.mem_cons_self _ _)
    exact ⟨this.1, this.2.1⟩

theorem stop_text_sep (after : Str) (stop : Stop) (hstop : stop.Good after) :
    after = [] → stop.text = [] := by
  intro ha
  obtain ⟨h1, h2, _⟩ := hstop
  have hw : stop.word = [] := by
    by_contra hne
    exact h2 hne ha
  obtain ⟨hg, hr⟩ := h1 hw
  rw [Stop.text, hw, hg, hr]
  rfl

/-- The pair pattern fails on the white space after a run of pairs and what
    follows it. -/
theorem stop_none (after : Str) (stop : Stop) (hafter : ∀ a ∈ after, isSpace a = true)
    (hstop : stop.Good after) (idx : Nat) (caps : Caps) (K : Cont) :
    PAIR_RE.run ⟨idx, after ++ stop.text, caps⟩ K = none := by
  by_cases hw : stop.word = []
  · obtain ⟨hg, hr⟩ := hstop.1 hw
    have e : after ++ stop.text = after := by
      rw [Stop.text, hw, hg, hr]
      simp
    rw [e]
    exact pair_none_on_spaces idx after caps K hafter
  · obtain ⟨_, _, h3, h4, h5, h6, _⟩ := hstop
    exact pair_none_word idx after stop.word stop.gap stop.rest caps K hafter hw
      (fun a ha => ⟨(h3 a ha).1, (h3 a ha).2.1⟩) h4 (head_all _ h6) h5

theorem tail_shape (items : List Item) (T : Str)
    (hitems : ∀ i ∈ items, i.Good ∧ i.before ≠ [])
    (hT : ∃ sp rest, T = sp ++ rest ∧ (∀ a ∈ sp, isSpace a = true) ∧
      (∀ b r2, rest = b :: r2 → isSpace b = false ∧ b ≠ '=') ∧ (sp = [] → rest = [])) :
    ∃ sp rest, (items.map Item.text).flatten ++ T = sp ++ rest ∧
      (∀ a ∈ sp, isSpace a = true) ∧
      (∀ b r2, rest = b :: r2 → isSpace b = false ∧ b ≠ '=') ∧ (sp = [] → rest = []) := by
  cases items with
  | nil => simpa using hT
  | cons it rest =>
    obtain ⟨⟨hb, hk, _⟩, hne⟩ := hitems it (List.mem_cons_self _ _)
    obtain ⟨a, k1, hk1⟩ : ∃ a k1, it.key = a :: k1 := by
      cases h : it.key with
      | nil => exact absurd h hk.1
      | cons a k1 => exact ⟨a, k1, rfl⟩
    refine ⟨it.before, it.key ++ (it.keyGap ++ '=' :: (it.valueGap ++ it.value)) ++
        ((rest.map Item.text).flatten ++ T),
      by simp [Item.text, List.append_assoc], hb, ?_, fun h => absurd h hne⟩
    intro b r2 h
    rw [hk1] at h
    simp only [List.cons_append, List.cons.injEq] at h
    have := hk.2 a (by rw [hk1]; exact List.mem_cons_self _ _)
    rw [← h.1]
    exact ⟨this.1, this.2.1⟩

theorem pairs_loop (c : Cont) (z : MState) (T : Str)
    (hTnone : ∀ idx caps K, PAIR_RE.run ⟨idx, T, caps⟩ K = none)
    (hT : ∃ sp rest, T = sp ++ rest ∧ (∀ a ∈ sp, isSpace a = true) ∧
      (∀ b r2, rest = b :: r2 → isSpace b = false ∧ b ≠ '=') ∧ (sp = [] → rest = [])) :
    ∀ (items : List Item) (prev : Item) (idx fuel : Nat),
      (∀ i ∈ items, i.Good ∧ i.before ≠ []) → items.length + 1 ≤ fuel →
      c ⟨idx + ((items.map Item.text).flatten).length, T,
        [(2, (lastItem prev items).value), (1, (lastItem prev items).key)]⟩ = some z →
      repeatMatcher (fun y k => PAIR_RE.run y k) [1, 2] fuel 0 none
        ⟨idx, (items.map Item.text).flatten ++ T, [(2, prev.value), (1, prev.key)]⟩ c =
          some z := by
  intro items
  induction items with
  | nil =>
    intro prev idx fuel _ hf hc
    obtain ⟨f, rfl⟩ : ∃ f, fuel = f + 1 := ⟨fuel - 1, by omega⟩
    rw [repeatMatcher_min_zero]
    simp only [List.map_nil, List.flatten_nil, List.nil_append]
    rw [hTnone]
    simpa [lastItem] using hc
  | cons it rest ih =>
    intro prev idx fuel hitems hf hc
    obtain ⟨f, rfl⟩ : ∃ f, fuel = f + 1 := ⟨fuel - 1, by omega⟩
    obtain ⟨⟨hb, hk, hg1, hg2, hv⟩, hne⟩ := hitems it (List.mem_cons_self _ _)
    have hrestGood : ∀ i ∈ rest, i.Good ∧ i.before ≠ [] :=
      fun i hi => hitems i (List.mem_cons_of_mem _ hi)
    obtain ⟨sp, rest2, htail, hsp, hrest2, hsep⟩ := tail_shape rest T hrestGood hT
    rw [repeatMatcher_min_zero]
    have htext : ((it :: rest).map Item.text).flatten ++ T =
        it.before ++ (it.key ++ (it.keyGap ++ '=' :: (it.valueGap ++ (it.value ++ (sp ++ rest2))))) := by
      rw [← htail]
      simp [Item.text, List.append_assoc]
    have hrun : PAIR_RE.run
        ⟨idx, ((it :: rest).map Item.text).flatten ++ T,
          clearCaps [1, 2] [(2, prev.value), (1, prev.key)]⟩
        (fun y => if y.idx = idx then none
          else repeatMatcher (fun y k => PAIR_RE.run y k) [1, 2] f 0 none y c) = some z := by
      rw [htext]
      apply pair_run idx it.before it.key it.keyGap it.valueGap it.value sp rest2 _ _ _ hb hk
        hg1 hg2 hv hsp hrest2 hsep
      have hidx : ¬ (idx + it.before.length + it.key.length + it.keyGap.length + 1 +
          it.valueGap.length + it.value.length = idx) := by
        omega
      simp only [hidx, if_false]
      have hcaps : setCap 2 it.value (setCap 1 it.key
          (clearCaps [1, 2] [(2, prev.value), (1, prev.key)])) =
          [(2, it.value), (1, it.key)] := by
        simp [setCap, clearCaps]
      rw [hcaps, ← htail]
      apply ih it _ f hrestGood (by simp at hf; omega)
      rw [← hc]
      congr 2
      simp [Item.text]
      omega
    simp only at hrun ⊢
    rw [hrun]

theorem items_length_le (more : List Item) :
    more.length ≤ ((more.map Item.text).flatten).length := by
  induction more with
  | nil => simp
  | cons i is ih =>
    simp only [List.map_cons, List.flatten_cons, List.length_append, List.length_cons,
      Item.text]
    omega

/-- The body parameter pattern at the start of a run of pairs: it matches
    the run and the white space after it, and the cells hold the last pair
    of the run. -/
theorem run_pairs (idx : Nat) (first : Item) (more : List Item) (after : Str) (stop : Stop)
    (hfirst : first.Good) (hmore : ∀ i ∈ more, i.Good ∧ i.before ≠ [])
    (hafter : ∀ a ∈ after, isSpace a = true) (hstop : stop.Good after) :
    BODY_PARAM_REGEX.run
        ⟨idx, first.text ++ ((more.map Item.text).flatten ++ (after ++ stop.text)), []⟩ some =
      some ⟨idx + first.text.length + ((more.map Item.text).flatten).length + after.length,
        stop.text, [(2, (lastItem first more).value), (1, (lastItem first more).key)]⟩ := by
  obtain ⟨hb, hk, hg1, hg2, hv⟩ := hfirst
  have hT : ∃ sp rest, after ++ stop.text = sp ++ rest ∧ (∀ a ∈ sp, isSpace a = true) ∧
      (∀ b r2, rest = b :: r2 → isSpace b = false ∧ b ≠ '=') ∧ (sp = [] → rest = []) :=
    ⟨after, stop.text, rfl, hafter, stop_text_head after stop hstop,
      stop_text_sep after stop hstop⟩
  obtain ⟨sp, rest2, htail, hsp, hrest2, hsep⟩ := tail_shape more (after ++ stop.text) hmore hT
  have htext : first.text ++ ((more.map Item.text).flatten ++ (after ++ stop.text)) =
      first.before ++ (first.key ++ (first.keyGap ++ '=' ::
        (first.valueGap ++ (first.value ++ (sp ++ rest2))))) := by
    rw [← htail]
    simp [Item.text, List.append_assoc]
  rw [BODY_PARAM_REGEX_eq, run_seq]
  have e : (Regex.rep 1 none PAIR_RE).run
      ⟨idx, first.text ++ ((more.map Item.text).flatten ++ (after ++ stop.text)), []⟩
      (fun y => (Regex.seq (.rep 0 none (.cls false [.space])) .empty).run y some) =
      repeatMatcher (fun y k => PAIR_RE.run y k) [1, 2]
        (((first.text ++ ((more.map Item.text).flatten ++ (after ++ stop.text))).length + 1) + 1)
        1 none
        ⟨idx, first.text ++ ((more.map Item.text).flatten ++ (after ++ stop.text)), []⟩
        (fun y => (Regex.seq (.rep 0 none (.cls false [.space])) .empty).run y some) := by
    have hf : 1 + (first.text ++ ((more.map Item.text).flatten ++ (after ++ stop.text))).length
        + 1 = ((first.text ++ ((more.map Item.text).flatten ++ (after ++ stop.text))).length + 1)
        + 1 := by omega
    rw [← hf]
    rfl
  rw [e, repeatMatcher_min_one]
  simp only
  rw [htext]
  apply pair_run idx first.before first.key first.keyGap first.valueGap first.value sp rest2 _ _ _
    hb hk hg1 hg2 hv hsp hrest2 hsep
  have hcaps : setCap 2 first.value (setCap 1 first.key (clearCaps [1, 2] [])) =
      [(2, first.value), (1, first.key)] := by
    simp [setCap, clearCaps]
  rw [hcaps, ← htail]
  apply pairs_loop _ _ (after ++ stop.text) (stop_none after stop hafter hstop) hT more first _ _
    hmore
  · have hl := items_length_le more
    simp only [List.length_append, List.length_cons]
    omega
  · rw [run_seq_empty, run_star_cls false [.space] some _ after stop.text _
      (by intro a ha; rw [classTest_space]; exact hafter a ha)
      (by intro b r2 h; rw [classTest_space]; exact (stop_text_head after stop hstop b r2 h).1)]
    apply greedy_full
    simp only [Item.text, List.length_append, List.length_cons, MState.mk.injEq,
      Option.some.injEq, and_true]
    omega

theorem caps_cells (m : Match) (k v : Str) (h : m.caps = [(2, v), (1, k)]) :
    m.cellStr 1 = k ∧ m.cellStr 2 = v := by
  cases m with
  | mk index text caps =>
    simp only at h
    subst h
    exact ⟨rfl, rfl⟩

theorem execAt_pairs (idx : Nat) (first : Item) (more : List Item) (after : Str) (stop : Stop)
    (hfirst : first.Good) (hmore : ∀ i ∈ more, i.Good ∧ i.before ≠ [])
    (hafter : ∀ a ∈ after, isSpace a = true) (hstop : stop.Good after) :
    ∃ m, execAt BODY_PARAM_REGEX idx
        (first.text ++ ((more.map Item.text).flatten ++ (after ++ stop.text))) = some m ∧
      m.cellStr 1 = (lastItem first more).key ∧ m.cellStr 2 = (lastItem first more).value := by
  unfold execAt
  rw [run_pairs idx first more after stop hfirst hmore hafter hstop]
  exact ⟨_, rfl, caps_cells _ _ _ rfl⟩

theorem pair_forward_eq : ∀ (x : MState) (c : Cont) (z : MState), PAIR_RE.run x c = some z →
    '=' ∈ x.rest := by
  intro x c z h
  unfold PAIR_RE at h
  rw [run_seq] at h
  obtain ⟨y1, ha1, h⟩ := run_forward _ _ _ _ h
  rw [run_seq] at h
  obtain ⟨y2, ha2, h⟩ := run_forward _ _ _ _ h
  rw [run_seq] at h
  obtain ⟨y3, ha3, h⟩ := run_forward _ _ _ _ h
  rw [run_seq, run_chr, stepChar_some_iff] at h
  obtain ⟨d, ds, hrest, hd, -⟩ := h
  simp only [beq_iff_eq] at hd
  obtain ⟨w, hw, -⟩ := (ha1.trans ha2).trans ha3
  rw [hw, hrest, hd]
  simp

theorem body_param_none (t : Str) (h : ∀ a ∈ t, a ≠ '=') : exec BODY_PARAM_REGEX t = none := by
  cases he : exec BODY_PARAM_REGEX t with
  | none => rfl
  | some m =>
    exfalso
    unfold exec at he
    obtain ⟨pre, rest, hs, hat⟩ := execFrom_some _ _ _ _ he
    unfold execAt at hat
    cases hrun : BODY_PARAM_REGEX.run ⟨0 + pre.length, rest, []⟩ some with
    | none => rw [hrun] at hat; cases hat
    | some z =>
      rw [BODY_PARAM_REGEX_eq, run_seq] at hrun
      have e : (Regex.rep 1 none PAIR_RE).run ⟨0 + pre.length, rest, []⟩
          (fun y => (Regex.seq (.rep 0 none (.cls false [.space])) .empty).run y some) =
          repeatMatcher (fun y k => PAIR_RE.run y k) [1, 2] ((1 + rest.length) + 1) 1 none
            ⟨0 + pre.length, rest, []⟩
            (fun y => (Regex.seq (.rep 0 none (.cls false [.space])) .empty).run y some) := rfl
      rw [e, repeatMatcher_min_one] at hrun
      have := pair_forward_eq _ _ _ hrun
      simp only at this
      exact h '=' (by rw [hs]; exact List.mem_append_right _ this) rfl


/-! ## The body parameters -/

theorem splitOn_ne_nil (c : Char) (s : Str) : splitOn c s ≠ [] := by
  induction s with
  | nil => simp [splitOn]
  | cons d ds ih =>
    unfold splitOn
    split
    · simp
    · split <;> simp

theorem splitOn_plain (c : Char) (t : Str) (ht : ∀ a ∈ t, a ≠ c) : ∀ rest : Str,
    splitOn c (t ++ c :: rest) = t :: splitOn c rest := by
  induction t with
  | nil =>
    intro rest
    simp [splitOn]
  | cons d ds ih =>
    intro rest
    have hd : (d == c) = false := beq_eq_false_iff_ne.mpr (ht d (List.mem_cons_self _ _))
    conv => lhs; unfold splitOn
    simp only [List.cons_append, hd, Bool.false_eq_true, if_false]
    rw [ih (fun a ha => ht a (List.mem_cons_of_mem _ ha))]

theorem splitOn_last (c : Char) (t : Str) (ht : ∀ a ∈ t, a ≠ c) : splitOn c t = [t] := by
  induction t with
  | nil => rfl
  | cons d ds ih =>
    have hd : (d == c) = false := beq_eq_false_iff_ne.mpr (ht d (List.mem_cons_self _ _))
    conv => lhs; unfold splitOn
    simp only [hd, Bool.false_eq_true, if_false]
    rw [ih (fun a ha => ht a (List.mem_cons_of_mem _ ha))]

theorem splitOn_join (c : Char) (texts : List Str) (hne : texts ≠ [])
    (h : ∀ t ∈ texts, ∀ a ∈ t, a ≠ c) : splitOn c (join [c] texts) = texts := by
  induction texts with
  | nil => exact absurd rfl hne
  | cons t ts ih =>
    cases ts with
    | nil => exact splitOn_last c t (h t (List.mem_cons_self _ _))
    | cons t2 ts2 =>
      have e : join [c] (t :: t2 :: ts2) = t ++ c :: join [c] (t2 :: ts2) := by
        simp [join]
      rw [e, splitOn_plain c t (h t (List.mem_cons_self _ _)),
        ih (by simp) (fun u hu => h u (List.mem_cons_of_mem _ hu))]

theorem httpRequest_bodyParams (ext : Ext) (lines : List Str) (body : Str) (req : HttpRequest)
    (h : httpRequest ext lines body = .ok req) :
    req.bodyParams = if body = [] then JVal.obj [] else addBodyParams ext body := by
  unfold httpRequest at h
  split at h
  · cases h
  · simp only at h
    split at h
    · cases h
    · cases h
      rfl

theorem execFrom_skip (r : Regex) (s : Str) : ∀ (p : Str) (idx : Nat),
    (∀ j, j < p.length → execAt r (idx + j) (p.drop j ++ s) = none) →
    execFrom r idx (p ++ s) = execFrom r (idx + p.length) s := by
  intro p
  induction p with
  | nil => intro idx _; simp
  | cons c cs ih =>
    intro idx h
    have h0 := h 0 (by simp)
    simp only [Nat.add_zero, List.drop_zero, List.cons_append] at h0
    have e : execFrom r idx (c :: (cs ++ s)) = execFrom r (idx + 1) (cs ++ s) := by
      conv => lhs; unfold execFrom
      rw [h0]
    rw [List.cons_append, e, ih (idx + 1) (by
      intro j hj
      have := h (j + 1) (by simp; omega)
      simp only [List.drop_succ_cons] at this
      rw [← this]
      congr 1
      omega)]
    congr 1
    simp only [List.length_cons]
    omega

theorem execAt_none_of_pair (idx : Nat) (t : Str)
    (h : ∀ caps K, PAIR_RE.run ⟨idx, t, caps⟩ K = none) :
    execAt BODY_PARAM_REGEX idx t = none := by
  unfold execAt
  rw [BODY_PARAM_REGEX_eq, run_seq]
  have e : (Regex.rep 1 none PAIR_RE).run ⟨idx, t, []⟩
      (fun y => (Regex.seq (.rep 0 none (.cls false [.space])) .empty).run y some) =
      repeatMatcher (fun y k => PAIR_RE.run y k) [1, 2] ((1 + t.length) + 1) 1 none
        ⟨idx, t, []⟩
        (fun y => (Regex.seq (.rep 0 none (.cls false [.space])) .empty).run y some) := rfl
  rw [e, repeatMatcher_min_one, h]
  rfl

theorem lastItem_before (first : Item) (b : Str) (more : List Item) :
    (lastItem { first with before := b } more).key = (lastItem first more).key ∧
    (lastItem { first with before := b } more).value = (lastItem first more).value := by
  cases more with
  | nil => exact ⟨rfl, rfl⟩
  | cons j js => exact ⟨rfl, rfl⟩

/-- The body parameter pattern finds its leftmost match after the words
    without `=` that precede the first pair. -/
theorem exec_words (first : Item) (more : List Item) (after : Str) (stop : Stop)
    (hfirst : first.Good) (hmore : ∀ i ∈ more, i.Good ∧ i.before ≠ [])
    (hafter : ∀ a ∈ after, isSpace a = true) (hstop : stop.Good after) :
    ∀ (words : List Plain) (lead : Str) (idx : Nat),
      (∀ a ∈ lead, isSpace a = true) → (∀ p ∈ words, p.Good) →
      ∃ m, execFrom BODY_PARAM_REGEX idx
          (lead ++ ((words.map Plain.text).flatten ++
            (first.text ++ ((more.map Item.text).flatten ++ (after ++ stop.text))))) = some m ∧
        m.cellStr 1 = (lastItem first more).key ∧ m.cellStr 2 = (lastItem first more).value := by
  intro words
  induction words with
  | nil =>
    intro lead idx hlead _
    obtain ⟨hb, hk, hg1, hg2, hv⟩ := hfirst
    obtain ⟨m, hm, h1, h2⟩ := execAt_pairs idx { first with before := lead ++ first.before } more
      after stop
      ⟨by
        intro a ha
        rcases List.mem_append.mp ha with h | h
        · exact hlead a h
        · exact hb a h, hk, hg1, hg2, hv⟩ hmore hafter hstop
    refine ⟨m, ?_, ?_, ?_⟩
    · apply execFrom_of_execAt
      rw [← hm]
      congr 1
      simp [Item.text, List.append_assoc]
    · rw [h1, (lastItem_before first _ more).1]
    · rw [h2, (lastItem_before first _ more).2]
  | cons p ps ih =>
    intro lead idx hlead hwords
    obtain ⟨hpw, hpne, hpg⟩ := hwords p (List.mem_cons_self _ _)
    have hps : ∀ q ∈ ps, q.Good := fun q hq => hwords q (List.mem_cons_of_mem _ hq)
    obtain ⟨hb, hk, hg1, hg2, hv⟩ := hfirst
    -- the white space after the word and the text that follows it
    have hshape : ∃ tsp trest, p.gap ++ ((ps.map Plain.text).flatten ++
          (first.text ++ ((more.map Item.text).flatten ++ (after ++ stop.text)))) = tsp ++ trest ∧
        (∀ a ∈ tsp, isSpace a = true) ∧
        (∀ b r2, trest = b :: r2 → isSpace b = false ∧ b ≠ '=') ∧ (tsp = [] → trest = []) := by
      cases ps with
      | nil =>
        obtain ⟨a, k1, hk1⟩ : ∃ a k1, first.key = a :: k1 := by
          cases h : first.key with
          | nil => exact absurd h hk.1
          | cons a k1 => exact ⟨a, k1, rfl⟩
        refine ⟨p.gap ++ first.before, first.key ++ (first.keyGap ++ '=' ::
            (first.valueGap ++ first.value)) ++
            ((more.map Item.text).flatten ++ (after ++ stop.text)),
          by simp [Item.text, List.append_assoc], ?_, ?_, ?_⟩
        · intro a ha
          rcases List.mem_append.mp ha with h | h
          · exact hpg a h
          · exact hb a h
        · intro b r2 h
          rw [hk1] at h
          simp only [List.cons_append, List.cons.injEq] at h
          have := hk.2 a (by rw [hk1]; exact List.mem_cons_self _ _)
          rw [← h.1]
          exact ⟨this.1, this.2.1⟩
        · intro h
          exact absurd (List.append_eq_nil.mp h).1 hpne
      | cons q qs =>
        obtain ⟨hqw, _, _⟩ := hwords q (List.mem_cons_of_mem _ (List.mem_cons_self _ _))
        obtain ⟨a, w1, hw1⟩ : ∃ a w1, q.word = a :: w1 := by
          cases h : q.word with
          | nil => exact absurd h hqw.1
          | cons a w1 => exact ⟨a, w1, rfl⟩
        refine ⟨p.gap, ((q :: qs).map Plain.text).flatten ++
            (first.text ++ ((more.map Item.text).flatten ++ (after ++ stop.text))), rfl, hpg, ?_,
          fun h => absurd h hpne⟩
        intro b r2 h
        simp only [List.map_cons, List.flatten_cons, Plain.text, hw1, List.cons_append,
          List.cons.injEq] at h
        have := hqw.2 a (by rw [hw1]; exact List.mem_cons_self _ _)
        rw [← h.1]
        exact ⟨this.1, this.2.1⟩
    obtain ⟨tsp, trest, hts, htsp, htrest, hsep⟩ := hshape
    have hskip := execFrom_skip BODY_PARAM_REGEX
      (p.gap ++ ((ps.map Plain.text).flatten ++
        (first.text ++ ((more.map Item.text).flatten ++ (after ++ stop.text)))))
      (lead ++ p.word) idx (by
        intro j hj
        apply execAt_none_of_pair
        intro caps K
        rw [hts, List.drop_append_eq_append_drop, List.append_assoc]
        simp only [List.length_append] at hj
        exact pair_none_word _ (lead.drop j) (p.word.drop (j - lead.length)) tsp trest caps K
          (fun a ha => hlead a (List.mem_of_mem_drop ha))
          (by
            intro h
            have := List.drop_eq_nil_iff.mp h
            have hwl : 0 < p.word.length := List.length_pos.mpr hpw.1
            omega)
          (fun a ha => ⟨(hpw.2 a (List.mem_of_mem_drop ha)).1,
            (hpw.2 a (List.mem_of_mem_drop ha)).2.1⟩) htsp htrest hsep)
    obtain ⟨m, hm, h1, h2⟩ := ih p.gap (idx + (lead ++ p.word).length) hpg hps
    refine ⟨m, ?_, h1, h2⟩
    rw [← hm, ← hskip]
    congr 1
    simp [Plain.text, List.append_assoc]

/-- The body parameter pattern on a segment with a run of pairs: it finds a
    match, and the cells hold the last pair of the run. -/
theorem segment_exec (lead : Str) (words : List Plain) (first : Item) (more : List Item)
    (after : Str) (stop : Stop) (hgood : (Segment.pairs lead words first more after stop).Good) :
    ∃ m, exec BODY_PARAM_REGEX (Segment.pairs lead words first more after stop).text = some m ∧
      m.cellStr 1 = (lastItem first more).key ∧ m.cellStr 2 = (lastItem first more).value := by
  obtain ⟨hlead, hwords, hfirst, hmore, hafter, hstop⟩ := hgood
  exact exec_words first more after stop hfirst hmore hafter hstop words lead 0 hlead hwords

theorem space_not_amp (a : Char) (h : isSpace a = true) : a ≠ '&' := by
  rintro rfl
  exact absurd h (by decide)

theorem segment_text_no_amp (s : Segment) (hs : s.Good) : ∀ a ∈ s.text, a ≠ '&' := by
  cases s with
  | plain t => exact fun a ha => (hs a ha).2
  | pairs lead words first more after stop =>
    obtain ⟨hlead, hwords, hf, hmore, hafter, hstop⟩ := hs
    have hitem : ∀ i : Item, i.Good → ∀ a ∈ i.text, a ≠ '&' := by
      intro i hi a ha
      simp only [Item.text, List.mem_append, List.mem_cons] at ha
      rcases ha with h | h | h | h | h | h
      · exact space_not_amp a (hi.1 a h)
      · exact (hi.2.1.2 a h).2.2
      · exact space_not_amp a (hi.2.2.1 a h)
      · rw [h]; decide
      · exact space_not_amp a (hi.2.2.2.1 a h)
      · exact (hi.2.2.2.2.2 a h).2.2
    intro a ha
    simp only [Segment.text, Stop.text, Plain.text, List.mem_append, List.mem_flatten,
      List.mem_map] at ha
    rcases ha with h | ⟨l, ⟨p, hp, rfl⟩, h⟩ | h | ⟨l, ⟨i, hi, rfl⟩, h⟩ | h | h | h | h
    · exact space_not_amp a (hlead a h)
    · rcases List.mem_append.mp h with h | h
      · exact ((hwords p hp).1.2 a h).2.2
      · exact space_not_amp a ((hwords p hp).2.2 a h)
    · exact hitem first hf a h
    · exact hitem i (hmore i hi).1 a h
    · exact space_not_amp a (hafter a h)
    · exact (hstop.2.2.1 a h).2.2
    · exact space_not_amp a (hstop.2.2.2.1 a h)
    · exact hstop.2.2.2.2.2.2 a h

theorem bodyParams_fold (segs : List Segment) (hgood : ∀ s ∈ segs, s.Good) :
    ∀ acc : List (Str × JVal),
      (segs.map Segment.text).foldl (fun acc curParam =>
        match exec BODY_PARAM_REGEX curParam with
        | some result => setProp acc (result.cellStr 1) (JVal.str (result.cellStr 2))
        | none => acc) acc =
      (segs.filterMap Segment.lastPair).foldl (fun acc p => setProp acc p.1 (JVal.str p.2)) acc := by
  induction segs with
  | nil => intro acc; rfl
  | cons s ss ih =>
    intro acc
    have ih2 := ih (fun t ht => hgood t (List.mem_cons_of_mem _ ht))
    have hs := hgood s (List.mem_cons_self _ _)
    cases s with
    | plain t =>
      have hnone : exec BODY_PARAM_REGEX (Segment.plain t).text = none :=
        body_param_none t (fun a ha => (hs a ha).1)
      simp only [List.map_cons, List.foldl_cons, hnone, List.filterMap_cons, Segment.lastPair]
      exact ih2 acc
    | pairs lead words first more after stop =>
      obtain ⟨m, hex, h1, h2⟩ := segment_exec lead words first more after stop hs
      simp only [List.map_cons, List.foldl_cons, hex, h1, h2, List.filterMap_cons,
        Segment.lastPair]
      exact ih2 _

/-- C21 (amended): for every non-empty request body: if the body is valid
    JSON, `bodyParams` is the parsed JSON value; otherwise `bodyParams` is
    built from the `&`-separated segments in order: a segment without `=`
    contributes nothing, and a segment that holds pairs `key=value` (a key
    and a value that are words without white space, `=` and `&`, with
    optional white space around the `=`), possibly after words without `=`
    and possibly followed by a word without `=` and further text, assigns
    one pair: the last pair of its first run of pairs that follow one
    another separated by white space only, which is the first pair of the
    segment when no pair follows it directly (an assignment to the key
    `__proto__` sets nothing); so a segment whose run is the one pair
    `key=value` alone gives `{key: value}`. -/
theorem body_params_of_segments (ext : Ext) :
    (∀ (lines : List Str) (body : Str) (req : HttpRequest),
      httpRequest ext lines body = .ok req → body ≠ [] →
      (∀ v, ext.jsonParse body = some v → req.bodyParams = v) ∧
      (ext.jsonParse body = none →
        req.bodyParams = JVal.obj (bodyParamsOf (splitOn BODY_PARAM_SEPARATOR body)))) ∧
    (∀ segs : List Segment, segs ≠ [] → (∀ s ∈ segs, s.Good) →
      bodyParamsOf (splitOn BODY_PARAM_SEPARATOR (join "&".toList (segs.map Segment.text))) =
        (segs.filterMap Segment.lastPair).foldl
          (fun acc p => setProp acc p.1 (JVal.str p.2)) []) ∧
    (∀ (lead : Str) (words : List Plain) (first : Item) (after : Str) (stop : Stop),
      (Segment.pairs lead words first [] after stop).Good → first.key ≠ PROTO →
      bodyParamsOf (splitOn BODY_PARAM_SEPARATOR
          (Segment.pairs lead words first [] after stop).text) =
        [(first.key, JVal.str first.value)]) := by
  have hsegs : ∀ segs : List Segment, segs ≠ [] → (∀ s ∈ segs, s.Good) →
      bodyParamsOf (splitOn BODY_PARAM_SEPARATOR (join "&".toList (segs.map Segment.text))) =
        (segs.filterMap Segment.lastPair).foldl
          (fun acc p => setProp acc p.1 (JVal.str p.2)) [] := by
    intro segs hne hgood
    have hsplit : splitOn BODY_PARAM_SEPARATOR (join "&".toList (segs.map Segment.text)) =
        segs.map Segment.text :=
      splitOn_join '&' (segs.map Segment.text) (by simpa using hne) (by
        intro t ht
        obtain ⟨s, hs, rfl⟩ := List.mem_map.mp ht
        exact segment_text_no_amp s (hgood s hs))
    rw [hsplit]
    exact bodyParams_fold segs hgood []
  refine ⟨?_, hsegs, ?_⟩
  · intro lines body req hreq hne
    have hb := httpRequest_bodyParams ext lines body req hreq
    rw [if_neg hne] at hb
    constructor
    · intro v hv
      rw [hb]
      unfold addBodyParams
      rw [hv]
    · intro hnone
      rw [hb]
      unfold addBodyParams
      rw [hnone]
  · intro lead words first after stop hgood hkey
    have h := hsegs [Segment.pairs lead words first [] after stop] (by simp) (by
      intro s hs
      rw [List.mem_singleton.mp hs]
      exact hgood)
    have e : join "&".toList ([Segment.pairs lead words first [] after stop].map Segment.text) =
        (Segment.pairs lead words first [] after stop).text := rfl
    rw [e] at h
    rw [h]
    simp only [List.filterMap_cons, Segment.lastPair, lastItem, List.filterMap_nil,
      List.foldl_cons, List.foldl_nil]
    unfold setProp
    have hown : hasOwnProperty ([] : List (Str × JVal)) first.key = false := rfl
    rw [hown]
    simp only [Bool.false_eq_true, if_false, if_neg hkey, List.nil_append]

theorem body_params_of_segments_witness :
    bodyParamsOf (splitOn BODY_PARAM_SEPARATOR "x a=1 y&k1 = v1 k2=v2&zz".toList) =
      [("a".toList, JVal.str "1".toList), ("k2".toList, JVal.str "v2".toList)] :=
  (body_params_of_segments sampleExt).2.1
    [Segment.pairs [] [⟨"x".toList, " ".toList⟩] ⟨[], "a".toList, [], [], "1".toList⟩ []
        " ".toList ⟨"y".toList, [], []⟩,
     Segment.pairs [] [] ⟨[], "k1".toList, " ".toList, " ".toList, "v1".toList⟩
        [⟨" ".toList, "k2".toList, [], [], "v2".toList⟩] [] ⟨[], [], []⟩,
     Segment.plain "zz".toList]
    (by simp)
    (by
      intro s hs
      simp only [List.mem_cons, List.mem_singleton, List.not_mem_nil, or_false] at hs
      rcases hs with rfl | rfl | rfl
      · exact ⟨by decide,
          (by
            intro p hp
            rw [List.mem_singleton.mp hp]
            exact ⟨⟨by decide, by decide⟩, by decide, by decide⟩),
          ⟨by decide, ⟨by decide, by decide⟩, by decide, by decide, ⟨by decide, by decide⟩⟩,
          (by intro i hi; cases hi), by decide,
          ⟨by decide, by decide, by decide, by decide, by decide, by decide, by decide⟩⟩
      · exact ⟨by decide, (by intro p hp; cases hp),
          ⟨by decide, ⟨by decide, by decide⟩, by decide, by decide, ⟨by decide, by decide⟩⟩,
          (by
            intro i hi
            rw [List.mem_singleton.mp hi]
            exact ⟨⟨by decide, ⟨by decide, by decide⟩, by decide, by decide,
              ⟨by decide, by decide⟩⟩, by decide⟩),
          by decide,
          ⟨by decide, by decide, by decide, by decide, by decide, by decide, by decide⟩⟩
      · exact (by decide : ∀ a ∈ "zz".toList, a ≠ '=' ∧ a ≠ '&'))

/-- C21 (the claim as stated fails): the body `a=1 b=2` is not JSON and is
    one segment that holds the pairs `a=1` and `b=2`; `bodyParams` is
    `{b: '2'}`: it holds the last pair of the segment, not the first. -/
theorem body_params_last_pair_of_segment :
    addBodyParams sampleExt "a=1 b=2".toList = JVal.obj [("b".toList, JVal.str "2".toList)] := by
  rfl


/-! ## Routes with parameters -/

theorem PATH_REGEX_eq :
    PATH_REGEX = .seq (.chr '/') (.seq (.chr ':')
      (.seq (.group 1 (.seq (.rep 0 none (.cls true [.chr '/'])) .empty)) .empty)) := by
  decide!

theorem classTest_not_slash (a : Char) : classTest true [.chr '/'] a = (a != '/') := by
  simp [classTest, ClassItem.test, bne]

theorem routeOf_head (names : List Str) :
    ∀ b r2, routeOf names = b :: r2 → classTest true [.chr '/'] b = false := by
  intro b r2 h
  cases names with
  | nil => cases h
  | cons n ns =>
    simp only [routeOf, List.map_cons, List.flatten_cons, List.cons_append, List.cons.injEq] at h
    rw [classTest_not_slash, ← h.1]
    rfl

theorem path_exec_at (idx : Nat) (n rest : Str) (hn : ∀ a ∈ n, a ≠ '/')
    (hrest : ∀ b r2, rest = b :: r2 → classTest true [.chr '/'] b = false) :
    execFrom PATH_REGEX idx ('/' :: ':' :: n ++ rest) = some ⟨idx, '/' :: ':' :: n, [(1, n)]⟩ := by
  apply execFrom_of_execAt
  unfold execAt
  have hrun : PATH_REGEX.run ⟨idx, '/' :: ':' :: n ++ rest, []⟩ some =
      some ⟨idx + 1 + 1 + n.length, rest, [(1, n)]⟩ := by
    rw [PATH_REGEX_eq, run_seq, run_chr]
    simp only [List.cons_append, stepChar_cons, beq_self_eq_true, if_true]
    rw [run_seq, run_chr, stepChar_cons]
    simp only [beq_self_eq_true, if_true]
    rw [run_seq_empty, run_group, run_seq_empty,
      run_star_cls true [.chr '/'] _ [] n rest (idx + 1 + 1)
        (by intro a ha; rw [classTest_not_slash]; simpa using hn a ha) hrest]
    apply greedy_full
    simp [setCap]
  rw [hrun]
  simp only [Option.map_some', Option.some.injEq, Match.mk.injEq, true_and, and_true]
  have : idx + 1 + 1 + n.length - idx = n.length + 2 := by omega
  rw [this]
  simp [List.take_left]

theorem path_exec_nil (idx : Nat) : execFrom PATH_REGEX idx [] = none := by
  rw [PATH_REGEX_eq]
  rfl


theorem routeOf_cons (n : Str) (ns : List Str) :
    routeOf (n :: ns) = '/' :: ':' :: n ++ routeOf ns := by
  simp [routeOf]

theorem replaceAll_route (names : List Str) (hnames : ∀ n ∈ names, ∀ a ∈ n, a ≠ '/') :
    ∀ (idx fuel : Nat), names.length + 1 ≤ fuel →
      replaceAll PATH_REGEX RESOURCE_PARAM_REPLACEMENT fuel idx (routeOf names) =
        (names.map fun _ => RESOURCE_PARAM_REPLACEMENT).flatten := by
  induction names with
  | nil =>
    intro idx fuel hf
    obtain ⟨f, rfl⟩ : ∃ f, fuel = f + 1 := ⟨fuel - 1, by simp at hf; omega⟩
    simp [replaceAll, routeOf, path_exec_nil]
  | cons n ns ih =>
    intro idx fuel hf
    obtain ⟨f, rfl⟩ : ∃ f, fuel = f + 1 := ⟨fuel - 1, by simp at hf; omega⟩
    rw [routeOf_cons]
    unfold replaceAll
    rw [path_exec_at idx n (routeOf ns) (hnames n (List.mem_cons_self _ _)) (routeOf_head ns)]
    simp only [Nat.sub_self, List.take_zero, List.nil_append, Nat.zero_add]
    have hdrop : ('/' :: ':' :: n ++ routeOf ns).drop ('/' :: ':' :: n).length = routeOf ns := by
      rw [List.drop_left]
    rw [hdrop, ih (fun m hm => hnames m (List.mem_cons_of_mem _ hm)) _ f
      (by simp at hf; omega)]
    simp

theorem globalMatches_route (names : List Str) (hnames : ∀ n ∈ names, ∀ a ∈ n, a ≠ '/') :
    ∀ (idx fuel : Nat), names.length + 1 ≤ fuel →
      (globalMatches PATH_REGEX fuel idx (routeOf names)).map (fun m => m.cellStr 1) = names := by
  induction names with
  | nil =>
    intro idx fuel hf
    obtain ⟨f, rfl⟩ : ∃ f, fuel = f + 1 := ⟨fuel - 1, by simp at hf; omega⟩
    simp [globalMatches, routeOf, path_exec_nil]
  | cons n ns ih =>
    intro idx fuel hf
    obtain ⟨f, rfl⟩ : ∃ f, fuel = f + 1 := ⟨fuel - 1, by simp at hf; omega⟩
    rw [routeOf_cons]
    unfold globalMatches
    rw [path_exec_at idx n (routeOf ns) (hnames n (List.mem_cons_self _ _)) (routeOf_head ns)]
    simp only [Nat.sub_self, Nat.zero_add, List.map_cons]
    have hdrop : ('/' :: ':' :: n ++ routeOf ns).drop ('/' :: ':' :: n).length = routeOf ns := by
      rw [List.drop_left]
    rw [hdrop, ih (fun m hm => hnames m (List.mem_cons_of_mem _ hm)) _ f
      (by simp at hf; omega)]
    rfl

theorem routeOf_length (names : List Str) : names.length ≤ (routeOf names).length := by
  induction names with
  | nil => simp
  | cons n ns ih =>
    rw [routeOf_cons]
    simp only [List.length_append, List.length_cons]
    omega


theorem lex_segment (f : Nat) (rest : Str) :
    lex (f + 5) (RESOURCE_PARAM_REPLACEMENT ++ rest) = (lex f rest).map (SEGMENT_TOKS ++ ·) := by
  have e : RESOURCE_PARAM_REPLACEMENT ++ rest =
      '/' :: '(' :: '[' :: '^' :: '/' :: ']' :: '+' :: ')' :: rest := rfl
  rw [e]
  have h1 : lex (f + 5) ('/' :: '(' :: '[' :: '^' :: '/' :: ']' :: '+' :: ')' :: rest) =
      (lex (f + 4) ('(' :: '[' :: '^' :: '/' :: ']' :: '+' :: ')' :: rest)).map
        (Tok.atom (.chr '/') :: ·) := by
    rfl
  have h2 : lex (f + 4) ('(' :: '[' :: '^' :: '/' :: ']' :: '+' :: ')' :: rest) =
      (lex (f + 3) ('[' :: '^' :: '/' :: ']' :: '+' :: ')' :: rest)).map
        (Tok.lparen true :: ·) := by
    rfl
  have h3 : lex (f + 3) ('[' :: '^' :: '/' :: ']' :: '+' :: ')' :: rest) =
      (lex (f + 2) ('+' :: ')' :: rest)).map (Tok.atom (.cls true [.chr '/']) :: ·) := by
    rfl
  have h4 : lex (f + 2) ('+' :: ')' :: rest) =
      (lex (f + 1) (')' :: rest)).map (Tok.quant 1 none :: ·) := by
    rfl
  have h5 : lex (f + 1) (')' :: rest) = (lex f rest).map (Tok.rparen :: ·) := by
    rfl
  rw [h1, h2, h3, h4, h5]
  cases h : lex f rest <;> simp [SEGMENT_TOKS]

theorem lex_segments (k : Nat) (rest : Str) : ∀ f : Nat,
    lex (f + 5 * k) ((List.replicate k RESOURCE_PARAM_REPLACEMENT).flatten ++ rest) =
      (lex f rest).map ((List.replicate k SEGMENT_TOKS).flatten ++ ·) := by
  induction k with
  | zero => intro f; cases h : lex f rest <;> simp [h]
  | succ k ih =>
    intro f
    have e1 : f + 5 * (k + 1) = (f + 5 * k) + 5 := by omega
    have e2 : (List.replicate (k + 1) RESOURCE_PARAM_REPLACEMENT).flatten ++ rest =
        RESOURCE_PARAM_REPLACEMENT ++
          ((List.replicate k RESOURCE_PARAM_REPLACEMENT).flatten ++ rest) := by
      simp [List.replicate_succ]
    rw [e1, e2, lex_segment, ih]
    cases h : lex f rest <;> simp [List.replicate_succ]


theorem parse_segment (terms : List Regex) (i : Nat) (q : Bool) (rest : List Tok) :
    parseToks ⟨⟨none, [], terms⟩, [], i, q⟩ (SEGMENT_TOKS ++ rest) =
      parseToks ⟨⟨none, [], segTerms i 1 terms⟩, [], i + 1, true⟩ rest := rfl

theorem parse_segments (k : Nat) (rest : List Tok) : ∀ (terms : List Regex) (i : Nat) (q : Bool),
    ∃ q2, parseToks ⟨⟨none, [], terms⟩, [], i, q⟩
        ((List.replicate k SEGMENT_TOKS).flatten ++ rest) =
      parseToks ⟨⟨none, [], segTerms i k terms⟩, [], i + k, q2⟩ rest := by
  induction k with
  | zero => intro terms i q; exact ⟨q, rfl⟩
  | succ k ih =>
    intro terms i q
    have e : (List.replicate (k + 1) SEGMENT_TOKS).flatten ++ rest =
        SEGMENT_TOKS ++ ((List.replicate k SEGMENT_TOKS).flatten ++ rest) := by
      simp [List.replicate_succ]
    rw [e, parse_segment]
    obtain ⟨q2, h⟩ := ih (segTerms i 1 terms) (i + 1) true
    refine ⟨q2, ?_⟩
    rw [h]
    have : i + 1 + k = i + (k + 1) := by omega
    rw [this]
    rfl

theorem segTerms_foldl (k : Nat) : ∀ (i : Nat) (terms : List Regex) (acc : Regex),
    (segTerms i k terms).foldl (fun acc t => Regex.seq t acc) acc =
      terms.foldl (fun acc t => Regex.seq t acc) (routeSegs i k acc) := by
  induction k with
  | zero => intro i terms acc; rfl
  | succ k ih =>
    intro i terms acc
    have e : segTerms i (k + 1) terms = segTerms (i + 1) k
        (.group i (.seq (.rep 1 none (.cls true [.chr '/'])) .empty) :: .chr '/' :: terms) := rfl
    rw [e, ih]
    rfl

theorem compile_route (k : Nat) :
    compile (START_OF_LINE ++ (List.replicate k RESOURCE_PARAM_REPLACEMENT).flatten) =
      some (.seq .bol (routeSegs 1 k .empty)) := by
  unfold compile
  have hlen : (START_OF_LINE ++ (List.replicate k RESOURCE_PARAM_REPLACEMENT).flatten).length.succ =
      ((3 * k + 1) + 5 * k) + 1 := by
    have h8 : RESOURCE_PARAM_REPLACEMENT.length = 8 := rfl
    have : ((List.replicate k RESOURCE_PARAM_REPLACEMENT).flatten).length = 8 * k := by
      induction k with
      | zero => rfl
      | succ k ih =>
        simp only [List.replicate_succ, List.flatten_cons, List.length_append, ih, h8]
        omega
    simp only [START_OF_LINE, List.length_append, this, Nat.succ_eq_add_one]
    have : "^".toList.length = 1 := rfl
    omega
  have hlex : lex (((3 * k + 1) + 5 * k) + 1)
      (START_OF_LINE ++ (List.replicate k RESOURCE_PARAM_REPLACEMENT).flatten) =
      some (Tok.assertion .bol :: (List.replicate k SEGMENT_TOKS).flatten) := by
    have e1 : lex (((3 * k + 1) + 5 * k) + 1)
        (START_OF_LINE ++ (List.replicate k RESOURCE_PARAM_REPLACEMENT).flatten) =
        (lex ((3 * k + 1) + 5 * k)
          ((List.replicate k RESOURCE_PARAM_REPLACEMENT).flatten ++ [])).map
            (Tok.assertion .bol :: ·) := by
      rw [List.append_nil]
      rfl
    rw [e1, lex_segments]
    have e2 : lex (3 * k + 1) [] = some [] := rfl
    rw [e2]
    simp
  rw [hlen, hlex]
  simp only
  have hp : parseToks ⟨⟨none, [], []⟩, [], 1, false⟩
      (Tok.assertion .bol :: ((List.replicate k SEGMENT_TOKS).flatten ++ [])) =
      parseToks ⟨⟨none, [], [.bol]⟩, [], 1, false⟩
        ((List.replicate k SEGMENT_TOKS).flatten ++ []) := rfl
  obtain ⟨q2, hs⟩ := parse_segments k [] [.bol] 1 false
  rw [List.append_nil] at hp hs
  rw [hp, hs]
  simp only [parseToks, List.isEmpty_nil, if_true, Option.some.injEq]
  unfold Frame.close altOf seqOf
  simp only [List.foldl_nil]
  rw [segTerms_foldl]
  rfl


theorem requestHandlerObj_route (names : List Str) (hnames : ∀ n ∈ names, ∀ a ∈ n, a ≠ '/')
    (handleFunc : Handler) (method : Str) :
    requestHandlerObj (routeOf names) handleFunc method =
      some ⟨method, handleFunc, .seq .bol (routeSegs 1 names.length .empty), names, 1⟩ := by
  unfold requestHandlerObj
  have hf : names.length + 1 ≤ (routeOf names).length + 1 := by
    have := routeOf_length names
    omega
  rw [replaceAll_route names hnames 0 _ hf, globalMatches_route names hnames 0 _ hf]
  have e : (names.map fun _ => RESOURCE_PARAM_REPLACEMENT) =
      List.replicate names.length RESOURCE_PARAM_REPLACEMENT := by
    simp [List.map_const']
  rw [e, compile_route]

theorem pathOfValues_cons (v : Str) (vs : List Str) :
    pathOfValues (v :: vs) = '/' :: v ++ pathOfValues vs := by
  simp [pathOfValues]

theorem pathOfValues_tail (vs : List Str) (more : Str)
    (hmore : ∀ b r2, more = b :: r2 → b = '/') :
    ∀ b r2, pathOfValues vs ++ more = b :: r2 → classTest true [.chr '/'] b = false := by
  intro b r2 h
  have hb : b = '/' := by
    cases vs with
    | nil => exact hmore b r2 (by simpa [pathOfValues] using h)
    | cons v vs2 =>
      rw [pathOfValues_cons] at h
      simp only [List.cons_append, List.cons.injEq] at h
      exact h.1.symm
  rw [hb, classTest_not_slash]
  rfl

theorem routeSegs_run (tail : Regex) (c : Cont) (z : MState) (more : Str)
    (hmore : ∀ b r2, more = b :: r2 → b = '/') :
    ∀ (vals : List Str) (i idx : Nat) (caps : Caps),
      (∀ v ∈ vals, v ≠ [] ∧ ∀ a ∈ v, a ≠ '/') →
      tail.run ⟨idx + (pathOfValues vals).length, more, capsFrom i vals caps⟩ c = some z →
      (routeSegs i vals.length tail).run ⟨idx, pathOfValues vals ++ more, caps⟩ c = some z := by
  intro vals
  induction vals with
  | nil =>
    intro i idx caps _ h
    simpa [routeSegs, pathOfValues, capsFrom] using h
  | cons v vs ih =>
    intro i idx caps hvals h
    obtain ⟨hne, hv⟩ := hvals v (List.mem_cons_self _ _)
    obtain ⟨a, v1, rfl⟩ : ∃ a v1, v = a :: v1 := by
      cases v with
      | nil => exact absurd rfl hne
      | cons a v1 => exact ⟨a, v1, rfl⟩
    have e : routeSegs i ((a :: v1) :: vs).length tail =
        .seq (.chr '/') (.seq (.group i (.seq (.rep 1 none (.cls true [.chr '/'])) .empty))
          (routeSegs (i + 1) vs.length tail)) := rfl
    rw [e, pathOfValues_cons, run_seq, run_chr]
    simp only [List.cons_append, stepChar_cons, beq_self_eq_true, if_true]
    rw [run_seq, run_group, run_seq_empty]
    have hshape : a :: (v1 ++ pathOfValues vs ++ more) = a :: (v1 ++ (pathOfValues vs ++ more)) := by
      simp
    rw [hshape, run_plus_cls true [.chr '/'] _ caps a v1 (pathOfValues vs ++ more) (idx + 1)
      (by rw [classTest_not_slash]; simpa using hv a (List.mem_cons_self _ _))
      (by intro b hb; rw [classTest_not_slash]; simpa using hv b (List.mem_cons_of_mem _ hb))
      (pathOfValues_tail vs more hmore)]
    apply greedy_full
    have ht : (a :: (v1 ++ (pathOfValues vs ++ more))).take (idx + 1 + 1 + v1.length - (idx + 1)) =
        a :: v1 := by
      have : idx + 1 + 1 + v1.length - (idx + 1) = v1.length + 1 := by omega
      rw [this, List.take_succ_cons, List.take_left]
    simp only [ht]
    apply ih (i + 1) _ _ (fun u hu => hvals u (List.mem_cons_of_mem _ hu))
    rw [← h]
    congr 2
    rw [pathOfValues_cons]
    simp only [List.length_append, List.length_cons]
    omega

theorem find_filter_other (i j : Nat) (h : j ≠ i) (caps : Caps) :
    (caps.filter fun p => p.1 != i).find? (fun p => p.1 == j) = caps.find? fun p => p.1 == j := by
  induction caps with
  | nil => rfl
  | cons p ps ih =>
    by_cases hp : p.1 = i
    · have hpj : (p.1 == j) = false := beq_eq_false_iff_ne.mpr (fun e => h (e.symm.trans hp))
      have hpi : (p.1 != i) = false := by simp [hp]
      rw [List.filter_cons, hpi, List.find?_cons, hpj]
      exact ih
    · have hpi : (p.1 != i) = true := by simpa using hp
      rw [List.filter_cons, hpi]
      simp only [if_true, List.find?_cons]
      cases hpj : (p.1 == j) with
      | true => rfl
      | false => exact ih

theorem getCap_setCap_other (i j : Nat) (v : Str) (caps : Caps) (h : j ≠ i) :
    getCap j (setCap i v caps) = getCap j caps := by
  unfold getCap setCap
  have hij : ((i, v).1 == j) = false := beq_eq_false_iff_ne.mpr (fun e => h e.symm)
  rw [List.find?_cons, hij, find_filter_other i j h]

theorem getCap_capsFrom (vals : List Str) : ∀ (i : Nat) (caps : Caps) (j : Nat),
    getCap j (capsFrom i vals caps) =
      if i ≤ j ∧ j < i + vals.length then vals.get? (j - i) else getCap j caps := by
  induction vals with
  | nil =>
    intro i caps j
    have : ¬ (i ≤ j ∧ j < i + ([] : List Str).length) := by simp
    rw [if_neg this]
    rfl
  | cons v vs ih =>
    intro i caps j
    have e : capsFrom i (v :: vs) caps = capsFrom (i + 1) vs (setCap i v caps) := rfl
    rw [e, ih]
    by_cases hj : j = i
    · subst hj
      have h1 : ¬ (j + 1 ≤ j ∧ j < j + 1 + vs.length) := by omega
      have h2 : j ≤ j ∧ j < j + (v :: vs).length := by simp
      rw [if_neg h1, if_pos h2, getCap_setCap_same]
      simp
    · rw [getCap_setCap_other _ _ _ _ hj]
      by_cases hin : i + 1 ≤ j ∧ j < i + 1 + vs.length
      · have h2 : i ≤ j ∧ j < i + (v :: vs).length := by simp; omega
        rw [if_pos hin, if_pos h2]
        have : j - i = (j - (i + 1)) + 1 := by omega
        rw [this]
        rfl
      · have h2 : ¬ (i ≤ j ∧ j < i + (v :: vs).length) := by simp; omega
        rw [if_neg hin, if_neg h2]


theorem route_exec (vals : List Str) (more : Str)
    (hvals : ∀ v ∈ vals, v ≠ [] ∧ ∀ a ∈ v, a ≠ '/')
    (hmore : ∀ b r2, more = b :: r2 → b = '/') :
    exec (.seq .bol (routeSegs 1 vals.length .empty)) (pathOfValues vals ++ more) =
      some ⟨0, pathOfValues vals, capsFrom 1 vals []⟩ := by
  unfold exec
  apply execFrom_of_execAt
  unfold execAt
  have hrun : (Regex.seq .bol (routeSegs 1 vals.length .empty)).run
      ⟨0, pathOfValues vals ++ more, []⟩ some =
      some ⟨0 + (pathOfValues vals).length, more, capsFrom 1 vals []⟩ := by
    rw [run_seq]
    have hb : ∀ (x : MState) (c : Cont), x.idx = 0 → Regex.bol.run x c = c x := by
      intro x c hx
      simp [Regex.run, hx]
    rw [hb _ _ rfl]
    exact routeSegs_run .empty some _ more hmore vals 1 0 [] hvals rfl
  rw [hrun]
  simp

theorem groups_routeSegs (tail : Regex) : ∀ (j i : Nat),
    (routeSegs i j tail).groups.length = j + tail.groups.length := by
  intro j
  induction j with
  | zero => intro i; simp [routeSegs]
  | succ j ih =>
    intro i
    simp only [routeSegs, Regex.groups, List.nil_append, List.append_nil, List.length_cons,
      List.cons_append, ih]
    omega

theorem take_nodup_not_mem (names : List Str) (hnd : names.Nodup) (j : Nat) (n : Str)
    (hj : names.get? j = some n) : n ∉ names.take j := by
  induction names generalizing j with
  | nil => simp at hj
  | cons a as ih =>
    cases j with
    | zero => simp
    | succ j =>
      rw [List.nodup_cons] at hnd
      simp only [List.get?_cons_succ] at hj
      rw [List.take_succ_cons, List.mem_cons, not_or]
      refine ⟨?_, ih hnd.2 j hj⟩
      rintro rfl
      exact hnd.1 (List.get?_mem hj)

theorem fillParams_zip (names vals : List Str) (m : Match) (hlen : names.length = vals.length)
    (hnd : names.Nodup) (hproto : PROTO ∉ names) (hcell : ∀ j, j < vals.length → m.cell (j + 1) = vals.get? j) :
    ∀ (count j : Nat), j + count = names.length →
      fillParams names m count (j + 1)
          (((names.zip vals).take j).map fun p => (p.1, JVal.str p.2)) =
        (names.zip vals).map fun p => (p.1, JVal.str p.2) := by
  intro count
  induction count with
  | zero =>
    intro j hj
    have : (names.zip vals).length ≤ j := by
      rw [List.length_zip]
      omega
    rw [List.take_of_length_le this]
    rfl
  | succ count ih =>
    intro j hj
    have hjn : j < names.length := by omega
    have hjv : j < vals.length := by omega
    have hn : names.get? j = some (names.get ⟨j, hjn⟩) := List.get?_eq_get hjn
    have hv : vals.get? j = some (vals.get ⟨j, hjv⟩) := List.get?_eq_get hjv
    have hz : (names.zip vals).get? j = some (names.get ⟨j, hjn⟩, vals.get ⟨j, hjv⟩) := by
      simp only [List.get?_eq_getElem?, List.getElem?_zip_eq_some]
      simp only [List.get?_eq_getElem?] at hn hv
      exact ⟨hn, hv⟩
    have hcv : m.cellVal (j + 1) = JVal.str (vals.get ⟨j, hjv⟩) := by
      unfold Match.cellVal
      rw [hcell j hjv, hv]
    have hown : hasOwnProperty (((names.zip vals).take j).map fun p => (p.1, JVal.str p.2))
        (names.get ⟨j, hjn⟩) = false := by
      rw [Bool.eq_false_iff, Ne, hasOwnProperty_iff_mem]
      have hk : ((((names.zip vals).take j).map fun p => (p.1, JVal.str p.2)).map Prod.fst) =
          names.take j := by
        rw [List.map_map]
        have : (Prod.fst ∘ fun p : Str × Str => (p.1, JVal.str p.2)) = Prod.fst := rfl
        rw [this, List.map_take, List.map_fst_zip]
        omega
      rw [hk]
      exact take_nodup_not_mem names hnd j _ hn
    unfold fillParams
    have hidx : j + 1 - 1 = j := by omega
    rw [hidx, hn, Option.getD_some, hcv]
    have hset : setProp (((names.zip vals).take j).map fun p => (p.1, JVal.str p.2))
        (names.get ⟨j, hjn⟩) (JVal.str (vals.get ⟨j, hjv⟩)) =
        ((names.zip vals).take (j + 1)).map fun p => (p.1, JVal.str p.2) := by
      unfold setProp
      rw [hown]
      have hnp : names.get ⟨j, hjn⟩ ≠ PROTO := fun e => hproto (e ▸ List.get_mem names j hjn)
      simp only [Bool.false_eq_true, if_false, hnp]
      rw [List.take_succ, ← List.get?_eq_getElem?, hz]
      simp
    rw [hset]
    exact ih (j + 1) (by omega)

theorem routeParams_route (names vals : List Str) (handleFunc : Handler) (method : Str)
    (hlen : names.length = vals.length) (hnd : names.Nodup) (hproto : PROTO ∉ names)
    (index : Nat) (text : Str) :
    routeParams ⟨method, handleFunc, .seq .bol (routeSegs 1 names.length .empty), names, 1⟩
        ⟨index, text, capsFrom 1 vals []⟩ =
      (names.zip vals).map fun p => (p.1, JVal.str p.2) := by
  unfold routeParams
  have hg : (Regex.seq .bol (routeSegs 1 names.length .empty)).groups.length = names.length := by
    simp [Regex.groups, groups_routeSegs]
  simp only [hg]
  have hc : names.length + 1 - 1 = names.length := by omega
  rw [hc]
  refine fillParams_zip names vals _ hlen hnd hproto ?_ names.length 0 (by omega)
  intro j hj
  unfold Match.cell
  simp only
  rw [getCap_capsFrom]
  have : 1 ≤ j + 1 ∧ j + 1 < 1 + vals.length := by omega
  rw [if_pos this]
  simp

theorem next_of_first_accepting (extname : Str → Str) (handlers : List RequestHandlerObj)
    (req : HttpRequest) (fuel : Nat) (t : Turn) (i : Nat) (h : RequestHandlerObj) (m : Match)
    (hci : t.curHandler ≤ i) (hget : handlers.get? i = some h)
    (hmeth : h.method = ALL ∨ h.method = req.method)
    (hm : exec h.routeRegex req.path = some m)
    (hmin : ∀ j h2, t.curHandler ≤ j → j < i → handlers.get? j = some h2 → ¬ accepts h2 req) :
    next extname handlers req (fuel + 1) t =
      afterHandler (runActions extname (next extname handlers req fuel)
        (h.handle { req with params := routeParams h m })
        { t with params := routeParams h m, curHandler := i + 1,
                 invoked := t.invoked ++ [i] }) := by
  have hscan : scan req.method req.path (handlers.drop t.curHandler) t.curHandler =
      some (i, h, m) := by
    rw [scan_some_iff]
    refine ⟨hci, ?_, hmeth, hm, ?_⟩
    · rw [get?_drop_sub _ _ _ hci]
      exact hget
    · intro j h2 hcj hji hg
      rw [get?_drop_sub _ _ _ hcj] at hg
      exact hmin j h2 hcj hji hg
  unfold next
  rw [hscan]
  rfl


/-- C9 (amended): for every route `/:n1/.../:nk` with distinct parameter
    names (names without `/`) other than `__proto__` and every path
    `/v1/.../vk`, alone or followed by `/` and
    further text, where each `vi` is non-empty and without `/`: the
    registration built from the route matches the path (from its start, the
    match being `/v1/.../vk`), and when the continuation invokes its handler,
    the request the handler gets has the params mapping
    `{n1: v1, ..., nk: vk}` exactly, whatever the params mapping held before
    (`t.params`, `req.params`).  Moreover, when the continuation invokes the
    handler of a registration whose pattern has no capturing group (a route
    without parameters), the params mapping is empty, whatever it held
    before. -/
theorem route_params_exact (names vals : List Str) (more : Str) (handleFunc : Handler)
    (method : Str)
    (hnames : ∀ n ∈ names, ∀ a ∈ n, a ≠ '/') (hnd : names.Nodup) (hproto : PROTO ∉ names)
    (hlen : names.length = vals.length)
    (hvals : ∀ v ∈ vals, v ≠ [] ∧ ∀ a ∈ v, a ≠ '/')
    (hmore : more = [] ∨ ∃ r, more = '/' :: r) :
    (∃ h m, requestHandlerObj (routeOf names) handleFunc method = some h ∧
      h.method = method ∧ h.handle = handleFunc ∧
      exec h.routeRegex (pathOfValues vals ++ more) = some m ∧
      m.index = 0 ∧ m.text = pathOfValues vals ∧
      routeParams h m = (names.zip vals).map (fun p => (p.1, JVal.str p.2)) ∧
      ∀ (extname : Str → Str) (handlers : List RequestHandlerObj) (req : HttpRequest)
        (fuel : Nat) (t : Turn) (i : Nat),
        req.path = pathOfValues vals ++ more →
        (method = ALL ∨ method = req.method) →
        t.curHandler ≤ i → handlers.get? i = some h →
        (∀ j h2, t.curHandler ≤ j → j < i → handlers.get? j = some h2 → ¬ accepts h2 req) →
        next extname handlers req (fuel + 1) t =
          afterHandler (runActions extname (next extname handlers req fuel)
            (handleFunc
              { req with params := (names.zip vals).map (fun p => (p.1, JVal.str p.2)) })
            { t with params := (names.zip vals).map (fun p => (p.1, JVal.str p.2)),
                     curHandler := i + 1, invoked := t.invoked ++ [i] })) ∧
    (∀ (extname : Str → Str) (handlers : List RequestHandlerObj) (req : HttpRequest)
        (fuel : Nat) (t : Turn) (i : Nat) (h2 : RequestHandlerObj) (m2 : Match),
        h2.routeRegex.groups = [] → h2.firstMatchIndex = 1 →
        t.curHandler ≤ i → handlers.get? i = some h2 →
        (h2.method = ALL ∨ h2.method = req.method) →
        exec h2.routeRegex req.path = some m2 →
        (∀ j h3, t.curHandler ≤ j → j < i → handlers.get? j = some h3 → ¬ accepts h3 req) →
        next extname handlers req (fuel + 1) t =
          afterHandler (runActions extname (next extname handlers req fuel)
            (h2.handle { req with params := [] })
            { t with params := [], curHandler := i + 1, invoked := t.invoked ++ [i] })) := by
  have hmore2 : ∀ b r2, more = b :: r2 → b = '/' := by
    intro b r2 hb
    rcases hmore with rfl | ⟨r, rfl⟩
    · cases hb
    · exact (List.cons.inj hb).1.symm
  constructor
  · refine ⟨⟨method, handleFunc, .seq .bol (routeSegs 1 names.length .empty), names, 1⟩,
      ⟨0, pathOfValues vals, capsFrom 1 vals []⟩,
      requestHandlerObj_route names hnames handleFunc method, rfl, rfl, ?_, rfl, rfl,
      routeParams_route names vals handleFunc method hlen hnd hproto 0 _, ?_⟩
    · rw [hlen]
      exact route_exec vals more hvals hmore2
    · intro extname handlers req fuel t i hpath hmeth hci hget hmin
      have hex : exec (Regex.seq .bol (routeSegs 1 names.length .empty)) req.path =
          some ⟨0, pathOfValues vals, capsFrom 1 vals []⟩ := by
        rw [hpath, hlen]
        exact route_exec vals more hvals hmore2
      have key := next_of_first_accepting extname handlers req fuel t i _ _ hci hget hmeth
        hex hmin
      rw [routeParams_route names vals handleFunc method hlen hnd hproto 0 _] at key
      exact key
  · intro extname handlers req fuel t i h2 m2 hg hf hci hget hmeth hex hmin
    have key := next_of_first_accepting extname handlers req fuel t i h2 m2 hci hget hmeth
      hex hmin
    have hp : routeParams h2 m2 = [] := by
      unfold routeParams
      rw [hg, hf]
      rfl
    rw [hp] at key
    exact key

theorem route_params_exact_witness :
    ∃ h m, requestHandlerObj "/:id/:name".toList (fun _ => []) "GET".toList = some h ∧
      exec h.routeRegex "/42/bob/zz".toList = some m ∧
      m.text = "/42/bob".toList ∧
      routeParams h m =
        [("id".toList, JVal.str "42".toList), ("name".toList, JVal.str "bob".toList)] := by
  obtain ⟨h, m, h1, _, _, h4, _, h6, h7, _⟩ :=
    (route_params_exact ["id".toList, "name".toList] ["42".toList, "bob".toList] "/zz".toList
      (fun _ => []) "GET".toList (by decide) (by decide) (by decide) rfl (by decide)
      (Or.inr ⟨"zz".toList, rfl⟩)).1
  exact ⟨h, m, h1, h4, h6, h7⟩

/-- C9 (the claim as stated fails): for the route `/:__proto__` and the path
    `/42` the registration is built with the parameter name `__proto__`, its
    pattern matches the path with `42` in the first cell, and the params
    mapping the handler gets holds no entry, where the claim has
    `{__proto__: '42'}`: assigning to `__proto__` creates no property of a
    mapping. -/
theorem route_param_named_proto_is_lost :
    ((requestHandlerObj "/:__proto__".toList (fun _ => []) "GET".toList).map
        fun o => o.params) = some ["__proto__".toList] ∧
    ((requestHandlerObj "/:__proto__".toList (fun _ => []) "GET".toList).bind
        fun o => (exec o.routeRegex "/42".toList).map
          fun m => (m.text, m.cellStr 1, routeParams o m)) =
      some ("/42".toList, "42".toList, []) := by
  refine ⟨by decide!, by rfl⟩


/-! ## Chunk boundaries -/

theorem onDataBuffer_of_not_guard (ext : Ext) (st : Reader) (data : Bytes)
    (h : ¬ guardFires st data) :
    onDataBuffer ext st data = feedChars ext st (utf8Decode data) := by
  unfold onDataBuffer
  rw [if_neg h]

/-- C31 (amended): for every reader state and all chunks of bytes `a` and
    `b` such that the size guard fires neither when `a` is fed, nor when `b`
    is fed after it, nor when `a ++ b` is fed as one chunk, and such that
    `a` does not end inside a character of several bytes: feeding `a` and
    then `b` gives the same sequence of callback invocations and the same
    framing state (phase flags, line buffer, accumulated text, expected body
    length) as feeding the one chunk `a ++ b`; both are what the
    per-character function gives on the text of `a` followed by the text of
    `b`. -/
theorem chunk_boundary_independent (ext : Ext) (st : Reader) (a b : Bytes)
    (ha : ¬ guardFires st a) (hb : ¬ guardFires (onDataBuffer ext st a).1 b)
    (hab : ¬ guardFires st (a ++ b)) (hcut : utf8Cut a = false) :
    feedBuffers ext st [a, b] = feedBuffers ext st [a ++ b] ∧
    feedBuffers ext st [a ++ b] = feedChars ext st (utf8Decode a ++ utf8Decode b) := by
  have h1 : feedBuffers ext st [a ++ b] = feedChars ext st (utf8Decode a ++ utf8Decode b) := by
    simp only [feedBuffers, List.append_nil]
    rw [onDataBuffer_of_not_guard ext st (a ++ b) hab, utf8Decode_append a b hcut]
  refine ⟨?_, h1⟩
  rw [h1, feedChars_append]
  have e : feedBuffers ext st [a, b] =
      ((onDataBuffer ext (onDataBuffer ext st a).1 b).1,
        (onDataBuffer ext st a).2 ++ (onDataBuffer ext (onDataBuffer ext st a).1 b).2) := by
    simp only [feedBuffers, List.append_nil]
  rw [e, onDataBuffer_of_not_guard ext _ b hb, onDataBuffer_of_not_guard ext st a ha]

theorem chunk_boundary_independent_witness :
    feedBuffers sampleExt init
        [asciiBytes "GET /".toList ++ [0xC3, 0xA9], asciiBytes " HTTP/1.0\r\n\r\n".toList] =
      feedBuffers sampleExt init
        [(asciiBytes "GET /".toList ++ [0xC3, 0xA9]) ++ asciiBytes " HTTP/1.0\r\n\r\n".toList] :=
  (chunk_boundary_independent sampleExt init (asciiBytes "GET /".toList ++ [0xC3, 0xA9])
    (asciiBytes " HTTP/1.0\r\n\r\n".toList) (by decide) (by decide!) (by decide) (by decide)).1

/-- C31 (the claim as stated fails): the two bytes of the character `é`
    fed as the chunks `C3` and `A9` leave two replacement characters in the
    line buffer, and fed as the one chunk `C3 A9` they leave the character
    `é`; the size guard fires in neither case. -/
theorem chunk_boundary_inside_character :
    ¬ guardFires init [0xC3] ∧ ¬ guardFires (onDataBuffer sampleExt init [0xC3]).1 [0xA9] ∧
    ¬ guardFires init ([0xC3] ++ [0xA9]) ∧
    (feedBuffers sampleExt init [[0xC3], [0xA9]]).1 =
      { init with lineBuffer := [REPLACEMENT, REPLACEMENT] } ∧
    (feedBuffers sampleExt init [[0xC3] ++ [0xA9]]).1 = { init with lineBuffer := ['é'] } := by
  refine ⟨by decide, by decide!, by decide, by decide!, by decide!⟩

/-! ## A request line while reading headers -/

theorem feed_request_line_any (ext : Ext) (st : Reader) (l e : Str) (m : Match)
    (hb : st.isInSideBody = false) (hlb : st.lineBuffer = [])
    (hl : ∀ c ∈ l, c ≠ '\n' ∧ c ≠ '\r') (he : IsLineEnd e)
    (hm : isRequestLineValid l = some m) :
    feedChars ext st (l ++ e) =
      ({ st with isInSideRequest := true, requestStr := m.text ++ ['\n'], lineBuffer := [] }, []) := by
  obtain ⟨pre, rfl, hpre⟩ := lineEnd_split e he
  have hne : l ≠ [] := by
    intro h
    have := isRequestLineValid_text_ge l m hm
    rw [h] at this
    simp at this
  obtain ⟨a, tl, ha, ha1, ha2⟩ := PlainLine.head ⟨hne, hl⟩
  rw [← List.append_assoc, feedChars_append]
  have hplain : ∀ c ∈ l ++ pre, c ≠ '\n' := by
    intro c hc
    rcases List.mem_append.mp hc with h | h
    · exact (hl c h).1
    · rcases hpre with rfl | rfl
      · cases h
      · rw [List.mem_singleton.mp h]; decide
  rw [feedChars_plain ext (l ++ pre) st hb hplain (by
    intro _ q hq hpre2
    rw [hlb, List.nil_append]
    obtain ⟨t, ht⟩ := hpre2
    cases q with
    | nil => exact absurd rfl hq
    | cons b q2 =>
      rw [ha] at ht
      simp only [List.cons_append, List.cons.injEq] at ht
      rw [ht.1]
      exact delimLen_plain a _ ha1 ha2)]
  simp only [feedChars_singleton, List.nil_append]
  rw [charStep_request_line ext { st with lineBuffer := st.lineBuffer ++ (l ++ pre) } l pre m hb
    (by simp [hlb]) hl he hm]

theorem feedChars_body_part (ext : Ext) (w : Str) : ∀ st : Reader,
    st.isInSideRequest = true → st.isInSideBody = true →
    st.lineBuffer.length + w.length < st.lengthOfBody →
    feedChars ext st w = ({ st with lineBuffer := st.lineBuffer ++ w }, []) := by
  induction w with
  | nil => intro st _ _ _; simp [feedChars]
  | cons c cs ih =>
    intro st hr hb hlen
    have hl : lineStep st c = { st with lineBuffer := st.lineBuffer ++ [c] } := by
      unfold lineStep
      simp [hb]
    have hstep : charStep ext st c = ({ st with lineBuffer := st.lineBuffer ++ [c] }, []) := by
      unfold charStep
      rw [hl]
      unfold bodyStep
      simp only [List.length_cons] at hlen
      have : ¬ (st.lineBuffer.length + 1 = st.lengthOfBody) := by omega
      simp [hr, hb, this]
    have e : feedChars ext st (c :: cs) =
        ((feedChars ext (charStep ext st c).1 cs).1,
         (charStep ext st c).2 ++ (feedChars ext (charStep ext st c).1 cs).2) := rfl
    rw [e, hstep]
    simp only
    rw [ih { st with lineBuffer := st.lineBuffer ++ [c] } hr hb
      (by simp only [List.length_append, List.length_cons, List.length_nil] at hlen ⊢; omega)]
    simp

theorem expectedLength_append (a b : List (Str × Str)) : ∀ n : Nat,
    expectedLength n (a ++ b) = expectedLength (expectedLength n a) b := by
  induction a with
  | nil => intro n; rfl
  | cons p ps ih =>
    intro n
    have e : expectedLength n (p :: ps ++ b) =
        expectedLength ((contentLengthCheck (p.1 ++ p.2)).getD n) (ps ++ b) := rfl
    rw [e, ih]
    rfl

theorem expectedLength_none (hdrs : List (Str × Str))
    (h : ∀ p ∈ hdrs, contentLengthCheck (p.1 ++ p.2) = none) : ∀ n : Nat,
    expectedLength n hdrs = n := by
  induction hdrs with
  | nil => intro n; rfl
  | cons p ps ih =>
    intro n
    simp only [expectedLength, h p (List.mem_cons_self _ _), Option.getD_none]
    exact ih (fun q hq => h q (List.mem_cons_of_mem _ hq)) n

/-- From a reader that is reading headers (or idle) with an empty line
    buffer: a request line, header lines, a blank line and body text. -/
theorem feed_frame_from (ext : Ext) (st : Reader) (l e0 : Str) (m : Match)
    (hdrs : List (Str × Str)) (blank body : Str)
    (hb : st.isInSideBody = false) (hlb : st.lineBuffer = [])
    (hl : ∀ c ∈ l, c ≠ '\n' ∧ c ≠ '\r') (he0 : IsLineEnd e0)
    (hm : isRequestLineValid l = some m)
    (hall : ∀ p ∈ hdrs, HeaderLineOK p) (hblank : IsLineEnd blank) :
    (body.length < expectedLength st.lengthOfBody hdrs →
      feedChars ext st (l ++ e0 ++ headerText hdrs ++ blank ++ body) =
        (⟨true, true, body, m.text ++ ['\n'] ++ headerText hdrs ++ blank,
          expectedLength st.lengthOfBody hdrs⟩, [])) ∧
    (body.length = expectedLength st.lengthOfBody hdrs →
      feedChars ext st (l ++ e0 ++ headerText hdrs ++ blank ++ body) =
        (init, [tryParse ext (m.text ++ ['\n'] ++ headerText hdrs ++ blank ++ body)])) := by
  have h1 := feed_request_line_any ext st l e0 m hb hlb hl he0 hm
  have h2 := feed_headers ext hdrs
    { st with isInSideRequest := true, requestStr := m.text ++ ['\n'], lineBuffer := [] }
    rfl hb rfl hall
  have h3 := feed_blank_line ext
    { st with isInSideRequest := true,
              requestStr := (m.text ++ ['\n']) ++ headerText hdrs,
              lineBuffer := [],
              lengthOfBody := expectedLength st.lengthOfBody hdrs }
    blank rfl hb rfl hblank
  have e : l ++ e0 ++ headerText hdrs ++ blank ++ body =
      (l ++ e0) ++ (headerText hdrs ++ (blank ++ body)) := by
    simp [List.append_assoc]
  have hpre : feedChars ext st (l ++ e0 ++ headerText hdrs ++ blank ++ body) =
      ((feedChars ext (feedChars ext
          { st with isInSideRequest := true,
                    requestStr := (m.text ++ ['\n']) ++ headerText hdrs,
                    lineBuffer := [],
                    lengthOfBody := expectedLength st.lengthOfBody hdrs } blank).1 body).1,
       (feedChars ext
          { st with isInSideRequest := true,
                    requestStr := (m.text ++ ['\n']) ++ headerText hdrs,
                    lineBuffer := [],
                    lengthOfBody := expectedLength st.lengthOfBody hdrs } blank).2 ++
        (feedChars ext (feedChars ext
          { st with isInSideRequest := true,
                    requestStr := (m.text ++ ['\n']) ++ headerText hdrs,
                    lineBuffer := [],
                    lengthOfBody := expectedLength st.lengthOfBody hdrs } blank).1 body).2) := by
    rw [e, feedChars_append, h1]
    simp only
    rw [feedChars_append, h2]
    simp only
    rw [feedChars_append]
    simp
  rw [hpre, h3]
  constructor
  · intro hlt
    have hn : ¬ expectedLength st.lengthOfBody hdrs = 0 := by omega
    simp only [hn, if_false]
    rw [feedChars_body_part ext body _ rfl rfl (by simpa using hlt)]
    simp [hb]
  · intro hbody
    by_cases hn : expectedLength st.lengthOfBody hdrs = 0
    · simp only [hn, if_true]
      have hb0 : body = [] := List.length_eq_zero.mp (hbody.trans hn)
      subst hb0
      simp [feedChars, List.append_assoc]
    · simp only [hn, if_false]
      have hne : body ≠ [] := by
        intro h
        rw [h] at hbody
        exact hn hbody.symm
      rw [feedChars_body ext body _ rfl rfl hne (by simpa using hbody)]
      simp [List.append_assoc]


/-- C32: a request line that arrives while the reader is reading headers
    restarts the accumulated text with that line and leaves the expected
    body length unchanged (at the line-feed step of the per-character
    function, and for a whole line fed to a reader with an empty line
    buffer).  Hence a frame fed to a reader that is reading headers with
    expected body length `n`, whose own header lines hold no content length,
    delivers nothing while fewer than `n` body characters have arrived and
    is delivered (alone, without the text before its request line) with the
    `n`-th body character.  From the initial state: after a request line
    and header lines `hdrs1`, a second request line with header lines
    `hdrs2`, a blank line and a body is delivered exactly when the body has
    as many characters as the last content length of `hdrs1 ++ hdrs2` says,
    which is the last one of `hdrs1` when `hdrs2` holds none. -/
theorem restarted_frame_keeps_body_length (ext : Ext) :
    (∀ (st : Reader) (m : Match), st.isInSideBody = false →
      isRequestLineValid (slice (st.lineBuffer ++ ['\n']) 0
        (search lineDelimiterRegex (st.lineBuffer ++ ['\n']))) = some m →
      lineStep st '\n' =
        { st with isInSideRequest := true, requestStr := m.text ++ ['\n'], lineBuffer := [] }) ∧
    (∀ (st : Reader) (l e : Str) (m : Match),
      st.isInSideRequest = true → st.isInSideBody = false → st.lineBuffer = [] →
      (∀ c ∈ l, c ≠ '\n' ∧ c ≠ '\r') → IsLineEnd e → isRequestLineValid l = some m →
      feedChars ext st (l ++ e) = (⟨true, false, [], m.text ++ ['\n'], st.lengthOfBody⟩, [])) ∧
    (∀ (st : Reader) (l e : Str) (m : Match) (hdrs : List (Str × Str)) (blank body : Str),
      st.isInSideRequest = true → st.isInSideBody = false → st.lineBuffer = [] →
      (∀ c ∈ l, c ≠ '\n' ∧ c ≠ '\r') → IsLineEnd e → isRequestLineValid l = some m →
      (∀ p ∈ hdrs, HeaderLineOK p) → IsLineEnd blank →
      (∀ p ∈ hdrs, contentLengthCheck (p.1 ++ p.2) = none) →
      (body.length < st.lengthOfBody →
        feedChars ext st (l ++ e ++ headerText hdrs ++ blank ++ body) =
          (⟨true, true, body, m.text ++ ['\n'] ++ headerText hdrs ++ blank, st.lengthOfBody⟩,
            [])) ∧
      (body.length = st.lengthOfBody →
        feedChars ext st (l ++ e ++ headerText hdrs ++ blank ++ body) =
          (init, [tryParse ext (m.text ++ ['\n'] ++ headerText hdrs ++ blank ++ body)]))) ∧
    (∀ (l1 e1 : Str) (m1 : Match) (hdrs1 : List (Str × Str)) (l2 e2 : Str) (m2 : Match)
      (hdrs2 : List (Str × Str)) (blank body : Str),
      (∀ c ∈ l1, c ≠ '\n' ∧ c ≠ '\r') → IsLineEnd e1 → isRequestLineValid l1 = some m1 →
      (∀ p ∈ hdrs1, HeaderLineOK p) →
      (∀ c ∈ l2, c ≠ '\n' ∧ c ≠ '\r') → IsLineEnd e2 → isRequestLineValid l2 = some m2 →
      (∀ p ∈ hdrs2, HeaderLineOK p) → IsLineEnd blank →
      (body.length < expectedLength 0 (hdrs1 ++ hdrs2) →
        (feedChars ext init (l1 ++ e1 ++ headerText hdrs1 ++
          (l2 ++ e2 ++ headerText hdrs2 ++ blank ++ body))).2 = []) ∧
      (body.length = expectedLength 0 (hdrs1 ++ hdrs2) →
        feedChars ext init (l1 ++ e1 ++ headerText hdrs1 ++
            (l2 ++ e2 ++ headerText hdrs2 ++ blank ++ body)) =
          (init, [tryParse ext (m2.text ++ ['\n'] ++ headerText hdrs2 ++ blank ++ body)])) ∧
      ((∀ p ∈ hdrs2, contentLengthCheck (p.1 ++ p.2) = none) →
        expectedLength 0 (hdrs1 ++ hdrs2) = expectedLength 0 hdrs1)) := by
  refine ⟨?_, ?_, ?_, ?_⟩
  · intro st m hb hm
    unfold lineStep
    simp only [hb, LINE_DELIMITER, and_self, if_true, hm]
  · intro st l e m hr hb hlb hl he hm
    rw [feed_request_line_any ext st l e m hb hlb hl he hm]
    cases st
    simp only at hr hb hlb
    simp [hb]
  · intro st l e m hdrs blank body _ hb hlb hl he hm hall hblank hnone
    have key := feed_frame_from ext st l e m hdrs blank body hb hlb hl he hm hall hblank
    rw [expectedLength_none hdrs hnone] at key
    exact key
  · intro l1 e1 m1 hdrs1 l2 e2 m2 hdrs2 blank body hl1 he1 hm1 hall1 hl2 he2 hm2 hall2 hblank
    have h1 := feed_request_line_any ext init l1 e1 m1 rfl rfl hl1 he1 hm1
    have h2 := feed_headers ext hdrs1
      { init with isInSideRequest := true, requestStr := m1.text ++ ['\n'], lineBuffer := [] }
      rfl rfl rfl hall1
    have key := feed_frame_from ext
      { init with isInSideRequest := true, requestStr := (m1.text ++ ['\n']) ++ headerText hdrs1,
                  lineBuffer := [], lengthOfBody := expectedLength 0 hdrs1 }
      l2 e2 m2 hdrs2 blank body rfl rfl hl2 he2 hm2 hall2 hblank
    simp only [← expectedLength_append] at key
    have hpre : feedChars ext init (l1 ++ e1 ++ headerText hdrs1 ++
          (l2 ++ e2 ++ headerText hdrs2 ++ blank ++ body)) =
        feedChars ext
          { init with isInSideRequest := true,
                      requestStr := (m1.text ++ ['\n']) ++ headerText hdrs1,
                      lineBuffer := [], lengthOfBody := expectedLength 0 hdrs1 }
          (l2 ++ e2 ++ headerText hdrs2 ++ blank ++ body) := by
      rw [List.append_assoc (l1 ++ e1), feedChars_append, h1]
      simp only
      rw [feedChars_append, h2]
      simp only [List.nil_append]
      rfl
    rw [hpre]
    refine ⟨fun hlt => ?_, key.2, fun hnone => ?_⟩
    · rw [key.1 hlt]
    · rw [expectedLength_append, expectedLength_none hdrs2 hnone]

theorem restarted_frame_keeps_body_length_witness :
    feedChars sampleExt init
        ("GET /a HTTP/1.0".toList ++ "\r\n".toList ++
          headerText [("Content-Length: 3".toList, "\r\n".toList)] ++
          ("GET /b HTTP/1.0".toList ++ "\r\n".toList ++
            headerText [("Accept: text/html".toList, "\r\n".toList)] ++ "\r\n".toList ++
            "abc".toList)) =
      (init, [tryParse sampleExt
        ("GET /b HTTP/1.0".toList ++ ['\n'] ++
          headerText [("Accept: text/html".toList, "\r\n".toList)] ++ "\r\n".toList ++
          "abc".toList)]) :=
  ((restarted_frame_keeps_body_length sampleExt).2.2.2
    "GET /a HTTP/1.0".toList "\r\n".toList
    ⟨0, "GET /a HTTP/1.0".toList, [(3, "1.0".toList), (2, "/a".toList), (1, "GET".toList)]⟩
    [("Content-Length: 3".toList, "\r\n".toList)]
    "GET /b HTTP/1.0".toList "\r\n".toList
    ⟨0, "GET /b HTTP/1.0".toList, [(3, "1.0".toList), (2, "/b".toList), (1, "GET".toList)]⟩
    [("Accept: text/html".toList, "\r\n".toList)] "\r\n".toList "abc".toList
    (by decide) (Or.inr rfl) (by decide!)
    (by
      intro p hp
      simp only [List.mem_singleton] at hp
      subst hp
      exact ⟨⟨by decide, by decide⟩, Or.inr rfl, by decide!, by decide!⟩)
    (by decide) (Or.inr rfl) (by decide!)
    (by
      intro p hp
      simp only [List.mem_singleton] at hp
      subst hp
      exact ⟨⟨by decide, by decide⟩, Or.inr rfl, by decide!, by decide!⟩)
    (Or.inr rfl)).2.1 (by decide!)


/-! ## What the reader delivers -/

theorem versions_getProp (V : Str) (required : List Str)
    (h : getProp HTTP_VERSIONS V = some required) :
    (V = "1.0".toList ∧ required = []) ∨ (V = "1.1".toList ∧ required = ["host".toList]) := by
  unfold getProp HTTP_VERSIONS at h
  by_cases h0 : "1.0".toList = V
  · left
    simp only [List.find?, h0, beq_self_eq_true, Option.map_some'] at h
    exact ⟨h0.symm, (Option.some.inj h).symm⟩
  · by_cases h1 : "1.1".toList = V
    · right
      have hb0 : ("1.0".toList == V) = false := beq_eq_false_iff_ne.mpr h0
      simp only [List.find?, hb0, h1, beq_self_eq_true, Option.map_some'] at h
      exact ⟨h1.symm, (Option.some.inj h).symm⟩
    · have hb0 : ("1.0".toList == V) = false := beq_eq_false_iff_ne.mpr h0
      have hb1 : ("1.1".toList == V) = false := beq_eq_false_iff_ne.mpr h1
      simp only [List.find?, hb0, hb1, Option.map_none'] at h
      cases h

theorem versions_getProp_none (V : Str) (h0 : V ≠ "1.0".toList) (h1 : V ≠ "1.1".toList) :
    getProp HTTP_VERSIONS V = none := by
  cases h : getProp HTTP_VERSIONS V with
  | none => rfl
  | some required =>
    rcases versions_getProp V required h with ⟨hv, _⟩ | ⟨hv, _⟩
    · exact absurd hv h0
    · exact absurd hv h1

theorem addHeaders_ok_version (V : Str) (lines : List Str) (n : Nat) (headers : Obj)
    (h : addHeaders V lines n = .ok headers) :
    (V = "1.0".toList ∨ V = "1.1".toList) ∧
    (V = "1.1".toList → hasOwnProperty headers "host".toList = true) := by
  unfold addHeaders at h
  cases hl : addHeaderLines (lines.drop n) [] with
  | error e => rw [hl] at h; cases h
  | ok hs =>
    rw [hl] at h
    simp only at h
    cases hg : getProp HTTP_VERSIONS V with
    | none => rw [hg] at h; cases h
    | some required =>
      rw [hg] at h
      simp only at h
      cases hc : checkRequired V hs required with
      | error e => rw [hc] at h; cases h
      | ok u =>
        rw [hc] at h
        simp only at h
        have hhs : hs = headers := Except.ok.inj h
        subst hhs
        rcases versions_getProp V required hg with ⟨hv, _⟩ | ⟨hv, hreq⟩
        · refine ⟨Or.inl hv, ?_⟩
          intro hv1
          rw [hv] at hv1
          exact absurd hv1 (by decide)
        · refine ⟨Or.inr hv, fun _ => ?_⟩
          rw [hreq] at hc
          unfold checkRequired at hc
          cases hown : hasOwnProperty hs "host".toList with
          | true => rfl
          | false =>
            rw [hown] at hc
            simp at hc

theorem addHeaders_bad_version (V : Str) (lines : List Str) (n : Nat)
    (h0 : V ≠ "1.0".toList) (h1 : V ≠ "1.1".toList) :
    ∃ e, addHeaders V lines n = .error e := by
  cases h : addHeaders V lines n with
  | error e => exact ⟨e, rfl⟩
  | ok headers =>
    rcases (addHeaders_ok_version V lines n headers h).1 with hv | hv
    · exact absurd hv h0
    · exact absurd hv h1

theorem httpRequest_ok_supported (ext : Ext) (lines : List Str) (body : Str) (r : HttpRequest)
    (h : httpRequest ext lines body = .ok r) :
    r.method ∈ REQUEST_METHODS ∧ (r.httpVer = "1.0".toList ∨ r.httpVer = "1.1".toList) ∧
    (r.httpVer = "1.1".toList → hasOwnProperty r.headers "host".toList = true) := by
  cases hm : exec REQUEST_LINE_REGEX (lines.head?.getD "undefined".toList) with
  | none =>
    unfold httpRequest at h
    rw [hm] at h
    cases h
  | some m =>
    obtain ⟨h1, h2⟩ := httpRequest_of_line ext lines body m hm
    cases ha : addHeaders (m.cellStr 3) lines 1 with
    | error e =>
      rw [h1 e ha] at h
      cases h
    | ok headers =>
      obtain ⟨req, hreq, hh, hv, hmeth⟩ := h2 headers ha
      rw [hreq] at h
      have hr : req = r := Except.ok.inj h
      subst hr
      obtain ⟨hver, hhost⟩ := addHeaders_ok_version _ _ _ _ ha
      obtain ⟨pre, M, T, c1, d, _, hM, _, _, _, hmm⟩ := request_line_match _ m hm
      refine ⟨?_, ?_, ?_⟩
      · rw [hmeth, hmm]
        exact hM
      · rw [hv]
        exact hver
      · rw [hv, hh]
        exact hhost

theorem parse_ok_supported (ext : Ext) (s : Str) (r : HttpRequest)
    (h : parse ext s = .ok r) :
    r.method ∈ REQUEST_METHODS ∧ (r.httpVer = "1.0".toList ∨ r.httpVer = "1.1".toList) ∧
    (r.httpVer = "1.1".toList → hasOwnProperty r.headers "host".toList = true) := by
  unfold parse at h
  cases hb : exec BODY_DELIMITER_REGEX s with
  | none => rw [hb] at h; cases h
  | some bodyMatch =>
    rw [hb] at h
    exact httpRequest_ok_supported ext _ _ r h

theorem tryParse_cases (ext : Ext) (s : Str) :
    tryParse ext s = .error BAD_REQUEST ∨
    ∃ r, tryParse ext s = .request r ∧ parse ext s = .ok r := by
  unfold tryParse
  cases h : parse ext s with
  | error e => exact Or.inl rfl
  | ok r => exact Or.inr ⟨r, rfl, rfl⟩

/-- An object handed to the callback by the data handler. -/
theorem bodyStep_delivers (ext : Ext) (st : Reader) (o : ReqObj)
    (h : o ∈ (bodyStep ext st).2) : ∃ s, o = tryParse ext s := by
  unfold bodyStep at h
  simp only at h
  split_ifs at h <;> first
    | exact ⟨_, List.mem_singleton.mp h⟩
    | exact absurd h (List.not_mem_nil _)

theorem feedChars_delivers (ext : Ext) (w : Str) : ∀ (st : Reader) (o : ReqObj),
    o ∈ (feedChars ext st w).2 → ∃ s, o = tryParse ext s := by
  induction w with
  | nil => intro st o h; cases h
  | cons c cs ih =>
    intro st o h
    have e : (feedChars ext st (c :: cs)).2 =
        (charStep ext st c).2 ++ (feedChars ext (charStep ext st c).1 cs).2 := rfl
    rw [e, List.mem_append] at h
    rcases h with h | h
    · exact bodyStep_delivers ext _ o h
    · exact ih _ o h

theorem onData_delivers (ext : Ext) (st : Reader) (data : Str) (o : ReqObj)
    (h : o ∈ (onData ext st data).2) : o = .error URI_TOO_LONG ∨ ∃ s, o = tryParse ext s := by
  unfold onData at h
  split at h
  · simp only [List.mem_singleton] at h
    exact Or.inl h
  · exact Or.inr (feedChars_delivers ext data st o h)

theorem onDataBuffer_delivers (ext : Ext) (st : Reader) (data : Bytes) (o : ReqObj)
    (h : o ∈ (onDataBuffer ext st data).2) :
    o = .error URI_TOO_LONG ∨ ∃ s, o = tryParse ext s := by
  unfold onDataBuffer at h
  split at h
  · simp only [List.mem_singleton] at h
    exact Or.inl h
  · exact Or.inr (feedChars_delivers ext _ st o h)

theorem feedBuffers_delivers (ext : Ext) (bufs : List Bytes) : ∀ (st : Reader) (o : ReqObj),
    o ∈ (feedBuffers ext st bufs).2 → o = .error URI_TOO_LONG ∨ ∃ s, o = tryParse ext s := by
  induction bufs with
  | nil => intro st o h; cases h
  | cons d ds ih =>
    intro st o h
    have e : (feedBuffers ext st (d :: ds)).2 =
        (onDataBuffer ext st d).2 ++ (feedBuffers ext (onDataBuffer ext st d).1 ds).2 := rfl
    rw [e, List.mem_append] at h
    rcases h with h | h
    · exact onDataBuffer_delivers ext st d o h
    · exact ih _ o h

theorem feedChunks_delivers (ext : Ext) (chunks : List Str) : ∀ (st : Reader) (o : ReqObj),
    o ∈ (feedChunks ext st chunks).2 → o = .error URI_TOO_LONG ∨ ∃ s, o = tryParse ext s := by
  induction chunks with
  | nil => intro st o h; cases h
  | cons d ds ih =>
    intro st o h
    have e : (feedChunks ext st (d :: ds)).2 =
        (onData ext st d).2 ++ (feedChunks ext (onData ext st d).1 ds).2 := rfl
    rw [e, List.mem_append] at h
    rcases h with h | h
    · exact onData_delivers ext st d o h
    · exact ih _ o h

theorem request_line_exec_any (M T : Str) (c1 d : Char) (hM : M ∈ REQUEST_METHODS)
    (hT : ∀ a ∈ T, isLineTerminator a = false)
    (hc1 : isLineTerminator c1 = false) (hd : d = '0' ∨ d = '1') :
    exec REQUEST_LINE_REGEX (M ++ [' '] ++ T ++ " HTTP/".toList ++ ['1', c1, d]) =
      some ⟨0, M ++ [' '] ++ T ++ " HTTP/".toList ++ ['1', c1, d],
        [(3, ['1', c1, d]), (2, T), (1, M)]⟩ := by
  unfold exec
  apply execFrom_of_execAt
  unfold execAt
  rw [request_line_run 0 M T c1 d hM hT hc1 hd]
  simp


/-- A frame whose header lines make `addHeaders` throw is delivered as the
    Bad-Request error object. -/
theorem frame_error (ext : Ext) (l e0 : Str) (m : Match) (hdrs : List (Str × Str))
    (blank body : Str) (bufs : List Bytes)
    (hl : ∀ c ∈ l, c ≠ '\n' ∧ c ≠ '\r') (he0 : IsLineEnd e0)
    (hm : isRequestLineValid l = some m)
    (hall : ∀ p ∈ hdrs, HeaderLineOK p) (hblank : IsLineEnd blank)
    (hbody : body.length = expectedLength 0 hdrs)
    (hchunks : (bufs.map utf8Decode).flatten = l ++ e0 ++ headerText hdrs ++ blank ++ body)
    (hlen : bufs.flatten.length ≤ 8194)
    (herr : ∃ e, addHeaders (m.cellStr 3) (m.text :: hdrs.map Prod.fst) 1 = .error e) :
    feedBuffers ext init bufs = (init, [ReqObj.error 400]) := by
  have hdec := decoded_length_le bufs
  rw [feedBuffers_eq_feedChunks ext bufs (chunk_length_le bufs 8194 hlen),
    feedChunks_frame ext l e0 m hdrs blank body _ hl he0 hm hall hblank hbody hchunks
      (by rw [← hchunks]; omega)]
  have hparse := parse_frame ext m.text hdrs blank body
    (isRequestLineValid_text_plain l m hm hl)
    (fun p hp => ⟨(hall p hp).1, (hall p hp).2.1⟩) hblank
  obtain ⟨pre, M, T, c1, d, _, hM, hT, hc1, hd, hmm⟩ := request_line_match l m hm
  have hex := request_line_exec_any M T c1 d hM hT hc1 hd
  have htext : m.text = M ++ [' '] ++ T ++ " HTTP/".toList ++ ['1', c1, d] := by rw [hmm]
  have hcell : m.cellStr 3 = ['1', c1, d] := by rw [hmm]; rfl
  obtain ⟨e, he⟩ := herr
  have hthrow : httpRequest ext (m.text :: hdrs.map Prod.fst) body = .error e := by
    have hm2 : exec REQUEST_LINE_REGEX
        ((m.text :: hdrs.map Prod.fst).head?.getD "undefined".toList) =
        some ⟨0, M ++ [' '] ++ T ++ " HTTP/".toList ++ ['1', c1, d],
          [(3, ['1', c1, d]), (2, T), (1, M)]⟩ := by
      simp only [List.head?_cons, Option.getD_some]
      rw [htext]
      exact hex
    obtain ⟨h1, _⟩ := httpRequest_of_line ext _ body _ hm2
    apply h1
    rw [hcell] at he
    exact he
  have htry : tryParse ext (m.text ++ ['\n'] ++ headerText hdrs ++ blank ++ body) =
      ReqObj.error 400 := by
    unfold tryParse
    rw [hparse, hthrow]
    rfl
  rw [htry]

/-- C33: every object the data handler hands to the callback, from any
    reader state and for any chunks of bytes, is the error object of code 414 (size
    guard), the error object of code 400, or a request whose method is one
    of the eight supported methods, whose `httpVer` is `1.0` or `1.1`, and
    whose headers hold `host` when `httpVer` is `1.1`.  What a completed
    frame delivers (`tryParse` of the accumulated text) is such a request or
    the error object of code 400.  A frame whose request line has a version
    other than `1.0` and `1.1` (the pattern accepts `1`, any character,
    `0` or `1`), and a frame of version `1.1` without a header line named
    host, is delivered as the error object of code 400. -/
theorem delivered_request_supported (ext : Ext) :
    (∀ (st : Reader) (bufs : List Bytes) (o : ReqObj), o ∈ (feedBuffers ext st bufs).2 →
      o = .error URI_TOO_LONG ∨ o = .error BAD_REQUEST ∨
      ∃ r, o = .request r ∧ r.method ∈ REQUEST_METHODS ∧
        (r.httpVer = "1.0".toList ∨ r.httpVer = "1.1".toList) ∧
        (r.httpVer = "1.1".toList → hasOwnProperty r.headers "host".toList = true)) ∧
    (∀ s : Str, tryParse ext s = .error BAD_REQUEST ∨
      ∃ r, tryParse ext s = .request r ∧ r.method ∈ REQUEST_METHODS ∧
        (r.httpVer = "1.0".toList ∨ r.httpVer = "1.1".toList) ∧
        (r.httpVer = "1.1".toList → hasOwnProperty r.headers "host".toList = true)) ∧
    (∀ (l e0 : Str) (m : Match) (hdrs : List (Str × Str)) (blank body : Str)
      (bufs : List Bytes),
      (∀ c ∈ l, c ≠ '\n' ∧ c ≠ '\r') → IsLineEnd e0 → isRequestLineValid l = some m →
      (∀ p ∈ hdrs, HeaderLineOK p) → IsLineEnd blank →
      body.length = expectedLength 0 hdrs →
      (bufs.map utf8Decode).flatten = l ++ e0 ++ headerText hdrs ++ blank ++ body →
      bufs.flatten.length ≤ 8194 →
      m.cellStr 3 ≠ "1.0".toList → m.cellStr 3 ≠ "1.1".toList →
      feedBuffers ext init bufs = (init, [ReqObj.error 400])) ∧
    (∀ (l e0 : Str) (m : Match) (hdrs : List (Str × Str)) (blank body : Str)
      (bufs : List Bytes),
      (∀ c ∈ l, c ≠ '\n' ∧ c ≠ '\r') → IsLineEnd e0 → isRequestLineValid l = some m →
      (∀ p ∈ hdrs, HeaderLineOK p) → IsLineEnd blank →
      body.length = expectedLength 0 hdrs →
      (bufs.map utf8Decode).flatten = l ++ e0 ++ headerText hdrs ++ blank ++ body →
      bufs.flatten.length ≤ 8194 →
      m.cellStr 3 = "1.1".toList →
      (∀ p ∈ hdrs, headerNameOf p.1 ≠ some HOSTNAME_HEADER_NAME) →
      feedBuffers ext init bufs = (init, [ReqObj.error 400])) := by
  have hB1 : ∀ s : Str, tryParse ext s = .error BAD_REQUEST ∨
      ∃ r, tryParse ext s = .request r ∧ r.method ∈ REQUEST_METHODS ∧
        (r.httpVer = "1.0".toList ∨ r.httpVer = "1.1".toList) ∧
        (r.httpVer = "1.1".toList → hasOwnProperty r.headers "host".toList = true) := by
    intro s
    rcases tryParse_cases ext s with h | ⟨r, h, hp⟩
    · exact Or.inl h
    · exact Or.inr ⟨r, h, parse_ok_supported ext s r hp⟩
  refine ⟨?_, hB1, ?_, ?_⟩
  · intro st bufs o ho
    rcases feedBuffers_delivers ext bufs st o ho with h | ⟨s, h⟩
    · exact Or.inl h
    · right
      rw [h]
      exact hB1 s
  · intro l e0 m hdrs blank body chunks hl he0 hm hall hblank hbody hchunks hlen h0 h1
    exact frame_error ext l e0 m hdrs blank body chunks hl he0 hm hall hblank hbody hchunks hlen
      (addHeaders_bad_version _ _ 1 h0 h1)
  · intro l e0 m hdrs blank body chunks hl he0 hm hall hblank hbody hchunks hlen hv hno
    refine frame_error ext l e0 m hdrs blank body chunks hl he0 hm hall hblank hbody hchunks hlen
      ?_
    rw [hv]
    rcases addHeaders_without_host (m.text :: hdrs.map Prod.fst) (by
        intro line hline
        simp only [List.tail_cons, List.mem_map] at hline
        obtain ⟨p, hp, rfl⟩ := hline
        exact hno p hp) with h | h
    · exact ⟨_, h⟩
    · exact ⟨_, h⟩

theorem delivered_request_supported_witness :
    isRequestLineValid "GET / HTTP/1x0".toList =
        some ⟨0, "GET / HTTP/1x0".toList,
          [(3, "1x0".toList), (2, "/".toList), (1, "GET".toList)]⟩ ∧
    feedBuffers sampleExt init
        [asciiBytes "GET / HT".toList, asciiBytes "TP/1x0\r\n\r\n".toList] =
      (init, [ReqObj.error 400]) :=
  ⟨by decide!,
   (delivered_request_supported sampleExt).2.2.1 "GET / HTTP/1x0".toList "\r\n".toList
    ⟨0, "GET / HTTP/1x0".toList, [(3, "1x0".toList), (2, "/".toList), (1, "GET".toList)]⟩
    [] "\r\n".toList [] [asciiBytes "GET / HT".toList, asciiBytes "TP/1x0\r\n\r\n".toList]
    (by decide) (Or.inr rfl) (by decide!)
    (by intro p hp; cases hp) (Or.inr rfl) (by decide!) (by decide) (by decide)
    (by decide) (by decide)⟩

/-! ## The order of the header lines and the length of a body that is no text -/

/-- C12 (the claim as stated fails): after `set('b', 'x')` and then
    `set('1', 'y')` on a fresh response with status 200, `stringify` writes
    the line of the header `1` before the line of the header `b`: the
    headers are not listed in insertion order, which is what the wire format
    of the claim has. -/
theorem stringify_lists_index_names_first :
    stringify (((freshResponse.status 200).set "b".toList (.str "x".toList)).set "1".toList
        (.str "y".toList)) =
      "HTTP/1.0 200 OK\r\n1: y\r\nb: x\r\n\r\n".toList ∧
    wireFormat (((freshResponse.status 200).set "b".toList (.str "x".toList)).set "1".toList
        (.str "y".toList)) =
      "HTTP/1.0 200 OK\r\nb: x\r\n1: y\r\n\r\n".toList := by
  constructor <;> decide

/-- C13 (the code at the failing inputs): for every response, `send(0)`,
    `send(null)` and `send(false)` set the Content-Length header to 0 and
    the serialized response carries the text `0`, `null`, `false` after its
    blank line; `send(5)` sets the Content-Length header to `undefined` and
    the serialized response carries the text `5`.  On a fresh response with
    status 200, `send(0)` is serialized as
    `HTTP/1.0 200 OK`, `content-length: 0`, an empty line and `0`. -/
theorem send_content_length_mismatch (r : Response) (n : Net) :
    (∀ b ∈ [JVal.num 0, JVal.null, JVal.bool false],
      getProp (r.send n b).1.headers "content-length".toList = some (.num 0) ∧
      stringify (r.send n b).1 =
        ((headLines (r.send n b).1).map fun l => l ++ "\r\n".toList).flatten ++
          "\r\n".toList ++ b.toStr ∧
      b.toStr ≠ []) ∧
    (getProp (r.send n (.num 5)).1.headers "content-length".toList = some .undefined ∧
      stringify (r.send n (.num 5)).1 =
        ((headLines (r.send n (.num 5)).1).map fun l => l ++ "\r\n".toList).flatten ++
          "\r\n".toList ++ "5".toList) ∧
    stringify ((freshResponse.status 200).send freshNet (.num 0)).1 =
      "HTTP/1.0 200 OK\r\ncontent-length: 0\r\n\r\n0".toList := by
  have hk : toLowerCase CONTENT_LENGTH = "content-length".toList := by decide
  refine ⟨?_, ⟨?_, ?_⟩, by decide⟩
  · intro b hb
    simp only [List.mem_cons, List.mem_singleton, List.not_mem_nil, or_false] at hb
    rcases hb with rfl | rfl | rfl
    · refine ⟨?_, ?_, by decide⟩
      · simp only [Response.send, JVal.falsy, Response.set, hk]
        exact getProp_setProp_same _ _ _ (by decide)
      · rw [stringify_eq_headLines]
        rfl
    · refine ⟨?_, ?_, by decide⟩
      · simp only [Response.send, JVal.falsy, Response.set, hk]
        exact getProp_setProp_same _ _ _ (by decide)
      · rw [stringify_eq_headLines]
        rfl
    · refine ⟨?_, ?_, by decide⟩
      · simp only [Response.send, JVal.falsy, Response.set, hk]
        exact getProp_setProp_same _ _ _ (by decide)
      · rw [stringify_eq_headLines]
        rfl
  · simp only [Response.send, JVal.falsy, Response.set, hk, JVal.length]
    exact getProp_setProp_same _ _ _ (by decide)
  · rw [stringify_eq_headLines]
    rfl


/-! ## A whole request -/

theorem digit_toNat (c : Char) (h : isDigit c = true) : 48 ≤ c.toNat ∧ c.toNat ≤ 57 := by
  unfold isDigit at h
  simp only [Bool.and_eq_true, decide_eq_true_eq] at h
  obtain ⟨h1, h2⟩ := h
  have e1 : '0'.toNat ≤ c.toNat := h1
  have e2 : c.toNat ≤ '9'.toNat := h2
  exact ⟨e1, e2⟩

theorem isDigit_not_space (c : Char) (h : isDigit c = true) : isSpace c = false := by
  obtain ⟨h1, h2⟩ := digit_toNat c h
  cases hs : isSpace c with
  | false => rfl
  | true =>
    exfalso
    unfold isSpace at hs
    simp only [Bool.or_eq_true, Bool.and_eq_true, beq_iff_eq, decide_eq_true_eq] at hs
    rcases hs with ((((((((((((((hs | hs) | hs) | hs) | hs) | hs) | hs) | hs) | hs) | hs) | hs) | hs) | hs) | hs) | hs)
    all_goals first
      | (rw [hs] at h1 h2; revert h1 h2; decide)
      | omega

theorem classTest_digits (c : Char) : classTest false [.range '0' '9'] c = isDigit c := by
  simp [classTest, ClassItem.test, isDigit]

theorem CONTENT_LENGTH_REGEX_eq :
    CONTENT_LENGTH_REGEX = litThen "Content-Length:".toList
      (.seq (.rep 1 none (.cls false [.space]))
        (.seq (.group 1 (.seq (.rep 1 none (.cls false [.range '0' '9'])) .empty))
          (.seq (.rep 1 none (.cls false [.space])) .empty))) := by
  decide!

theorem lineEnd_shape (e : Str) (he : IsLineEnd e) :
    ∃ a w, e = a :: w ∧ isSpace a = true ∧ isDigit a = false ∧ (∀ b ∈ w, isSpace b = true) := by
  rcases he with rfl | rfl
  · exact ⟨'\n', [], rfl, by decide, by decide, by intro b hb; cases hb⟩
  · exact ⟨'\r', ['\n'], rfl, by decide, by decide, by
      intro b hb
      rw [List.mem_singleton.mp hb]
      decide⟩

/-- The Content-Length check on a header line spelled `Content-Length: N`
    with its line ending finds `N`. -/
theorem contentLengthCheck_spelled (line e : Str) (n : Nat) (he : IsLineEnd e)
    (h : spelledLength line = some n) : contentLengthCheck (line ++ e) = some n := by
  unfold spelledLength at h
  split at h
  · rename_i hc
    obtain ⟨htake, hne, hdig⟩ := hc
    have hn : parseInt (line.drop 16) = n := Option.some.inj h
    obtain ⟨d0, ds, hds⟩ : ∃ d0 ds, line.drop 16 = d0 :: ds := by
      cases hd : line.drop 16 with
      | nil => exact absurd hd hne
      | cons d0 ds => exact ⟨d0, ds, rfl⟩
    have hline : line = "Content-Length:".toList ++ (' ' :: (d0 :: ds)) := by
      rw [← List.take_append_drop 16 line, htake, hds]
      rfl
    rw [hds] at hdig hn
    have hdig2 : ∀ b ∈ d0 :: ds, isDigit b = true := List.all_eq_true.mp hdig
    obtain ⟨a, w, rfl, ha, had, hw⟩ := lineEnd_shape e he
    have hrun : CONTENT_LENGTH_REGEX.run ⟨0, line ++ a :: w, []⟩ some =
        some ⟨0 + 15 + 1 + 1 + ds.length + 1 + w.length, [], [(1, d0 :: ds)]⟩ := by
      rw [CONTENT_LENGTH_REGEX_eq, hline, List.append_assoc, run_litThen, run_seq]
      have e1 : (' ' :: (d0 :: ds)) ++ a :: w = ' ' :: ([] ++ (d0 :: (ds ++ a :: w))) := rfl
      rw [e1, run_plus_cls false [.space] _ _ ' ' [] _ _ (by rw [classTest_space]; decide)
        (by intro b hb; cases hb)
        (by
          intro b r2 hb
          simp only [List.cons.injEq] at hb
          rw [classTest_space, ← hb.1]
          exact isDigit_not_space d0 (hdig2 d0 (List.mem_cons_self _ _)))]
      apply greedy_full
      rw [run_seq, run_group, run_seq_empty,
        run_plus_cls false [.range '0' '9'] _ _ d0 ds (a :: w) _
          (by rw [classTest_digits]; exact hdig2 d0 (List.mem_cons_self _ _))
          (by intro b hb; rw [classTest_digits]; exact hdig2 b (List.mem_cons_of_mem _ hb))
          (by
            intro b r2 hb
            simp only [List.cons.injEq] at hb
            rw [classTest_digits, ← hb.1]
            exact had)]
      apply greedy_full
      simp only
      rw [run_seq_empty]
      have e2 : a :: w = a :: (w ++ []) := by simp
      rw [e2, run_plus_cls false [.space] _ _ a w [] _ (by rw [classTest_space]; exact ha)
        (by intro b hb; rw [classTest_space]; exact hw b hb) (by intro b r2 hb; cases hb)]
      apply greedy_full
      have hl15 : "Content-Length:".toList.length = 15 := rfl
      have ht : (d0 :: (ds ++ a :: (w ++ []))).take
          (0 + "Content-Length:".toList.length + 1 + ([] : Str).length + 1 + ds.length -
            (0 + "Content-Length:".toList.length + 1 + ([] : Str).length)) = d0 :: ds := by
        have : 0 + "Content-Length:".toList.length + 1 + ([] : Str).length + 1 + ds.length -
            (0 + "Content-Length:".toList.length + 1 + ([] : Str).length) = ds.length + 1 := by
          omega
        rw [this, List.take_succ_cons, List.take_left]
      rw [ht, hl15]
      rfl
    unfold contentLengthCheck exec
    rw [execFrom_of_execAt _ _ _ _ (by unfold execAt; rw [hrun]; rfl)]
    simp only
    rw [← hn]
    rfl
  · cases h

theorem spelledLength_infix (line : Str) (h : (spelledLength line).isSome = true) :
    "Content-Length:".toList <:+: line := by
  unfold spelledLength at h
  split at h
  · rename_i hc
    refine ⟨[], ' ' :: line.drop 16, ?_⟩
    have e := List.take_append_drop 16 line
    rw [hc.1] at e
    rw [← e]
    rfl
  · cases h

/-- The Content-Length check finds nothing in a line without the text
    `Content-Length:`, whatever its line ending. -/
theorem contentLengthCheck_absent (line e : Str) (he : IsLineEnd e)
    (h : ¬ ("Content-Length:".toList <:+: line)) : contentLengthCheck (line ++ e) = none := by
  unfold contentLengthCheck
  cases hex : exec CONTENT_LENGTH_REGEX (line ++ e) with
  | none => rfl
  | some m =>
    exfalso
    apply h
    unfold exec at hex
    obtain ⟨pre, rest, hs, hat⟩ := execFrom_some _ _ _ _ hex
    unfold execAt at hat
    cases hrun : CONTENT_LENGTH_REGEX.run ⟨0 + pre.length, rest, []⟩ some with
    | none => rw [hrun] at hat; cases hat
    | some z =>
      rw [CONTENT_LENGTH_REGEX_eq] at hrun
      obtain ⟨rest2, hr2, -⟩ := run_litThen_some _ _ _ _ _ hrun
      simp only at hr2
      rw [hr2] at hs
      -- the text lies in the line: its last character is no part of a line ending
      have hs2 : line ++ e = (pre ++ "Content-Length".toList) ++ (':' :: rest2) := by
        rw [hs]
        simp
      rcases List.append_eq_append_iff.mp hs2 with ⟨a, ha1, ha2⟩ | ⟨c, hc1, hc2⟩
      · -- the line ends inside or before the text
        cases a with
        | nil =>
          exfalso
          rw [List.nil_append] at ha2
          rcases he with rfl | rfl <;> cases ha2
        | cons a0 a1 =>
          exfalso
          have hmem : ':' ∈ e := by
            rw [ha2]
            exact List.mem_append_right _ (List.mem_cons_self _ _)
          rcases he with rfl | rfl <;> revert hmem <;> decide
      · cases c with
        | nil =>
          exfalso
          rw [List.nil_append] at hc2
          rcases he with rfl | rfl <;> cases hc2
        | cons c0 c1 =>
          simp only [List.cons_append, List.cons.injEq] at hc2
          refine ⟨pre, c1, ?_⟩
          rw [hc1, ← hc2.1]
          simp

theorem expectedLength_announced (hdrs : List (Str × Str))
    (h : ∀ p ∈ hdrs, IsLineEnd p.2 ∧ LengthLineOK p.1) : ∀ n : Nat,
    expectedLength n hdrs = hdrs.foldl (fun n p => (spelledLength p.1).getD n) n := by
  induction hdrs with
  | nil => intro n; rfl
  | cons p ps ih =>
    intro n
    obtain ⟨he, hok⟩ := h p (List.mem_cons_self _ _)
    have hstep : contentLengthCheck (p.1 ++ p.2) = spelledLength p.1 := by
      cases hsp : spelledLength p.1 with
      | some k => exact contentLengthCheck_spelled p.1 p.2 k he hsp
      | none =>
        rcases hok with hs | hs
        · rw [hsp] at hs; cases hs
        · exact contentLengthCheck_absent p.1 p.2 he hs
    simp only [expectedLength, List.foldl_cons, hstep]
    exact ih (fun q hq => h q (List.mem_cons_of_mem _ hq)) _

theorem hasOwn_setProp {α : Type} (o : List (Str × α)) (k n : Str) (v : α) (hn : n ≠ PROTO)
    (h : hasOwnProperty o n = true ∨ k = n) : hasOwnProperty (setProp o k v) n = true := by
  rw [hasOwnProperty_iff_mem, keys_setProp]
  split
  · rename_i hown
    rcases h with h | h
    · exact (hasOwnProperty_iff_mem _ _).mp h
    · rw [← h]
      exact (hasOwnProperty_iff_mem _ _).mp hown
  · split
    · rename_i hown hk
      rcases h with h | h
      · exact (hasOwnProperty_iff_mem _ _).mp h
      · exact absurd (h ▸ hk) hn
    · rcases h with h | h
      · exact List.mem_append_left _ ((hasOwnProperty_iff_mem _ _).mp h)
      · rw [h]
        exact List.mem_append_right _ (List.mem_singleton_self _)

theorem addHeaderLines_has (lines : List Str) : ∀ (headers res : Obj) (n : Str), n ≠ PROTO →
    addHeaderLines lines headers = .ok res →
    (hasOwnProperty headers n = true ∨ ∃ line ∈ lines, headerNameOf line = some n) →
    hasOwnProperty res n = true := by
  induction lines with
  | nil =>
    intro headers res n _ h hn
    cases h
    rcases hn with hn | ⟨line, hl, _⟩
    · exact hn
    · cases hl
  | cons line rest ih =>
    intro headers res n hproto h hn
    unfold addHeaderLines at h
    cases hex : exec HEADER_LINE_REGEX line with
    | none => rw [hex] at h; cases h
    | some m =>
      rw [hex] at h
      simp only at h
      have hname : headerNameOf line = some (toLowerCase (m.cellStr 1)) := by
        unfold headerNameOf isHeaderLineValid
        rw [hex]
        rfl
      have key : ∀ v, addHeaderLines rest (setProp headers (toLowerCase (m.cellStr 1)) v) = .ok res →
          hasOwnProperty res n = true := by
        intro v hv
        apply ih _ res n hproto hv
        rcases hn with hn | ⟨l2, hl2, hl3⟩
        · exact Or.inl (hasOwn_setProp _ _ _ _ hproto (Or.inl hn))
        · rcases List.mem_cons.mp hl2 with rfl | hl2
          · rw [hname] at hl3
            exact Or.inl (hasOwn_setProp _ _ _ _ hproto (Or.inr (Option.some.inj hl3)))
          · exact Or.inr ⟨l2, hl2, hl3⟩
      split at h
      · exact key _ h
      · exact key _ h

/-- The construction of the headers does not throw when every header line
    is a header line and the version's required headers are present. -/
theorem addHeaders_ok_of_host (V first : Str) (lines : List Str)
    (hall : ∀ line ∈ lines, (isHeaderLineValid line).isSome = true)
    (hV : V = "1.0".toList ∨
      (V = "1.1".toList ∧ ∃ line ∈ lines, headerNameOf line = some HOSTNAME_HEADER_NAME)) :
    ∃ headers, addHeaders V (first :: lines) 1 = .ok headers := by
  obtain ⟨res, hres⟩ := addHeaderLines_total lines hall []
  refine ⟨res, ?_⟩
  unfold addHeaders
  simp only [List.drop_succ_cons, List.drop_zero]
  rw [hres]
  rcases hV with rfl | ⟨rfl, hhost⟩
  · rfl
  · have hown := addHeaderLines_has lines [] res HOSTNAME_HEADER_NAME (by decide) hres (Or.inr hhost)
    have e : getProp HTTP_VERSIONS "1.1".toList = some ["host".toList] := by decide
    have hown2 : hasOwnProperty res "host".toList = true := hown
    simp only [e, checkRequired, hown2, Bool.not_true, Bool.false_eq_true, if_false]

/-- C1 (amended): starting from the reader's initial state, for every
    request text `R` made of a request line `l` without line terminators in
    which the request-line pattern finds the match `m`, a line ending,
    header lines (each non-empty, without line terminators, matched by the
    header pattern and not by the request-line pattern, spelled
    `Content-Length: N` or without the text `Content-Length:`, each followed
    by its line ending), an empty line, and exactly `N` body characters,
    where `N` is the number of the last header line spelled
    `Content-Length: N` and 0 when there is none, whose version is 1.0, or
    is 1.1 with a header line named `host`, and for all chunks of bytes, of
    at most 8194 bytes together, whose texts make up `R`: the callback is
    invoked exactly once, with the request that `parse` builds from the
    accumulated text (the matched request line, a line feed, the header
    lines, the empty line and the body), whose method, version, path and
    query are those of the request line, whose headers are those `addHeaders`
    builds from the header lines and whose body is the `N` characters
    (absent when `N` is 0); the state afterwards is the initial state. -/
theorem whole_request_delivered_once (ext : Ext) (l e0 : Str) (m : Match)
    (hdrs : List (Str × Str)) (blank body : Str) (bufs : List Bytes)
    (hl : ∀ c ∈ l, c ≠ '\n' ∧ c ≠ '\r') (he0 : IsLineEnd e0)
    (hm : isRequestLineValid l = some m)
    (hall : ∀ p ∈ hdrs, HeaderLineOK p ∧ LengthLineOK p.1) (hblank : IsLineEnd blank)
    (hver : m.cellStr 3 = "1.0".toList ∨
      (m.cellStr 3 = "1.1".toList ∧ ∃ p ∈ hdrs, headerNameOf p.1 = some HOSTNAME_HEADER_NAME))
    (hbody : body.length = announcedLength hdrs)
    (hbufs : (bufs.map utf8Decode).flatten = l ++ e0 ++ headerText hdrs ++ blank ++ body)
    (hlen : bufs.flatten.length ≤ 8194) :
    ∃ req, feedBuffers ext init bufs = (init, [ReqObj.request req]) ∧
      parse ext (m.text ++ ['\n'] ++ headerText hdrs ++ blank ++ body) = .ok req ∧
      req.method = m.cellStr 1 ∧ req.httpVer = m.cellStr 3 ∧
      req.path = pathOf (m.cellStr 2) ∧
      req.query = (match queryTextOf (m.cellStr 2) with
        | some q => ext.querystringParse q
        | none => JVal.obj []) ∧
      addHeaders (m.cellStr 3) (m.text :: hdrs.map Prod.fst) 1 = .ok req.headers ∧
      req.body = (if body = [] then none else some body) := by
  have hok : ∀ p ∈ hdrs, HeaderLineOK p := fun p hp => (hall p hp).1
  have hdec := decoded_length_le bufs
  have hexp : expectedLength 0 hdrs = announcedLength hdrs :=
    expectedLength_announced hdrs (fun p hp => ⟨(hall p hp).1.2.1, (hall p hp).2⟩) 0
  have hframe := feedChunks_frame ext l e0 m hdrs blank body (bufs.map utf8Decode) hl he0 hm hok
    hblank (hbody.trans hexp.symm) hbufs (by rw [← hbufs]; omega)
  have hparse := parse_frame ext m.text hdrs blank body (isRequestLineValid_text_plain l m hm hl)
    (fun p hp => ⟨(hok p hp).1, (hok p hp).2.1⟩) hblank
  obtain ⟨headers, hheaders⟩ := addHeaders_ok_of_host (m.cellStr 3) m.text (hdrs.map Prod.fst)
    (by
      intro line hline
      obtain ⟨p, hp, rfl⟩ := List.mem_map.mp hline
      exact (hok p hp).2.2.2)
    (by
      rcases hver with h | ⟨h, p, hp, hhost⟩
      · exact Or.inl h
      · exact Or.inr ⟨h, p.1, List.mem_map.mpr ⟨p, hp, rfl⟩, hhost⟩)
  obtain ⟨pre, M, T, c1, d, -, hM, hT, hc1, hd, hmm⟩ := request_line_match l m hm
  have hex : exec REQUEST_LINE_REGEX ((m.text :: hdrs.map Prod.fst).head?.getD "undefined".toList) =
      some ⟨0, M ++ [' '] ++ T ++ " HTTP/".toList ++ ['1', c1, d],
        [(3, ['1', c1, d]), (2, T), (1, M)]⟩ := by
    rw [hmm]
    exact request_line_exec_any M T c1 d hM hT hc1 hd
  have hcells : m.cellStr 1 = M ∧ m.cellStr 2 = T ∧ m.cellStr 3 = ['1', c1, d] := by
    rw [hmm]
    exact ⟨rfl, rfl, rfl⟩
  have hreq : ∃ req, httpRequest ext (m.text :: hdrs.map Prod.fst) body = .ok req ∧
      req.method = m.cellStr 1 ∧ req.httpVer = m.cellStr 3 ∧
      req.path = pathOf (m.cellStr 2) ∧
      req.query = (match queryTextOf (m.cellStr 2) with
        | some q => ext.querystringParse q
        | none => JVal.obj []) ∧
      addHeaders (m.cellStr 3) (m.text :: hdrs.map Prod.fst) 1 = .ok req.headers ∧
      req.body = (if body = [] then none else some body) := by
    unfold httpRequest
    rw [hex]
    have hc1 : (⟨0, M ++ [' '] ++ T ++ " HTTP/".toList ++ ['1', c1, d],
        [(3, ['1', c1, d]), (2, T), (1, M)]⟩ : Match).cellStr 1 = M := rfl
    have hc2 : (⟨0, M ++ [' '] ++ T ++ " HTTP/".toList ++ ['1', c1, d],
        [(3, ['1', c1, d]), (2, T), (1, M)]⟩ : Match).cellStr 2 = T := rfl
    have hc3 : (⟨0, M ++ [' '] ++ T ++ " HTTP/".toList ++ ['1', c1, d],
        [(3, ['1', c1, d]), (2, T), (1, M)]⟩ : Match).cellStr 3 = ['1', c1, d] := rfl
    rw [hcells.2.2] at hheaders
    rw [hcells.1, hcells.2.1, hcells.2.2]
    simp only [hc1, hc2, hc3]
    rw [hheaders]
    obtain ⟨h1, h2⟩ := path_query_split ext T
    exact ⟨_, rfl, rfl, rfl, h1, h2, rfl, rfl⟩
  obtain ⟨req, hreq1, hrest⟩ := hreq
  refine ⟨req, ?_, hparse.trans hreq1, hrest⟩
  rw [feedBuffers_eq_feedChunks ext bufs (chunk_length_le bufs 8194 hlen), hframe]
  unfold tryParse
  rw [hparse, hreq1]

theorem whole_request_delivered_once_witness :
    ∃ req, feedBuffers sampleExt init
        [asciiBytes "POST /a?x=1 HT".toList, asciiBytes "TP/1.1\r\nHost: h\r\nContent-Le".toList,
         asciiBytes "ngth: 3\r\n\r\nab".toList, asciiBytes "c".toList] =
        (init, [ReqObj.request req]) ∧
      req.method = "POST".toList ∧ req.httpVer = "1.1".toList ∧ req.path = "/a".toList ∧
      req.query = JVal.str "x=1".toList ∧
      req.headers = [("host".toList, "h".toList), ("content-length".toList, "3".toList)] ∧
      req.body = some "abc".toList := by
  obtain ⟨req, h1, _, h3, h4, h5, h6, h7, h8⟩ :=
    whole_request_delivered_once sampleExt "POST /a?x=1 HTTP/1.1".toList "\r\n".toList
      ⟨0, "POST /a?x=1 HTTP/1.1".toList,
        [(3, "1.1".toList), (2, "/a?x=1".toList), (1, "POST".toList)]⟩
      [("Host: h".toList, "\r\n".toList), ("Content-Length: 3".toList, "\r\n".toList)]
      "\r\n".toList "abc".toList
      [asciiBytes "POST /a?x=1 HT".toList, asciiBytes "TP/1.1\r\nHost: h\r\nContent-Le".toList,
       asciiBytes "ngth: 3\r\n\r\nab".toList, asciiBytes "c".toList]
      (by decide) (Or.inr rfl) (by decide!)
      (by
        intro p hp
        simp only [List.mem_cons, List.mem_singleton, List.not_mem_nil, or_false] at hp
        rcases hp with rfl | rfl
        · exact ⟨⟨⟨by decide, by decide⟩, Or.inr rfl, by decide!, by decide!⟩,
            Or.inr (by decide)⟩
        · exact ⟨⟨⟨by decide, by decide⟩, Or.inr rfl, by decide!, by decide!⟩,
            Or.inl (by decide)⟩)
      (Or.inr rfl)
      (Or.inr ⟨by decide, ("Host: h".toList, "\r\n".toList), List.mem_cons_self _ _, by decide!⟩)
      (by decide) (by decide) (by decide)
  have e : addHeaders "1.1".toList
      ("POST /a?x=1 HTTP/1.1".toList :: ["Host: h".toList, "Content-Length: 3".toList]) 1 =
      .ok [("host".toList, "h".toList), ("content-length".toList, "3".toList)] := by rfl
  exact ⟨req, h1, h3, h4, h5, h6, (Except.ok.inj (h7.symm.trans e)), h8⟩

theorem utf8Run_e_acute (n : Nat) :
    utf8Run utf8Start (List.replicate n [0xC3, 0xA9]).flatten =
      (utf8Start, List.replicate n 'é') := by
  induction n with
  | zero => rfl
  | succ n ih =>
    have e : utf8Run utf8Start (0xC3 :: 0xA9 :: (List.replicate n [0xC3, 0xA9]).flatten) =
        ((utf8Run utf8Start (List.replicate n [0xC3, 0xA9]).flatten).1,
          'é' :: (utf8Run utf8Start (List.replicate n [0xC3, 0xA9]).flatten).2) := rfl
    rw [List.replicate_succ, List.flatten_cons]
    simp only [List.cons_append, List.nil_append]
    rw [e, ih]
    rfl

theorem utf8Decode_e_acute (n : Nat) :
    utf8Decode (List.replicate n [0xC3, 0xA9]).flatten = List.replicate n 'é' ∧
    utf8Cut (List.replicate n [0xC3, 0xA9]).flatten = false := by
  unfold utf8Decode utf8Cut
  rw [utf8Run_e_acute]
  simp [utf8Start]

theorem onDataBuffer_long_chunk (ext : Ext) (st : Reader) (data : Bytes)
    (h : data.length > 8194) : onDataBuffer ext st data = (init, [.error URI_TOO_LONG]) := by
  have h2 : st.lineBuffer.length > REQUEST_MAX_LENGTH ∨ data.length > REQUEST_MAX_LENGTH ∨
      st.requestStr.length > REQUEST_MAX_LENGTH := Or.inr (Or.inl h)
  unfold onDataBuffer
  rw [if_pos h2]

theorem e_acute_length (n : Nat) :
    ((List.replicate n ([0xC3, 0xA9] : Bytes)).flatten).length = 2 * n := by
  induction n with
  | zero => rfl
  | succ n ih =>
    rw [List.replicate_succ, List.flatten_cons, List.length_append, ih]
    simp only [List.length_cons, List.length_nil]
    omega

/-- A request line with `n` times the two-byte character `é` in its target,
    fed as one chunk of more than 8194 bytes. -/
theorem long_target_chunk (ext : Ext) (n : Nat) (hn : 8194 < 18 + 2 * n) :
    ("GET /".toList ++ List.replicate n 'é' ++ " HTTP/1.0\r\n\r\n".toList).length = 18 + n ∧
    (asciiBytes "GET /".toList ++ (List.replicate n [0xC3, 0xA9]).flatten ++
      asciiBytes " HTTP/1.0\r\n\r\n".toList).length = 18 + 2 * n ∧
    utf8Decode (asciiBytes "GET /".toList ++ (List.replicate n [0xC3, 0xA9]).flatten ++
      asciiBytes " HTTP/1.0\r\n\r\n".toList) =
      "GET /".toList ++ List.replicate n 'é' ++ " HTTP/1.0\r\n\r\n".toList ∧
    feedBuffers ext init
      [asciiBytes "GET /".toList ++ (List.replicate n [0xC3, 0xA9]).flatten ++
        asciiBytes " HTTP/1.0\r\n\r\n".toList] = (init, [.error URI_TOO_LONG]) := by
  have hl1 : (asciiBytes "GET /".toList).length = 5 := rfl
  have hl2 : (asciiBytes " HTTP/1.0\r\n\r\n".toList).length = 13 := rfl
  have hlen : (asciiBytes "GET /".toList ++ (List.replicate n [0xC3, 0xA9]).flatten ++
      asciiBytes " HTTP/1.0\r\n\r\n".toList).length = 18 + 2 * n := by
    rw [List.length_append, List.length_append, e_acute_length, hl1, hl2]
    omega
  refine ⟨?_, hlen, ?_, ?_⟩
  · have h1 : "GET /".toList.length = 5 := rfl
    have h2 : " HTTP/1.0\r\n\r\n".toList.length = 13 := rfl
    rw [List.length_append, List.length_append, List.length_replicate, h1, h2]
    omega
  · have h1 := utf8Decode_ascii (asciiBytes "GET /".toList) (by decide)
    have h2 := utf8Decode_ascii (asciiBytes " HTTP/1.0\r\n\r\n".toList) (by decide)
    have h3 := utf8Decode_e_acute n
    have e1 : (asciiBytes "GET /".toList).map (fun x => Char.ofNat x.toNat) = "GET /".toList := by
      decide
    have e2 : (asciiBytes " HTTP/1.0\r\n\r\n".toList).map (fun x => Char.ofNat x.toNat) =
        " HTTP/1.0\r\n\r\n".toList := by decide
    rw [List.append_assoc, utf8Decode_append _ _ h1.2, utf8Decode_append _ _ h3.2, h3.1, h1.1,
      h2.1, e1, e2, List.append_assoc]
  · have e := onDataBuffer_long_chunk ext init
      (asciiBytes "GET /".toList ++ (List.replicate n [0xC3, 0xA9]).flatten ++
        asciiBytes " HTTP/1.0\r\n\r\n".toList) (by rw [hlen]; exact hn)
    have e2 : ∀ d : Bytes, feedBuffers ext init [d] =
        ((feedBuffers ext (onDataBuffer ext init d).1 []).1,
          (onDataBuffer ext init d).2 ++ (feedBuffers ext (onDataBuffer ext init d).1 []).2) :=
      fun _ => rfl
    rw [e2, e]
    rfl

/-- C1 (the claim as stated fails): three request texts that are well
    formed in the claim's sense and are not delivered as a request.  The
    request line `GET / HTTP/1.1` with an empty line (no header, no body),
    fed as one chunk, makes the callback run once with the error object of
    code 400.  The request line `GET / HTTP/1.0` with the header line
    `X-Content-Length: 3` and an empty line, which has no header spelled
    `Content-Length: N`, makes the callback not run at all: the reader waits
    for three body characters.  The request line `GET /` + 5000 times `é` +
    ` HTTP/1.0` with an empty line, a text of 5018 characters, is 10018
    bytes long and, fed as one chunk, makes the callback run once with the
    error object of code 414. -/
theorem well_formed_request_not_delivered :
    (feedBuffers sampleExt init [asciiBytes "GET / HTTP/1.1\r\n\r\n".toList]).2.map
        ReqObj.errorCode = [some 400] ∧
    (announcedLength [("X-Content-Length: 3".toList, "\r\n".toList)] = 0 ∧
      (feedBuffers sampleExt init
        [asciiBytes "GET / HTTP/1.0\r\nX-Content-Length: 3\r\n\r\n".toList]).2.map
          ReqObj.errorCode = [] ∧
      (feedBuffers sampleExt init
        [asciiBytes "GET / HTTP/1.0\r\nX-Content-Length: 3\r\n\r\n".toList]).1.lengthOfBody = 3 ∧
      (feedBuffers sampleExt init
        [asciiBytes "GET / HTTP/1.0\r\nX-Content-Length: 3\r\n\r\n".toList]).1.isInSideBody =
          true) ∧
    (("GET /".toList ++ List.replicate 5000 'é' ++ " HTTP/1.0\r\n\r\n".toList).length = 5018 ∧
      (asciiBytes "GET /".toList ++ (List.replicate 5000 [0xC3, 0xA9]).flatten ++
        asciiBytes " HTTP/1.0\r\n\r\n".toList).length = 10018 ∧
      utf8Decode (asciiBytes "GET /".toList ++ (List.replicate 5000 [0xC3, 0xA9]).flatten ++
        asciiBytes " HTTP/1.0\r\n\r\n".toList) =
        "GET /".toList ++ List.replicate 5000 'é' ++ " HTTP/1.0\r\n\r\n".toList ∧
      (feedBuffers sampleExt init
        [asciiBytes "GET /".toList ++ (List.replicate 5000 [0xC3, 0xA9]).flatten ++
          asciiBytes " HTTP/1.0\r\n\r\n".toList]).2.map ReqObj.errorCode = [some 414] ∧
      (feedBuffers sampleExt init
        [asciiBytes "GET /".toList ++ (List.replicate 5000 [0xC3, 0xA9]).flatten ++
          asciiBytes " HTTP/1.0\r\n\r\n".toList]).1 = init) := by
  obtain ⟨h1, h2, h3, h4⟩ := long_target_chunk sampleExt 5000 (by decide)
  refine ⟨by decide!, ⟨by decide!, by decide!, by decide!, by decide!⟩,
    ⟨h1, h2, h3, ?_, ?_⟩⟩
  · rw [h4]
    rfl
  · rw [h4]

end Huji
